import Mathlib

/-!
# MDBPE tokenizer: a shallow embedding of `tokenizer.cc`, `io.cc`, `image.hh`

The C++ sources are embedded as executable Lean definitions; the theorems below are about
these definitions.

* C++ `int` values (classes, ids, coordinates, counts) are `Int`.  The values computed are
  grid coordinates, differences of grid coordinates, ids (one per cell plus one per merge),
  class ids below the shape-list size and counts of cell pairs; 32-bit wrap-around is
  outside the embedding.
* `cc::vector` / `cc::span` are `List`; an index that violates the container's contract
  makes the embedded function return `none`.
* `img::image<T>` keeps its two private members; `operator()` returns `none` when its
  `CC_CONTRACT` bounds are violated.  A failing `CC_ASSERT` also gives `none`.
* Loops over `y` then `x` are folds over the row-major list of cells.
* `cc::map` (clean-core) is not among the sources.  The counter map is kept as the list of
  its entries in order of first insertion, and the order in which a range-for visits the
  entries is a parameter (`map_iteration`): any rearrangement of the entries.
* File-system access is outside the embedding: `read_folder` takes the decoded grid files,
  `token_sequence` returns the records that `write_token_sequences` writes for one image.
-/

set_option autoImplicit false

/-! ## typed-geometry value types -/

namespace tg

/-- The type `tg::ipos2`: an integer position. -/
structure ipos2 where
  x : Int
  y : Int
deriving DecidableEq, Repr

/-- The type `tg::ivec2`: an integer displacement; default-initialised to zero. -/
structure ivec2 where
  x : Int := 0
  y : Int := 0
deriving DecidableEq, Repr

/-- The type `tg::isize2`. -/
structure isize2 where
  width : Int := 0
  height : Int := 0
deriving DecidableEq, Repr

/-- Position plus vector. -/
instance : HAdd ipos2 ivec2 ipos2 := ⟨fun p v => ⟨p.x + v.x, p.y + v.y⟩⟩

/-- Position minus vector. -/
instance : HSub ipos2 ivec2 ipos2 := ⟨fun p v => ⟨p.x - v.x, p.y - v.y⟩⟩

/-- Difference of two positions. -/
instance : HSub ipos2 ipos2 ivec2 := ⟨fun p q => ⟨p.x - q.x, p.y - q.y⟩⟩

/-- The explicit conversion `tg::ivec2(p)` of a position. -/
def ivec2.of_pos (p : ipos2) : ivec2 := ⟨p.x, p.y⟩

end tg

/-! ## `img::image` (image.hh) -/

namespace img

/-- The class template `img::image<ColorT>` with its two private members. -/
structure image (α : Type) where
  _data : List α := []
  _extents : tg.isize2 := {}
deriving DecidableEq

variable {α : Type}

/-- Member `width()`. -/
def image.width (i : image α) : Int := i._extents.width

/-- Member `height()`. -/
def image.height (i : image α) : Int := i._extents.height

/-- Member `contains(position)`, image.hh:49-52. -/
def image.contains (i : image α) (position : tg.ipos2) : Bool :=
  decide (0 ≤ position.x) && decide (position.x < i.width)
    && decide (0 ≤ position.y) && decide (position.y < i.height)

/-- Member `resize(size)`, image.hh:43-47: sets the extents and resizes the data vector to
`width * height` entries (kept entries first, value-initialised ones after).  The product
is passed as a `size_t`: a negative product is a size that no vector can be given, so the
call does not succeed (`none`). -/
def image.resize [Inhabited α] (i : image α) (size : tg.isize2) : Option (image α) :=
  if size.width * size.height < 0 then none else
    let n := (size.width * size.height).toNat
    some { _extents := size
           _data := i._data.take n ++ List.replicate (n - i._data.length) default }

/-- Constructor `image(width, height)`, image.hh:15-16. -/
def image.create [Inhabited α] (width height : Int) : Option (image α) :=
  image.resize { _data := [], _extents := ⟨width, height⟩ } ⟨width, height⟩

/-- Read through `operator()(x, y) const`, image.hh:26-31: the two contracts, then
`_data[x + _extents.width * y]`. -/
def image.read (i : image α) (x y : Int) : Option α :=
  if 0 ≤ x ∧ x < i._extents.width ∧ 0 ≤ y ∧ y < i._extents.height then
    i._data[(x + i._extents.width * y).toNat]?
  else none

/-- Write through `operator()(x, y)`, image.hh:19-24. -/
def image.write (i : image α) (x y : Int) (v : α) : Option (image α) :=
  if 0 ≤ x ∧ x < i._extents.width ∧ 0 ≤ y ∧ y < i._extents.height then
    if (x + i._extents.width * y).toNat < i._data.length then
      some { i with _data := i._data.set (x + i._extents.width * y).toNat v }
    else none
  else none

/-- Read through `operator[](position) const`. -/
def image.get (i : image α) (position : tg.ipos2) : Option α :=
  i.read position.x position.y

/-- Write through `operator[](position)`. -/
def image.put (i : image α) (position : tg.ipos2) (v : α) : Option (image α) :=
  i.write position.x position.y v

end img

/-! ## Tokenizer data (constellation.hh, token_data.hh, image_data.hh) -/

namespace tp

/-- Contract-checked `operator[]` of `cc::vector` / `cc::span` with an `int` index. -/
def index {α : Type} (v : List α) (i : Int) : Option α :=
  if 0 ≤ i then v[i.toNat]? else none

/-- The row-major sequence of cells visited by
`for (y = 0; y < height; ++y) for (x = 0; x < width; ++x)`. -/
def scan (width height : Int) : List tg.ipos2 :=
  (List.range height.toNat).flatMap fun (y : Nat) =>
    (List.range width.toNat).map fun (x : Nat) => (⟨(x : Int), (y : Int)⟩ : tg.ipos2)

/-- The struct `tp::constellation`, constellation.hh:8-15. -/
structure constellation where
  source_class_id : Int := -1
  target_class_id : Int := -1
  ancor_offset : tg.ivec2 := {}
deriving DecidableEq, Repr

/-- Modelled from the spec: `rule.hh` is not among the sources; a rule is the pair
`(constellation, new_class)` of spec section 3, with the member names used by
`tokenizer.cc` and `io.cc` (`rule.constellation`, `rule.new_token_id`). -/
structure rule where
  constellation : tp.constellation := {}
  new_token_id : Int := -1
deriving DecidableEq, Repr

/-- The struct `tp::token_data`, token_data.hh:10-15. -/
structure token_data where
  positions : List tg.ipos2 := []
  position_class : List Int := []
  class_id : Int := -1
deriving DecidableEq, Repr

/-- The expression `!(offset.y < 0 || (offset.y == 0 && offset.x < 0))` that both
`combine_tokens` (tokenizer.cc:116) and `apply_rule` (tokenizer.cc:154) bind to
`keep_token_a_ancor`. -/
def keep_token_a_ancor (offset : tg.ivec2) : Bool :=
  !(decide (offset.y < 0) || (decide (offset.y = 0) && decide (offset.x < 0)))

/-- The two `for (i = 0; i < int(token.positions.size()); ++i)` loops of
`combine_tokens`: push `move positions[i]` and `position_class[i]`. -/
def push_moved (move : tg.ipos2 → tg.ipos2) (token : token_data) (new_token : token_data) :
    Option token_data :=
  (List.range token.positions.length).foldlM
    (fun (acc : token_data) (i : Nat) => do
      let p ← token.positions[i]?
      let c ← token.position_class[i]?
      pure { acc with positions := acc.positions ++ [move p]
                      position_class := acc.position_class ++ [c] })
    new_token

/-- The function `tp::combine_tokens`, tokenizer.cc:104-148. -/
def combine_tokens (rule : constellation) (tokens : List token_data) : Option token_data := do
  let new_token : token_data := { class_id := (tokens.length : Int) }
  let token_a ← index tokens rule.source_class_id
  let token_b ← index tokens rule.target_class_id
  let offset := rule.ancor_offset
  if keep_token_a_ancor offset then
    push_moved (fun p => p + offset) token_b
      { new_token with positions := new_token.positions ++ token_a.positions
                       position_class := new_token.position_class ++ token_a.position_class }
  else
    push_moved (fun p => p - offset) token_a
      { new_token with positions := new_token.positions ++ token_b.positions
                       position_class := new_token.position_class ++ token_b.position_class }

/-- The struct `tp::image_data`, image_data.hh:11-52, with its private members. -/
structure image_data where
  filename : String := ""
  id : Int := -1
  current_token_class : img.image Int := {}
  current_token_id : img.image Int := {}
  token_ancor : List tg.ipos2 := []
  m_initial_token_class : img.image Int := {}
  m_next_token_id : Int := 0
deriving DecidableEq

/-- Member `next_token_id()`: `return m_next_token_id++`. -/
def image_data.next_token_id (d : image_data) : Int × image_data :=
  (d.m_next_token_id, { d with m_next_token_id := d.m_next_token_id + 1 })

/-- Member `max_token_id()`. -/
def image_data.max_token_id (d : image_data) : Int := d.m_next_token_id

/-- Member `initial_token_class()`. -/
def image_data.initial_token_class (d : image_data) : img.image Int := d.m_initial_token_class

/-- Constructor `image_data(filename, id, token_class)`, image_data.hh:20-35. -/
def image_data.create (filename : String) (id : Int) (token_class : img.image Int) :
    Option image_data :=
  let d : image_data :=
    { filename := filename, id := id, m_initial_token_class := token_class
      current_token_class := token_class }
  let width := d.m_initial_token_class.width
  let height := d.m_initial_token_class.height
  (d.current_token_id.resize ⟨width, height⟩).bind fun (ids : img.image Int) =>
    (scan width height).foldlM
      (fun (d : image_data) (p : tg.ipos2) => do
        let (n, d) := d.next_token_id
        let ids ← d.current_token_id.write p.x p.y n
        pure { d with current_token_id := ids, token_ancor := d.token_ancor ++ [p] })
      { d with current_token_id := ids }

/-! ## The constellation counter (tokenizer.cc:21-102) -/

/-- The local `cc::set<cc::pair<tg::ipos2, tg::ipos2>> used`; only `contains` and `add`
are used on it. -/
abbrev used_set := List (tg.ipos2 × tg.ipos2)

/-- The local `cc::map<constellation, int> constellation_count`, kept as its entries in
order of first insertion. -/
abbrev count_map := List (constellation × Int)

/-- The statement `constellation_count[key] += 1`: `operator[]` value-initialises a
missing entry to `0`. -/
def count_map.increment (m : count_map) (key : constellation) : count_map :=
  if m.any (fun e => decide (e.1 = key)) then
    m.map (fun e => if e.1 = key then (e.1, e.2 + 1) else e)
  else m ++ [(key, 0 + 1)]

/-- The count a map holds for a key (`0` when the key was never inserted). -/
def count_map.count (m : count_map) (key : constellation) : Int :=
  ((m.find? (fun e => decide (e.1 = key))).map Prod.snd).getD 0

/-- The order in which `for (auto const [constellation, count] : constellation_count)`
visits the entries of a `cc::map`.  The container (clean-core) is not among the
sources, so the visiting order is a parameter: any rearrangement of the entries. -/
structure map_iteration where
  visit : count_map → count_map
  visit_perm : ∀ m : count_map, (visit m).Perm m

/-- Visiting the entries in order of first insertion. -/
def insertion_order : map_iteration := ⟨fun m => m, fun m => List.Perm.refl m⟩

/-- Visiting the entries in reverse order of first insertion. -/
def reverse_insertion_order : map_iteration := ⟨List.reverse, fun m => List.reverse_perm m⟩

/-- Body of the innermost loop of the counter (tokenizer.cc:38-69) for one cell and one
direction; the state is `(used, constellation_count)`. -/
def count_pair (image : image_data) (st : used_set × count_map) (coords : tg.ipos2)
    (dir : tg.ivec2) : Option (used_set × count_map) :=
  let token_class := image.current_token_class
  let token_id := image.current_token_id
  let neighbor_coords := coords + dir
  if !token_id.contains neighbor_coords then some st else do
    let current_token_id ← token_id.get coords
    let neighbor_token_id ← token_id.get neighbor_coords
    if current_token_id = neighbor_token_id then some st else do
      let current_ancor ← index image.token_ancor current_token_id
      let neighbor_ancor ← index image.token_ancor neighbor_token_id
      if st.1.contains (current_ancor, neighbor_ancor)
          || st.1.contains (neighbor_ancor, current_ancor) then some st else do
        let used := st.1 ++ [(current_ancor, neighbor_ancor)]
        let offset := neighbor_ancor - current_ancor
        let current_class ← token_class.get coords
        let neighbor_class ← token_class.get neighbor_coords
        some (used, st.2.increment ⟨current_class, neighbor_class, offset⟩)

/-- The two directions `{tg::ivec2(0, 1), tg::ivec2(1, 0)}` in the order of the source. -/
def directions : List tg.ivec2 := [⟨0, 1⟩, ⟨1, 0⟩]

/-- The per-image part of the counter (tokenizer.cc:27-69): a fresh `used` set, then the
scan over all cells and both directions. -/
def count_image (constellation_count : count_map) (image : image_data) : Option count_map := do
  let width := image.initial_token_class.width
  let height := image.initial_token_class.height
  let st ← (scan width height).foldlM
    (fun st coords => directions.foldlM (fun st dir => count_pair image st coords dir) st)
    (([] : used_set), constellation_count)
  pure st.2

/-- The loop `for (auto& image : images)` of the counter. -/
def count_constellations (images : List image_data) : Option count_map :=
  images.foldlM count_image []

/-- The argmax loop (tokenizer.cc:72-82) over the visited entries. -/
def find_max (entries : count_map) : constellation × Int :=
  entries.foldl
    (fun (best : constellation × Int) (e : constellation × Int) =>
      if e.2 > best.2 then (e.1, e.2) else best)
    (({} : constellation), -1)

/-- The function `tp::get_most_common_constellation`, tokenizer.cc:21-102. -/
def get_most_common_constellation (order : map_iteration) (images : List image_data) :
    Option constellation := do
  let constellation_count ← count_constellations images
  pure (find_max (order.visit constellation_count)).1

/-! ## Rule application (tokenizer.cc:151-209) -/

/-- Body of the loop `for (auto const p : new_token.positions)`, tokenizer.cc:198-206. -/
def write_cell (new_token : token_data) (new_ancor : tg.ipos2) (new_id : Int)
    (image : image_data) (p : tg.ipos2) : Option image_data :=
  let new_coords := new_ancor + tg.ivec2.of_pos p
  if !image.initial_token_class.contains new_coords then some image else do
    let classes ← image.current_token_class.put new_coords new_token.class_id
    let ids ← image.current_token_id.put new_coords new_id
    some { image with current_token_class := classes, current_token_id := ids }

/-- Body of the cell loop of `apply_rule` (tokenizer.cc:167-207) at one cell. -/
def apply_rule_at (rule : rule) (new_token : token_data) (image : image_data)
    (coords : tg.ipos2) : Option image_data := do
  let offset := rule.constellation.ancor_offset
  let current_token_class ← image.current_token_class.get coords
  if current_token_class ≠ rule.constellation.source_class_id then some image else do
    let current_token_ancor ← index image.token_ancor (← image.current_token_id.get coords)
    if coords ≠ current_token_ancor then some image else
      let other_token_coords := coords + rule.constellation.ancor_offset
      if !image.initial_token_class.contains other_token_coords then some image else do
        let other_token_class ← image.current_token_class.get other_token_coords
        if other_token_class ≠ rule.constellation.target_class_id then some image else do
          let other_token_ancor ←
            index image.token_ancor (← image.current_token_id.get other_token_coords)
          if other_token_ancor ≠ other_token_coords then some image else
            let new_ancor :=
              if keep_token_a_ancor offset then current_token_ancor else other_token_ancor
            let (new_id, image) := image.next_token_id
            let image := { image with token_ancor := image.token_ancor ++ [new_ancor] }
            new_token.positions.foldlM (write_cell new_token new_ancor new_id) image

/-- The per-image part of `apply_rule`: the row-major scan (tokenizer.cc:162-207). -/
def apply_rule_image (rule : rule) (new_token : token_data) (image : image_data) :
    Option image_data :=
  let width := image.initial_token_class.width
  let height := image.initial_token_class.height
  (scan width height).foldlM (apply_rule_at rule new_token) image

/-- The function `tp::apply_rule`, tokenizer.cc:151-209. -/
def apply_rule (rule : rule) (new_token : token_data) (images : List image_data) :
    Option (List image_data) :=
  images.mapM (apply_rule_image rule new_token)

/-! ## The rule driver (tokenizer.cc:211-297) -/

/-- The mutable data of `tokenize`: `rules`, `tokens` and `image_data`. -/
structure tokenizer_state where
  rules : List rule := []
  tokens : List token_data := []
  image_data : List image_data := []
deriving DecidableEq

/-- The initial shape list, tokenizer.cc:243-247: one singleton shape per base class. -/
def initial_tokens (token_max : Int) : List token_data :=
  (List.range (token_max + 1).toNat).map fun (i : Nat) =>
    ({ positions := [⟨0, 0⟩], position_class := [(i : Int)], class_id := (i : Int) } : token_data)

/-- One iteration of the main loop of `tokenize`, tokenizer.cc:261-266. -/
def tokenize_iteration (order : map_iteration) (s : tokenizer_state) : Option tokenizer_state := do
  let max_constellation ← get_most_common_constellation order s.image_data
  let new_token ← combine_tokens max_constellation s.tokens
  let new_rule : rule := { constellation := max_constellation, new_token_id := (s.tokens.length : Int) }
  let rules := s.rules ++ [new_rule]
  let tokens := s.tokens ++ [new_token]
  let image_data ← apply_rule new_rule new_token s.image_data
  pure { rules := rules, tokens := tokens, image_data := image_data }

/-- The main loop of `tokenize` run for a given number of iterations. -/
def tokenize_loop (order : map_iteration) : Nat → tokenizer_state → Option tokenizer_state
  | 0, s => some s
  | n + 1, s => do
    let s ← tokenize_iteration order s
    tokenize_loop order n s

/-- The images that `read_folder` builds from the decoded grid files
(`images.push_back({filename, id, image})`, io.cc:97-99). -/
def read_folder (files : List (String × Int × img.image Int)) : Option (List image_data) :=
  files.mapM fun f => image_data.create f.1 f.2.1 f.2.2

/-- The function `tp::tokenize`, tokenizer.cc:211-270, up to the end of the main loop; the
folder contents are given as the decoded grid files.  `image_size` only enters the size of
the debug colour table (tokenizer.cc:217). -/
def tokenize (order : map_iteration) (token_max tokens_to_create : Int)
    (image_size : tg.isize2) (files : List (String × Int × img.image Int)) :
    Option tokenizer_state := do
  let _colors_to_create :=
    max (token_max + tokens_to_create + 1) (2 * image_size.width * image_size.height)
  let image_data ← read_folder files
  tokenize_loop order tokens_to_create.toNat
    { rules := [], tokens := initial_tokens token_max, image_data := image_data }

/-- The function `tp::apply_rules`, tokenizer.cc:289-297. -/
def apply_rules (rules : List rule) (tokens : List token_data) (images : List image_data) :
    Option (List image_data) :=
  rules.foldlM
    (fun images rule => do
      let new_token ← index tokens rule.new_token_id
      apply_rule rule new_token images)
    images

/-! ## Token sequences (io.cc:146-179) -/

/-- Body of the cell loop of `write_token_sequences` (io.cc:159-172); the state is the
`visited` set and the records written so far, a record being the three values
`token_class`, `ancor.x`, `ancor.y`.  A failing `CC_ASSERT` gives `none`. -/
def write_token_at (image : image_data) (st : List Int × List (Int × Int × Int))
    (coords : tg.ipos2) : Option (List Int × List (Int × Int × Int)) := do
  let id ← image.current_token_id.read coords.x coords.y
  if st.1.contains id then some st else do
    let visited := st.1 ++ [id]
    let token_class ← image.current_token_class.read coords.x coords.y
    let ancor ← index image.token_ancor id
    if ancor.x = coords.x ∧ ancor.y = coords.y then
      some (visited, st.2 ++ [(token_class, ancor.x, ancor.y)])
    else none

/-- The records `write_token_sequences` writes for one image, io.cc:150-172. -/
def token_sequence (image : image_data) : Option (List (Int × Int × Int)) := do
  let class_image := image.current_token_class
  let st ← (scan class_image.width class_image.height).foldlM (write_token_at image) ([], [])
  pure st.2

/-! ## Reconstruction from a token sequence (spec I6) -/

/-- Placing one record: `shapes[class]` at the recorded anchor, writing the recorded base
class at `anchor + offset` for the cells inside the grid. -/
def place_shape (tokens : List token_data) (grid : img.image Int) (record : Int × Int × Int) :
    Option (img.image Int) := do
  let shape ← index tokens record.1
  let ancor : tg.ipos2 := ⟨record.2.1, record.2.2⟩
  (List.range shape.positions.length).foldlM
    (fun (grid : img.image Int) (i : Nat) => do
      let o ← shape.positions[i]?
      let base ← shape.position_class[i]?
      let p := ancor + tg.ivec2.of_pos o
      if grid.contains p then grid.put p base else some grid)
    grid

/-- Reconstruction of a grid from a token sequence, starting from a blank grid. -/
def reconstruct (tokens : List token_data) (blank : img.image Int)
    (sequence : List (Int × Int × Int)) : Option (img.image Int) :=
  sequence.foldlM (place_shape tokens) blank

end tp

/-! ## Binary files (io.cc) -/

namespace babel

/-- Modelled from the spec: babel-serializer is not among the sources. `write_i32` appends
a 32-bit signed integer as four little-endian bytes (spec section 6: "little-endian
binary, all integers 32-bit signed"); bytes are numbers below 256. -/
def write_i32 (v : Int) : List Nat :=
  let u := (v % 4294967296).toNat
  [u % 256, u / 256 % 256, u / 65536 % 256, u / 16777216 % 256]

/-- Modelled from the spec: the 32-bit signed integer held by four little-endian bytes. -/
def i32_of_bytes (b0 b1 b2 b3 : Nat) : Int :=
  let u := b0 % 256 + 256 * (b1 % 256) + 65536 * (b2 % 256) + 16777216 * (b3 % 256)
  if u < 2147483648 then (u : Int) else (u : Int) - 4294967296

/-- Modelled from the spec: `babel::experimental::byte_reader`, represented by the bytes
it has not read yet. -/
structure byte_reader where
  remaining : List Nat
deriving DecidableEq, Repr

/-- Modelled from the spec: `byte_reader::has_remaining_bytes`. -/
def byte_reader.has_remaining_bytes (reader : byte_reader) : Bool :=
  !reader.remaining.isEmpty

/-- Modelled from the spec: `byte_reader::read_i32`. With four bytes left it yields the
value and the advanced reader; with fewer it yields `none`, which stands for the
`false` returned by the checked overload `bool read_i32(int32_t&)` (nothing stored,
nothing consumed) and for the failure of the unchecked overload `int32_t read_i32()`. -/
def byte_reader.read_i32 (reader : byte_reader) : Option (Int × byte_reader) :=
  match reader.remaining with
  | b0 :: b1 :: b2 :: b3 :: rest => some (i32_of_bytes b0 b1 b2 b3, ⟨rest⟩)
  | _ => none

end babel

namespace tp

/-- The function `tp::read_token_bin_data`, io.cc:21-39, on the bytes of the file. -/
def read_token_bin_data (data : List Nat) : Option (img.image Int) := do
  let reader : babel.byte_reader := ⟨data⟩
  let (width, reader) ← reader.read_i32
  let (height, reader) ← reader.read_i32
  let image : img.image Int ← img.image.create width height
  let st ← (scan width height).foldlM
    (fun (st : img.image Int × babel.byte_reader) (p : tg.ipos2) => do
      let (v, reader) ← st.2.read_i32
      let image ← st.1.write p.x p.y v
      pure (image, reader))
    (image, reader)
  pure st.1

/-- The two statements `auto image = read_token_bin_data(...)` and
`images.push_back({filename, id, image})` of `read_folder`, io.cc:97-99, for the
directory entries that passed the file-name checks of io.cc:53-95, each given as file
name, parsed id and file bytes. -/
def load_folder (entries : List (String × Int × List Nat)) :
    Option (List (String × Int × img.image Int)) :=
  entries.mapM fun (entry : String × Int × List Nat) => do
    let image ← read_token_bin_data entry.2.2
    pure (entry.1, entry.2.1, image)

/-- The function `tp::tokenize` on the bytes of the corpus files: `read_folder` decodes
each file with `read_token_bin_data` (io.cc:97) before the run of tokenizer.cc:211-270. -/
def tokenize_folder (order : map_iteration) (token_max tokens_to_create : Int)
    (image_size : tg.isize2) (entries : List (String × Int × List Nat)) :
    Option tokenizer_state := do
  let files ← load_folder entries
  tokenize order token_max tokens_to_create image_size files

/-- The bytes written for one rule by the loop body of `write_rules`, io.cc:210-215. -/
def write_rule (rule : rule) : List Nat :=
  babel.write_i32 rule.constellation.source_class_id ++
  babel.write_i32 rule.constellation.target_class_id ++
  babel.write_i32 rule.constellation.ancor_offset.x ++
  babel.write_i32 rule.constellation.ancor_offset.y ++
  babel.write_i32 rule.new_token_id

/-- The function `tp::write_rules`, io.cc:203-218: the path and the bytes of the file it
writes. -/
def write_rules (rules : List rule) (output_folder : String) : String × List Nat :=
  (output_folder ++ "rules.dat",
    rules.foldl (fun (raw_data : List Nat) (rule : rule) => raw_data ++ write_rule rule) [])

/-- One checked read `if (!reader.read_i32(field)) LOG_ERROR(...)`: the field keeps its
old value when the read fails. -/
def read_field (reader : babel.byte_reader) (old : Int) : Int × babel.byte_reader :=
  match reader.read_i32 with
  | some (v, reader) => (v, reader)
  | none => (old, reader)

/-- The body of the loop of `read_rules`, io.cc:307-329: a default rule whose five
fields are read in turn. -/
def read_rule (reader : babel.byte_reader) : rule × babel.byte_reader :=
  let rule : rule := {}
  let (source_class_id, reader) := read_field reader rule.constellation.source_class_id
  let (target_class_id, reader) := read_field reader rule.constellation.target_class_id
  let (x, reader) := read_field reader rule.constellation.ancor_offset.x
  let (y, reader) := read_field reader rule.constellation.ancor_offset.y
  let (new_token_id, reader) := read_field reader rule.new_token_id
  ({ constellation :=
      { source_class_id := source_class_id
        target_class_id := target_class_id
        ancor_offset := ⟨x, y⟩ }
     new_token_id := new_token_id }, reader)

/-- The loop `while (reader.has_remaining_bytes())` of `read_rules`, io.cc:305-330, run
for at most `fuel` iterations; `none` when bytes remain after them. -/
def read_rules_loop : Nat → babel.byte_reader → List rule → Option (List rule)
  | 0, reader, rules => if reader.has_remaining_bytes then none else some rules
  | fuel + 1, reader, rules =>
    if reader.has_remaining_bytes then
      let (rule, reader) := read_rule reader
      read_rules_loop fuel reader (rules ++ [rule])
    else some rules

/-- The function `tp::read_rules`, io.cc:294-332, on the content of the rule file
(`none` when the file does not exist). An iteration that consumes nothing leaves the
reader as it was, so a loop that ends does so within one iteration per byte; the result
`none` stands for a loop that does not end. -/
def read_rules (file : Option (List Nat)) : Option (List rule) :=
  match file with
  | none => some []
  | some raw_data => read_rules_loop raw_data.length ⟨raw_data⟩ []

/-- The format `{:04}` of an integer: decimal digits, zero-padded after the sign to a
width of four. -/
def format_04 (n : Int) : String :=
  let digits := (toString n.natAbs).data
  let sign := if n < 0 then ['-'] else []
  ⟨sign ++ List.replicate (4 - sign.length - digits.length) '0' ++ digits⟩

/-- The bytes written for one shape by `write_token_shapes`, io.cc:188-196. -/
def write_token (token : token_data) : Option (List Nat) := do
  let raw_data := babel.write_i32 token.class_id ++ babel.write_i32 (token.positions.length : Int)
  (List.range token.positions.length).foldlM
    (fun (raw_data : List Nat) (i : Nat) => do
      let p ← index token.positions (i : Int)
      let c ← index token.position_class (i : Int)
      pure (raw_data ++ babel.write_i32 p.x ++ babel.write_i32 p.y ++ babel.write_i32 c))
    raw_data

/-- The function `tp::write_token_shapes`, io.cc:181-201: the files written into
`token_data_folder`, each as file name and bytes, in the order of writing. -/
def write_token_shapes (tokens : List token_data) : Option (List (String × List Nat)) :=
  tokens.mapM fun (token : token_data) => do
    let raw_data ← write_token token
    pure ("token_" ++ format_04 token.class_id ++ ".dat", raw_data)

/-- The suffix of a file name that starts at its last period, empty without a period. -/
def last_period_suffix : List Char → List Char
  | [] => []
  | c :: cs =>
    match last_period_suffix cs with
    | [] => if c = '.' then c :: cs else []
    | suffix => suffix

/-- The call `path.extension()` of `std::filesystem` on a file name: the suffix starting
at the last period, empty for the names `.` and `..` and when the only period is the
first character. -/
def path_extension (name : String) : String :=
  if name = "." ∨ name = ".." then ""
  else if last_period_suffix name.data = name.data then ""
  else ⟨last_period_suffix name.data⟩

/-- The outcome of reading one shape file in `read_tokens`: a shape, or the early
`return {}` of io.cc:257. -/
inductive token_file
  | token (token : token_data)
  | failed
deriving DecidableEq, Repr

/-- The loop `for (i = 0; i < num_positions; ++i)` of `read_tokens`, io.cc:259-276. A
failed read of `p.x` or `p.y` leaves the zero of a fresh `tg::ipos2`; a failed read of
`class_id` leaves an uninitialised `int` that is then pushed, which is `none`. -/
def read_positions : Nat → babel.byte_reader → token_data → Option token_data
  | 0, _, token => some token
  | n + 1, reader, token => do
    let p : tg.ipos2 := ⟨0, 0⟩
    let (x, reader) := read_field reader p.x
    let (y, reader) := read_field reader p.y
    let (class_id, reader) ← reader.read_i32
    read_positions n reader
      { token with
        positions := token.positions ++ [⟨x, y⟩]
        position_class := token.position_class ++ [class_id] }

/-- The part of the loop body of `read_tokens` that reads one file, io.cc:246-277. -/
def read_token (raw_data : List Nat) : Option token_file :=
  let reader : babel.byte_reader := ⟨raw_data⟩
  let token : token_data := {}
  let (class_id, reader) := read_field reader token.class_id
  let token := { token with class_id := class_id }
  match reader.read_i32 with
  | none => some token_file.failed
  | some (num_positions, reader) =>
    (read_positions num_positions.toNat reader token).map token_file.token

/-- The loop over the directory entries of `read_tokens`, io.cc:228-278; `some none` is
the early `return {}`. Entries are regular files given as file name and bytes. -/
def read_token_files :
    List (String × List Nat) → List token_data → Option (Option (List token_data))
  | [], tokens => some (some tokens)
  | entry :: entries, tokens =>
    if path_extension entry.1 ≠ ".dat" then read_token_files entries tokens
    else if ¬ "token_".data.isPrefixOf entry.1.data then read_token_files entries tokens
    else
      match read_token entry.2 with
      | none => none
      | some token_file.failed => some none
      | some (token_file.token token) => read_token_files entries (tokens ++ [token])

/-- The call `cc::sort(tokens, less)` with `less(a, b) = a.class_id < b.class_id`,
io.cc:281: clean-core is not among the sources, so the sort is any function that
rearranges its input such that no shape is followed by one of a smaller class id. -/
structure token_sort where
  sort : List token_data → List token_data
  sort_perm : ∀ tokens, (sort tokens).Perm tokens
  sort_sorted : ∀ tokens,
    (sort tokens).Pairwise (fun (a b : token_data) => ¬ b.class_id < a.class_id)

/-- The loop of assertions `CC_ASSERT(tokens[i].class_id == i)`, io.cc:283-286. -/
def class_ids_match (tokens : List token_data) : Bool :=
  (List.range tokens.length).all fun (i : Nat) =>
    (tokens[i]?.map fun (token : token_data) => token.class_id) == some (i : Int)

/-- The function `tp::read_tokens`, io.cc:220-292, on the listing of the token folder in
the order the directory iterator yields it (`none` when the folder does not exist). -/
def read_tokens (sorter : token_sort) (folder : Option (List (String × List Nat))) :
    Option (List token_data) :=
  match folder with
  | none => some []
  | some entries => do
    match ← read_token_files entries [] with
    | none => some []
    | some tokens =>
      let tokens := sorter.sort tokens
      if class_ids_match tokens then some tokens else none

end tp

namespace tp

/-- An instance of the sort: insertion sort by class id. -/
def insertion_sort : token_sort where
  sort := List.insertionSort (fun (a b : token_data) => a.class_id ≤ b.class_id)
  sort_perm := fun tokens => List.perm_insertionSort _ tokens
  sort_sorted := fun tokens => by
    have total : IsTotal token_data (fun (a b : token_data) => a.class_id ≤ b.class_id) :=
      ⟨fun a b => le_total a.class_id b.class_id⟩
    have trans : IsTrans token_data (fun (a b : token_data) => a.class_id ≤ b.class_id) :=
      ⟨fun a b c hab hbc => le_trans hab hbc⟩
    have h := List.sorted_insertionSort (fun (a b : token_data) => a.class_id ≤ b.class_id) tokens
    exact List.Pairwise.imp (fun hab => not_lt.2 hab) h

end tp

/-! ## Specification vocabulary -/

namespace img

/-- The value held at a position, `0` where the position cannot be read. -/
def image.val (i : image Int) (p : tg.ipos2) : Int := (i.get p).getD 0

/-- An image whose data vector has exactly `width * height` entries, as every image
built by `resize` has. -/
def image.well_formed {α : Type} (i : image α) : Prop :=
  0 ≤ i._extents.width ∧ 0 ≤ i._extents.height ∧
    (i._data.length : Int) = i._extents.width * i._extents.height

/-- Well-formedness is decidable. -/
instance {α : Type} (i : image α) : Decidable i.well_formed := by
  unfold image.well_formed; infer_instance

end img

namespace tp

/-- Row-major order of the scan loops: `p` is visited strictly before `q`. -/
def scan_lt (p q : tg.ipos2) : Prop := p.y < q.y ∨ (p.y = q.y ∧ p.x < q.x)

/-- An offset that does not lie before `(0,0)` in row-major order. -/
def lex_nonneg (o : tg.ipos2) : Prop := 0 < o.y ∨ (o.y = 0 ∧ 0 ≤ o.x)

/-- Shape well-formedness: index-aligned lists, first offset `(0,0)`, no offset before the
anchor in row-major order. -/
structure shape_ok (t : token_data) : Prop where
  aligned : t.positions.length = t.position_class.length
  head : t.positions.head? = some ⟨0, 0⟩
  lex : ∀ o ∈ t.positions, lex_nonneg o

/-- The three grids of an image agree in size, are well-formed, and the anchor table has
one entry per allocated id. -/
structure grids_ok (d : image_data) : Prop where
  init_wf : d.m_initial_token_class.well_formed
  class_wf : d.current_token_class.well_formed
  id_wf : d.current_token_id.well_formed
  class_ext : d.current_token_class._extents = d.m_initial_token_class._extents
  id_ext : d.current_token_id._extents = d.m_initial_token_class._extents
  ancor_len : (d.token_ancor.length : Int) = d.m_next_token_id

/-- The token instance covering cell `p` is laid out as its class shape says: the id is
allocated, the instance occupies exactly the cells `anchor + offset` of the shape (all
inside the grid, all with the id and class of `p`), the recorded base classes are the
initial classes, and `p` is one of these cells. -/
def cell_ok (tokens : List token_data) (d : image_data) (p : tg.ipos2) : Prop :=
  0 ≤ d.current_token_id.val p ∧ d.current_token_id.val p < d.m_next_token_id ∧
  ∃ (a : tg.ipos2) (shape : token_data),
    index d.token_ancor (d.current_token_id.val p) = some a ∧
    index tokens (d.current_token_class.val p) = some shape ∧
    (∀ (k : Nat) (o : tg.ipos2), shape.positions[k]? = some o →
      d.m_initial_token_class.contains (a + tg.ivec2.of_pos o) = true ∧
      d.current_token_id.val (a + tg.ivec2.of_pos o) = d.current_token_id.val p ∧
      d.current_token_class.val (a + tg.ivec2.of_pos o) = d.current_token_class.val p ∧
      shape.position_class[k]? = some (d.m_initial_token_class.val (a + tg.ivec2.of_pos o))) ∧
    (∃ o ∈ shape.positions, a + tg.ivec2.of_pos o = p)

/-- The image invariant of a learning run with respect to a shape list. -/
def image_inv (tokens : List token_data) (d : image_data) : Prop :=
  grids_ok d ∧ ∀ p, d.m_initial_token_class.contains p = true → cell_ok tokens d p

end tp

/-! ## Predicates used to state and prove the properties -/

namespace tp

/-- What the write loop leaves untouched, and that the grids stay well-formed. -/
structure same_frame (d d' : image_data) : Prop where
  init_eq : d'.m_initial_token_class = d.m_initial_token_class
  ancor_eq : d'.token_ancor = d.token_ancor
  next_eq : d'.m_next_token_id = d.m_next_token_id
  ok : grids_ok d'

/-- The hypotheses under which one merge of `apply_rule` is performed at cell `p`. -/
structure merge_at (tokens : List token_data) (d : image_data) (c : constellation)
    (A B N : token_data) (p na : tg.ipos2) : Prop where
  inv : image_inv tokens d
  shapes : ∀ i t, index tokens i = some t → shape_ok t
  srcA : index tokens c.source_class_id = some A
  tgtB : index tokens c.target_class_id = some B
  newN : index tokens N.class_id = some N
  pos : N.positions =
      if keep_token_a_ancor c.ancor_offset then
        A.positions ++ B.positions.map (fun o => o + c.ancor_offset)
      else B.positions ++ A.positions.map (fun o => o - c.ancor_offset)
  cls : N.position_class =
      if keep_token_a_ancor c.ancor_offset then A.position_class ++ B.position_class
      else B.position_class ++ A.position_class
  hp : d.m_initial_token_class.contains p = true
  hcp : d.current_token_class.val p = c.source_class_id
  hap : index d.token_ancor (d.current_token_id.val p) = some p
  hq : d.m_initial_token_class.contains (p + c.ancor_offset) = true
  hcq : d.current_token_class.val (p + c.ancor_offset) = c.target_class_id
  haq : index d.token_ancor (d.current_token_id.val (p + c.ancor_offset)) = some (p + c.ancor_offset)
  hna : na = if keep_token_a_ancor c.ancor_offset then p else p + c.ancor_offset

/-- Effect of the constructor loop of `image_data`. -/
structure created (token_class : img.image Int) (d : image_data) : Prop where
  init_eq : d.m_initial_token_class = token_class
  class_eq : d.current_token_class = token_class
  id_wf : d.current_token_id.well_formed
  id_ext : d.current_token_id._extents = token_class._extents
  ancor_eq : d.token_ancor = scan token_class.width token_class.height
  next_eq : d.m_next_token_id = (d.token_ancor.length : Int)
  id_eq : ∀ (k : Nat) (p : tg.ipos2), d.token_ancor[k]? = some p → d.current_token_id.val p = (k : Int)

/-- State invariant of the learning loop: all shapes are well-formed and every image
satisfies the image invariant for the current shape list. -/
structure state_inv (s : tokenizer_state) : Prop where
  shapes : ∀ i t, index s.tokens i = some t → shape_ok t
  images : ∀ d ∈ s.image_data, image_inv s.tokens d

/-- What one iteration of the learning loop does to the state. -/
structure iteration_step (s s' : tokenizer_state) (c : constellation) (N : token_data) : Prop where
  combined : combine_tokens c s.tokens = some N
  rules_eq : s'.rules = s.rules ++ [{ constellation := c, new_token_id := (s.tokens.length : Int) }]
  tokens_eq : s'.tokens = s.tokens ++ [N]
  applied : apply_rule { constellation := c, new_token_id := (s.tokens.length : Int) } N s.image_data
    = some s'.image_data

/-- The set of input files accepted by the claims about learning runs: well-formed grids
with every cell in `[0, token_max]`. -/
def corpus_ok (token_max : Int) (files : List (String × Int × img.image Int)) : Prop :=
  ∀ f ∈ files, f.2.2.well_formed ∧ ∀ v ∈ f.2.2._data, 0 ≤ v ∧ v ≤ token_max

/-- What `write_token_sequences` has recorded after scanning the cells `pre`. -/
structure sequence_state (d : image_data) (pre : List tg.ipos2)
    (st : List Int × List (Int × Int × Int)) : Prop where
  visited : ∀ i, i ∈ st.1 ↔ ∃ q ∈ pre, d.current_token_id.val q = i
  sound : ∀ r ∈ st.2, ∃ q ∈ pre, ∃ a, index d.token_ancor (d.current_token_id.val q) = some a ∧
    r = (d.current_token_class.val q, a.x, a.y)
  complete : ∀ q ∈ pre, ∃ q' ∈ pre, d.current_token_id.val q' = d.current_token_id.val q ∧
    ∃ a, index d.token_ancor (d.current_token_id.val q') = some a ∧
      (d.current_token_class.val q', a.x, a.y) ∈ st.2

/-- A grid of the extents of `target` together with the cells on which it already agrees
with `target`. -/
structure rebuilt (target grid : img.image Int) (known : tg.ipos2 → Prop) : Prop where
  wf : grid.well_formed
  ext : grid._extents = target._extents
  agree : ∀ r, known r → grid.val r = target.val r

/-- Example corpus: the single image with rows `[1,2]` and `[2,1]`. -/
def tie_files : List (String × Int × img.image Int) :=
  [("tie_0.dat", 0, ⟨[1, 2, 2, 1], ⟨2, 2⟩⟩)]

/-- Example corpus: one `2 x 1` image `[[1, 1]]`. -/
def pair_files : List (String × Int × img.image Int) :=
  [("pair_0.dat", 0, ⟨[1, 1], ⟨2, 1⟩⟩)]

/-- Example corpus: one `3 x 1` image `[[0, 1, 0]]`. -/
def row_files : List (String × Int × img.image Int) :=
  [("row_0.dat", 0, ⟨[0, 1, 0], ⟨3, 1⟩⟩)]

/-- Deciding `corpus_ok`. -/
instance (token_max : Int) (files : List (String × Int × img.image Int)) :
    Decidable (corpus_ok token_max files) := by
  unfold corpus_ok; infer_instance

/-- Entries of a counter map: pairwise distinct keys, every count at least `1`. -/
structure count_map_ok (m : count_map) : Prop where
  keys : (m.map Prod.fst).Nodup
  positive : ∀ e ∈ m, 1 ≤ e.2

/-- The part of `count_pair` that does not depend on the counter map: the new `used` set
and the constellation that receives a vote, if any (a proof device; `count_pair_eq` ties
it to `count_pair`). -/
def pair_vote (image : image_data) (used : used_set) (coords : tg.ipos2) (dir : tg.ivec2) :
    Option (used_set × Option constellation) :=
  let token_class := image.current_token_class
  let token_id := image.current_token_id
  let neighbor_coords := coords + dir
  if !token_id.contains neighbor_coords then some (used, none) else do
    let current_token_id ← token_id.get coords
    let neighbor_token_id ← token_id.get neighbor_coords
    if current_token_id = neighbor_token_id then some (used, none) else do
      let current_ancor ← index image.token_ancor current_token_id
      let neighbor_ancor ← index image.token_ancor neighbor_token_id
      if used.contains (current_ancor, neighbor_ancor)
          || used.contains (neighbor_ancor, current_ancor) then some (used, none) else do
        let offset := neighbor_ancor - current_ancor
        let current_class ← token_class.get coords
        let neighbor_class ← token_class.get neighbor_coords
        some (used ++ [(current_ancor, neighbor_ancor)],
          some ⟨current_class, neighbor_class, offset⟩)

/-- Casting an optional vote into a counter map. -/
def cast_vote (m : count_map) (vote : Option constellation) : count_map :=
  match vote with
  | none => m
  | some key => m.increment key

/-- The votes cast while scanning one image, in scan order (proof device). -/
def image_votes (image : image_data) : Option (List constellation) := do
  let width := image.initial_token_class.width
  let height := image.initial_token_class.height
  let st ← (scan width height).foldlM
    (fun st coords => directions.foldlM
      (fun (st : used_set × List constellation) dir => do
        let r ← pair_vote image st.1 coords dir
        pure (r.1, st.2 ++ r.2.toList)) st)
    (([] : used_set), ([] : List constellation))
  pure st.2

/-- The votes cast over a whole corpus, image after image (proof device). -/
def corpus_votes (images : List image_data) : Option (List constellation) :=
  images.foldlM (fun acc image => do
    let votes ← image_votes image
    pure (acc ++ votes)) []

/-- The tie-break order of spec section 4.3, written from the spec's words: lexicographic
comparison of `(source_class, target_class, offset.y, offset.x)`. -/
def spec_tie_break_lt (a b : constellation) : Prop :=
  a.source_class_id < b.source_class_id ∨
  (a.source_class_id = b.source_class_id ∧
    (a.target_class_id < b.target_class_id ∨
    (a.target_class_id = b.target_class_id ∧
      (a.ancor_offset.y < b.ancor_offset.y ∨
      (a.ancor_offset.y = b.ancor_offset.y ∧ a.ancor_offset.x < b.ancor_offset.x)))))

/-- The spec's tie-break order is decidable. -/
instance (a b : constellation) : Decidable (spec_tie_break_lt a b) := by
  unfold spec_tie_break_lt; infer_instance

/-- The image built from the tie corpus (rows `[1,2]` and `[2,1]`). -/
def tie_images : List image_data := (read_folder tie_files).getD []

/-- Two `2 x 1` images, `[[1, 2]]` and `[[3, 4]]`, in this order. -/
def two_images : List image_data :=
  (read_folder [("a_0.dat", 0, ⟨[1, 2], ⟨2, 1⟩⟩), ("b_1.dat", 1, ⟨[3, 4], ⟨2, 1⟩⟩)]).getD []

/-- The same two images in the opposite order. -/
def two_images_swapped : List image_data :=
  (read_folder [("b_1.dat", 1, ⟨[3, 4], ⟨2, 1⟩⟩), ("a_0.dat", 0, ⟨[1, 2], ⟨2, 1⟩⟩)]).getD []

/-- Example corpus: a single `1 x 1` image holding class `0`. -/
def single_cell_files : List (String × Int × img.image Int) :=
  [("one_0.dat", 0, ⟨[0], ⟨1, 1⟩⟩)]

/-- The image built from the single-cell corpus. -/
def single_cell_images : List image_data := (read_folder single_cell_files).getD []

/-- The anchor rule as the spec words it: keep the source anchor iff
`D.y > 0 OR (D.y == 0 AND D.x > 0)`. -/
def spec_keep_source (offset : tg.ivec2) : Prop :=
  offset.y > 0 ∨ (offset.y = 0 ∧ offset.x > 0)

/-- The spec's anchor rule is decidable. -/
instance (offset : tg.ivec2) : Decidable (spec_keep_source offset) := by
  unfold spec_keep_source; infer_instance

/-- A constellation whose two class ids index shapes of the list. -/
def indexes_shapes (tokens : List token_data) (key : constellation) : Prop :=
  ∃ A B, index tokens key.source_class_id = some A ∧ index tokens key.target_class_id = some B

/-- Row-major precedence is decidable. -/
instance (p q : tg.ipos2) : Decidable (scan_lt p q) := by
  unfold scan_lt; infer_instance

/-- The cell `p` is the first cell of its token instance in row-major order: no cell of the
grid before `p` carries the id of `p`. -/
def is_first_cell (d : image_data) (p : tg.ipos2) : Prop :=
  ∀ q ∈ scan d.current_token_class.width d.current_token_class.height,
    scan_lt q p → d.current_token_id.val q ≠ d.current_token_id.val p

/-- Being a first cell is decidable. -/
instance (d : image_data) (p : tg.ipos2) : Decidable (is_first_cell d p) := by
  unfold is_first_cell; infer_instance

/-- The range the specification gives for a composite class id `c` after `R` rules. -/
def spec_composite_range (V_base R c : Int) : Prop := V_base < c ∧ c < V_base + R

/-- The specification's range is decidable. -/
instance (V_base R c : Int) : Decidable (spec_composite_range V_base R c) := by
  unfold spec_composite_range; infer_instance

/-- The bytes of one cell record `x · y · base_class` of a shape file (spec section 6). -/
def spec_cell_bytes (e : tg.ipos2 × Int) : List Nat :=
  babel.write_i32 e.1.x ++ babel.write_i32 e.1.y ++ babel.write_i32 e.2

/-- The shape file of the specification (section 6):
`int32 class_id · int32 num_cells · { int32 x · int32 y · int32 base_class } × num_cells`. -/
def spec_shape_bytes (token : token_data) : List Nat :=
  babel.write_i32 token.class_id ++ babel.write_i32 (token.positions.length : Int) ++
    (token.positions.zip token.position_class).flatMap spec_cell_bytes

/-- The grids of an image are consistent and every id of the id grid is allocated, so that
it indexes the anchor table. -/
structure ids_ok (d : image_data) : Prop where
  grids : grids_ok d
  range : ∀ p, d.m_initial_token_class.contains p = true →
    0 ≤ d.current_token_id.val p ∧ d.current_token_id.val p < d.m_next_token_id

/-- The match condition of a rule at cell `p` (spec section 4.4): `p` has the source
class and is its own anchor, `q = p + offset` lies inside the grid, has the target class and
is its own anchor. -/
def rule_matches (rule : rule) (d : image_data) (p : tg.ipos2) : Prop :=
  d.current_token_class.get p = some rule.constellation.source_class_id ∧
  (d.current_token_id.get p).bind (index d.token_ancor) = some p ∧
  d.initial_token_class.contains (p + rule.constellation.ancor_offset) = true ∧
  d.current_token_class.get (p + rule.constellation.ancor_offset)
    = some rule.constellation.target_class_id ∧
  (d.current_token_id.get (p + rule.constellation.ancor_offset)).bind (index d.token_ancor)
    = some (p + rule.constellation.ancor_offset)

/-- The match condition is decidable. -/
instance (rule : rule) (d : image_data) (p : tg.ipos2) : Decidable (rule_matches rule d p) := by
  unfold rule_matches; infer_instance

/-- The anchor pushed by a merge at `p`: `p` when the source anchor is kept, `q` otherwise. -/
def merged_ancor (rule : rule) (p : tg.ipos2) : tg.ipos2 :=
  if keep_token_a_ancor rule.constellation.ancor_offset then p
  else p + rule.constellation.ancor_offset

/-- The cell `r` lies inside the grid and is `new_ancor + o` for an offset `o` of the list. -/
def placed_inside (d : image_data) (new_ancor : tg.ipos2) (cells : List tg.ipos2)
    (r : tg.ipos2) : Prop :=
  d.m_initial_token_class.contains r = true ∧ ∃ o ∈ cells, new_ancor + tg.ivec2.of_pos o = r

/-- Being placed inside the grid is decidable. -/
instance (d : image_data) (new_ancor : tg.ipos2) (cells : List tg.ipos2) (r : tg.ipos2) :
    Decidable (placed_inside d new_ancor cells r) := by
  unfold placed_inside; infer_instance

/-- Consistency of the grids is decidable. -/
instance (d : image_data) : Decidable (grids_ok d) :=
  decidable_of_iff
    (d.m_initial_token_class.well_formed ∧ d.current_token_class.well_formed ∧
      d.current_token_id.well_formed ∧
      d.current_token_class._extents = d.m_initial_token_class._extents ∧
      d.current_token_id._extents = d.m_initial_token_class._extents ∧
      (d.token_ancor.length : Int) = d.m_next_token_id)
    ⟨fun h => ⟨h.1, h.2.1, h.2.2.1, h.2.2.2.1, h.2.2.2.2.1, h.2.2.2.2.2⟩,
      fun h => ⟨h.init_wf, h.class_wf, h.id_wf, h.class_ext, h.id_ext, h.ancor_len⟩⟩

/-- Example image: the grid `[[1, 1]]` as constructed by `image_data`, two singleton
instances with ids `0` and `1`. -/
def merge_image : image_data :=
  { filename := "pair_0.dat"
    id := 0
    current_token_class := ⟨[1, 1], ⟨2, 1⟩⟩
    current_token_id := ⟨[0, 1], ⟨2, 1⟩⟩
    token_ancor := [⟨0, 0⟩, ⟨1, 0⟩]
    m_initial_token_class := ⟨[1, 1], ⟨2, 1⟩⟩
    m_next_token_id := 2 }

/-- Example rule: two horizontally adjacent cells of class `1` become class `2`. -/
def pair_rule : rule := { constellation := ⟨1, 1, ⟨1, 0⟩⟩, new_token_id := 2 }

/-- Example shape with three cells in a row; placed at `(0,0)` in a `2 x 1` grid its third
cell falls outside. -/
def long_shape : token_data :=
  { positions := [⟨0, 0⟩, ⟨1, 0⟩, ⟨2, 0⟩], position_class := [1, 1, 1], class_id := 2 }

/-- A rule that matches nowhere in the example image. -/
def idle_rule : rule := { constellation := ⟨1, 0, ⟨1, 0⟩⟩, new_token_id := 2 }

/-- The cells of the grid that are the first of their token instance, in row-major order. -/
def first_cells (d : image_data) : List tg.ipos2 :=
  (scan d.current_token_class.width d.current_token_class.height).filter
    fun (p : tg.ipos2) => decide (is_first_cell d p)

/-- The token sequence of the specification (section 6): for each distinct id, in the order
of first occurrence in the row-major scan, the record `class · anchor_x · anchor_y` with the
class found at the first cell and the anchor recorded for the id. -/
def spec_token_sequence (d : image_data) : Option (List (Int × Int × Int)) :=
  (first_cells d).mapM fun (p : tg.ipos2) =>
    (index d.token_ancor (d.current_token_id.val p)).map fun (a : tg.ipos2) =>
      (d.current_token_class.val p, a.x, a.y)

/-- What `write_token_sequences` holds after scanning the cells `pre`: the ids of the first
cells among them, and one record per such cell, whose anchor is the cell itself. -/
structure sequence_content (d : image_data) (pre : List tg.ipos2)
    (st : List Int × List (Int × Int × Int)) : Prop where
  visited_iff : ∀ i, i ∈ st.1 ↔ ∃ q ∈ pre, d.current_token_id.val q = i
  visited_eq : st.1 = (pre.filter fun (p : tg.ipos2) => decide (is_first_cell d p)).map
    fun (p : tg.ipos2) => d.current_token_id.val p
  records_eq : st.2 = (pre.filter fun (p : tg.ipos2) => decide (is_first_cell d p)).map
    fun (p : tg.ipos2) => (d.current_token_class.val p, p.x, p.y)
  ancor_eq : ∀ p ∈ pre.filter (fun (p : tg.ipos2) => decide (is_first_cell d p)),
    index d.token_ancor (d.current_token_id.val p) = some p

/-- Example grid file: header `(2, 1)` followed by the cells `1, 1`. -/
def pair_bytes : List Nat :=
  babel.write_i32 2 ++ babel.write_i32 1 ++ babel.write_i32 1 ++ babel.write_i32 1

/-- A value of the C++ type `int` (32-bit signed). -/
def is_i32 (v : Int) : Prop := -2147483648 ≤ v ∧ v < 2147483648

/-- Being a 32-bit value is decidable. -/
instance (v : Int) : Decidable (is_i32 v) := by
  unfold is_i32; infer_instance

/-- A rule whose five `int` fields hold 32-bit values. -/
def rule_is_i32 (r : rule) : Prop :=
  is_i32 r.constellation.source_class_id ∧ is_i32 r.constellation.target_class_id ∧
  is_i32 r.constellation.ancor_offset.x ∧ is_i32 r.constellation.ancor_offset.y ∧
  is_i32 r.new_token_id

/-- Having 32-bit fields is decidable. -/
instance (r : rule) : Decidable (rule_is_i32 r) := by
  unfold rule_is_i32; infer_instance

/-- The rule record of the specification (section 6): `int32 source_class ·
int32 target_class · int32 offset_x · int32 offset_y · int32 new_class`. -/
def spec_rule_bytes (r : rule) : List Nat :=
  babel.write_i32 r.constellation.source_class_id ++
  babel.write_i32 r.constellation.target_class_id ++
  babel.write_i32 r.constellation.ancor_offset.x ++
  babel.write_i32 r.constellation.ancor_offset.y ++
  babel.write_i32 r.new_token_id

/-- Example rule list, the second rule with the upward offset `(0, -1)`. -/
def example_rules : List rule :=
  [{ constellation := ⟨1, 1, ⟨1, 0⟩⟩, new_token_id := 2 },
   { constellation := ⟨2, 0, ⟨0, -1⟩⟩, new_token_id := 3 }]

/-- A shape that `write_token_shapes` can store: index-aligned lists and 32-bit values. -/
def shape_storable (t : token_data) : Prop :=
  t.positions.length = t.position_class.length ∧ is_i32 t.class_id ∧
  is_i32 (t.positions.length : Int) ∧
  (∀ p ∈ t.positions, is_i32 p.x ∧ is_i32 p.y) ∧ ∀ c ∈ t.position_class, is_i32 c

/-- Being storable is decidable. -/
instance (t : token_data) : Decidable (shape_storable t) := by
  unfold shape_storable; infer_instance

/-- The shape held by a file that `read_tokens` reads completely. -/
def decode_token (entry : String × List Nat) : Option token_data :=
  match read_token entry.2 with
  | some (token_file.token token) => some token
  | _ => none

/-- The file that `write_token_shapes` writes for a shape according to the specification:
named after the class id, holding the shape record. -/
def spec_shape_file (t : token_data) : String × List Nat :=
  ("token_" ++ format_04 t.class_id ++ ".dat", spec_shape_bytes t)

/-- Example shape list: a base class and a two-cell shape reaching down and to the left. -/
def example_shapes : List token_data :=
  [{ positions := [⟨0, 0⟩], position_class := [0], class_id := 0 },
   { positions := [⟨0, 0⟩, ⟨-1, 1⟩], position_class := [0, 0], class_id := 1 }]

/-- The bytes of a grid file as the specification lays them out (section 6):
`int32 width · int32 height · int32[width*height] classes`. -/
def spec_grid_bytes (w h : Int) (d : List Int) : List Nat :=
  babel.write_i32 w ++ babel.write_i32 h ++ d.flatMap babel.write_i32

/-- The part of a learning iteration that follows the counter (tokenizer.cc:263-266), for a
given winning constellation. -/
def iteration_with (max_constellation : constellation) (s : tokenizer_state) :
    Option tokenizer_state := do
  let new_token ← combine_tokens max_constellation s.tokens
  let new_rule : rule :=
    { constellation := max_constellation, new_token_id := (s.tokens.length : Int) }
  let rules := s.rules ++ [new_rule]
  let tokens := s.tokens ++ [new_token]
  let image_data ← apply_rule new_rule new_token s.image_data
  pure { rules := rules, tokens := tokens, image_data := image_data }

/-- The four constellations of the tie corpus, in the order the counter meets them. -/
def tie_constellations : List constellation :=
  [⟨1, 2, ⟨0, 1⟩⟩, ⟨1, 2, ⟨1, 0⟩⟩, ⟨2, 1, ⟨0, 1⟩⟩, ⟨2, 1, ⟨1, 0⟩⟩]

/-- The number of records of a given class in a token sequence. -/
def records_of_class (c : Int) (seq : List (Int × Int × Int)) : Nat :=
  (seq.filter fun (r : Int × Int × Int) => decide (r.1 = c)).length

/-- Example rule file of 24 bytes: one complete record followed by the first field only of
a second record. -/
def truncated_rule_bytes : List Nat :=
  write_rule { constellation := ⟨1, 1, ⟨1, 0⟩⟩, new_token_id := 2 } ++ babel.write_i32 5

/-- The image constructed from the `2 x 1` grid `[[c, c]]`. -/
def pair_image (c : Int) : image_data :=
  { filename := "pair_0.dat"
    id := 0
    current_token_class := ⟨[c, c], ⟨2, 1⟩⟩
    current_token_id := ⟨[0, 1], ⟨2, 1⟩⟩
    token_ancor := [⟨0, 0⟩, ⟨1, 0⟩]
    m_initial_token_class := ⟨[c, c], ⟨2, 1⟩⟩
    m_next_token_id := 2 }

/-- The image of the grid `[[c, c]]` after its two cells were merged into one instance of
class `c + 1`. -/
def merged_pair_image (c : Int) : image_data :=
  { filename := "pair_0.dat"
    id := 0
    current_token_class := ⟨[c + 1, c + 1], ⟨2, 1⟩⟩
    current_token_id := ⟨[2, 2], ⟨2, 1⟩⟩
    token_ancor := [⟨0, 0⟩, ⟨1, 0⟩, ⟨0, 0⟩]
    m_initial_token_class := ⟨[c, c], ⟨2, 1⟩⟩
    m_next_token_id := 3 }

/-- The elements of a list whose key was neither seen before the list nor at an earlier
element of the list (proof device for the `used` set of the counter). -/
def first_by {β κ : Type} [DecidableEq κ] (key : β → κ) : List κ → List β → List β
  | _, [] => []
  | seen, c :: cs =>
    if key c ∈ seen then first_by key seen cs else c :: first_by key (seen ++ [key c]) cs

/-- The anchor recorded for the instance that covers cell `p` (`anchor_of(p)` in the
specification). -/
def anchor_of (d : image_data) (p : tg.ipos2) : tg.ipos2 :=
  (index d.token_ancor (d.current_token_id.val p)).getD ⟨0, 0⟩

/-- A contact: a cell `p` and a direction `dir` such that `p` and `p + dir` are cells of the
grid covered by different token instances. -/
def is_contact (d : image_data) (c : tg.ipos2 × tg.ivec2) : Prop :=
  d.m_initial_token_class.contains c.1 = true ∧
  d.m_initial_token_class.contains (c.1 + c.2) = true ∧
  d.current_token_id.val c.1 ≠ d.current_token_id.val (c.1 + c.2)

instance (d : image_data) (c : tg.ipos2 × tg.ivec2) : Decidable (is_contact d c) := by
  unfold is_contact; infer_instance

/-- The pairs (cell, direction) in the order in which the counter loops visit them, for a
given list of directions. -/
def scan_pairs (dirs : List tg.ivec2) (d : image_data) : List (tg.ipos2 × tg.ivec2) :=
  (scan d.initial_token_class.width d.initial_token_class.height).flatMap
    fun p => dirs.map fun dir => (p, dir)

/-- The contacts of an image in the order in which the counter meets them. -/
def contacts (d : image_data) : List (tg.ipos2 × tg.ivec2) :=
  (scan_pairs directions d).filter fun c => decide (is_contact d c)

/-- The ordered anchor pair that the counter adds to `used` at a contact. -/
def ancor_key (d : image_data) (c : tg.ipos2 × tg.ivec2) : tg.ipos2 × tg.ipos2 :=
  (anchor_of d c.1, anchor_of d (c.1 + c.2))

/-- The unordered anchor pair of a contact. -/
def ancor_pair (d : image_data) (c : tg.ipos2 × tg.ivec2) : Sym2 tg.ipos2 :=
  Sym2.mk (ancor_key d c)

/-- The unordered pair of the ids of the two instances of a contact. -/
def id_pair (d : image_data) (c : tg.ipos2 × tg.ivec2) : Sym2 Int :=
  Sym2.mk (d.current_token_id.val c.1, d.current_token_id.val (c.1 + c.2))

/-- The constellation a contact votes for: class of the cell, class of its neighbour, anchor
of the neighbour's instance minus anchor of the cell's instance. -/
def vote_of (d : image_data) (c : tg.ipos2 × tg.ivec2) : constellation :=
  { source_class_id := d.current_token_class.val c.1
    target_class_id := d.current_token_class.val (c.1 + c.2)
    ancor_offset := anchor_of d (c.1 + c.2) - anchor_of d c.1 }

/-- What the counter relies on in an image of a learning run: ids are allocated, and the
anchor recorded for the instance covering a cell is a cell of the grid with the same id and
class that does not come after the cell in row-major order. -/
structure anchors_ok (d : image_data) : Prop where
  allocated : ids_ok d
  inside : ∀ p, d.m_initial_token_class.contains p = true →
    d.m_initial_token_class.contains (anchor_of d p) = true
  same_id : ∀ p, d.m_initial_token_class.contains p = true →
    d.current_token_id.val (anchor_of d p) = d.current_token_id.val p
  same_class : ∀ p, d.m_initial_token_class.contains p = true →
    d.current_token_class.val (anchor_of d p) = d.current_token_class.val p
  first : ∀ p, d.m_initial_token_class.contains p = true → ¬ scan_lt p (anchor_of d p)

/-- Example corpus: one `1 x 2` image with rows `[1]` and `[2]`. -/
def column_files : List (String × Int × img.image Int) :=
  [("column_0.dat", 0, ⟨[1, 2], ⟨1, 2⟩⟩)]

/-- Example corpus on which the second winner has offset `(1,-1)`: the `2 x 2` images with
rows `[0,1]`, `[3,2]` and `[4,1]`, `[3,2]`, and the `1 x 2` image with rows `[1]`, `[2]`. -/
def diagonal_files : List (String × Int × img.image Int) :=
  [("a_0.dat", 0, ⟨[0, 1, 3, 2], ⟨2, 2⟩⟩), ("b_1.dat", 1, ⟨[4, 1, 3, 2], ⟨2, 2⟩⟩),
    ("c_2.dat", 2, ⟨[1, 2], ⟨1, 2⟩⟩)]

/-- Horizontally or vertically adjacent cells. -/
def adjacent (p q : tg.ipos2) : Prop :=
  (p.y = q.y ∧ (q.x = p.x + 1 ∨ p.x = q.x + 1)) ∨ (p.x = q.x ∧ (q.y = p.y + 1 ∨ p.y = q.y + 1))

instance (p q : tg.ipos2) : Decidable (adjacent p q) := by
  unfold adjacent; infer_instance

/-- The unordered pairs of distinct token instances (ids) of an image that have at least one
pair of horizontally or vertically adjacent cells. -/
def touching_pairs (d : image_data) : Finset (Sym2 Int) :=
  ((((scan d.initial_token_class.width d.initial_token_class.height).flatMap fun p =>
      (scan d.initial_token_class.width d.initial_token_class.height).map fun q => (p, q)).filter
    fun (pq : tg.ipos2 × tg.ipos2) => decide (adjacent pq.1 pq.2 ∧
      d.current_token_id.val pq.1 ≠ d.current_token_id.val pq.2)).map
    fun (pq : tg.ipos2 × tg.ipos2) =>
      Sym2.mk (d.current_token_id.val pq.1, d.current_token_id.val pq.2)).toFinset

/-- The two directions in the order of spec section 4.3: `(+1,0)`, then `(0,+1)`. -/
def spec_directions : List tg.ivec2 := [⟨1, 0⟩, ⟨0, 1⟩]

/-- The scan rule of spec section 4.3 for one cell `p` and one direction, written from the
spec's words; the state is the set of counted unordered anchor pairs `{a_p, a_q}` of this
image and the counts. -/
def spec_count_pair (image : image_data) (st : List (Sym2 tg.ipos2) × count_map)
    (p : tg.ipos2) (dir : tg.ivec2) : Option (List (Sym2 tg.ipos2) × count_map) :=
  let q := p + dir
  if !image.initial_token_class.contains q then some st else do
    let id_p ← image.current_token_id.get p
    let id_q ← image.current_token_id.get q
    let a_p ← index image.token_ancor id_p
    let a_q ← index image.token_ancor id_q
    if id_p = id_q then some st else
      if Sym2.mk (a_p, a_q) ∈ st.1 then some st else do
        let offset := a_q - a_p
        let c_s ← image.current_token_class.get p
        let c_t ← image.current_token_class.get q
        some (st.1 ++ [Sym2.mk (a_p, a_q)], st.2.increment ⟨c_s, c_t, offset⟩)

/-- The scan rule of spec section 4.3 for one image: every cell in row-major order, the
two directions in the order of the specification. -/
def spec_count_image (constellation_count : count_map) (image : image_data) :
    Option count_map := do
  let st ← (scan image.initial_token_class.width image.initial_token_class.height).foldlM
    (fun st p => spec_directions.foldlM (fun st dir => spec_count_pair image st p dir) st)
    (([] : List (Sym2 tg.ipos2)), constellation_count)
  pure st.2

/-- The counts of the specified scan rule over a corpus. -/
def spec_count_constellations (images : List image_data) : Option count_map :=
  images.foldlM spec_count_image []

/-- What the counter of the code does at a (cell, direction) pair on an image with allocated
ids (proof device). -/
def code_step (d : image_data) (c : tg.ipos2 × tg.ivec2) (st : used_set × count_map) :
    used_set × count_map :=
  if is_contact d c ∧ ancor_pair d c ∉ st.1.map Sym2.mk then
    (st.1 ++ [ancor_key d c], st.2.increment (vote_of d c))
  else st

/-- What the specified scan rule does at a (cell, direction) pair on an image with allocated
ids (proof device). -/
def spec_step (d : image_data) (c : tg.ipos2 × tg.ivec2)
    (st : List (Sym2 tg.ipos2) × count_map) : List (Sym2 tg.ipos2) × count_map :=
  if is_contact d c ∧ ancor_pair d c ∉ st.1 then
    (st.1 ++ [ancor_pair d c], st.2.increment (vote_of d c))
  else st

/-- The counter state of the code and of the specified rule agree: the same unordered pairs
are marked and every constellation has the same count. -/
def same_counts (st : used_set × count_map) (st' : List (Sym2 tg.ipos2) × count_map) : Prop :=
  (∀ k, k ∈ st.1.map Sym2.mk ↔ k ∈ st'.1) ∧ ∀ key, st.2.count key = st'.2.count key

/-- An image value that no learning run reaches: the instance of id `1` covers the cells
`(1,0)` and `(0,1)`, which carry different classes. -/
def split_class_image : image_data :=
  { filename := "split_0.dat"
    id := 0
    current_token_class := ⟨[5, 6, 7, 8], ⟨2, 2⟩⟩
    current_token_id := ⟨[0, 1, 1, 2], ⟨2, 2⟩⟩
    token_ancor := [⟨0, 0⟩, ⟨1, 0⟩, ⟨1, 1⟩]
    m_initial_token_class := ⟨[5, 6, 7, 8], ⟨2, 2⟩⟩
    m_next_token_id := 3 }

/-- The facts about the winner and the new shape that hold in a learning iteration. -/
structure iteration_context (s : tokenizer_state) (c : constellation) (A B N : token_data) :
    Prop where
  srcA : index s.tokens c.source_class_id = some A
  tgtB : index s.tokens c.target_class_id = some B
  okA : shape_ok A
  okB : shape_ok B
  okN : shape_ok N
  class_id : N.class_id = (s.tokens.length : Int)
  pos : N.positions =
    if keep_token_a_ancor c.ancor_offset then
      A.positions ++ B.positions.map (fun o => o + c.ancor_offset)
    else B.positions ++ A.positions.map (fun o => o - c.ancor_offset)
  cls : N.position_class =
    if keep_token_a_ancor c.ancor_offset then A.position_class ++ B.position_class
    else B.position_class ++ A.position_class

/-- The cells of a shape placed at an anchor, each with its base class. -/
def placed_cells (anchor : tg.ipos2) (t : token_data) : List (tg.ipos2 × Int) :=
  (t.positions.zip t.position_class).map fun e => (anchor + tg.ivec2.of_pos e.1, e.2)

/-- The rule and the shapes of a pass of `apply_rule`: source, target and new class index
the shapes `A`, `B`, `N` of a well-formed list, and `N` is the combination of `A` and `B`. -/
structure pass_context (tokens : List token_data) (rule : rule) (A B N : token_data) :
    Prop where
  shapes : ∀ i t, index tokens i = some t → shape_ok t
  srcA : index tokens rule.constellation.source_class_id = some A
  tgtB : index tokens rule.constellation.target_class_id = some B
  newN : index tokens N.class_id = some N
  pos : N.positions =
    if keep_token_a_ancor rule.constellation.ancor_offset then
      A.positions ++ B.positions.map (fun o => o + rule.constellation.ancor_offset)
    else B.positions ++ A.positions.map (fun o => o - rule.constellation.ancor_offset)
  cls : N.position_class =
    if keep_token_a_ancor rule.constellation.ancor_offset then
      A.position_class ++ B.position_class
    else B.position_class ++ A.position_class

/-- The cell loop of `apply_rule` at one cell, with a record of the cells at which an id
was allocated, that is, at which a merge was performed (proof device). -/
def apply_rule_at_traced (rule : rule) (new_token : token_data)
    (st : image_data × List tg.ipos2) (coords : tg.ipos2) :
    Option (image_data × List tg.ipos2) := do
  let image ← apply_rule_at rule new_token st.1 coords
  pure (image, if image.max_token_id = st.1.max_token_id then st.2 else st.2 ++ [coords])

/-- The per-image scan of `apply_rule` together with the cells at which it merged, in scan
order (proof device). -/
def apply_rule_image_traced (rule : rule) (new_token : token_data) (image : image_data) :
    Option (image_data × List tg.ipos2) :=
  (scan image.initial_token_class.width image.initial_token_class.height).foldlM
    (apply_rule_at_traced rule new_token) (image, [])

/-- The cell `r` belongs, in the image `d0` before the pass, to an instance that one of the
merges at the cells `tr` joined. -/
def consumed (rule : rule) (d0 : image_data) (tr : List tg.ipos2) (r : tg.ipos2) : Prop :=
  ∃ p ∈ tr, d0.current_token_id.val r = d0.current_token_id.val p ∨
    d0.current_token_id.val r = d0.current_token_id.val (p + rule.constellation.ancor_offset)

/-- The merges at `p1` and `p2` join four different instances of the image `d0`. -/
def apart (rule : rule) (d0 : image_data) (p1 p2 : tg.ipos2) : Prop :=
  d0.current_token_id.val p1 ≠ d0.current_token_id.val p2 ∧
  d0.current_token_id.val p1
    ≠ d0.current_token_id.val (p2 + rule.constellation.ancor_offset) ∧
  d0.current_token_id.val (p1 + rule.constellation.ancor_offset)
    ≠ d0.current_token_id.val p2 ∧
  d0.current_token_id.val (p1 + rule.constellation.ancor_offset)
    ≠ d0.current_token_id.val (p2 + rule.constellation.ancor_offset)

/-- The state of a pass after the cells `pre`: the image and the cells merged so far. -/
structure pass_state (tokens : List token_data) (rule : rule) (N : token_data)
    (d0 : image_data) (pre : List tg.ipos2) (st : image_data × List tg.ipos2) : Prop where
  inv : image_inv tokens st.1
  init_eq : st.1.m_initial_token_class = d0.m_initial_token_class
  ancor_eq : st.1.token_ancor = d0.token_ancor ++ st.2.map (merged_ancor rule)
  next_eq : st.1.m_next_token_id = d0.m_next_token_id + (st.2.length : Int)
  sub : st.2.Sublist pre
  cand : ∀ p ∈ st.2, rule_matches rule d0 p
  merged : ∀ r, d0.m_initial_token_class.contains r = true → consumed rule d0 st.2 r →
    st.1.current_token_class.val r = N.class_id ∧
      d0.m_next_token_id ≤ st.1.current_token_id.val r
  kept : ∀ r, d0.m_initial_token_class.contains r = true → ¬ consumed rule d0 st.2 r →
    st.1.current_token_class.val r = d0.current_token_class.val r ∧
      st.1.current_token_id.val r = d0.current_token_id.val r
  disjoint : st.2.Pairwise (apart rule d0)
  greedy : ∀ p ∈ pre, rule_matches rule d0 p →
    consumed rule d0 st.2 p ∨ consumed rule d0 st.2 (p + rule.constellation.ancor_offset)

/-- The contacts of an image that cast a vote: for each unordered anchor pair the first
contact in the order of the counter (proof device, see `image_votes_closed`). -/
def voters (d : image_data) : List (tg.ipos2 × tg.ivec2) :=
  first_by (ancor_pair d) [] (contacts d)

/-- The cells of an image at which a rule matches, in scan order. -/
def candidates (rule : rule) (d : image_data) : List tg.ipos2 :=
  (scan d.initial_token_class.width d.initial_token_class.height).filter
    fun p => decide (rule_matches rule d p)

/-- Example corpus: one `4 x 1` image `[[1, 1, 1, 1]]`. -/
def quad_files : List (String × Int × img.image Int) :=
  [("quad_0.dat", 0, ⟨[1, 1, 1, 1], ⟨4, 1⟩⟩)]

/-- The number of merges that `apply_rule` performed between two lists of images: the
number of ids allocated, one per merge (tokenizer.cc:195). -/
def merges_performed (before after : List image_data) : Int :=
  (List.zipWith (fun d d' => d'.max_token_id - d.max_token_id) before after).sum

/-- The invariant behind C39: the state invariant, pairwise distinct positions in every
shape, and every shape beyond the initial ones is the new shape of an emitted rule with as
many positions as the two combined shapes together. -/
structure distinct_cells (token_max : Int) (s : tokenizer_state) : Prop where
  inv : state_inv s
  nodup : ∀ j N, index s.tokens j = some N → N.positions.Nodup
  learnt : ∀ j N, index s.tokens j = some N →
    index (initial_tokens token_max) j = some N ∨
    ∃ r ∈ s.rules, r.new_token_id = j ∧ ∃ A B,
      index s.tokens r.constellation.source_class_id = some A ∧
      index s.tokens r.constellation.target_class_id = some B ∧
      N.positions.length = A.positions.length + B.positions.length

/-- Body of the write loop of `apply_rule` (tokenizer.cc:198-206) in which taking the
out-of-bounds branch (`continue`, tokenizer.cc:201-202) is a failure: a device to state that
the branch is never taken. -/
def write_cell_strict (new_token : token_data) (new_ancor : tg.ipos2) (new_id : Int)
    (image : image_data) (p : tg.ipos2) : Option image_data :=
  let new_coords := new_ancor + tg.ivec2.of_pos p
  if !image.initial_token_class.contains new_coords then none else do
    let classes ← image.current_token_class.put new_coords new_token.class_id
    let ids ← image.current_token_id.put new_coords new_id
    some { image with current_token_class := classes, current_token_id := ids }

/-- The cell step of `apply_rule` (tokenizer.cc:167-207) with the strict write loop. -/
def apply_rule_at_strict (rule : rule) (new_token : token_data) (image : image_data)
    (coords : tg.ipos2) : Option image_data := do
  let offset := rule.constellation.ancor_offset
  let current_token_class ← image.current_token_class.get coords
  if current_token_class ≠ rule.constellation.source_class_id then some image else do
    let current_token_ancor ← index image.token_ancor (← image.current_token_id.get coords)
    if coords ≠ current_token_ancor then some image else
      let other_token_coords := coords + rule.constellation.ancor_offset
      if !image.initial_token_class.contains other_token_coords then some image else do
        let other_token_class ← image.current_token_class.get other_token_coords
        if other_token_class ≠ rule.constellation.target_class_id then some image else do
          let other_token_ancor ←
            index image.token_ancor (← image.current_token_id.get other_token_coords)
          if other_token_ancor ≠ other_token_coords then some image else
            let new_ancor :=
              if keep_token_a_ancor offset then current_token_ancor else other_token_ancor
            let (new_id, image) := image.next_token_id
            let image := { image with token_ancor := image.token_ancor ++ [new_ancor] }
            new_token.positions.foldlM (write_cell_strict new_token new_ancor new_id) image

/-- The per-image scan of `apply_rule` with the strict write loop. -/
def apply_rule_image_strict (rule : rule) (new_token : token_data) (image : image_data) :
    Option image_data :=
  let width := image.initial_token_class.width
  let height := image.initial_token_class.height
  (scan width height).foldlM (apply_rule_at_strict rule new_token) image

/-- The function `tp::apply_rule` with the strict write loop. -/
def apply_rule_strict (rule : rule) (new_token : token_data) (images : List image_data) :
    Option (List image_data) :=
  images.mapM (apply_rule_image_strict rule new_token)

/-- One iteration of the main loop of `tokenize` with the strict write loop. -/
def tokenize_iteration_strict (order : map_iteration) (s : tokenizer_state) :
    Option tokenizer_state := do
  let max_constellation ← get_most_common_constellation order s.image_data
  let new_token ← combine_tokens max_constellation s.tokens
  let new_rule : rule :=
    { constellation := max_constellation, new_token_id := (s.tokens.length : Int) }
  let rules := s.rules ++ [new_rule]
  let tokens := s.tokens ++ [new_token]
  let image_data ← apply_rule_strict new_rule new_token s.image_data
  pure { rules := rules, tokens := tokens, image_data := image_data }

/-- The main loop of `tokenize` with the strict write loop. -/
def tokenize_loop_strict (order : map_iteration) : Nat → tokenizer_state → Option tokenizer_state
  | 0, s => some s
  | n + 1, s => do
    let s ← tokenize_iteration_strict order s
    tokenize_loop_strict order n s

/-- The function `tp::tokenize` with the strict write loop. -/
def tokenize_strict (order : map_iteration) (token_max tokens_to_create : Int)
    (image_size : tg.isize2) (files : List (String × Int × img.image Int)) :
    Option tokenizer_state := do
  let _colors_to_create :=
    max (token_max + tokens_to_create + 1) (2 * image_size.width * image_size.height)
  let image_data ← read_folder files
  tokenize_loop_strict order tokens_to_create.toNat
    { rules := [], tokens := initial_tokens token_max, image_data := image_data }

/-- The function `tp::apply_rules` with the strict write loop. -/
def apply_rules_strict (rules : List rule) (tokens : List token_data)
    (images : List image_data) : Option (List image_data) :=
  rules.foldlM
    (fun images rule => do
      let new_token ← index tokens rule.new_token_id
      apply_rule_strict rule new_token images)
    images

/-- The rules of a list are passes over the shape list: each has its new shape and the
shapes of its source and target classes in the list, the new one combined from the two. -/
def rules_ok (tokens : List token_data) (rules : List rule) : Prop :=
  ∀ r ∈ rules, ∃ A B N, index tokens r.new_token_id = some N ∧ pass_context tokens r A B N

/-- The invariant behind C34: the state invariant, the shape list extends the initial one,
and the emitted rules are passes over the shape list. -/
structure learnt_ok (token_max : Int) (s : tokenizer_state) : Prop where
  inv : state_inv s
  base : ∃ T, s.tokens = initial_tokens token_max ++ T
  rules : rules_ok s.tokens s.rules

/-- The ids that occur in the id grid of an image, each once. -/
def grid_ids (d : image_data) : List Int :=
  ((scan d.initial_token_class.width d.initial_token_class.height).map
    d.current_token_id.val).dedup

/-- The number of distinct ids that occur in the id grid of an image. -/
def distinct_ids (d : image_data) : Nat := (grid_ids d).length

/-- The number of merges performed on an image since its construction: the ids allocated
beyond the `W * H` ids of the constructor (image_data.hh:26-34), one per merge
(tokenizer.cc:195). -/
def merges_on (d : image_data) : Int :=
  d.max_token_id - d.initial_token_class.width * d.initial_token_class.height

/-- The sizes of the shapes of the classes of the records of a token sequence. -/
def shape_sizes (tokens : List token_data) (seq : List (Int × Int × Int)) :
    Option (List Nat) :=
  seq.mapM fun r => (index tokens r.1).map fun t => t.positions.length

/-- The conservation law of an image: distinct ids plus merges is the number of cells. -/
def conserved (d : image_data) : Prop :=
  (distinct_ids d : Int) + merges_on d
    = d.initial_token_class.width * d.initial_token_class.height

/-- The invariant behind C38: shapes without repeated positions, and the conservation law
in every image. -/
structure conservation (token_max : Int) (s : tokenizer_state) : Prop where
  cells : distinct_cells token_max s
  images : ∀ d ∈ s.image_data, conserved d

end tp

/-! # Theorems -/

/-! ## Positions -/

namespace tg

@[simp] theorem ipos2.add_x (p : ipos2) (v : ivec2) : (p + v).x = p.x + v.x := rfl
@[simp] theorem ipos2.add_y (p : ipos2) (v : ivec2) : (p + v).y = p.y + v.y := rfl
@[simp] theorem ipos2.sub_x (p : ipos2) (v : ivec2) : (p - v).x = p.x - v.x := rfl
@[simp] theorem ipos2.sub_y (p : ipos2) (v : ivec2) : (p - v).y = p.y - v.y := rfl
@[simp] theorem ipos2.diff_x (p q : ipos2) : (p - q : ivec2).x = p.x - q.x := rfl
@[simp] theorem ipos2.diff_y (p q : ipos2) : (p - q : ivec2).y = p.y - q.y := rfl
@[simp] theorem ivec2.of_pos_x (p : ipos2) : (ivec2.of_pos p).x = p.x := rfl
@[simp] theorem ivec2.of_pos_y (p : ipos2) : (ivec2.of_pos p).y = p.y := rfl

theorem ipos2.ext_iff' (p q : ipos2) : p = q ↔ p.x = q.x ∧ p.y = q.y := by
  cases p; cases q; simp

end tg

/-! ## Images -/

namespace img

variable {α : Type}

theorem image.contains_iff (i : image α) (p : tg.ipos2) :
    i.contains p = true ↔
      0 ≤ p.x ∧ p.x < i._extents.width ∧ 0 ≤ p.y ∧ p.y < i._extents.height := by
  simp [image.contains, image.width, image.height, and_assoc]

theorem image.contains_congr {β : Type} (i : image α) (j : image β)
    (h : i._extents = j._extents) (p : tg.ipos2) : i.contains p = j.contains p := by
  simp [image.contains, image.width, image.height, h]

/-- The linear index of a cell inside the grid is below `width * height`. -/
theorem image.linear_index_lt (w h x y : Int) (hx : 0 ≤ x) (hxw : x < w) (hy : 0 ≤ y)
    (hyh : y < h) : 0 ≤ x + w * y ∧ x + w * y < w * h := by
  have hw : 0 < w := by omega
  constructor
  · have := mul_nonneg hw.le hy
    omega
  · have : w * (y + 1) ≤ w * h := mul_le_mul_of_nonneg_left (by omega) hw.le
    nlinarith

/-- The linear index determines the cell. -/
theorem image.linear_index_inj (w x y x' y' : Int) (hx : 0 ≤ x) (hxw : x < w) (hx' : 0 ≤ x')
    (hxw' : x' < w) (h : x + w * y = x' + w * y') : x = x' ∧ y = y' := by
  have hy : y = y' := by
    rcases lt_trichotomy y y' with hlt | heq | hgt
    · have : w * (y + 1) ≤ w * y' := mul_le_mul_of_nonneg_left (by omega) (by omega)
      nlinarith
    · exact heq
    · have : w * (y' + 1) ≤ w * y := mul_le_mul_of_nonneg_left (by omega) (by omega)
      nlinarith
  subst hy
  exact ⟨by omega, rfl⟩

theorem image.get_of_contains (i : image α) (hwf : i.well_formed) (p : tg.ipos2)
    (hp : i.contains p = true) : ∃ v, i.get p = some v := by
  rw [image.contains_iff] at hp
  obtain ⟨h1, h2, h3, h4⟩ := hp
  obtain ⟨_, _, hlen⟩ := hwf
  have hidx := image.linear_index_lt _ _ _ _ h1 h2 h3 h4
  have hlt : (p.x + i._extents.width * p.y).toNat < i._data.length := by
    have := hidx.1; have := hidx.2
    omega
  refine ⟨i._data[(p.x + i._extents.width * p.y).toNat], ?_⟩
  simp [image.get, image.read, h1, h2, h3, h4, List.getElem?_eq_getElem hlt]

theorem image.get_eq_val (i : image Int) (hwf : i.well_formed) (p : tg.ipos2)
    (hp : i.contains p = true) : i.get p = some (i.val p) := by
  obtain ⟨v, hv⟩ := image.get_of_contains i hwf p hp
  simp [image.val, hv]

theorem image.read_eq_val (i : image Int) (hwf : i.well_formed) (p : tg.ipos2)
    (hp : i.contains p = true) : i.read p.x p.y = some (i.val p) :=
  image.get_eq_val i hwf p hp

theorem image.get_eq_none (i : image α) (p : tg.ipos2) (hp : i.contains p = false) :
    i.get p = none := by
  have : ¬ (0 ≤ p.x ∧ p.x < i._extents.width ∧ 0 ≤ p.y ∧ p.y < i._extents.height) := by
    rw [← image.contains_iff]; simp [hp]
  simp [image.get, image.read, this]

/-- Effect of a write inside the grid of a well-formed image. -/
theorem image.put_spec (i : image α) (hwf : i.well_formed) (p : tg.ipos2)
    (hp : i.contains p = true) (v : α) :
    ∃ j, i.put p v = some j ∧ j._extents = i._extents ∧ j.well_formed ∧
      ∀ q, j.get q = if q = p then some v else i.get q := by
  have hp' := hp
  rw [image.contains_iff] at hp
  obtain ⟨h1, h2, h3, h4⟩ := hp
  obtain ⟨hw0, hh0, hlen⟩ := hwf
  have hidx := image.linear_index_lt _ _ _ _ h1 h2 h3 h4
  have hlt : (p.x + i._extents.width * p.y).toNat < i._data.length := by
    have := hidx.1; have := hidx.2
    omega
  refine ⟨{ i with _data := i._data.set (p.x + i._extents.width * p.y).toNat v }, ?_, rfl, ?_, ?_⟩
  · simp [image.put, image.write, h1, h2, h3, h4, hlt]
  · exact ⟨hw0, hh0, by simpa using hlen⟩
  · intro q
    by_cases hq : 0 ≤ q.x ∧ q.x < i._extents.width ∧ 0 ≤ q.y ∧ q.y < i._extents.height
    · obtain ⟨g1, g2, g3, g4⟩ := hq
      have hqidx := image.linear_index_lt _ _ _ _ g1 g2 g3 g4
      by_cases hqp : q = p
      · subst hqp
        simp [image.get, image.read, h1, h2, h3, h4, hlt]
      · have hne : (p.x + i._extents.width * p.y).toNat ≠ (q.x + i._extents.width * q.y).toNat := by
          intro heq
          have h5 : p.x + i._extents.width * p.y = q.x + i._extents.width * q.y := by
            have := hidx.1; have := hqidx.1
            omega
          have := image.linear_index_inj _ _ _ _ _ h1 h2 g1 g2 h5
          exact hqp ((tg.ipos2.ext_iff' q p).2 ⟨this.1.symm, this.2.symm⟩)
        simp [image.get, image.read, g1, g2, g3, g4, hqp, List.getElem?_set, hne]
    · have hqp : q ≠ p := by
        rintro rfl
        exact hq ⟨h1, h2, h3, h4⟩
      simp [image.get, image.read, hq, hqp]

theorem image.put_val (i : image Int) (hwf : i.well_formed) (p : tg.ipos2)
    (hp : i.contains p = true) (v : Int) :
    ∃ j, i.put p v = some j ∧ j._extents = i._extents ∧ j.well_formed ∧
      ∀ q, j.val q = if q = p then v else i.val q := by
  obtain ⟨j, h1, h2, h3, h4⟩ := image.put_spec i hwf p hp v
  refine ⟨j, h1, h2, h3, fun q => ?_⟩
  unfold image.val
  rw [h4 q]
  split <;> rfl

end img

namespace tp

/-! ## The scan order -/

theorem mem_scan (w h : Int) (p : tg.ipos2) :
    p ∈ scan w h ↔ 0 ≤ p.x ∧ p.x < w ∧ 0 ≤ p.y ∧ p.y < h := by
  simp only [scan, List.mem_flatMap, List.mem_map, List.mem_range]
  constructor
  · rintro ⟨y, hy, x, hx, rfl⟩
    dsimp only
    omega
  · rintro ⟨h1, h2, h3, h4⟩
    refine ⟨p.y.toNat, by omega, p.x.toNat, by omega, ?_⟩
    rw [tg.ipos2.ext_iff']
    dsimp only
    omega

theorem mem_scan_iff_contains {α : Type} (i : img.image α) (p : tg.ipos2) :
    p ∈ scan i.width i.height ↔ i.contains p = true := by
  rw [mem_scan, img.image.contains_iff]; rfl

theorem scan_pairwise (w h : Int) : (scan w h).Pairwise scan_lt := by
  unfold scan
  rw [List.pairwise_flatMap]
  constructor
  · intro y _
    rw [List.pairwise_map]
    refine (List.pairwise_lt_range _).imp ?_
    intro a b hab
    right
    dsimp only
    omega
  · refine (List.pairwise_lt_range _).imp ?_
    intro a b hab p hp q hq
    simp only [List.mem_map, List.mem_range] at hp hq
    obtain ⟨_, _, rfl⟩ := hp
    obtain ⟨_, _, rfl⟩ := hq
    left
    dsimp only
    omega

theorem scan_lt_irrefl (p : tg.ipos2) : ¬ scan_lt p p := by
  unfold scan_lt; omega

theorem scan_nodup (w h : Int) : (scan w h).Nodup :=
  (scan_pairwise w h).imp (fun {a b} hab (heq : a = b) => scan_lt_irrefl a (by rw [← heq] at hab; exact hab))

/-! ## Folds in the `Option` monad -/

/-- A state property kept by every step is kept by the whole fold, which succeeds. -/
theorem foldlM_invariant {σ β : Type} (f : σ → β → Option σ) (P : σ → Prop) (l : List β)
    (step : ∀ s b, b ∈ l → P s → ∃ s', f s b = some s' ∧ P s') (s : σ) (hs : P s) :
    ∃ s', l.foldlM f s = some s' ∧ P s' := by
  induction l generalizing s with
  | nil => exact ⟨s, rfl, hs⟩
  | cons b l ih =>
    obtain ⟨s1, h1, hP1⟩ := step s b (List.mem_cons_self _ _) hs
    obtain ⟨s2, h2, hP2⟩ := ih (fun s b hb => step s b (List.mem_cons_of_mem _ hb)) s1 hP1
    exact ⟨s2, by simp [List.foldlM_cons, h1, h2], hP2⟩

/-- A property of (processed prefix, state) kept by every step holds for the whole list. -/
theorem foldlM_prefix_invariant {σ β : Type} (f : σ → β → Option σ) (P : List β → σ → Prop)
    (l : List β)
    (step : ∀ pre b post s, l = pre ++ b :: post → P pre s → ∃ s', f s b = some s' ∧ P (pre ++ [b]) s')
    (s : σ) (hs : P [] s) : ∃ s', l.foldlM f s = some s' ∧ P l s' := by
  suffices h : ∀ (post pre : List β) (s : σ), l = pre ++ post → P pre s →
      ∃ s', post.foldlM f s = some s' ∧ P l s' from h l [] s rfl hs
  intro post
  induction post with
  | nil =>
    intro pre s hl hP
    simp only [List.append_nil] at hl
    subst hl
    exact ⟨s, rfl, hP⟩
  | cons b post ih =>
    intro pre s hl hP
    obtain ⟨s1, h1, hP1⟩ := step pre b post s hl hP
    obtain ⟨s2, h2, hP2⟩ := ih (pre ++ [b]) s1 (by simp [hl]) hP1
    exact ⟨s2, by simp [List.foldlM_cons, h1, h2], hP2⟩

/-- A successful fold keeps a property that every successful step keeps. -/
theorem foldlM_preserves {σ β : Type} (f : σ → β → Option σ) (P : σ → Prop) (l : List β)
    (step : ∀ s b s', b ∈ l → P s → f s b = some s' → P s') (s s' : σ) (hs : P s)
    (h : l.foldlM f s = some s') : P s' := by
  induction l generalizing s with
  | nil => simp at h; exact h ▸ hs
  | cons b l ih =>
    simp only [List.foldlM_cons, Option.bind_eq_bind, Option.bind_eq_some] at h
    obtain ⟨s1, h1, h2⟩ := h
    exact ih (fun s b s' hb => step s b s' (List.mem_cons_of_mem _ hb)) s1
      (step s b s1 (List.mem_cons_self _ _) hs h1) h2

/-- Elementwise characterisation of a successful `mapM`. -/
theorem mapM_some {β γ : Type} (f : β → Option γ) (l : List β) (r : List γ)
    (h : l.mapM f = some r) : List.Forall₂ (fun b c => f b = some c) l r := by
  induction l generalizing r with
  | nil =>
    rw [List.mapM_nil] at h
    cases h
    exact List.Forall₂.nil
  | cons b l ih =>
    simp only [List.mapM_cons, Option.bind_eq_bind, Option.bind_eq_some, Option.pure_def,
      Option.some.injEq] at h
    obtain ⟨c, hc, r', hr', rfl⟩ := h
    exact List.Forall₂.cons hc (ih r' hr')

theorem mapM_of_forall₂ {β γ : Type} (f : β → Option γ) (l : List β) (r : List γ)
    (h : List.Forall₂ (fun b c => f b = some c) l r) : l.mapM f = some r := by
  induction h with
  | nil => rfl
  | cons hc _ ih => rw [List.mapM_cons, hc, ih]; rfl

theorem index_eq_some {α : Type} (v : List α) (i : Int) (a : α) :
    index v i = some a ↔ 0 ≤ i ∧ v[i.toNat]? = some a := by
  unfold index
  split <;> simp [*]

theorem index_lt {α : Type} (v : List α) (i : Int) (a : α) (h : index v i = some a) :
    0 ≤ i ∧ i < v.length := by
  rw [index_eq_some] at h
  obtain ⟨h0, h1⟩ := h
  have := (List.getElem?_eq_some.1 h1).1
  omega

theorem index_append_left {α : Type} (v w : List α) (i : Int) (a : α)
    (h : index v i = some a) : index (v ++ w) i = some a := by
  have hlt := index_lt v i a h
  rw [index_eq_some] at h ⊢
  refine ⟨h.1, ?_⟩
  rw [List.getElem?_append_left (by omega)]
  exact h.2

theorem index_length_append {α : Type} (v : List α) (a : α) :
    index (v ++ [a]) (v.length : Int) = some a := by
  rw [index_eq_some]
  simp

theorem index_of_lt {α : Type} (v : List α) (i : Int) (h0 : 0 ≤ i) (h1 : i < v.length) :
    ∃ a, index v i = some a := by
  have hlt : i.toNat < v.length := by omega
  exact ⟨v[i.toNat], by rw [index_eq_some]; exact ⟨h0, List.getElem?_eq_getElem hlt⟩⟩

/-! ## Shape combination -/

theorem push_moved_take (move : tg.ipos2 → tg.ipos2) (token acc : token_data)
    (h : token.positions.length = token.position_class.length) (k : Nat)
    (hk : k ≤ token.positions.length) :
    (List.range k).foldlM
      (fun (acc : token_data) (i : Nat) => do
        let p ← token.positions[i]?
        let c ← token.position_class[i]?
        pure { acc with positions := acc.positions ++ [move p]
                        position_class := acc.position_class ++ [c] })
      acc
    = some { acc with positions := acc.positions ++ (token.positions.take k).map move
                      position_class := acc.position_class ++ token.position_class.take k } := by
  induction k with
  | zero => simp
  | succ k ih =>
    have hk1 : k < token.positions.length := by omega
    have hk2 : k < token.position_class.length := by omega
    rw [List.range_succ, List.foldlM_append, ih (by omega)]
    simp only [Option.bind_eq_bind, Option.some_bind, List.foldlM_cons, List.foldlM_nil,
      List.getElem?_eq_getElem hk1, List.getElem?_eq_getElem hk2, Option.pure_def,
      List.take_succ, List.map_append, List.append_assoc, Option.toList_some, List.map_cons,
      List.map_nil, Option.bind_some]

theorem push_moved_eq (move : tg.ipos2 → tg.ipos2) (token acc : token_data)
    (h : token.positions.length = token.position_class.length) :
    push_moved move token acc
      = some { acc with positions := acc.positions ++ token.positions.map move
                        position_class := acc.position_class ++ token.position_class } := by
  unfold push_moved
  rw [push_moved_take move token acc h _ le_rfl]
  simp [h]

/-- Closed form of `combine_tokens` on index-aligned shapes. -/
theorem combine_tokens_eq (rule : constellation) (tokens : List token_data)
    (token_a token_b : token_data)
    (ha : index tokens rule.source_class_id = some token_a)
    (hb : index tokens rule.target_class_id = some token_b)
    (hla : token_a.positions.length = token_a.position_class.length)
    (hlb : token_b.positions.length = token_b.position_class.length) :
    combine_tokens rule tokens = some
      (if keep_token_a_ancor rule.ancor_offset then
        { positions := token_a.positions ++ token_b.positions.map (fun p => p + rule.ancor_offset)
          position_class := token_a.position_class ++ token_b.position_class
          class_id := (tokens.length : Int) }
      else
        { positions := token_b.positions ++ token_a.positions.map (fun p => p - rule.ancor_offset)
          position_class := token_b.position_class ++ token_a.position_class
          class_id := (tokens.length : Int) }) := by
  unfold combine_tokens
  simp only [ha, hb, Option.bind_eq_bind, Option.some_bind, List.nil_append]
  split
  · rw [push_moved_eq _ _ _ hlb]
  · rw [push_moved_eq _ _ _ hla]

theorem combine_tokens_some (rule : constellation) (tokens : List token_data) (t : token_data)
    (h : combine_tokens rule tokens = some t) :
    ∃ token_a token_b, index tokens rule.source_class_id = some token_a ∧
      index tokens rule.target_class_id = some token_b := by
  unfold combine_tokens at h
  simp only [Option.bind_eq_bind, Option.bind_eq_some] at h
  obtain ⟨a, ha, b, hb, _⟩ := h
  exact ⟨a, b, ha, hb⟩

theorem keep_token_a_ancor_iff (offset : tg.ivec2) :
    keep_token_a_ancor offset = true ↔ 0 < offset.y ∨ (offset.y = 0 ∧ 0 ≤ offset.x) := by
  simp only [keep_token_a_ancor, Bool.not_eq_true', Bool.or_eq_false_iff,
    decide_eq_false_iff_not, Bool.and_eq_false_imp, decide_eq_true_eq, not_lt]
  omega

theorem keep_token_a_ancor_false_iff (offset : tg.ivec2) :
    keep_token_a_ancor offset = false ↔ offset.y < 0 ∨ (offset.y = 0 ∧ offset.x < 0) := by
  rw [← Bool.not_eq_true, keep_token_a_ancor_iff]
  omega

/-- The combined shape of two well-formed shapes is well-formed. -/
theorem combine_tokens_shape_ok (rule : constellation) (tokens : List token_data)
    (token_a token_b t : token_data)
    (ha : index tokens rule.source_class_id = some token_a)
    (hb : index tokens rule.target_class_id = some token_b)
    (hoa : shape_ok token_a) (hob : shape_ok token_b)
    (h : combine_tokens rule tokens = some t) : shape_ok t := by
  rw [combine_tokens_eq rule tokens token_a token_b ha hb hoa.aligned hob.aligned] at h
  simp only [Option.some.injEq] at h
  subst h
  by_cases hk : keep_token_a_ancor rule.ancor_offset = true
  · have hk' := (keep_token_a_ancor_iff _).1 hk
    simp only [hk, if_true]
    refine ⟨by simp [hoa.aligned, hob.aligned], ?_, ?_⟩
    · have := hoa.head
      cases hpa : token_a.positions with
      | nil => simp [hpa] at this
      | cons o rest => simpa [hpa] using this
    · intro o ho
      simp only [List.mem_append, List.mem_map] at ho
      rcases ho with ho | ⟨o', ho', rfl⟩
      · exact hoa.lex o ho
      · have := hob.lex o' ho'
        unfold lex_nonneg at this ⊢
        simp only [tg.ipos2.add_x, tg.ipos2.add_y]
        omega
  · simp only [Bool.not_eq_true] at hk
    have hk' := (keep_token_a_ancor_false_iff _).1 hk
    simp only [hk, Bool.false_eq_true, if_false]
    refine ⟨by simp [hoa.aligned, hob.aligned], ?_, ?_⟩
    · have := hob.head
      cases hpb : token_b.positions with
      | nil => simp [hpb] at this
      | cons o rest => simpa [hpb] using this
    · intro o ho
      simp only [List.mem_append, List.mem_map] at ho
      rcases ho with ho | ⟨o', ho', rfl⟩
      · exact hob.lex o ho
      · have := hoa.lex o' ho'
        unfold lex_nonneg at this ⊢
        simp only [tg.ipos2.sub_x, tg.ipos2.sub_y]
        omega

/-! ## The write loop of `apply_rule` -/

theorem write_cell_spec (new_token : token_data) (new_ancor : tg.ipos2) (new_id : Int)
    (d : image_data) (hg : grids_ok d) (o : tg.ipos2)
    (ho : d.m_initial_token_class.contains (new_ancor + tg.ivec2.of_pos o) = true) :
    ∃ d', write_cell new_token new_ancor new_id d o = some d' ∧ same_frame d d' ∧
      (∀ r, d'.current_token_class.val r =
        if r = new_ancor + tg.ivec2.of_pos o then new_token.class_id
        else d.current_token_class.val r) ∧
      (∀ r, d'.current_token_id.val r =
        if r = new_ancor + tg.ivec2.of_pos o then new_id else d.current_token_id.val r) := by
  have hc : d.current_token_class.contains (new_ancor + tg.ivec2.of_pos o) = true := by
    rw [img.image.contains_congr _ _ hg.class_ext]; exact ho
  have hi : d.current_token_id.contains (new_ancor + tg.ivec2.of_pos o) = true := by
    rw [img.image.contains_congr _ _ hg.id_ext]; exact ho
  obtain ⟨c', hc1, hc2, hc3, hc4⟩ :=
    img.image.put_val d.current_token_class hg.class_wf _ hc new_token.class_id
  obtain ⟨i', hi1, hi2, hi3, hi4⟩ := img.image.put_val d.current_token_id hg.id_wf _ hi new_id
  refine ⟨{ d with current_token_class := c', current_token_id := i' }, ?_, ?_, hc4, hi4⟩
  · simp [write_cell, image_data.initial_token_class, ho, hc1, hi1]
  · exact ⟨rfl, rfl, rfl, ⟨hg.init_wf, hc3, hi3, hc2.trans hg.class_ext, hi2.trans hg.id_ext,
      hg.ancor_len⟩⟩

theorem ite_ite_of_iff {β : Type} (P Q R : Prop) [Decidable P] [Decidable Q] [Decidable R]
    (h : P ↔ Q ∨ R) (a b : β) :
    (if R then a else if Q then a else b) = if P then a else b := by
  by_cases hQ : Q <;> by_cases hR : R <;> simp [h, hQ, hR]

theorem placed_cons (new_ancor o : tg.ipos2) (cells : List tg.ipos2) (r : tg.ipos2) :
    (∃ o' ∈ o :: cells, new_ancor + tg.ivec2.of_pos o' = r) ↔
      r = new_ancor + tg.ivec2.of_pos o ∨ ∃ o' ∈ cells, new_ancor + tg.ivec2.of_pos o' = r := by
  constructor
  · rintro ⟨o', ho', h⟩
    rcases List.mem_cons.1 ho' with rfl | ho'
    · exact Or.inl h.symm
    · exact Or.inr ⟨o', ho', h⟩
  · rintro (h | ⟨o', ho', h⟩)
    · exact ⟨o, List.mem_cons_self _ _, h.symm⟩
    · exact ⟨o', List.mem_cons_of_mem _ ho', h⟩

theorem write_cells_spec (new_token : token_data) (new_ancor : tg.ipos2) (new_id : Int)
    (cells : List tg.ipos2) (d : image_data) (hg : grids_ok d)
    (hcells : ∀ o ∈ cells, d.m_initial_token_class.contains (new_ancor + tg.ivec2.of_pos o) = true) :
    ∃ d', cells.foldlM (write_cell new_token new_ancor new_id) d = some d' ∧ same_frame d d' ∧
      (∀ r, d'.current_token_class.val r =
        if ∃ o ∈ cells, new_ancor + tg.ivec2.of_pos o = r then new_token.class_id
        else d.current_token_class.val r) ∧
      (∀ r, d'.current_token_id.val r =
        if ∃ o ∈ cells, new_ancor + tg.ivec2.of_pos o = r then new_id
        else d.current_token_id.val r) := by
  induction cells generalizing d with
  | nil =>
    exact ⟨d, rfl, ⟨rfl, rfl, rfl, hg⟩, by simp, by simp⟩
  | cons o cells ih =>
    obtain ⟨d1, h1, hf1, hc1, hi1⟩ :=
      write_cell_spec new_token new_ancor new_id d hg o (hcells o (List.mem_cons_self _ _))
    have hcells1 : ∀ o ∈ cells,
        d1.m_initial_token_class.contains (new_ancor + tg.ivec2.of_pos o) = true := by
      intro o' ho'
      rw [hf1.init_eq]
      exact hcells o' (List.mem_cons_of_mem _ ho')
    obtain ⟨d2, h2, hf2, hc2, hi2⟩ := ih d1 hf1.ok hcells1
    refine ⟨d2, by simp [List.foldlM_cons, h1, h2], ?_, ?_, ?_⟩
    · exact ⟨hf2.init_eq.trans hf1.init_eq, hf2.ancor_eq.trans hf1.ancor_eq,
        hf2.next_eq.trans hf1.next_eq, hf2.ok⟩
    · intro r
      rw [hc2 r, hc1 r]
      exact ite_ite_of_iff _ _ _ (placed_cons new_ancor o cells r) _ _
    · intro r
      rw [hi2 r, hi1 r]
      exact ite_ite_of_iff _ _ _ (placed_cons new_ancor o cells r) _ _

/-! ## Token instances under the image invariant -/

theorem shape_ok_zero (t : token_data) (h : shape_ok t) : t.positions[0]? = some ⟨0, 0⟩ := by
  have := h.head
  cases hp : t.positions with
  | nil => simp [hp] at this
  | cons o rest => simpa [hp] using this

theorem add_zero_pos (p : tg.ipos2) : p + tg.ivec2.of_pos ⟨0, 0⟩ = p := by
  rw [tg.ipos2.ext_iff']
  simp

/-- The cells of the instance anchored at `p`, read off the shape of its class. -/
theorem instance_cells (tokens : List token_data) (d : image_data) (p : tg.ipos2)
    (A : token_data) (hinv : image_inv tokens d)
    (hp : d.m_initial_token_class.contains p = true)
    (hap : index d.token_ancor (d.current_token_id.val p) = some p)
    (hA : index tokens (d.current_token_class.val p) = some A) :
    ∀ (k : Nat) (o : tg.ipos2), A.positions[k]? = some o →
      d.m_initial_token_class.contains (p + tg.ivec2.of_pos o) = true ∧
      d.current_token_id.val (p + tg.ivec2.of_pos o) = d.current_token_id.val p ∧
      d.current_token_class.val (p + tg.ivec2.of_pos o) = d.current_token_class.val p ∧
      A.position_class[k]? = some (d.m_initial_token_class.val (p + tg.ivec2.of_pos o)) := by
  obtain ⟨_, _, a, shape, ha, hs, hall, _⟩ := hinv.2 p hp
  rw [hap] at ha
  rw [hA] at hs
  cases ha
  cases hs
  exact hall

/-- Every cell carrying the id of the instance anchored at `p` is a cell of its shape. -/
theorem instance_complete (tokens : List token_data) (d : image_data) (p : tg.ipos2)
    (A : token_data) (hinv : image_inv tokens d)
    (hshapes : ∀ i t, index tokens i = some t → shape_ok t)
    (hap : index d.token_ancor (d.current_token_id.val p) = some p)
    (hA : index tokens (d.current_token_class.val p) = some A)
    (r : tg.ipos2) (hr : d.m_initial_token_class.contains r = true)
    (hid : d.current_token_id.val r = d.current_token_id.val p) :
    d.current_token_class.val r = d.current_token_class.val p ∧
      ∃ o ∈ A.positions, p + tg.ivec2.of_pos o = r := by
  obtain ⟨_, _, a, shape, ha, hs, hall, hex⟩ := hinv.2 r hr
  rw [hid, hap] at ha
  cases ha
  have h0 := hall 0 ⟨0, 0⟩ (shape_ok_zero shape (hshapes _ _ hs))
  rw [add_zero_pos] at h0
  have hc : d.current_token_class.val r = d.current_token_class.val p := h0.2.2.1.symm
  rw [hc, hA] at hs
  cases hs
  exact ⟨hc, hex⟩

/-! ## The cells written by a merge -/

/-- Each entry of the combined shape is an entry of the source shape placed at the source
anchor or an entry of the target shape placed at the target anchor, with its base class. -/
theorem placed_entry (c : constellation) (A B N : token_data) (p na : tg.ipos2)
    (hla : A.positions.length = A.position_class.length)
    (hlb : B.positions.length = B.position_class.length)
    (hNpos : N.positions =
      if keep_token_a_ancor c.ancor_offset then
        A.positions ++ B.positions.map (fun o => o + c.ancor_offset)
      else B.positions ++ A.positions.map (fun o => o - c.ancor_offset))
    (hNcls : N.position_class =
      if keep_token_a_ancor c.ancor_offset then A.position_class ++ B.position_class
      else B.position_class ++ A.position_class)
    (hna : na = if keep_token_a_ancor c.ancor_offset then p else p + c.ancor_offset)
    (k : Nat) (o : tg.ipos2) (hk : N.positions[k]? = some o) :
    (∃ (k' : Nat) (o' : tg.ipos2), A.positions[k']? = some o' ∧
        na + tg.ivec2.of_pos o = p + tg.ivec2.of_pos o' ∧
        N.position_class[k]? = A.position_class[k']?) ∨
    (∃ (k' : Nat) (o' : tg.ipos2), B.positions[k']? = some o' ∧
        na + tg.ivec2.of_pos o = (p + c.ancor_offset) + tg.ivec2.of_pos o' ∧
        N.position_class[k]? = B.position_class[k']?) := by
  by_cases hkeep : keep_token_a_ancor c.ancor_offset = true
  · simp only [hkeep, if_true] at hNpos hNcls hna
    subst hna
    rw [hNpos, List.getElem?_append] at hk
    rw [hNcls, List.getElem?_append]
    by_cases hlt : k < A.positions.length
    · left
      rw [if_pos hlt] at hk
      exact ⟨k, o, hk, rfl, by rw [if_pos (by omega)]⟩
    · right
      rw [if_neg hlt, List.getElem?_map] at hk
      obtain ⟨o', ho', rfl⟩ := Option.map_eq_some'.1 hk
      refine ⟨k - A.positions.length, o', ho', ?_, ?_⟩
      · rw [tg.ipos2.ext_iff']
        simp only [tg.ipos2.add_x, tg.ipos2.add_y, tg.ivec2.of_pos_x, tg.ivec2.of_pos_y]
        omega
      · rw [if_neg (by omega), hla]
  · simp only [hkeep, Bool.false_eq_true, if_false] at hNpos hNcls hna
    subst hna
    rw [hNpos, List.getElem?_append] at hk
    rw [hNcls, List.getElem?_append]
    by_cases hlt : k < B.positions.length
    · right
      rw [if_pos hlt] at hk
      exact ⟨k, o, hk, rfl, by rw [if_pos (by omega)]⟩
    · left
      rw [if_neg hlt, List.getElem?_map] at hk
      obtain ⟨o', ho', rfl⟩ := Option.map_eq_some'.1 hk
      refine ⟨k - B.positions.length, o', ho', ?_, ?_⟩
      · rw [tg.ipos2.ext_iff']
        simp only [tg.ipos2.add_x, tg.ipos2.add_y, tg.ipos2.sub_x, tg.ipos2.sub_y,
          tg.ivec2.of_pos_x, tg.ivec2.of_pos_y]
        omega
      · rw [if_neg (by omega), hlb]

/-- Conversely every placed entry of the source and of the target shape is a placed entry
of the combined shape. -/
theorem placed_of_parts (c : constellation) (A B N : token_data) (p na : tg.ipos2)
    (hNpos : N.positions =
      if keep_token_a_ancor c.ancor_offset then
        A.positions ++ B.positions.map (fun o => o + c.ancor_offset)
      else B.positions ++ A.positions.map (fun o => o - c.ancor_offset))
    (hna : na = if keep_token_a_ancor c.ancor_offset then p else p + c.ancor_offset)
    (r : tg.ipos2)
    (h : (∃ o ∈ A.positions, p + tg.ivec2.of_pos o = r) ∨
      (∃ o ∈ B.positions, (p + c.ancor_offset) + tg.ivec2.of_pos o = r)) :
    ∃ o ∈ N.positions, na + tg.ivec2.of_pos o = r := by
  by_cases hkeep : keep_token_a_ancor c.ancor_offset = true
  · simp only [hkeep, if_true] at hNpos hna
    subst hna
    rw [hNpos]
    rcases h with ⟨o, ho, rfl⟩ | ⟨o, ho, rfl⟩
    · exact ⟨o, List.mem_append_left _ ho, rfl⟩
    · refine ⟨o + c.ancor_offset, List.mem_append_right _ (List.mem_map_of_mem _ ho), ?_⟩
      rw [tg.ipos2.ext_iff']
      simp only [tg.ipos2.add_x, tg.ipos2.add_y, tg.ivec2.of_pos_x, tg.ivec2.of_pos_y]
      omega
  · simp only [hkeep, Bool.false_eq_true, if_false] at hNpos hna
    subst hna
    rw [hNpos]
    rcases h with ⟨o, ho, rfl⟩ | ⟨o, ho, rfl⟩
    · refine ⟨o - c.ancor_offset, List.mem_append_right _ (List.mem_map_of_mem _ ho), ?_⟩
      rw [tg.ipos2.ext_iff']
      simp only [tg.ipos2.add_x, tg.ipos2.add_y, tg.ipos2.sub_x, tg.ipos2.sub_y,
        tg.ivec2.of_pos_x, tg.ivec2.of_pos_y]
      omega
    · exact ⟨o, List.mem_append_left _ ho, rfl⟩

/-- The cells written by a merge are exactly the cells of the two merged instances. -/
theorem merge_at.placed_iff {tokens : List token_data} {d : image_data} {c : constellation}
    {A B N : token_data} {p na : tg.ipos2} (m : merge_at tokens d c A B N p na) (r : tg.ipos2) :
    (∃ o ∈ N.positions, na + tg.ivec2.of_pos o = r) ↔
      d.m_initial_token_class.contains r = true ∧
        (d.current_token_id.val r = d.current_token_id.val p ∨
          d.current_token_id.val r = d.current_token_id.val (p + c.ancor_offset)) := by
  have hA' : index tokens (d.current_token_class.val p) = some A := by rw [m.hcp]; exact m.srcA
  have hB' : index tokens (d.current_token_class.val (p + c.ancor_offset)) = some B := by
    rw [m.hcq]; exact m.tgtB
  constructor
  · rintro ⟨o, ho, rfl⟩
    obtain ⟨k, hk⟩ := List.mem_iff_getElem?.1 ho
    rcases placed_entry c A B N p na (m.shapes _ _ m.srcA).aligned (m.shapes _ _ m.tgtB).aligned
      m.pos m.cls m.hna k o hk with ⟨k', o', hk', heq, _⟩ | ⟨k', o', hk', heq, _⟩
    · rw [heq]
      have := instance_cells tokens d p A m.inv m.hp m.hap hA' k' o' hk'
      exact ⟨this.1, Or.inl this.2.1⟩
    · rw [heq]
      have := instance_cells tokens d _ B m.inv m.hq m.haq hB' k' o' hk'
      exact ⟨this.1, Or.inr this.2.1⟩
  · rintro ⟨hr, hid | hid⟩
    · exact placed_of_parts c A B N p na m.pos m.hna r
        (Or.inl (instance_complete tokens d p A m.inv m.shapes m.hap hA' r hr hid).2)
    · exact placed_of_parts c A B N p na m.pos m.hna r
        (Or.inr (instance_complete tokens d _ B m.inv m.shapes m.haq hB' r hr hid).2)

/-- A merge re-establishes the image invariant. -/
theorem merge_at.keeps_inv {tokens : List token_data} {d : image_data} {c : constellation}
    {A B N : token_data} {p na : tg.ipos2} (m : merge_at tokens d c A B N p na)
    (d' : image_data) (hg' : grids_ok d')
    (hinit : d'.m_initial_token_class = d.m_initial_token_class)
    (hanc : d'.token_ancor = d.token_ancor ++ [na])
    (hnext : d'.m_next_token_id = d.m_next_token_id + 1)
    (hcls' : ∀ r, d'.current_token_class.val r =
      if ∃ o ∈ N.positions, na + tg.ivec2.of_pos o = r then N.class_id
      else d.current_token_class.val r)
    (hids' : ∀ r, d'.current_token_id.val r =
      if ∃ o ∈ N.positions, na + tg.ivec2.of_pos o = r then d.m_next_token_id
      else d.current_token_id.val r) :
    tp.image_inv tokens d' := by
  have hA' : index tokens (d.current_token_class.val p) = some A := by rw [m.hcp]; exact m.srcA
  have hB' : index tokens (d.current_token_class.val (p + c.ancor_offset)) = some B := by
    rw [m.hcq]; exact m.tgtB
  have hlen : (d.token_ancor.length : Int) = d.m_next_token_id := m.inv.1.ancor_len
  refine ⟨hg', fun r hr => ?_⟩
  rw [hinit] at hr
  by_cases hw : ∃ o ∈ N.positions, na + tg.ivec2.of_pos o = r
  · -- a cell of the new instance
    have hidr : d'.current_token_id.val r = d.m_next_token_id := by rw [hids' r, if_pos hw]
    have hclr : d'.current_token_class.val r = N.class_id := by rw [hcls' r, if_pos hw]
    refine ⟨by rw [hidr]; omega, by rw [hidr, hnext]; omega, na, N, ?_, ?_, ?_, hw⟩
    · rw [hidr, hanc, ← hlen]; exact index_length_append _ _
    · rw [hclr]; exact m.newN
    · intro k o hk
      have hmem : ∃ o' ∈ N.positions, na + tg.ivec2.of_pos o' = na + tg.ivec2.of_pos o :=
        ⟨o, List.mem_iff_getElem?.2 ⟨k, hk⟩, rfl⟩
      rw [hinit, hids' _, hcls' _, if_pos hmem, if_pos hmem, hidr, hclr]
      refine ⟨((m.placed_iff _).1 hmem).1, rfl, rfl, ?_⟩
      rcases placed_entry c A B N p na (m.shapes _ _ m.srcA).aligned
        (m.shapes _ _ m.tgtB).aligned m.pos m.cls m.hna k o hk with
        ⟨k', o', hk', heq, hpc⟩ | ⟨k', o', hk', heq, hpc⟩
      · rw [hpc, heq]
        exact (instance_cells tokens d p A m.inv m.hp m.hap hA' k' o' hk').2.2.2
      · rw [hpc, heq]
        exact (instance_cells tokens d _ B m.inv m.hq m.haq hB' k' o' hk').2.2.2
  · -- an untouched cell
    have hidr : d'.current_token_id.val r = d.current_token_id.val r := by
      rw [hids' r, if_neg hw]
    have hclr : d'.current_token_class.val r = d.current_token_class.val r := by
      rw [hcls' r, if_neg hw]
    obtain ⟨h0, h1, a, shape, ha, hs, hall, hex⟩ := m.inv.2 r hr
    refine ⟨by rw [hidr]; exact h0, by rw [hidr, hnext]; omega, a, shape, ?_, ?_, ?_, hex⟩
    · rw [hidr, hanc]; exact index_append_left _ _ _ _ ha
    · rw [hclr]; exact hs
    · intro k o hk
      obtain ⟨g1, g2, g3, g4⟩ := hall k o hk
      have hnw : ¬ ∃ o' ∈ N.positions, na + tg.ivec2.of_pos o' = a + tg.ivec2.of_pos o := by
        intro hcon
        have h2 := ((m.placed_iff _).1 hcon).2
        rw [g2] at h2
        exact hw ((m.placed_iff r).2 ⟨hr, h2⟩)
      rw [hinit, hids' _, hcls' _, if_neg hnw, if_neg hnw, hidr, hclr]
      exact ⟨g1, g2, g3, g4⟩

theorem grids_ok.class_contains {d : image_data} (hg : grids_ok d) (p : tg.ipos2) :
    d.current_token_class.contains p = d.m_initial_token_class.contains p :=
  img.image.contains_congr _ _ hg.class_ext p

theorem grids_ok.id_contains {d : image_data} (hg : grids_ok d) (p : tg.ipos2) :
    d.current_token_id.contains p = d.m_initial_token_class.contains p :=
  img.image.contains_congr _ _ hg.id_ext p

theorem grids_ok.get_class {d : image_data} (hg : grids_ok d) (p : tg.ipos2)
    (hp : d.m_initial_token_class.contains p = true) :
    d.current_token_class.get p = some (d.current_token_class.val p) :=
  img.image.get_eq_val _ hg.class_wf p (by rw [hg.class_contains]; exact hp)

theorem grids_ok.get_id {d : image_data} (hg : grids_ok d) (p : tg.ipos2)
    (hp : d.m_initial_token_class.contains p = true) :
    d.current_token_id.get p = some (d.current_token_id.val p) :=
  img.image.get_eq_val _ hg.id_wf p (by rw [hg.id_contains]; exact hp)

theorem image_inv.ancor {tokens : List token_data} {d : image_data} (h : image_inv tokens d)
    (p : tg.ipos2) (hp : d.m_initial_token_class.contains p = true) :
    ∃ a, index d.token_ancor (d.current_token_id.val p) = some a := by
  obtain ⟨_, _, a, _, ha, _⟩ := h.2 p hp
  exact ⟨a, ha⟩

/-- One cell step of `apply_rule` succeeds and keeps the image invariant. -/
theorem apply_rule_at_inv (tokens : List token_data) (rule : rule) (A B N : token_data)
    (d : image_data) (p : tg.ipos2)
    (hinv : image_inv tokens d)
    (hshapes : ∀ i t, index tokens i = some t → shape_ok t)
    (hA : index tokens rule.constellation.source_class_id = some A)
    (hB : index tokens rule.constellation.target_class_id = some B)
    (hN : index tokens N.class_id = some N)
    (hpos : N.positions =
      if keep_token_a_ancor rule.constellation.ancor_offset then
        A.positions ++ B.positions.map (fun o => o + rule.constellation.ancor_offset)
      else B.positions ++ A.positions.map (fun o => o - rule.constellation.ancor_offset))
    (hcls : N.position_class =
      if keep_token_a_ancor rule.constellation.ancor_offset then
        A.position_class ++ B.position_class
      else B.position_class ++ A.position_class)
    (hp : d.m_initial_token_class.contains p = true) :
    ∃ d', apply_rule_at rule N d p = some d' ∧ image_inv tokens d' ∧
      d'.m_initial_token_class = d.m_initial_token_class := by
  have hg := hinv.1
  obtain ⟨a, ha⟩ := hinv.ancor p hp
  unfold apply_rule_at
  simp only [hg.get_class p hp, hg.get_id p hp, ha, Option.bind_eq_bind, Option.some_bind,
    image_data.initial_token_class]
  by_cases h1 : d.current_token_class.val p = rule.constellation.source_class_id
  swap
  · exact ⟨d, by simp [h1], hinv, rfl⟩
  by_cases h2 : p = a
  swap
  · exact ⟨d, by simp [h1, h2], hinv, rfl⟩
  subst h2
  by_cases h3 : d.m_initial_token_class.contains (p + rule.constellation.ancor_offset) = true
  swap
  · exact ⟨d, by simp [h1, h3], hinv, rfl⟩
  obtain ⟨b, hb⟩ := hinv.ancor _ h3
  simp only [hg.get_class _ h3, hg.get_id _ h3, hb, Option.some_bind]
  by_cases h4 : d.current_token_class.val (p + rule.constellation.ancor_offset)
      = rule.constellation.target_class_id
  swap
  · exact ⟨d, by simp [h1, h3, h4], hinv, rfl⟩
  by_cases h5 : b = p + rule.constellation.ancor_offset
  swap
  · exact ⟨d, by simp [h1, h3, h4, h5], hinv, rfl⟩
  subst h5
  -- the merge
  have m : merge_at tokens d rule.constellation A B N p
      (if keep_token_a_ancor rule.constellation.ancor_offset then p
        else p + rule.constellation.ancor_offset) :=
    ⟨hinv, hshapes, hA, hB, hN, hpos, hcls, hp, h1, ha, h3, h4, hb, rfl⟩
  have hg1 : grids_ok
      { d with m_next_token_id := d.m_next_token_id + 1
               token_ancor := d.token_ancor ++
                [if keep_token_a_ancor rule.constellation.ancor_offset then p
                  else p + rule.constellation.ancor_offset] } :=
    ⟨hg.init_wf, hg.class_wf, hg.id_wf, hg.class_ext, hg.id_ext, by
      have := hg.ancor_len
      simp only [List.length_append, List.length_singleton, Nat.cast_add, Nat.cast_one]
      omega⟩
  obtain ⟨d', hd', hf, hc', hi'⟩ := write_cells_spec N
    (if keep_token_a_ancor rule.constellation.ancor_offset then p
      else p + rule.constellation.ancor_offset) d.m_next_token_id N.positions _ hg1
    (fun o ho => ((m.placed_iff _).1 ⟨o, ho, rfl⟩).1)
  refine ⟨d', ?_, m.keeps_inv d' hf.ok hf.init_eq hf.ancor_eq hf.next_eq hc' hi', hf.init_eq⟩
  simp only [h1, h3, h4, ne_eq, not_true_eq_false, if_false, Bool.not_true, Bool.false_eq_true,
    image_data.next_token_id]
  exact hd'

/-- The per-image scan of `apply_rule` succeeds and keeps the image invariant. -/
theorem apply_rule_image_inv (tokens : List token_data) (rule : rule) (A B N : token_data)
    (d : image_data)
    (hinv : image_inv tokens d)
    (hshapes : ∀ i t, index tokens i = some t → shape_ok t)
    (hA : index tokens rule.constellation.source_class_id = some A)
    (hB : index tokens rule.constellation.target_class_id = some B)
    (hN : index tokens N.class_id = some N)
    (hpos : N.positions =
      if keep_token_a_ancor rule.constellation.ancor_offset then
        A.positions ++ B.positions.map (fun o => o + rule.constellation.ancor_offset)
      else B.positions ++ A.positions.map (fun o => o - rule.constellation.ancor_offset))
    (hcls : N.position_class =
      if keep_token_a_ancor rule.constellation.ancor_offset then
        A.position_class ++ B.position_class
      else B.position_class ++ A.position_class) :
    ∃ d', apply_rule_image rule N d = some d' ∧ image_inv tokens d' ∧
      d'.m_initial_token_class = d.m_initial_token_class := by
  unfold apply_rule_image
  refine foldlM_invariant (apply_rule_at rule N)
    (fun s => image_inv tokens s ∧ s.m_initial_token_class = d.m_initial_token_class)
    _ ?_ d ⟨hinv, rfl⟩
  intro s c hc ⟨hs, hsi⟩
  have hcs : s.m_initial_token_class.contains c = true := by
    rw [hsi]
    exact (mem_scan_iff_contains d.m_initial_token_class c).1 hc
  obtain ⟨s', h1, h2, h3⟩ := apply_rule_at_inv tokens rule A B N s c hs hshapes hA hB hN hpos hcls hcs
  exact ⟨s', h1, h2, h3.trans hsi⟩

end tp

namespace img

theorem image.val_mem_data (i : image Int) (hwf : i.well_formed) (p : tg.ipos2)
    (hp : i.contains p = true) : i.val p ∈ i._data := by
  have h := image.get_eq_val i hwf p hp
  unfold image.get image.read at h
  split at h
  · exact List.mem_iff_getElem?.2 ⟨_, h⟩
  · cases h

theorem image.resize_well_formed (i : image Int) (size : tg.isize2) (hw : 0 ≤ size.width)
    (hh : 0 ≤ size.height) :
    ∃ r, i.resize size = some r ∧ r.well_formed ∧ r._extents = size := by
  have hm := mul_nonneg hw hh
  refine ⟨_, by unfold image.resize; rw [if_neg (not_lt.2 hm)], ⟨hw, hh, ?_⟩, rfl⟩
  simp only [List.length_append, List.length_take, List.length_replicate]
  omega

end img

namespace tp

/-! ## The initial image state -/

theorem image_data.create_spec (filename : String) (id : Int) (token_class : img.image Int)
    (hwf : token_class.well_formed) :
    ∃ d, image_data.create filename id token_class = some d ∧ created token_class d ∧
      d.filename = filename ∧ d.id = id := by
  unfold image_data.create
  obtain ⟨ids, hids, hrw, hre⟩ := img.image.resize_well_formed ({} : img.image Int)
    ⟨token_class.width, token_class.height⟩ hwf.1 hwf.2.1
  simp only [hids, Option.some_bind]
  have hstep := foldlM_prefix_invariant
    (fun (d : image_data) (p : tg.ipos2) => do
      let (n, d) := d.next_token_id
      let ids ← d.current_token_id.write p.x p.y n
      pure { d with current_token_id := ids, token_ancor := d.token_ancor ++ [p] })
    (fun pre d => d.m_initial_token_class = token_class ∧ d.current_token_class = token_class ∧
      d.current_token_id.well_formed ∧ d.current_token_id._extents = token_class._extents ∧
      d.token_ancor = pre ∧ d.m_next_token_id = (pre.length : Int) ∧
      (∀ (k : Nat) (p : tg.ipos2), pre[k]? = some p → d.current_token_id.val p = (k : Int)) ∧
      d.filename = filename ∧ d.id = id)
    (scan token_class.width token_class.height) ?_
    { filename := filename, id := id, m_initial_token_class := token_class
      current_token_class := token_class
      current_token_id := ids }
    ⟨rfl, rfl, hrw, hre, rfl, rfl, by simp, rfl, rfl⟩
  · obtain ⟨d, hd, h1, h2, h3, h4, h5, h6, h7, h8, h9⟩ := hstep
    exact ⟨d, hd, ⟨h1, h2, h3, h4, h5, by rw [h6, h5], by rw [h5]; exact h7⟩, h8, h9⟩
  · rintro pre b post s hl ⟨h1, h2, h3, h4, h5, h6, h7, h8, h9⟩
    have hb : b ∈ scan token_class.width token_class.height := by rw [hl]; simp
    have hbc : s.current_token_id.contains b = true := by
      rw [img.image.contains_congr _ token_class h4]
      exact (mem_scan_iff_contains token_class b).1 hb
    obtain ⟨j, hj1, hj2, hj3, hj4⟩ := img.image.put_val s.current_token_id h3 b hbc s.m_next_token_id
    refine ⟨{ s with m_next_token_id := s.m_next_token_id + 1, current_token_id := j
                     token_ancor := s.token_ancor ++ [b] }, ?_, h1, h2, hj3, hj2.trans h4,
      by simp [h5], by simp [h6], ?_, h8, h9⟩
    · have : s.current_token_id.write b.x b.y s.m_next_token_id = some j := hj1
      simp [image_data.next_token_id, this]
    · intro k p hk
      have hnd : (pre ++ b :: post).Nodup := hl ▸ scan_nodup _ _
      simp only [hj4 p]
      rw [List.getElem?_append] at hk
      by_cases hlt : k < pre.length
      · rw [if_pos hlt] at hk
        have hp_mem : p ∈ pre := List.mem_iff_getElem?.2 ⟨_, hk⟩
        have hne : p ≠ b := by
          rintro rfl
          have := (List.nodup_append.1 hnd).2.2
          exact this hp_mem (List.mem_cons_self _ _)
        rw [if_neg hne]
        exact h7 k p hk
      · rw [if_neg hlt] at hk
        have hk0 : k - pre.length = 0 := by
          by_contra hne
          have : (k - pre.length) < [b].length := (List.getElem?_eq_some.1 hk).1
          simp at this
          omega
        rw [hk0] at hk
        simp only [List.getElem?_cons_zero, Option.some.injEq] at hk
        subst hk
        rw [if_pos rfl, h6]
        congr 1
        omega

/-- The initial shape list holds the singleton shape of every base class. -/
theorem index_initial_tokens (token_max c : Int) (h0 : 0 ≤ c) (h1 : c ≤ token_max) :
    index (initial_tokens token_max) c
      = some { positions := [⟨0, 0⟩], position_class := [c], class_id := c } := by
  rw [index_eq_some]
  refine ⟨h0, ?_⟩
  unfold initial_tokens
  rw [List.getElem?_map, List.getElem?_range (by omega)]
  simp [Int.toNat_of_nonneg h0]

theorem initial_tokens_shape_ok (token_max : Int) (i : Int) (t : token_data)
    (h : index (initial_tokens token_max) i = some t) : shape_ok t := by
  have hlt := index_lt _ _ _ h
  simp only [initial_tokens, List.length_map, List.length_range] at hlt
  rw [index_initial_tokens token_max i hlt.1 (by omega)] at h
  cases h
  exact ⟨rfl, rfl, by
    intro o ho
    simp only [List.mem_singleton] at ho
    subst ho
    right
    exact ⟨rfl, le_refl _⟩⟩

/-- A freshly constructed image satisfies the image invariant for the initial shapes. -/
theorem created.initial_inv {token_class : img.image Int} {d : image_data}
    (h : created token_class d) (hwf : token_class.well_formed) (token_max : Int)
    (hcells : ∀ v ∈ token_class._data, 0 ≤ v ∧ v ≤ token_max) :
    tp.image_inv (initial_tokens token_max) d := by
  have hg : grids_ok d :=
    ⟨h.init_eq ▸ hwf, h.class_eq ▸ hwf, h.id_wf, by rw [h.class_eq, h.init_eq],
      by rw [h.id_ext, h.init_eq], h.next_eq.symm⟩
  refine ⟨hg, fun p hp => ?_⟩
  rw [h.init_eq] at hp
  have hmem : p ∈ d.token_ancor := by
    rw [h.ancor_eq]; exact (mem_scan_iff_contains token_class p).2 hp
  obtain ⟨k, hk⟩ := List.mem_iff_getElem?.1 hmem
  have hid := h.id_eq k p hk
  have hklt := (List.getElem?_eq_some.1 hk).1
  have hv := hcells _ (img.image.val_mem_data token_class hwf p hp)
  have hadd := add_zero_pos p
  refine ⟨by rw [hid]; omega, by rw [hid, h.next_eq]; omega, p,
    { positions := [⟨0, 0⟩], position_class := [token_class.val p], class_id := token_class.val p },
    ?_, ?_, ?_, ⟨⟨0, 0⟩, by simp, hadd⟩⟩
  · rw [hid, index_eq_some]
    exact ⟨by omega, by simpa using hk⟩
  · rw [h.class_eq]
    exact index_initial_tokens token_max _ hv.1 hv.2
  · intro k' o hk'
    have hk0 : k' = 0 := by
      by_contra hne
      have : k' < [(⟨0, 0⟩ : tg.ipos2)].length := (List.getElem?_eq_some.1 hk').1
      simp at this
      omega
    subst hk0
    simp only [List.getElem?_cons_zero, Option.some.injEq] at hk'
    subst hk'
    rw [hadd, h.init_eq]
    exact ⟨hp, rfl, rfl, by simp⟩

/-! ## The invariant of the learning loop -/

theorem forall₂_trans {α β γ : Type} {R : α → β → Prop} {S : β → γ → Prop} {T : α → γ → Prop}
    (h : ∀ a b c, R a b → S b c → T a c) {l1 : List α} {l2 : List β} {l3 : List γ}
    (h1 : List.Forall₂ R l1 l2) (h2 : List.Forall₂ S l2 l3) : List.Forall₂ T l1 l3 := by
  induction h1 generalizing l3 with
  | nil => cases h2; exact List.Forall₂.nil
  | cons hab _ ih =>
    cases h2 with
    | cons hbc hrest => exact List.Forall₂.cons (h _ _ _ hab hbc) (ih hrest)

theorem forall₂_mem_right {α β : Type} {R : α → β → Prop} {l1 : List α} {l2 : List β}
    (h : List.Forall₂ R l1 l2) (b : β) (hb : b ∈ l2) : ∃ a ∈ l1, R a b := by
  induction h with
  | nil => cases hb
  | cons hab _ ih =>
    rcases List.mem_cons.1 hb with rfl | hb
    · exact ⟨_, List.mem_cons_self _ _, hab⟩
    · obtain ⟨a, ha, hr⟩ := ih hb
      exact ⟨a, List.mem_cons_of_mem _ ha, hr⟩

theorem index_append_singleton {α : Type} (v : List α) (a : α) (i : Int) (t : α)
    (h : index (v ++ [a]) i = some t) : index v i = some t ∨ (i = (v.length : Int) ∧ t = a) := by
  rw [index_eq_some] at h
  obtain ⟨h0, h1⟩ := h
  rw [List.getElem?_append] at h1
  by_cases hlt : i.toNat < v.length
  · rw [if_pos hlt] at h1
    exact Or.inl ((index_eq_some _ _ _).2 ⟨h0, h1⟩)
  · rw [if_neg hlt] at h1
    have hk : i.toNat - v.length < [a].length := (List.getElem?_eq_some.1 h1).1
    simp only [List.length_singleton, Nat.lt_one_iff] at hk
    rw [hk] at h1
    simp only [List.getElem?_cons_zero, Option.some.injEq] at h1
    exact Or.inr ⟨by omega, h1.symm⟩

theorem image_inv_append (tokens : List token_data) (N : token_data) (d : image_data)
    (h : image_inv tokens d) : image_inv (tokens ++ [N]) d := by
  refine ⟨h.1, fun p hp => ?_⟩
  obtain ⟨h0, h1, a, shape, ha, hs, hall, hex⟩ := h.2 p hp
  exact ⟨h0, h1, a, shape, ha, index_append_left _ _ _ _ hs, hall, hex⟩

theorem tokenize_iteration_some (order : map_iteration) (s s' : tokenizer_state)
    (h : tokenize_iteration order s = some s') :
    ∃ c N, get_most_common_constellation order s.image_data = some c ∧ iteration_step s s' c N := by
  unfold tokenize_iteration at h
  simp only [Option.bind_eq_bind, Option.bind_eq_some, Option.pure_def, Option.some.injEq] at h
  obtain ⟨c, hc, N, hN, imgs, himgs, rfl⟩ := h
  exact ⟨c, N, hc, ⟨hN, rfl, rfl, himgs⟩⟩

theorem iteration_step.keeps_state_inv {s s' : tokenizer_state} {c : constellation} {N : token_data}
    (h : iteration_step s s' c N) (hs : state_inv s) :
    tp.state_inv s' ∧
      List.Forall₂ (fun d d' => d'.m_initial_token_class = d.m_initial_token_class)
        s.image_data s'.image_data := by
  obtain ⟨A, B, hA, hB⟩ := combine_tokens_some c s.tokens N h.combined
  have hNok : shape_ok N :=
    combine_tokens_shape_ok c s.tokens A B N hA hB (hs.shapes _ _ hA) (hs.shapes _ _ hB) h.combined
  have hcomb := h.combined
  rw [combine_tokens_eq c s.tokens A B hA hB (hs.shapes _ _ hA).aligned
    (hs.shapes _ _ hB).aligned] at hcomb
  simp only [Option.some.injEq] at hcomb
  have hNid : N.class_id = (s.tokens.length : Int) := by
    rw [← hcomb]; split <;> rfl
  have hNpos : N.positions =
      if keep_token_a_ancor c.ancor_offset then
        A.positions ++ B.positions.map (fun o => o + c.ancor_offset)
      else B.positions ++ A.positions.map (fun o => o - c.ancor_offset) := by
    rw [← hcomb]; split <;> rfl
  have hNcls : N.position_class =
      if keep_token_a_ancor c.ancor_offset then A.position_class ++ B.position_class
      else B.position_class ++ A.position_class := by
    rw [← hcomb]; split <;> rfl
  have hshapes' : ∀ i t, index (s.tokens ++ [N]) i = some t → shape_ok t := by
    intro i t hi
    rcases index_append_singleton _ _ _ _ hi with h1 | ⟨_, rfl⟩
    · exact hs.shapes _ _ h1
    · exact hNok
  have hN' : index (s.tokens ++ [N]) N.class_id = some N := by
    rw [hNid]; exact index_length_append _ _
  have hall := mapM_some _ _ _ h.applied
  have hkey : List.Forall₂ (fun d d' => image_inv (s.tokens ++ [N]) d' ∧
      d'.m_initial_token_class = d.m_initial_token_class) s.image_data s'.image_data := by
    have hmem : ∀ d ∈ s.image_data, image_inv s.tokens d := hs.images
    revert hmem
    generalize s.image_data = l at hall
    generalize s'.image_data = l' at hall
    intro hmem
    induction hall with
    | nil => exact List.Forall₂.nil
    | @cons d d' l l' hd _ ih =>
      refine List.Forall₂.cons ?_ (ih (fun x hx => hmem x (List.mem_cons_of_mem _ hx)))
      obtain ⟨d'', h1, h2, h3⟩ := apply_rule_image_inv (s.tokens ++ [N])
        { constellation := c, new_token_id := (s.tokens.length : Int) } A B N d
        (image_inv_append _ _ _ (hmem d (List.mem_cons_self _ _))) hshapes'
        (index_append_left _ _ _ _ hA) (index_append_left _ _ _ _ hB) hN' hNpos hNcls
      rw [h1] at hd
      cases hd
      exact ⟨h2, h3⟩
  refine ⟨⟨by rw [h.tokens_eq]; exact hshapes', ?_⟩, hkey.imp (fun _ _ hx => hx.2)⟩
  intro d' hd'
  rw [h.tokens_eq]
  obtain ⟨d, _, hd⟩ := forall₂_mem_right hkey d' hd'
  exact hd.1

theorem tokenize_loop_inv (order : map_iteration) (n : Nat) (s s' : tokenizer_state)
    (hs : state_inv s) (h : tokenize_loop order n s = some s') :
    state_inv s' ∧
      List.Forall₂ (fun d d' => d'.m_initial_token_class = d.m_initial_token_class)
        s.image_data s'.image_data := by
  induction n generalizing s with
  | zero =>
    simp only [tokenize_loop, Option.some.injEq] at h
    subst h
    exact ⟨hs, List.forall₂_same.2 (fun _ _ => rfl)⟩
  | succ n ih =>
    simp only [tokenize_loop, Option.bind_eq_bind, Option.bind_eq_some] at h
    obtain ⟨s1, h1, h2⟩ := h
    obtain ⟨c, N, _, hstep⟩ := tokenize_iteration_some order s s1 h1
    obtain ⟨hs1, hf1⟩ := hstep.keeps_state_inv hs
    obtain ⟨hs2, hf2⟩ := ih s1 hs1 h2
    refine ⟨hs2, ?_⟩
    exact forall₂_trans (fun a b c hab hbc => hbc.trans hab) hf1 hf2

theorem read_folder_inv (token_max : Int) (files : List (String × Int × img.image Int))
    (hfiles : corpus_ok token_max files) :
    ∃ images, read_folder files = some images ∧
      List.Forall₂ (fun f d => created f.2.2 d) files images := by
  induction files with
  | nil => exact ⟨[], rfl, List.Forall₂.nil⟩
  | cons f files ih =>
    obtain ⟨images, h1, h2⟩ := ih (fun g hg => hfiles g (List.mem_cons_of_mem _ hg))
    obtain ⟨d, hd, hc, _, _⟩ := image_data.create_spec f.1 f.2.1 f.2.2
      (hfiles f (List.mem_cons_self _ _)).1
    refine ⟨d :: images, ?_, List.Forall₂.cons hc h2⟩
    unfold read_folder at h1 ⊢
    rw [List.mapM_cons, hd, h1]
    rfl

/-- Every state reached by a learning run on an accepted corpus satisfies the invariant, and
its images still hold the input grids as their initial classes. -/
theorem tokenize_inv (order : map_iteration) (token_max tokens_to_create : Int)
    (image_size : tg.isize2)
    (files : List (String × Int × img.image Int)) (s : tokenizer_state)
    (hfiles : corpus_ok token_max files)
    (hrun : tokenize order token_max tokens_to_create image_size files = some s) :
    state_inv s ∧
      List.Forall₂ (fun f d => d.m_initial_token_class = f.2.2) files s.image_data := by
  obtain ⟨images, h1, h2⟩ := read_folder_inv token_max files hfiles
  unfold tokenize at hrun
  simp only [h1, Option.bind_eq_bind, Option.some_bind] at hrun
  have hs0 : state_inv { rules := [], tokens := initial_tokens token_max, image_data := images } := by
    refine ⟨initial_tokens_shape_ok token_max, ?_⟩
    intro d hd
    obtain ⟨f, hf, hc⟩ := forall₂_mem_right h2 d hd
    exact hc.initial_inv (hfiles f hf).1 token_max (hfiles f hf).2
  obtain ⟨hs, hf⟩ := tokenize_loop_inv order _ _ s hs0 hrun
  refine ⟨hs, ?_⟩
  exact forall₂_trans (fun a b c hab hbc => hbc.trans hab.init_eq) h2 hf

end tp

namespace img

/-- Two well-formed images of the same extents that agree on every cell are equal. -/
theorem image.eq_of_val (i j : image Int) (hi : i.well_formed) (hj : j.well_formed)
    (hext : i._extents = j._extents)
    (hval : ∀ p, i.contains p = true → i.val p = j.val p) : i = j := by
  obtain ⟨di, ei⟩ := i
  obtain ⟨dj, ej⟩ := j
  simp only at hext
  subst hext
  simp only [image.mk.injEq, and_true]
  obtain ⟨hw, hh, hli⟩ := hi
  obtain ⟨_, _, hlj⟩ := hj
  simp only at hw hh hli hlj
  apply List.ext_getElem?
  intro k
  by_cases hk : (k : Int) < ei.width * ei.height
  · have hwpos : 0 < ei.width := by
      rcases hw.lt_or_eq with h | h
      · exact h
      · rw [← h] at hk; simp at hk; omega
    have hx0 : 0 ≤ (k : Int) % ei.width := Int.emod_nonneg _ hwpos.ne'
    have hx1 : (k : Int) % ei.width < ei.width := Int.emod_lt_of_pos _ hwpos
    have hy0 : 0 ≤ (k : Int) / ei.width := Int.ediv_nonneg (by omega) hw
    have hdecomp : (k : Int) % ei.width + ei.width * ((k : Int) / ei.width) = k :=
      Int.emod_add_ediv _ _
    have hy1 : (k : Int) / ei.width < ei.height := by
      by_contra hge
      have : ei.width * ei.height ≤ ei.width * ((k : Int) / ei.width) :=
        mul_le_mul_of_nonneg_left (by omega) hw
      omega
    have hc : (⟨di, ei⟩ : image Int).contains ⟨(k : Int) % ei.width, (k : Int) / ei.width⟩ = true := by
      rw [image.contains_iff]; exact ⟨hx0, hx1, hy0, hy1⟩
    have h1 := image.get_eq_val ⟨di, ei⟩ ⟨hw, hh, hli⟩ _ hc
    have hc' : (⟨dj, ei⟩ : image Int).contains ⟨(k : Int) % ei.width, (k : Int) / ei.width⟩ = true := by
      rw [image.contains_iff]; exact ⟨hx0, hx1, hy0, hy1⟩
    have h2 := image.get_eq_val ⟨dj, ei⟩ ⟨hw, hh, hlj⟩ _ hc'
    rw [← hval _ hc] at h2
    simp only [image.get, image.read, hx0, hx1, hy0, hy1, and_self, if_true, hdecomp,
      Int.toNat_ofNat] at h1 h2
    rw [h1, h2]
  · rw [List.getElem?_eq_none (by omega), List.getElem?_eq_none (by omega)]

end img

namespace tp

/-! ## The token sequence of an image -/

theorem write_token_at_spec (tokens : List token_data) (d : image_data)
    (hinv : image_inv tokens d) (hshapes : ∀ i t, index tokens i = some t → shape_ok t)
    (pre post : List tg.ipos2) (b : tg.ipos2)
    (hl : scan d.current_token_class.width d.current_token_class.height = pre ++ b :: post)
    (st : List Int × List (Int × Int × Int)) (hst : sequence_state d pre st) :
    ∃ st', write_token_at d st b = some st' ∧ sequence_state d (pre ++ [b]) st' := by
  have hg := hinv.1
  have hb_scan : b ∈ scan d.current_token_class.width d.current_token_class.height := by
    rw [hl]; simp
  have hbc : d.current_token_class.contains b = true :=
    (mem_scan_iff_contains d.current_token_class b).1 hb_scan
  have hb : d.m_initial_token_class.contains b = true := by rw [← hg.class_contains]; exact hbc
  have hrid : d.current_token_id.read b.x b.y = some (d.current_token_id.val b) := hg.get_id b hb
  have hrcl : d.current_token_class.read b.x b.y = some (d.current_token_class.val b) :=
    hg.get_class b hb
  obtain ⟨_, _, a, shape, ha, hs, hall, o, ho, hob⟩ := hinv.2 b hb
  unfold write_token_at
  simp only [hrid, hrcl, ha, Option.bind_eq_bind, Option.some_bind]
  by_cases hvis : d.current_token_id.val b ∈ st.1
  · refine ⟨st, by simp [hvis], ?_, ?_, ?_⟩
    · intro i
      rw [hst.visited i]
      constructor
      · rintro ⟨q, hq, h⟩
        exact ⟨q, List.mem_append_left _ hq, h⟩
      · rintro ⟨q, hq, h⟩
        rcases List.mem_append.1 hq with hq | hq
        · exact ⟨q, hq, h⟩
        · simp only [List.mem_singleton] at hq
          subst hq
          rw [← h]
          exact (hst.visited _).1 hvis
    · intro r hr
      obtain ⟨q, hq, h⟩ := hst.sound r hr
      exact ⟨q, List.mem_append_left _ hq, h⟩
    · intro q hq
      have hq0 : ∃ q0 ∈ pre, d.current_token_id.val q0 = d.current_token_id.val q := by
        rcases List.mem_append.1 hq with hq | hq
        · exact ⟨q, hq, rfl⟩
        · simp only [List.mem_singleton] at hq
          subst hq
          exact (hst.visited _).1 hvis
      obtain ⟨q0, hq0, hid0⟩ := hq0
      obtain ⟨q', hq', hid', h⟩ := hst.complete q0 hq0
      exact ⟨q', List.mem_append_left _ hq', hid'.trans hid0, h⟩
  · -- first cell of its instance: the anchor is this cell
    have h0 := hall 0 ⟨0, 0⟩ (shape_ok_zero shape (hshapes _ _ hs))
    rw [add_zero_pos] at h0
    have ha_scan : a ∈ pre ++ b :: post := by
      rw [← hl]
      exact (mem_scan_iff_contains d.current_token_class a).2 (by rw [hg.class_contains]; exact h0.1)
    have hlex := (hshapes _ _ hs).lex o ho
    have hpw : (pre ++ b :: post).Pairwise scan_lt := hl ▸ scan_pairwise _ _
    have hab : a = b := by
      rcases List.mem_append.1 ha_scan with hpre | hrest
      · exact absurd ((hst.visited _).2 ⟨a, hpre, h0.2.1⟩) hvis
      · rcases List.mem_cons.1 hrest with h | hpost
        · exact h
        · have hlt : scan_lt b a :=
            (List.pairwise_cons.1 (List.pairwise_append.1 hpw).2.1).1 a hpost
          exfalso
          have hx : b.x = a.x + o.x := by rw [← hob]; rfl
          have hy : b.y = a.y + o.y := by rw [← hob]; rfl
          unfold scan_lt at hlt
          unfold lex_nonneg at hlex
          omega
    subst hab
    refine ⟨(st.1 ++ [d.current_token_id.val a],
      st.2 ++ [(d.current_token_class.val a, a.x, a.y)]), by simp [hvis], ?_, ?_, ?_⟩
    · intro i
      simp only [List.mem_append, List.mem_singleton, hst.visited i]
      constructor
      · rintro (⟨q, hq, h⟩ | h)
        · exact ⟨q, Or.inl hq, h⟩
        · exact ⟨a, Or.inr rfl, h.symm⟩
      · rintro ⟨q, hq | hq, h⟩
        · exact Or.inl ⟨q, hq, h⟩
        · subst hq; exact Or.inr h.symm
    · intro r hr
      simp only [List.mem_append, List.mem_singleton] at hr
      rcases hr with hr | hr
      · obtain ⟨q, hq, h⟩ := hst.sound r hr
        exact ⟨q, List.mem_append_left _ hq, h⟩
      · exact ⟨a, by simp, a, ha, hr⟩
    · intro q hq
      rcases List.mem_append.1 hq with hq | hq
      · obtain ⟨q', hq', hid', a', ha', hmem⟩ := hst.complete q hq
        exact ⟨q', List.mem_append_left _ hq', hid', a', ha', List.mem_append_left _ hmem⟩
      · simp only [List.mem_singleton] at hq
        subst hq
        exact ⟨q, by simp, rfl, q, ha, by simp⟩

/-- The function `token_sequence` succeeds under the image invariant (the `CC_ASSERT` on the
anchor never fails); every record comes from a cell, and every cell's instance has its
record. -/
theorem token_sequence_spec (tokens : List token_data) (d : image_data)
    (hinv : image_inv tokens d) (hshapes : ∀ i t, index tokens i = some t → shape_ok t) :
    ∃ visited seq, token_sequence d = some seq ∧
      sequence_state d (scan d.current_token_class.width d.current_token_class.height)
        (visited, seq) := by
  obtain ⟨st, h1, h2⟩ := foldlM_prefix_invariant (write_token_at d) (sequence_state d)
    (scan d.current_token_class.width d.current_token_class.height)
    (fun pre b post s hl hs => write_token_at_spec tokens d hinv hshapes pre post b hl s hs)
    ([], []) ⟨by simp, by simp, by simp⟩
  refine ⟨st.1, st.2, ?_, h2⟩
  unfold token_sequence
  simp only [h1, Option.bind_eq_bind, Option.some_bind, Option.pure_def]

/-! ## Reconstruction -/

/-- Placing the record of the instance covering cell `q` makes the grid agree with the
initial classes on all cells of that instance and keeps the agreement reached before. -/
theorem place_shape_spec (tokens : List token_data) (d : image_data)
    (hinv : image_inv tokens d) (hshapes : ∀ i t, index tokens i = some t → shape_ok t)
    (q a : tg.ipos2) (hq : d.m_initial_token_class.contains q = true)
    (ha : index d.token_ancor (d.current_token_id.val q) = some a)
    (grid : img.image Int) (known : tg.ipos2 → Prop)
    (hgrid : rebuilt d.m_initial_token_class grid known) :
    ∃ grid', place_shape tokens grid (d.current_token_class.val q, a.x, a.y) = some grid' ∧
      rebuilt d.m_initial_token_class grid'
        (fun r => known r ∨ (d.m_initial_token_class.contains r = true ∧
          d.current_token_id.val r = d.current_token_id.val q)) := by
  obtain ⟨_, _, a', shape, ha', hs, hall, hex⟩ := hinv.2 q hq
  rw [ha] at ha'
  cases ha'
  have hal := (hshapes _ _ hs).aligned
  have haa : (⟨a.x, a.y⟩ : tg.ipos2) = a := rfl
  have hstep : ∀ (pre : List Nat) (b : Nat) (post : List Nat) (g : img.image Int),
      List.range shape.positions.length = pre ++ b :: post →
      rebuilt d.m_initial_token_class g
        (fun r => known r ∨ ∃ i ∈ pre, ∃ o, shape.positions[i]? = some o ∧
          a + tg.ivec2.of_pos o = r) →
      ∃ g', (do
          let o ← shape.positions[b]?
          let base ← shape.position_class[b]?
          let p := (⟨a.x, a.y⟩ : tg.ipos2) + tg.ivec2.of_pos o
          if g.contains p then g.put p base else some g) = some g' ∧
        rebuilt d.m_initial_token_class g'
          (fun r => known r ∨ ∃ i ∈ pre ++ [b], ∃ o, shape.positions[i]? = some o ∧
            a + tg.ivec2.of_pos o = r) := by
    intro pre b post g hl hg
    have hb : b < shape.positions.length := by
      have : b ∈ List.range shape.positions.length := by rw [hl]; simp
      exact List.mem_range.1 this
    have hpo : shape.positions[b]? = some shape.positions[b] := List.getElem?_eq_getElem hb
    obtain ⟨c1, c2, c3, c4⟩ := hall b _ hpo
    have hgc : g.contains (a + tg.ivec2.of_pos shape.positions[b]) = true := by
      rw [img.image.contains_congr g d.m_initial_token_class hg.ext]; exact c1
    obtain ⟨g', hg1, hg2, hg3, hg4⟩ := img.image.put_val g hg.wf _ hgc
      (d.m_initial_token_class.val (a + tg.ivec2.of_pos shape.positions[b]))
    refine ⟨g', ?_, hg3, hg2.trans hg.ext, ?_⟩
    · simp only [hpo, c4, haa, hgc, Option.bind_eq_bind, Option.some_bind, if_true]
      exact hg1
    · intro r hr
      rw [hg4 r]
      by_cases hra : r = a + tg.ivec2.of_pos shape.positions[b]
      · rw [if_pos hra, hra]
      · rw [if_neg hra]
        apply hg.agree r
        rcases hr with hr | ⟨i, hi, o, hio, hor⟩
        · exact Or.inl hr
        · rcases List.mem_append.1 hi with hi | hi
          · exact Or.inr ⟨i, hi, o, hio, hor⟩
          · simp only [List.mem_singleton] at hi
            subst hi
            rw [hpo] at hio
            cases hio
            exact absurd hor.symm hra
  obtain ⟨grid', h1, h2⟩ := foldlM_prefix_invariant _
    (fun pre grid' => rebuilt d.m_initial_token_class grid'
      (fun r => known r ∨ ∃ i ∈ pre, ∃ o, shape.positions[i]? = some o ∧ a + tg.ivec2.of_pos o = r))
    (List.range shape.positions.length) hstep grid
    ⟨hgrid.wf, hgrid.ext, fun r hr => by
      rcases hr with hr | ⟨i, hi, _⟩
      · exact hgrid.agree r hr
      · cases hi⟩
  refine ⟨grid', ?_, h2.wf, h2.ext, fun r hr => h2.agree r ?_⟩
  · unfold place_shape
    simp only [hs, Option.bind_eq_bind, Option.some_bind]
    exact h1
  · rcases hr with hr | ⟨hrc, hr⟩
    · exact Or.inl hr
    · right
      obtain ⟨_, _, ar, shr, har, hsr, hallr, o, ho, hor⟩ := hinv.2 r hrc
      rw [hr, ha] at har
      cases har
      have h0 := hall 0 ⟨0, 0⟩ (shape_ok_zero shape (hshapes _ _ hs))
      have h0r := hallr 0 ⟨0, 0⟩ (shape_ok_zero shr (hshapes _ _ hsr))
      rw [add_zero_pos] at h0 h0r
      have hc : d.current_token_class.val r = d.current_token_class.val q :=
        h0r.2.2.1.symm.trans h0.2.2.1
      rw [hc, hs] at hsr
      cases hsr
      obtain ⟨i, hi⟩ := List.mem_iff_getElem?.1 ho
      exact ⟨i, List.mem_range.2 (List.getElem?_eq_some.1 hi).1, o, hi, hor⟩

/-- Reconstructing from the token sequence of an image that satisfies the image invariant
gives back its initial classes. -/
theorem reconstruct_token_sequence (tokens : List token_data) (d : image_data)
    (hinv : image_inv tokens d) (hshapes : ∀ i t, index tokens i = some t → shape_ok t) :
    ∃ seq, token_sequence d = some seq ∧
      ∀ blank : img.image Int, blank.well_formed →
        blank._extents = d.m_initial_token_class._extents →
        reconstruct tokens blank seq = some d.m_initial_token_class := by
  obtain ⟨visited, seq, hseq, hst⟩ := token_sequence_spec tokens d hinv hshapes
  refine ⟨seq, hseq, fun blank hbw hbe => ?_⟩
  have hstep : ∀ (pre : List (Int × Int × Int)) (b : Int × Int × Int)
      (post : List (Int × Int × Int)) (g : img.image Int),
      seq = pre ++ b :: post →
      rebuilt d.m_initial_token_class g
        (fun r => ∃ rec ∈ pre, ∃ q a, d.m_initial_token_class.contains q = true ∧
          index d.token_ancor (d.current_token_id.val q) = some a ∧
          rec = (d.current_token_class.val q, a.x, a.y) ∧
          d.m_initial_token_class.contains r = true ∧
          d.current_token_id.val r = d.current_token_id.val q) →
      ∃ g', place_shape tokens g b = some g' ∧
        rebuilt d.m_initial_token_class g'
          (fun r => ∃ rec ∈ pre ++ [b], ∃ q a, d.m_initial_token_class.contains q = true ∧
            index d.token_ancor (d.current_token_id.val q) = some a ∧
            rec = (d.current_token_class.val q, a.x, a.y) ∧
            d.m_initial_token_class.contains r = true ∧
            d.current_token_id.val r = d.current_token_id.val q) := by
    intro pre b post g hl hg
    have hb : b ∈ seq := by rw [hl]; simp
    obtain ⟨q, hq, a, ha, hbq⟩ := hst.sound b hb
    have hqc : d.m_initial_token_class.contains q = true := by
      rw [← hinv.1.class_contains]
      exact (mem_scan_iff_contains d.current_token_class q).1 hq
    obtain ⟨g', h1, h2⟩ := place_shape_spec tokens d hinv hshapes q a hqc ha g _ hg
    rw [← hbq] at h1
    refine ⟨g', h1, h2.wf, h2.ext, fun r hr => h2.agree r ?_⟩
    obtain ⟨rec, hrec, q', a', h3, h4, h5, h6, h7⟩ := hr
    rcases List.mem_append.1 hrec with hrec | hrec
    · exact Or.inl ⟨rec, hrec, q', a', h3, h4, h5, h6, h7⟩
    · simp only [List.mem_singleton] at hrec
      subst hrec
      right
      refine ⟨h6, ?_⟩
      -- the two cells `q` and `q'` give the same record, hence carry the same id
      rw [hbq] at h5
      simp only [Prod.mk.injEq] at h5
      have haa : a = a' := (tg.ipos2.ext_iff' a a').2 ⟨h5.2.1, h5.2.2⟩
      subst haa
      obtain ⟨_, _, a1, sh1, ha1, hs1, hall1, _⟩ := hinv.2 q hqc
      obtain ⟨_, _, a2, sh2, ha2, hs2, hall2, _⟩ := hinv.2 q' h3
      rw [ha] at ha1
      rw [h4] at ha2
      cases ha1
      cases ha2
      have g1 := hall1 0 ⟨0, 0⟩ (shape_ok_zero sh1 (hshapes _ _ hs1))
      have g2 := hall2 0 ⟨0, 0⟩ (shape_ok_zero sh2 (hshapes _ _ hs2))
      rw [add_zero_pos] at g1 g2
      rw [h7, ← g2.2.1, g1.2.1]
  obtain ⟨g, h1, h2⟩ := foldlM_prefix_invariant (place_shape tokens)
    (fun pre g => rebuilt d.m_initial_token_class g
      (fun r => ∃ rec ∈ pre, ∃ q a, d.m_initial_token_class.contains q = true ∧
        index d.token_ancor (d.current_token_id.val q) = some a ∧
        rec = (d.current_token_class.val q, a.x, a.y) ∧
        d.m_initial_token_class.contains r = true ∧
        d.current_token_id.val r = d.current_token_id.val q))
    seq hstep blank ⟨hbw, hbe, fun r hr => by
      obtain ⟨rec, hrec, _⟩ := hr
      cases hrec⟩
  unfold reconstruct
  rw [h1]
  congr 1
  apply img.image.eq_of_val g d.m_initial_token_class h2.wf hinv.1.init_wf h2.ext
  intro p hp
  have hpc : d.m_initial_token_class.contains p = true := by
    rw [← img.image.contains_congr g d.m_initial_token_class h2.ext]; exact hp
  apply h2.agree p
  have hps : p ∈ scan d.current_token_class.width d.current_token_class.height :=
    (mem_scan_iff_contains d.current_token_class p).2 (by rw [hinv.1.class_contains]; exact hpc)
  obtain ⟨q', hq', hid', a, ha, hmem⟩ := hst.complete p hps
  have hq'c : d.m_initial_token_class.contains q' = true := by
    rw [← hinv.1.class_contains]
    exact (mem_scan_iff_contains d.current_token_class q').1 hq'
  exact ⟨_, hmem, q', a, hq'c, ha, rfl, hpc, hid'.symm⟩

/-! ## Learning runs: round trip, anchor agreement, shape coverage -/

theorem forall₂_imp_mem {α β : Type} {R S : α → β → Prop} {l1 : List α} {l2 : List β}
    (h : List.Forall₂ R l1 l2) (himp : ∀ a b, a ∈ l1 → b ∈ l2 → R a b → S a b) :
    List.Forall₂ S l1 l2 := by
  induction h with
  | nil => exact List.Forall₂.nil
  | cons hab _ ih =>
    exact List.Forall₂.cons (himp _ _ (List.mem_cons_self _ _) (List.mem_cons_self _ _) hab)
      (ih (fun a b ha hb => himp a b (List.mem_cons_of_mem _ ha) (List.mem_cons_of_mem _ hb)))

/-- C1 (round trip).  For every corpus of well-formed grids with all cells in
`[0, token_max]` and every number of learning iterations that the run completes, each image
of the final state has a token sequence (`write_token_sequences` emits it, its assertion
holds), and placing `shapes[class]` at each recorded anchor on any blank grid of the image
size gives back exactly the input grid of that image. -/
theorem round_trip (order : map_iteration) (token_max tokens_to_create : Int)
    (image_size : tg.isize2)
    (files : List (String × Int × img.image Int)) (s : tokenizer_state)
    (hfiles : corpus_ok token_max files)
    (hrun : tokenize order token_max tokens_to_create image_size files = some s) :
    List.Forall₂
      (fun f d => d.initial_token_class = f.2.2 ∧
        ∃ seq, token_sequence d = some seq ∧
          ∀ blank : img.image Int, blank.well_formed → blank._extents = f.2.2._extents →
            reconstruct s.tokens blank seq = some f.2.2)
      files s.image_data := by
  obtain ⟨hs, hf⟩ := tokenize_inv order token_max tokens_to_create image_size files s hfiles hrun
  refine forall₂_imp_mem hf (fun f d _ hd hfd => ?_)
  obtain ⟨seq, h1, h2⟩ := reconstruct_token_sequence s.tokens d (hs.images d hd) hs.shapes
  refine ⟨hfd, seq, h1, fun blank hb he => ?_⟩
  rw [← hfd]
  exact h2 blank hb (by rw [he, hfd])

/-- Witness for `round_trip`: two learning iterations on the `2 x 2` tie corpus. -/
theorem round_trip_witness :
    corpus_ok 2 tie_files ∧
    (∃ s, tokenize insertion_order 2 2 ⟨2, 2⟩ tie_files = some s ∧
      List.Forall₂
        (fun f d => d.initial_token_class = f.2.2 ∧
          ∃ seq, token_sequence d = some seq ∧
            ∀ blank : img.image Int, blank.well_formed → blank._extents = f.2.2._extents →
              reconstruct s.tokens blank seq = some f.2.2)
        tie_files s.image_data) :=
  ⟨by decide,
    (tokenize insertion_order 2 2 ⟨2, 2⟩ tie_files).get (by decide),
    by simp,
    round_trip insertion_order 2 2 ⟨2, 2⟩ tie_files _ (by decide) (by simp)⟩

/-- C3 (anchor agreement, I1).  After any number of completed learning iterations on a
corpus with all cells in `[0, token_max]`, for every image and every cell `p` of the grid,
`token_ancor[current_token_id[p]]` exists, lies inside the grid, and the current class at
that anchor equals the current class at `p`. -/
theorem anchor_agreement (order : map_iteration) (token_max tokens_to_create : Int)
    (image_size : tg.isize2)
    (files : List (String × Int × img.image Int)) (s : tokenizer_state)
    (hfiles : corpus_ok token_max files)
    (hrun : tokenize order token_max tokens_to_create image_size files = some s) :
    ∀ d ∈ s.image_data, ∀ p, d.current_token_class.contains p = true →
      ∃ id a c, d.current_token_id.get p = some id ∧ index d.token_ancor id = some a ∧
        d.current_token_class.contains a = true ∧
        d.current_token_class.get a = some c ∧ d.current_token_class.get p = some c := by
  obtain ⟨hs, _⟩ := tokenize_inv order token_max tokens_to_create image_size files s hfiles hrun
  intro d hd p hp
  have hinv := hs.images d hd
  have hpc : d.m_initial_token_class.contains p = true := by
    rw [← hinv.1.class_contains]; exact hp
  obtain ⟨_, _, a, shape, ha, hsh, hall, _⟩ := hinv.2 p hpc
  have h0 := hall 0 ⟨0, 0⟩ (shape_ok_zero shape (hs.shapes _ _ hsh))
  rw [add_zero_pos] at h0
  refine ⟨_, a, _, hinv.1.get_id p hpc, ha, by rw [hinv.1.class_contains]; exact h0.1, ?_,
    hinv.1.get_class p hpc⟩
  rw [hinv.1.get_class a h0.1, h0.2.2.1]

/-- Witness for `anchor_agreement`: one learning iteration on the `2 x 1` corpus. -/
theorem anchor_agreement_witness :
    corpus_ok 1 pair_files ∧
    (∃ s, tokenize insertion_order 1 1 ⟨2, 1⟩ pair_files = some s ∧
      ∀ d ∈ s.image_data, ∀ p, d.current_token_class.contains p = true →
        ∃ id a c, d.current_token_id.get p = some id ∧ index d.token_ancor id = some a ∧
          d.current_token_class.contains a = true ∧
          d.current_token_class.get a = some c ∧ d.current_token_class.get p = some c) :=
  ⟨by decide,
    (tokenize insertion_order 1 1 ⟨2, 1⟩ pair_files).get (by decide),
    by simp,
    anchor_agreement insertion_order 1 1 ⟨2, 1⟩ pair_files _ (by decide) (by simp)⟩

/-- C4 (shape coverage and base determinism, I2 and I3).  After any number of completed
learning iterations on a corpus with all cells in `[0, token_max]`, for every image and every
cell `p`, the shape of the class at `p` has an index `i` with
`token_ancor[current_token_id[p]] + positions[i] = p`, and `position_class[i]` is the initial
class at `p`. -/
theorem shape_coverage (order : map_iteration) (token_max tokens_to_create : Int)
    (image_size : tg.isize2)
    (files : List (String × Int × img.image Int)) (s : tokenizer_state)
    (hfiles : corpus_ok token_max files)
    (hrun : tokenize order token_max tokens_to_create image_size files = some s) :
    ∀ d ∈ s.image_data, ∀ p, d.current_token_class.contains p = true →
      ∃ (id : Int) (a : tg.ipos2) (c : Int) (shape : token_data) (i : Nat) (o : tg.ipos2)
        (base : Int),
        d.current_token_id.get p = some id ∧ index d.token_ancor id = some a ∧
        d.current_token_class.get p = some c ∧ index s.tokens c = some shape ∧
        shape.positions[i]? = some o ∧ a + tg.ivec2.of_pos o = p ∧
        shape.position_class[i]? = some base ∧ d.initial_token_class.get p = some base := by
  obtain ⟨hs, _⟩ := tokenize_inv order token_max tokens_to_create image_size files s hfiles hrun
  intro d hd p hp
  have hinv := hs.images d hd
  have hpc : d.m_initial_token_class.contains p = true := by
    rw [← hinv.1.class_contains]; exact hp
  obtain ⟨_, _, a, shape, ha, hsh, hall, o, ho, hop⟩ := hinv.2 p hpc
  obtain ⟨i, hi⟩ := List.mem_iff_getElem?.1 ho
  have h := hall i o hi
  rw [hop] at h
  exact ⟨_, a, _, shape, i, o, _, hinv.1.get_id p hpc, ha, hinv.1.get_class p hpc, hsh, hi, hop,
    h.2.2.2, img.image.get_eq_val _ hinv.1.init_wf p hpc⟩

/-- Witness for `shape_coverage`: two learning iterations on the `3 x 1` corpus. -/
theorem shape_coverage_witness :
    corpus_ok 1 row_files ∧
    (∃ s, tokenize insertion_order 1 2 ⟨3, 1⟩ row_files = some s ∧
      ∀ d ∈ s.image_data, ∀ p, d.current_token_class.contains p = true →
        ∃ (id : Int) (a : tg.ipos2) (c : Int) (shape : token_data) (i : Nat) (o : tg.ipos2)
          (base : Int),
          d.current_token_id.get p = some id ∧ index d.token_ancor id = some a ∧
          d.current_token_class.get p = some c ∧ index s.tokens c = some shape ∧
          shape.positions[i]? = some o ∧ a + tg.ivec2.of_pos o = p ∧
          shape.position_class[i]? = some base ∧ d.initial_token_class.get p = some base) :=
  ⟨by decide,
    (tokenize insertion_order 1 2 ⟨3, 1⟩ row_files).get (by decide),
    by simp,
    shape_coverage insertion_order 1 2 ⟨3, 1⟩ row_files _ (by decide) (by simp)⟩

/-! ## Apply-only equivalence -/

theorem apply_rules_cons (r : rule) (rules : List rule) (tokens : List token_data)
    (images images1 : List image_data) (N : token_data)
    (hN : index tokens r.new_token_id = some N)
    (h1 : apply_rule r N images = some images1) :
    apply_rules (r :: rules) tokens images = apply_rules rules tokens images1 := by
  unfold apply_rules
  simp only [List.foldlM_cons, hN, h1, Option.bind_eq_bind, Option.some_bind]

/-- Replaying the rules emitted by a run of the learning loop, with the final shape list,
reproduces the final images of the run. -/
theorem tokenize_loop_replay (order : map_iteration) (n : Nat) (s s' : tokenizer_state)
    (h : tokenize_loop order n s = some s') :
    ∃ R T, s'.rules = s.rules ++ R ∧ s'.tokens = s.tokens ++ T ∧
      ∀ T', apply_rules R (s'.tokens ++ T') s.image_data = some s'.image_data := by
  induction n generalizing s with
  | zero =>
    simp only [tokenize_loop, Option.some.injEq] at h
    subst h
    exact ⟨[], [], by simp, by simp, fun _ => rfl⟩
  | succ n ih =>
    simp only [tokenize_loop, Option.bind_eq_bind, Option.bind_eq_some] at h
    obtain ⟨s1, h1, h2⟩ := h
    obtain ⟨c, N, _, hstep⟩ := tokenize_iteration_some order s s1 h1
    obtain ⟨R, T, hR, hT, hrep⟩ := ih s1 h2
    refine ⟨{ constellation := c, new_token_id := (s.tokens.length : Int) } :: R, N :: T, ?_, ?_, ?_⟩
    · rw [hR, hstep.rules_eq]; simp
    · rw [hT, hstep.tokens_eq]; simp
    · intro T'
      have hN : index (s'.tokens ++ T')
          ({ constellation := c, new_token_id := (s.tokens.length : Int) } : rule).new_token_id
          = some N := by
        rw [hT, hstep.tokens_eq, List.append_assoc]
        exact index_append_left _ _ _ _ (index_length_append _ _)
      rw [apply_rules_cons _ R _ _ s1.image_data N hN hstep.applied]
      exact hrep T'

/-- C2 (apply-only equivalence).  For every corpus and every number of iterations, if the
learning loop of `tokenize` ends with rules `R`, shapes `T` and images `S`, then
`apply_rules(R, T, ·)` on the freshly constructed images of the same corpus ends in exactly
`S` (every field of every image equal), hence in the same token sequences. -/
theorem apply_only_equivalence (order : map_iteration) (token_max tokens_to_create : Int)
    (image_size : tg.isize2)
    (files : List (String × Int × img.image Int)) (s : tokenizer_state)
    (hrun : tokenize order token_max tokens_to_create image_size files = some s) :
    ∃ fresh, read_folder files = some fresh ∧
      apply_rules s.rules s.tokens fresh = some s.image_data ∧
      (apply_rules s.rules s.tokens fresh).bind (fun images => images.mapM token_sequence)
        = s.image_data.mapM token_sequence := by
  unfold tokenize at hrun
  simp only [Option.bind_eq_bind, Option.bind_eq_some] at hrun
  obtain ⟨fresh, hfresh, hloop⟩ := hrun
  obtain ⟨R, T, hR, _, hrep⟩ := tokenize_loop_replay order _ _ s hloop
  have h := hrep []
  simp only [List.append_nil, List.nil_append] at h hR
  rw [← hR] at h
  exact ⟨fresh, hfresh, h, by rw [h]; rfl⟩

/-- Witness for `apply_only_equivalence`: two learning iterations on the tie corpus. -/
theorem apply_only_equivalence_witness :
    ∃ s, tokenize insertion_order 2 2 ⟨2, 2⟩ tie_files = some s ∧
      ∃ fresh, read_folder tie_files = some fresh ∧
        apply_rules s.rules s.tokens fresh = some s.image_data ∧
        (apply_rules s.rules s.tokens fresh).bind (fun images => images.mapM token_sequence)
          = s.image_data.mapM token_sequence :=
  ⟨(tokenize insertion_order 2 2 ⟨2, 2⟩ tie_files).get (by decide), by simp,
    apply_only_equivalence insertion_order 2 2 ⟨2, 2⟩ tie_files _ (by simp)⟩

/-! ## The counter map -/

theorem count_map.count_nil (k : constellation) : count_map.count [] k = 0 := rfl

theorem count_map.count_cons (e : constellation × Int) (m : List (constellation × Int))
    (k : constellation) :
    count_map.count (e :: m) k = if e.1 = k then e.2 else count_map.count m k := by
  unfold count_map.count
  by_cases h : e.1 = k
  · simp [List.find?_cons, h]
  · simp [List.find?_cons, h]

theorem count_map.count_of_not_mem (m : count_map) (k : constellation)
    (h : ∀ e ∈ m, e.1 ≠ k) : m.count k = 0 := by
  induction m with
  | nil => rfl
  | cons e m ih =>
    rw [count_map.count_cons, if_neg (h e (List.mem_cons_self _ _))]
    exact ih (fun x hx => h x (List.mem_cons_of_mem _ hx))

theorem count_map.count_append_singleton (m : count_map) (key : constellation) (n : Int)
    (k : constellation) (h : ∀ e ∈ m, e.1 ≠ key) :
    count_map.count (m ++ [(key, n)]) k = m.count k + if k = key then n else 0 := by
  induction m with
  | nil =>
    rw [List.nil_append, count_map.count_cons, count_map.count_nil]
    by_cases hk : k = key
    · simp [hk]
    · have : ¬ key = k := fun h => hk h.symm
      simp [hk, this]
  | cons e m ih =>
    rw [List.cons_append, count_map.count_cons, count_map.count_cons,
      ih (fun x hx => h x (List.mem_cons_of_mem _ hx))]
    have he := h e (List.mem_cons_self _ _)
    by_cases hek : e.1 = k
    · have : ¬ k = key := fun h => he (hek.trans h)
      simp [hek, this]
    · simp [hek]

theorem count_map.count_map_update (m : count_map) (key k : constellation) :
    count_map.count (m.map (fun e => if e.1 = key then (e.1, e.2 + 1) else e)) k
      = m.count k + if k = key ∧ (∃ e ∈ m, e.1 = key) then 1 else 0 := by
  induction m with
  | nil => simp [count_map.count_nil]
  | cons e m ih =>
    rw [List.map_cons, count_map.count_cons, count_map.count_cons, ih]
    by_cases hek : e.1 = k
    · by_cases hkey : e.1 = key
      · have hk : k = key := hek ▸ hkey
        simp [hek, hkey, hk]
      · have hk : ¬ k = key := fun h => hkey (hek.trans h)
        simp [hek, hkey, hk]
    · by_cases hkey : e.1 = key
      · have hk : ¬ k = key := fun h => hek (hkey.trans h.symm)
        have hk' : ¬ key = k := fun h => hk h.symm
        simp [hek, hkey, hk, hk']
      · have hex : (∃ x ∈ e :: m, x.1 = key) ↔ ∃ x ∈ m, x.1 = key := by
          constructor
          · rintro ⟨x, hx, h⟩
            rcases List.mem_cons.1 hx with rfl | hx
            · exact absurd h hkey
            · exact ⟨x, hx, h⟩
          · rintro ⟨x, hx, h⟩
            exact ⟨x, List.mem_cons_of_mem _ hx, h⟩
        simp only [hkey, hek, if_false, hex]

theorem count_map.any_key_iff (m : count_map) (key : constellation) :
    m.any (fun e => decide (e.1 = key)) = true ↔ ∃ e ∈ m, e.1 = key := by
  rw [List.any_eq_true]
  constructor
  · rintro ⟨e, he, h⟩
    exact ⟨e, he, by simpa using h⟩
  · rintro ⟨e, he, h⟩
    exact ⟨e, he, by simpa using h⟩

theorem count_map.count_increment (m : count_map) (key k : constellation) :
    (m.increment key).count k = m.count k + if k = key then 1 else 0 := by
  unfold count_map.increment
  by_cases hany : m.any (fun e => decide (e.1 = key)) = true
  · rw [if_pos hany, count_map.count_map_update]
    have : ∃ e ∈ m, e.1 = key := (count_map.any_key_iff m key).1 hany
    simp [this]
  · rw [if_neg hany, count_map.count_append_singleton]
    · simp
    · intro e he hk
      exact hany ((count_map.any_key_iff m key).2 ⟨e, he, hk⟩)

theorem count_map_ok.increment {m : count_map} (h : count_map_ok m) (key : constellation) :
    count_map_ok (m.increment key) := by
  unfold count_map.increment
  by_cases hany : m.any (fun e => decide (e.1 = key)) = true
  · rw [if_pos hany]
    refine ⟨?_, ?_⟩
    · have : (m.map (fun e => if e.1 = key then (e.1, e.2 + 1) else e)).map Prod.fst
          = m.map Prod.fst := by
        rw [List.map_map]
        apply List.map_congr_left
        intro e _
        simp only [Function.comp]
        split <;> rfl
      rw [this]
      exact h.keys
    · intro e he
      simp only [List.mem_map] at he
      obtain ⟨e', he', rfl⟩ := he
      have := h.positive e' he'
      split
      · simp only; omega
      · exact this
  · rw [if_neg hany]
    refine ⟨?_, ?_⟩
    · rw [List.map_append, List.map_singleton]
      refine List.Nodup.append h.keys (List.nodup_singleton _) ?_
      intro c hc hc'
      simp only [List.mem_singleton] at hc'
      simp only [List.mem_map] at hc
      obtain ⟨e, he, hk⟩ := hc
      exact hany ((count_map.any_key_iff m key).2 ⟨e, he, hk.trans hc'⟩)
    · intro e he
      rcases List.mem_append.1 he with he | he
      · exact h.positive e he
      · simp only [List.mem_singleton] at he
        subst he
        simp

theorem count_map_ok.count_of_mem {m : count_map} (h : count_map_ok m) (c : constellation)
    (n : Int) (hmem : (c, n) ∈ m) : m.count c = n := by
  induction m with
  | nil => cases hmem
  | cons e m ih =>
    rw [count_map.count_cons]
    have hk := h.keys
    rw [List.map_cons, List.nodup_cons] at hk
    rcases List.mem_cons.1 hmem with heq | hmem'
    · rw [← heq]; simp
    · have hne : e.1 ≠ c := by
        intro hec
        exact hk.1 (List.mem_map.2 ⟨(c, n), hmem', hec.symm⟩)
      rw [if_neg hne]
      exact ih ⟨hk.2, fun x hx => h.positive x (List.mem_cons_of_mem _ hx)⟩ hmem'

theorem count_map.count_pos_iff (m : count_map) (h : count_map_ok m) (k : constellation) :
    (∃ e ∈ m, e.1 = k) ↔ 1 ≤ m.count k := by
  constructor
  · rintro ⟨e, he, rfl⟩
    rw [h.count_of_mem e.1 e.2 he]
    exact h.positive e he
  · intro hpos
    by_contra hno
    rw [count_map.count_of_not_mem m k (fun e he hk => hno ⟨e, he, hk⟩)] at hpos
    omega

/-! ## The argmax loop -/

theorem find_max_fold (l : count_map) (best : constellation × Int) :
    (l.foldl (fun (best : constellation × Int) (e : constellation × Int) =>
        if e.2 > best.2 then (e.1, e.2) else best) best = best ∧ ∀ e ∈ l, e.2 ≤ best.2) ∨
    ∃ pre post,
      l = pre ++ l.foldl (fun (best : constellation × Int) (e : constellation × Int) =>
        if e.2 > best.2 then (e.1, e.2) else best) best :: post ∧
      best.2 < (l.foldl (fun (best : constellation × Int) (e : constellation × Int) =>
        if e.2 > best.2 then (e.1, e.2) else best) best).2 ∧
      (∀ e ∈ pre, e.2 < (l.foldl (fun (best : constellation × Int) (e : constellation × Int) =>
        if e.2 > best.2 then (e.1, e.2) else best) best).2) ∧
      ∀ e ∈ post, e.2 ≤ (l.foldl (fun (best : constellation × Int) (e : constellation × Int) =>
        if e.2 > best.2 then (e.1, e.2) else best) best).2 := by
  induction l generalizing best with
  | nil => exact Or.inl ⟨rfl, fun e he => by cases he⟩
  | cons e l ih =>
    rw [List.foldl_cons]
    by_cases hgt : e.2 > best.2
    · rw [if_pos hgt]
      have heta : (e.1, e.2) = e := rfl
      rw [heta]
      rcases ih e with ⟨hr, hall⟩ | ⟨pre, post, hl, hlt, hpre, hpost⟩
      · right
        refine ⟨[], l, by rw [hr]; rfl, by rw [hr]; exact hgt, (fun x hx => by cases hx), ?_⟩
        rw [hr]; exact hall
      · right
        refine ⟨e :: pre, post, by rw [List.cons_append, ← hl], by omega, ?_, hpost⟩
        intro x hx
        rcases List.mem_cons.1 hx with rfl | hx
        · exact hlt
        · exact hpre x hx
    · rw [if_neg hgt]
      rcases ih best with ⟨hr, hall⟩ | ⟨pre, post, hl, hlt, hpre, hpost⟩
      · left
        refine ⟨hr, fun x hx => ?_⟩
        rcases List.mem_cons.1 hx with rfl | hx
        · omega
        · exact hall x hx
      · right
        refine ⟨e :: pre, post, by rw [List.cons_append, ← hl], hlt, ?_, hpost⟩
        intro x hx
        rcases List.mem_cons.1 hx with rfl | hx
        · omega
        · exact hpre x hx

/-- The argmax loop returns the first entry, in visiting order, whose count is maximal. -/
theorem find_max_spec (l : count_map) (hl : l ≠ []) (hpos : ∀ e ∈ l, 1 ≤ e.2) :
    ∃ pre post, l = pre ++ find_max l :: post ∧ (∀ e ∈ pre, e.2 < (find_max l).2) ∧
      ∀ e ∈ post, e.2 ≤ (find_max l).2 := by
  unfold find_max
  rcases find_max_fold l (({} : constellation), -1) with ⟨_, hall⟩ | ⟨pre, post, h1, _, h3, h4⟩
  · exfalso
    cases l with
    | nil => exact hl rfl
    | cons e l =>
      have h1 := hall e (List.mem_cons_self _ _)
      have h2 := hpos e (List.mem_cons_self _ _)
      simp only at h1
      omega
  · exact ⟨pre, post, h1, h3, h4⟩

theorem find_max_nil : find_max [] = (({} : constellation), -1) := rfl

/-! ## The votes of the counter, separated from the counter map -/

theorem count_pair_eq (image : image_data) (st : used_set × count_map) (coords : tg.ipos2)
    (dir : tg.ivec2) :
    count_pair image st coords dir
      = (pair_vote image st.1 coords dir).map (fun r => (r.1, cast_vote st.2 r.2)) := by
  unfold count_pair pair_vote
  simp only []
  split
  · rfl
  · cases h1 : image.current_token_id.get coords with
    | none => rfl
    | some a =>
      cases h2 : image.current_token_id.get (coords + dir) with
      | none => rfl
      | some b =>
        simp only [Option.bind_eq_bind, Option.some_bind]
        split
        · rfl
        · cases h3 : index image.token_ancor a with
          | none => rfl
          | some ca =>
            cases h4 : index image.token_ancor b with
            | none => rfl
            | some cb =>
              simp only [Option.some_bind]
              split
              · rfl
              · cases h5 : image.current_token_class.get coords with
                | none => rfl
                | some c1 =>
                  cases h6 : image.current_token_class.get (coords + dir) with
                  | none => rfl
                  | some c2 => rfl

theorem option_rel_iff {α β : Type} (R : α → β → Prop) (x : Option α) (y : Option β) :
    Option.Rel R x y ↔ (x = none ∧ y = none) ∨ ∃ a b, x = some a ∧ y = some b ∧ R a b := by
  constructor
  · intro h
    cases h with
    | none => exact Or.inl ⟨rfl, rfl⟩
    | some hr => exact Or.inr ⟨_, _, rfl, rfl, hr⟩
  · rintro (⟨rfl, rfl⟩ | ⟨a, b, rfl, rfl, hr⟩)
    · exact Option.Rel.none
    · exact Option.Rel.some hr

/-- Folds related step by step are related as a whole. -/
theorem foldlM_rel {σ τ β : Type} (R : σ → τ → Prop) (f : σ → β → Option σ)
    (g : τ → β → Option τ) (l : List β)
    (step : ∀ s t b, b ∈ l → R s t → Option.Rel R (f s b) (g t b)) (s : σ) (t : τ)
    (h : R s t) : Option.Rel R (l.foldlM f s) (l.foldlM g t) := by
  induction l generalizing s t with
  | nil => exact Option.Rel.some h
  | cons b l ih =>
    rw [List.foldlM_cons, List.foldlM_cons]
    rcases (option_rel_iff _ _ _).1 (step s t b (List.mem_cons_self _ _) h) with
      ⟨h1, h2⟩ | ⟨s1, t1, h1, h2, hr⟩
    · rw [h1, h2]; exact Option.Rel.none
    · rw [h1, h2]
      exact ih (fun s t b hb => step s t b (List.mem_cons_of_mem _ hb)) _ _ hr

theorem foldl_cast_append (m : count_map) (votes : List constellation)
    (vote : Option constellation) :
    (votes ++ vote.toList).foldl count_map.increment m
      = cast_vote (votes.foldl count_map.increment m) vote := by
  cases vote with
  | none => simp [cast_vote]
  | some key => simp [cast_vote, List.foldl_append]

/-- The counter map after an image is the map before it with the image's votes cast. -/
theorem count_image_rel (m0 : count_map) (image : image_data) :
    Option.Rel (fun m votes => m = votes.foldl count_map.increment m0)
      (count_image m0 image) (image_votes image) := by
  unfold count_image image_votes
  have h := foldlM_rel
    (fun (s : used_set × count_map) (t : used_set × List constellation) =>
      s.1 = t.1 ∧ s.2 = t.2.foldl count_map.increment m0)
    (fun st coords => directions.foldlM (fun st dir => count_pair image st coords dir) st)
    (fun st coords => directions.foldlM
      (fun (st : used_set × List constellation) dir => do
        let r ← pair_vote image st.1 coords dir
        pure (r.1, st.2 ++ r.2.toList)) st)
    (scan image.initial_token_class.width image.initial_token_class.height)
    (fun s t coords _ hst => by
      refine foldlM_rel _ _ _ directions (fun s t dir _ hst => ?_) s t hst
      rw [count_pair_eq, hst.1]
      cases hv : pair_vote image t.1 coords dir with
      | none => exact Option.Rel.none
      | some r =>
        refine Option.Rel.some ⟨rfl, ?_⟩
        simp only [hst.2]
        exact (foldl_cast_append m0 t.2 r.2).symm)
    (([] : used_set), m0) (([] : used_set), ([] : List constellation)) ⟨rfl, rfl⟩
  rcases (option_rel_iff _ _ _).1 h with ⟨h1, h2⟩ | ⟨s1, t1, h1, h2, hr⟩
  · simp only [image_data.initial_token_class] at h1 h2 ⊢
    rw [h1, h2]; exact Option.Rel.none
  · simp only [image_data.initial_token_class] at h1 h2 ⊢
    rw [h1, h2]; exact Option.Rel.some hr.2

/-- The counter map of a corpus is the empty map with all votes of the corpus cast. -/
theorem count_constellations_rel (images : List image_data) :
    Option.Rel (fun m votes => m = votes.foldl count_map.increment [])
      (count_constellations images) (corpus_votes images) := by
  unfold count_constellations corpus_votes
  refine foldlM_rel _ _ _ images (fun m acc image _ hm => ?_) [] [] rfl
  rcases (option_rel_iff _ _ _).1 (count_image_rel m image) with ⟨h1, h2⟩ | ⟨m1, v1, h1, h2, hr⟩
  · rw [h1, h2]; exact Option.Rel.none
  · rw [h1, h2]
    refine Option.Rel.some ?_
    rw [hr, hm, List.foldl_append]

theorem foldl_increment_count (votes : List constellation) (m : count_map) (k : constellation) :
    (votes.foldl count_map.increment m).count k = m.count k + (votes.count k : Int) := by
  induction votes generalizing m with
  | nil => simp
  | cons v votes ih =>
    rw [List.foldl_cons, ih, count_map.count_increment, List.count_cons]
    by_cases hk : k = v
    · simp [hk]; omega
    · have : ¬ (v == k) = true := by simpa using fun h => hk h.symm
      simp [hk, this]

theorem foldl_increment_ok (votes : List constellation) (m : count_map) (h : count_map_ok m) :
    count_map_ok (votes.foldl count_map.increment m) := by
  induction votes generalizing m with
  | nil => exact h
  | cons v votes ih => exact ih _ (h.increment v)

theorem count_map_ok_nil : count_map_ok [] :=
  ⟨List.nodup_nil, fun e he => by cases he⟩

/-- A counter map computed by the counter has distinct keys and positive counts, and its
counts are the numbers of votes. -/
theorem count_constellations_spec (images : List image_data) (m : count_map)
    (h : count_constellations images = some m) :
    ∃ votes, corpus_votes images = some votes ∧ count_map_ok m ∧
      ∀ k, m.count k = (votes.count k : Int) := by
  have hrel := count_constellations_rel images
  rw [h] at hrel
  cases hv : corpus_votes images with
  | none => rw [hv] at hrel; cases hrel
  | some votes =>
    rw [hv] at hrel
    cases hrel with
    | some hr =>
      refine ⟨votes, rfl, ?_, fun k => ?_⟩
      · rw [hr]; exact foldl_increment_ok votes [] count_map_ok_nil
      · rw [hr, foldl_increment_count, count_map.count_nil]; simp

theorem count_constellations_of_votes (images : List image_data) (votes : List constellation)
    (h : corpus_votes images = some votes) :
    count_constellations images = some (votes.foldl count_map.increment []) := by
  have hrel := count_constellations_rel images
  rw [h] at hrel
  cases hc : count_constellations images with
  | none => rw [hc] at hrel; cases hrel
  | some m =>
    rw [hc] at hrel
    cases hrel with
    | some hr => rw [hr]

/-! ## Permuting the corpus -/

theorem votes_fold_perm_acc (l : List image_data) (acc acc' : List constellation)
    (h : acc.Perm acc') :
    Option.Rel List.Perm
      (l.foldlM (fun acc image => do
        let votes ← image_votes image
        pure (acc ++ votes)) acc)
      (l.foldlM (fun acc image => do
        let votes ← image_votes image
        pure (acc ++ votes)) acc') := by
  refine foldlM_rel List.Perm _ _ l (fun s t image _ hst => ?_) acc acc' h
  cases image_votes image with
  | none => exact Option.Rel.none
  | some votes => exact Option.Rel.some (hst.append_right votes)

theorem option_rel_perm_trans {x y z : Option (List constellation)}
    (h1 : Option.Rel List.Perm x y) (h2 : Option.Rel List.Perm y z) :
    Option.Rel List.Perm x z := by
  cases h1 with
  | none => cases h2; exact Option.Rel.none
  | some hxy =>
    cases h2 with
    | some hyz => exact Option.Rel.some (hxy.trans hyz)

theorem votes_fold_perm (l l' : List image_data) (hl : l.Perm l') :
    ∀ (acc acc' : List constellation), acc.Perm acc' →
    Option.Rel List.Perm
      (l.foldlM (fun acc image => do
        let votes ← image_votes image
        pure (acc ++ votes)) acc)
      (l'.foldlM (fun acc image => do
        let votes ← image_votes image
        pure (acc ++ votes)) acc') := by
  induction hl with
  | nil => intro acc acc' h; exact Option.Rel.some h
  | cons x _ ih =>
    intro acc acc' h
    rw [List.foldlM_cons, List.foldlM_cons]
    cases image_votes x with
    | none => exact Option.Rel.none
    | some votes => exact ih _ _ (h.append_right votes)
  | swap x y l =>
    intro acc acc' h
    simp only [List.foldlM_cons]
    cases hx : image_votes x with
    | none =>
      cases hy : image_votes y with
      | none => exact Option.Rel.none
      | some vy => simp only [Option.bind_eq_bind, Option.some_bind, Option.none_bind,
          Option.pure_def]; exact Option.Rel.none
    | some vx =>
      cases hy : image_votes y with
      | none => simp only [Option.bind_eq_bind, Option.some_bind, Option.none_bind,
          Option.pure_def]; exact Option.Rel.none
      | some vy =>
        simp only [Option.bind_eq_bind, Option.some_bind, Option.pure_def]
        apply votes_fold_perm_acc
        rw [List.append_assoc, List.append_assoc]
        exact h.append List.perm_append_comm
  | trans _ _ ih1 ih2 =>
    intro acc acc' h
    exact option_rel_perm_trans (ih1 acc acc' h) (ih2 acc' acc' (List.Perm.refl _))

theorem corpus_votes_perm (images images' : List image_data) (h : images.Perm images') :
    Option.Rel List.Perm (corpus_votes images) (corpus_votes images') :=
  votes_fold_perm images images' h [] [] (List.Perm.refl _)

/-! ## The winner of the counter -/

theorem get_most_common_constellation_eq (order : map_iteration) (images : List image_data)
    (m : count_map) (hm : count_constellations images = some m) :
    get_most_common_constellation order images = some (find_max (order.visit m)).1 := by
  unfold get_most_common_constellation
  rw [hm]
  rfl

/-- The winner is the first entry of maximal count in the visiting order of the map. -/
theorem winner_spec (order : map_iteration) (m : count_map) (hok : count_map_ok m)
    (hne : m ≠ []) :
    ∃ pre post,
      order.visit m = pre ++ ((find_max (order.visit m)).1,
        m.count (find_max (order.visit m)).1) :: post ∧
      (∀ e ∈ pre, e.2 < m.count (find_max (order.visit m)).1) ∧
      (∀ e ∈ post, e.2 ≤ m.count (find_max (order.visit m)).1) ∧
      (∃ e ∈ m, e.1 = (find_max (order.visit m)).1) ∧
      ∀ k, m.count k ≤ m.count (find_max (order.visit m)).1 := by
  have hperm := order.visit_perm m
  have hne' : order.visit m ≠ [] := fun h => hne (by rw [h] at hperm; exact hperm.symm.eq_nil)
  have hpos : ∀ e ∈ order.visit m, 1 ≤ e.2 := fun e he => hok.positive e (hperm.mem_iff.1 he)
  obtain ⟨pre, post, h1, h2, h3⟩ := find_max_spec (order.visit m) hne' hpos
  have hmem : find_max (order.visit m) ∈ order.visit m := by
    have : find_max (order.visit m) ∈ pre ++ find_max (order.visit m) :: post := by simp
    rw [← h1] at this
    exact this
  have hmem' : ((find_max (order.visit m)).1, (find_max (order.visit m)).2) ∈ m :=
    hperm.mem_iff.1 hmem
  have hcount := hok.count_of_mem _ _ hmem'
  rw [hcount]
  refine ⟨pre, post, h1, h2, h3, ⟨_, hmem', rfl⟩, fun k => ?_⟩
  by_cases hk : ∃ e ∈ m, e.1 = k
  · obtain ⟨e, he, rfl⟩ := hk
    rw [hok.count_of_mem e.1 e.2 he]
    have he' : e ∈ order.visit m := hperm.mem_iff.2 he
    rw [h1] at he'
    rcases List.mem_append.1 he' with hp | hp
    · exact (h2 e hp).le
    · rcases List.mem_cons.1 hp with rfl | hp
      · exact le_refl _
      · exact h3 e hp
  · rw [count_map.count_of_not_mem m k (fun e he hek => hk ⟨e, he, hek⟩)]
    have := hpos _ hmem
    omega

/-- C5 (argmax).  Whenever the counter has counted at least one constellation, the
constellation returned by `get_most_common_constellation` has an entry in the counter map
and its count is at least the count of every constellation, for every visiting order of
the map. -/
theorem most_common_argmax (order : map_iteration) (images : List image_data) (m : count_map)
    (hm : count_constellations images = some m) (hne : m ≠ []) :
    ∃ c, get_most_common_constellation order images = some c ∧
      (∃ e ∈ m, e.1 = c) ∧ ∀ k, m.count k ≤ m.count c := by
  obtain ⟨_, _, hok, _⟩ := count_constellations_spec images m hm
  obtain ⟨_, _, _, _, _, h4, h5⟩ := winner_spec order m hok hne
  exact ⟨_, get_most_common_constellation_eq order images m hm, h4, h5⟩

/-- Witness for `most_common_argmax`: the tie corpus, visited in insertion order. -/
theorem most_common_argmax_witness :
    ∃ m, count_constellations tie_images = some m ∧ m ≠ [] ∧
      ∃ c, get_most_common_constellation insertion_order tie_images = some c ∧
        (∃ e ∈ m, e.1 = c) ∧ ∀ k, m.count k ≤ m.count c :=
  ⟨(count_constellations tie_images).get (by decide), by simp, by decide,
    most_common_argmax insertion_order tie_images _ (by simp) (by decide)⟩

/-- C6, counterexample.  On the image with rows `[1,2]` and `[2,1]` all four constellations
are counted once; visiting the map in insertion order the code returns `(1, 2, (0,1))`,
although `(1, 2, (1,0))` has the same count and precedes it in the spec's tie-break
order. -/
theorem tie_break_counterexample :
    count_constellations tie_images
      = some [(⟨1, 2, ⟨0, 1⟩⟩, 1), (⟨1, 2, ⟨1, 0⟩⟩, 1), (⟨2, 1, ⟨0, 1⟩⟩, 1), (⟨2, 1, ⟨1, 0⟩⟩, 1)] ∧
    get_most_common_constellation insertion_order tie_images = some ⟨1, 2, ⟨0, 1⟩⟩ ∧
    spec_tie_break_lt ⟨1, 2, ⟨1, 0⟩⟩ ⟨1, 2, ⟨0, 1⟩⟩ ∧
    get_most_common_constellation insertion_order tie_images ≠ some ⟨1, 2, ⟨1, 0⟩⟩ ∧
    get_most_common_constellation reverse_insertion_order tie_images = some ⟨2, 1, ⟨1, 0⟩⟩ := by
  decide

/-- C6, amended.  When several constellations share the maximal count,
`get_most_common_constellation` returns the one that the iteration over the counter map
visits first: every entry visited before the winner has a strictly smaller count, every
entry visited after it has a count that is not larger. -/
theorem tie_break_first_visited (order : map_iteration) (images : List image_data)
    (m : count_map) (hm : count_constellations images = some m) (hne : m ≠ []) :
    ∃ c pre post, get_most_common_constellation order images = some c ∧
      order.visit m = pre ++ (c, m.count c) :: post ∧
      (∀ e ∈ pre, e.2 < m.count c) ∧ (∀ e ∈ post, e.2 ≤ m.count c) := by
  obtain ⟨_, _, hok, _⟩ := count_constellations_spec images m hm
  obtain ⟨pre, post, h1, h2, h3, _, _⟩ := winner_spec order m hok hne
  exact ⟨_, pre, post, get_most_common_constellation_eq order images m hm, h1, h2, h3⟩

/-- Witness for `tie_break_first_visited`: the tie corpus, visited in reverse insertion
order. -/
theorem tie_break_first_visited_witness :
    ∃ m, count_constellations tie_images = some m ∧ m ≠ [] ∧
      ∃ c pre post, get_most_common_constellation reverse_insertion_order tie_images = some c ∧
        reverse_insertion_order.visit m = pre ++ (c, m.count c) :: post ∧
        (∀ e ∈ pre, e.2 < m.count c) ∧ (∀ e ∈ post, e.2 ≤ m.count c) :=
  ⟨(count_constellations tie_images).get (by decide), by simp, by decide,
    tie_break_first_visited reverse_insertion_order tie_images _ (by simp) (by decide)⟩

/-! ## Order of the images -/

/-- C7, counterexample.  Swapping the two images of a corpus changes the constellation
returned when the map is visited in insertion order. -/
theorem order_independence_counterexample :
    two_images.Perm two_images_swapped ∧
    get_most_common_constellation insertion_order two_images = some ⟨1, 2, ⟨1, 0⟩⟩ ∧
    get_most_common_constellation insertion_order two_images_swapped = some ⟨3, 4, ⟨1, 0⟩⟩ :=
  ⟨List.Perm.swap _ _ _, by decide, by decide⟩

theorem count_map_eq_nil_of_count (m : count_map) (hok : count_map_ok m)
    (h : ∀ k, m.count k = 0) : m = [] := by
  cases m with
  | nil => rfl
  | cons e m =>
    exfalso
    have h1 := hok.count_of_mem e.1 e.2 (List.mem_cons_self _ _)
    have h2 := hok.positive e (List.mem_cons_self _ _)
    rw [h e.1] at h1
    omega

/-- C7, amended.  For every corpus and every permutation of its images, the counter gives
every constellation the same count on the permuted corpus as on the original, and the
constellation returned on the permuted corpus has the same (maximal) count as the one
returned on the original. -/
theorem permutation_same_counts (order : map_iteration) (images images' : List image_data)
    (m : count_map) (hperm : images.Perm images')
    (hm : count_constellations images = some m) :
    ∃ m' c c', count_constellations images' = some m' ∧ (∀ k, m'.count k = m.count k) ∧
      get_most_common_constellation order images = some c ∧
      get_most_common_constellation order images' = some c' ∧
      m'.count c' = m.count c := by
  obtain ⟨votes, hv, hok, hcount⟩ := count_constellations_spec images m hm
  have hrel := corpus_votes_perm images images' hperm
  rw [hv] at hrel
  rcases (option_rel_iff _ _ _).1 hrel with ⟨h1, _⟩ | ⟨v1, votes', h1, hv', hp⟩
  · cases h1
  cases h1
  have hm' := count_constellations_of_votes images' votes' hv'
  obtain ⟨votes'', hv'', hok', hcount'⟩ := count_constellations_spec images' _ hm'
  rw [hv'] at hv''
  cases hv''
  have hsame : ∀ k, count_map.count (votes'.foldl count_map.increment []) k = m.count k := by
    intro k
    rw [hcount' k, hcount k, hp.count_eq]
  refine ⟨_, _, _, hm', hsame, get_most_common_constellation_eq order images m hm,
    get_most_common_constellation_eq order images' _ hm', ?_⟩
  by_cases hne : m = []
  · have hne' : votes'.foldl count_map.increment [] = [] := by
      apply count_map_eq_nil_of_count _ hok'
      intro k
      rw [hsame k, hne]
      rfl
    rw [hsame, hne', hne]
  · have hne' : votes'.foldl count_map.increment [] ≠ [] := by
      intro h
      apply hne
      apply count_map_eq_nil_of_count m hok
      intro k
      rw [← hsame k, h]
      rfl
    obtain ⟨_, _, _, _, _, _, hmax⟩ := winner_spec order m hok hne
    obtain ⟨_, _, _, _, _, _, hmax'⟩ := winner_spec order _ hok' hne'
    have a1 := hmax (find_max (order.visit (votes'.foldl count_map.increment []))).1
    have a2 := hmax' (find_max (order.visit m)).1
    rw [hsame] at a2 ⊢
    rw [hsame] at a2
    omega

/-- Witness for `permutation_same_counts`: the two-image corpus and its swap. -/
theorem permutation_same_counts_witness :
    two_images.Perm two_images_swapped ∧
    ∃ m, count_constellations two_images = some m ∧
      ∃ m' c c', count_constellations two_images_swapped = some m' ∧
        (∀ k, m'.count k = m.count k) ∧
        get_most_common_constellation insertion_order two_images = some c ∧
        get_most_common_constellation insertion_order two_images_swapped = some c' ∧
        m'.count c' = m.count c :=
  ⟨List.Perm.swap _ _ _, (count_constellations two_images).get (by decide), by simp,
    permutation_same_counts insertion_order two_images two_images_swapped _
      (List.Perm.swap _ _ _) (by simp)⟩

/-! ## Exhaustion -/

theorem tokenize_loop_succ_none (order : map_iteration) (n : Nat) (s : tokenizer_state)
    (h : tokenize_iteration order s = none) : tokenize_loop order (n + 1) s = none := by
  simp only [tokenize_loop, h, Option.bind_eq_bind, Option.none_bind]

/-- C8, the code at the failing input.  For the corpus of a single `1 x 1` image the counter
counts nothing and returns the default constellation (class ids `-1`); `tokenize` has no
exhaustion test, hands that constellation to `combine_tokens`, which indexes the shape list
at `-1`: the run fails for every `N >= 1` instead of stopping with an empty rule list.  The
same happens in the iteration after a `2 x 1` image has been merged into one token. -/
theorem exhaustion_not_handled (order : map_iteration) (n : Nat) :
    read_folder single_cell_files = some single_cell_images ∧
    count_constellations single_cell_images = some [] ∧
    get_most_common_constellation order single_cell_images = some {} ∧
    ({} : constellation).source_class_id = -1 ∧ ({} : constellation).target_class_id = -1 ∧
    combine_tokens {} (initial_tokens 0) = none ∧
    tokenize order 0 ((n : Int) + 1) ⟨1, 1⟩ single_cell_files = none ∧
    tokenize order 0 0 ⟨1, 1⟩ single_cell_files
      = some { rules := [], tokens := initial_tokens 0, image_data := single_cell_images } ∧
    tokenize insertion_order 1 2 ⟨2, 1⟩ pair_files = none := by
  have hread : read_folder single_cell_files = some single_cell_images := by decide
  have hcount : count_constellations single_cell_images = some [] := by decide
  have hwin : get_most_common_constellation order single_cell_images = some {} := by
    rw [get_most_common_constellation_eq order _ [] hcount, (order.visit_perm []).eq_nil]
    rfl
  have hcomb : combine_tokens {} (initial_tokens 0) = none := by decide
  refine ⟨hread, hcount, hwin, rfl, rfl, hcomb, ?_, ?_, by decide⟩
  · unfold tokenize
    rw [hread]
    have hn : ((n : Int) + 1).toNat = n + 1 := by omega
    simp only [Option.bind_eq_bind, Option.some_bind, hn]
    apply tokenize_loop_succ_none
    unfold tokenize_iteration
    simp only [hwin, hcomb, Option.bind_eq_bind, Option.some_bind, Option.none_bind]
  · unfold tokenize
    rw [hread]
    rfl

/-! ## Shape combination and anchor choice -/

/-- C9 (shape combination).  For every constellation `(s, t, D)` and shape list holding
index-aligned shapes at `s` and `t`, `combine_tokens` returns a shape with the next class
id whose cells are, when the source anchor is kept, the cells of shape `s` followed by
every `(o + D, base)` for `(o, base)` in shape `t` in order, and, when the target anchor
is kept (as for `D = (0,-1)`), the cells of shape `t` followed by every `(o - D, base)`
for `(o, base)` in shape `s` in order; `positions` and `position_class` stay aligned. -/
theorem shape_combination (rule : constellation) (tokens : List token_data)
    (token_a token_b : token_data)
    (ha : index tokens rule.source_class_id = some token_a)
    (hb : index tokens rule.target_class_id = some token_b)
    (hla : token_a.positions.length = token_a.position_class.length)
    (hlb : token_b.positions.length = token_b.position_class.length) :
    ∃ t, combine_tokens rule tokens = some t ∧ t.class_id = (tokens.length : Int) ∧
      t.positions.length = t.position_class.length ∧
      (keep_token_a_ancor rule.ancor_offset = true →
        t.positions.zip t.position_class
          = token_a.positions.zip token_a.position_class ++
            (token_b.positions.zip token_b.position_class).map
              (fun e => (e.1 + rule.ancor_offset, e.2))) ∧
      (keep_token_a_ancor rule.ancor_offset = false →
        t.positions.zip t.position_class
          = token_b.positions.zip token_b.position_class ++
            (token_a.positions.zip token_a.position_class).map
              (fun e => (e.1 - rule.ancor_offset, e.2))) ∧
      keep_token_a_ancor ⟨0, -1⟩ = false := by
  refine ⟨_, combine_tokens_eq rule tokens token_a token_b ha hb hla hlb, ?_, ?_, ?_, ?_, by decide⟩
  · split <;> rfl
  · split <;> simp [hla, hlb]
  · intro hk
    rw [if_pos hk]
    simp only
    rw [List.zip_append hla, List.zip_map_left]
    rfl
  · intro hk
    rw [if_neg (by simp [hk])]
    simp only
    rw [List.zip_append hlb, List.zip_map_left]
    rfl

/-- Witness for `shape_combination`: the upward offset `(0,-1)` on two base shapes. -/
theorem shape_combination_witness :
    ∃ t, combine_tokens ⟨0, 1, ⟨0, -1⟩⟩ (initial_tokens 1) = some t ∧
      t.class_id = ((initial_tokens 1).length : Int) ∧
      t.positions.length = t.position_class.length ∧
      (keep_token_a_ancor (⟨0, 1, ⟨0, -1⟩⟩ : constellation).ancor_offset = true →
        t.positions.zip t.position_class
          = ([⟨0, 0⟩] : List tg.ipos2).zip [(0 : Int)] ++
            (([⟨0, 0⟩] : List tg.ipos2).zip [(1 : Int)]).map
              (fun e => (e.1 + (⟨0, 1, ⟨0, -1⟩⟩ : constellation).ancor_offset, e.2))) ∧
      (keep_token_a_ancor (⟨0, 1, ⟨0, -1⟩⟩ : constellation).ancor_offset = false →
        t.positions.zip t.position_class
          = ([⟨0, 0⟩] : List tg.ipos2).zip [(1 : Int)] ++
            (([⟨0, 0⟩] : List tg.ipos2).zip [(0 : Int)]).map
              (fun e => (e.1 - (⟨0, 1, ⟨0, -1⟩⟩ : constellation).ancor_offset, e.2))) ∧
      keep_token_a_ancor ⟨0, -1⟩ = false :=
  shape_combination ⟨0, 1, ⟨0, -1⟩⟩ (initial_tokens 1)
    { positions := [⟨0, 0⟩], position_class := [0], class_id := 0 }
    { positions := [⟨0, 0⟩], position_class := [1], class_id := 1 }
    (by decide) (by decide) (by decide) (by decide)

/-- C10, counterexample.  At `D = (0,0)` the code keeps the source anchor although the
stated condition is false there: `combine_tokens` puts the source shape first. -/
theorem anchor_choice_counterexample :
    keep_token_a_ancor ⟨0, 0⟩ = true ∧ ¬ spec_keep_source ⟨0, 0⟩ ∧
    combine_tokens ⟨0, 1, ⟨0, 0⟩⟩ (initial_tokens 1)
      = some { positions := [⟨0, 0⟩, ⟨0, 0⟩], position_class := [0, 1], class_id := 2 } := by
  decide

/-- The write loop of `apply_rule` never fails on well-formed grids and leaves the initial
classes, the anchor table and the id counter alone. -/
theorem write_cells_frame (new_token : token_data) (new_ancor : tg.ipos2) (new_id : Int)
    (cells : List tg.ipos2) (d : image_data) (hg : grids_ok d) :
    ∃ d', cells.foldlM (write_cell new_token new_ancor new_id) d = some d' ∧ same_frame d d' := by
  refine foldlM_invariant (write_cell new_token new_ancor new_id) (same_frame d) cells ?_ d
    ⟨rfl, rfl, rfl, hg⟩
  intro s o _ hs
  by_cases hc : s.m_initial_token_class.contains (new_ancor + tg.ivec2.of_pos o) = true
  · obtain ⟨s', h1, h2, _, _⟩ := write_cell_spec new_token new_ancor new_id s hs.ok o hc
    exact ⟨s', h1, ⟨h2.init_eq.trans hs.init_eq, h2.ancor_eq.trans hs.ancor_eq,
      h2.next_eq.trans hs.next_eq, h2.ok⟩⟩
  · refine ⟨s, ?_, hs⟩
    simp only [Bool.not_eq_true] at hc
    simp [write_cell, image_data.initial_token_class, hc]

/-- When the match condition holds at a cell, `apply_rule` allocates one id and pushes one
anchor: the cell itself if the source anchor is kept, the target cell otherwise. -/
theorem apply_rule_at_merge (rule : rule) (new_token : token_data) (d : image_data)
    (p : tg.ipos2) (hg : grids_ok d)
    (h1 : d.current_token_class.get p = some rule.constellation.source_class_id)
    (h2 : ∃ i, d.current_token_id.get p = some i ∧ index d.token_ancor i = some p)
    (h3 : d.initial_token_class.contains (p + rule.constellation.ancor_offset) = true)
    (h4 : d.current_token_class.get (p + rule.constellation.ancor_offset)
      = some rule.constellation.target_class_id)
    (h5 : ∃ j, d.current_token_id.get (p + rule.constellation.ancor_offset) = some j ∧
      index d.token_ancor j = some (p + rule.constellation.ancor_offset)) :
    ∃ d', apply_rule_at rule new_token d p = some d' ∧
      d'.token_ancor = d.token_ancor ++
        [if keep_token_a_ancor rule.constellation.ancor_offset then p
          else p + rule.constellation.ancor_offset] ∧
      d'.m_next_token_id = d.m_next_token_id + 1 ∧
      d'.m_initial_token_class = d.m_initial_token_class := by
  obtain ⟨i, hi, hai⟩ := h2
  obtain ⟨j, hj, haj⟩ := h5
  have hg1 : grids_ok
      { d with m_next_token_id := d.m_next_token_id + 1
               token_ancor := d.token_ancor ++
                [if keep_token_a_ancor rule.constellation.ancor_offset then p
                  else p + rule.constellation.ancor_offset] } :=
    ⟨hg.init_wf, hg.class_wf, hg.id_wf, hg.class_ext, hg.id_ext, by
      have := hg.ancor_len
      simp only [List.length_append, List.length_singleton, Nat.cast_add, Nat.cast_one]
      omega⟩
  obtain ⟨d', hd', hf⟩ := write_cells_frame new_token
    (if keep_token_a_ancor rule.constellation.ancor_offset then p
      else p + rule.constellation.ancor_offset) d.m_next_token_id new_token.positions _ hg1
  refine ⟨d', ?_, hf.ancor_eq, hf.next_eq, hf.init_eq⟩
  unfold apply_rule_at
  simp only [image_data.initial_token_class] at h3
  simp only [h1, hi, hai, h3, h4, hj, haj, Option.bind_eq_bind, Option.some_bind,
    image_data.initial_token_class, ne_eq, not_true_eq_false, if_false, Bool.not_true,
    Bool.false_eq_true, image_data.next_token_id]
  exact hd'

/-- C10, amended.  For every anchor offset `D`, `combine_tokens` and `apply_rule` keep the
source anchor if and only if `D.y > 0` or (`D.y = 0` and `D.x >= 0`), and keep the target
anchor otherwise: `combine_tokens` then lists the kept token's cells first, and a merge of
`apply_rule` at cell `p` pushes `p` respectively `p + D` as the new anchor. -/
theorem anchor_choice (D : tg.ivec2) :
    (keep_token_a_ancor D = true ↔ D.y > 0 ∨ (D.y = 0 ∧ D.x ≥ 0)) ∧
    (∀ (s t : Int) (tokens : List token_data) (token_a token_b : token_data),
      index tokens s = some token_a → index tokens t = some token_b →
      token_a.positions.length = token_a.position_class.length →
      token_b.positions.length = token_b.position_class.length →
      ∃ n, combine_tokens ⟨s, t, D⟩ tokens = some n ∧
        n.positions =
          if D.y > 0 ∨ (D.y = 0 ∧ D.x ≥ 0) then
            token_a.positions ++ token_b.positions.map (fun o => o + D)
          else token_b.positions ++ token_a.positions.map (fun o => o - D)) ∧
    (∀ (s t n : Int) (new_token : token_data) (d : image_data) (p : tg.ipos2),
      grids_ok d →
      d.current_token_class.get p = some s →
      (∃ i, d.current_token_id.get p = some i ∧ index d.token_ancor i = some p) →
      d.initial_token_class.contains (p + D) = true →
      d.current_token_class.get (p + D) = some t →
      (∃ j, d.current_token_id.get (p + D) = some j ∧ index d.token_ancor j = some (p + D)) →
      ∃ d', apply_rule_at ⟨⟨s, t, D⟩, n⟩ new_token d p = some d' ∧
        d'.token_ancor = d.token_ancor ++ [if D.y > 0 ∨ (D.y = 0 ∧ D.x ≥ 0) then p else p + D]) := by
  have hiff : keep_token_a_ancor D = true ↔ D.y > 0 ∨ (D.y = 0 ∧ D.x ≥ 0) :=
    keep_token_a_ancor_iff D
  refine ⟨hiff, ?_, ?_⟩
  · intro s t tokens token_a token_b ha hb hla hlb
    refine ⟨_, combine_tokens_eq ⟨s, t, D⟩ tokens token_a token_b ha hb hla hlb, ?_⟩
    by_cases hk : keep_token_a_ancor D = true
    · rw [if_pos hk, if_pos (hiff.1 hk)]
    · rw [if_neg hk, if_neg (fun h => hk (hiff.2 h))]
  · intro s t n new_token d p hg h1 h2 h3 h4 h5
    obtain ⟨d', hd', hanc, _, _⟩ := apply_rule_at_merge ⟨⟨s, t, D⟩, n⟩ new_token d p hg h1 h2 h3 h4 h5
    refine ⟨d', hd', ?_⟩
    rw [hanc]
    by_cases hk : keep_token_a_ancor D = true
    · rw [if_pos hk, if_pos (hiff.1 hk)]
    · rw [if_neg hk, if_neg (fun h => hk (hiff.2 h))]

/-- Witness for `anchor_choice`: the offset `(0,0)`, where the stated rule and the code
differ. -/
theorem anchor_choice_witness :
    (keep_token_a_ancor ⟨0, 0⟩ = true ↔
      (⟨0, 0⟩ : tg.ivec2).y > 0 ∨ ((⟨0, 0⟩ : tg.ivec2).y = 0 ∧ (⟨0, 0⟩ : tg.ivec2).x ≥ 0)) ∧
    (∃ n, combine_tokens ⟨0, 1, ⟨0, 0⟩⟩ (initial_tokens 1) = some n ∧
      n.positions = [⟨0, 0⟩, ⟨0, 0⟩]) :=
  ⟨(anchor_choice ⟨0, 0⟩).1,
    (anchor_choice ⟨0, 0⟩).2.1 0 1 (initial_tokens 1)
      { positions := [⟨0, 0⟩], position_class := [0], class_id := 0 }
      { positions := [⟨0, 0⟩], position_class := [1], class_id := 1 }
      (by decide) (by decide) (by decide) (by decide)⟩

/-! ## Progress of the learning loop -/

theorem image_inv.shape {tokens : List token_data} {d : image_data} (h : image_inv tokens d)
    (p : tg.ipos2) (hp : d.m_initial_token_class.contains p = true) :
    ∃ shape, index tokens (d.current_token_class.val p) = some shape := by
  obtain ⟨_, _, _, shape, _, hs, _⟩ := h.2 p hp
  exact ⟨shape, hs⟩

/-- Under the image invariant the body of the counter loop never fails, and a vote goes to
a constellation of two classes present in the grid. -/
theorem pair_vote_inv (tokens : List token_data) (d : image_data) (hinv : image_inv tokens d)
    (used : used_set) (p : tg.ipos2) (hp : d.m_initial_token_class.contains p = true)
    (dir : tg.ivec2) :
    ∃ r, pair_vote d used p dir = some r ∧ ∀ key ∈ r.2.toList, indexes_shapes tokens key := by
  have hg := hinv.1
  unfold pair_vote
  simp only []
  by_cases hn : d.m_initial_token_class.contains (p + dir) = true
  swap
  · refine ⟨(used, none), ?_, by simp⟩
    simp only [Bool.not_eq_true] at hn
    simp [hg.id_contains, hn]
  obtain ⟨a, ha⟩ := hinv.ancor p hp
  obtain ⟨b, hb⟩ := hinv.ancor _ hn
  obtain ⟨A, hA⟩ := hinv.shape p hp
  obtain ⟨B, hB⟩ := hinv.shape _ hn
  simp only [hg.id_contains, hn, hg.get_id p hp, hg.get_id _ hn, hg.get_class p hp,
    hg.get_class _ hn, Option.bind_eq_bind, Option.some_bind, Bool.not_true,
    Bool.false_eq_true, if_false]
  by_cases hsame : d.current_token_id.val p = d.current_token_id.val (p + dir)
  · exact ⟨(used, none), by simp [hsame], by simp⟩
  simp only [hsame, if_false, ha, hb, Option.some_bind]
  split
  · exact ⟨_, rfl, by simp⟩
  · refine ⟨_, rfl, ?_⟩
    intro key hkey
    simp only [Option.toList_some, List.mem_singleton] at hkey
    subst hkey
    exact ⟨A, B, hA, hB⟩

/-- Under the image invariant the counter scan of an image never fails and all its votes go
to constellations whose classes index shapes. -/
theorem image_votes_inv (tokens : List token_data) (d : image_data)
    (hinv : image_inv tokens d) :
    ∃ votes, image_votes d = some votes ∧ ∀ key ∈ votes, indexes_shapes tokens key := by
  unfold image_votes
  obtain ⟨st, h1, h2⟩ := foldlM_invariant
    (fun st coords => directions.foldlM
      (fun (st : used_set × List constellation) dir => do
        let r ← pair_vote d st.1 coords dir
        pure (r.1, st.2 ++ r.2.toList)) st)
    (fun st => ∀ key ∈ st.2, indexes_shapes tokens key)
    (scan d.initial_token_class.width d.initial_token_class.height)
    (fun st coords hc hst => by
      have hcc : d.m_initial_token_class.contains coords = true :=
        (mem_scan_iff_contains d.m_initial_token_class coords).1 hc
      refine foldlM_invariant _ (fun st => ∀ key ∈ st.2, indexes_shapes tokens key)
        directions (fun st dir _ hst => ?_) st hst
      obtain ⟨r, hr, hkeys⟩ := pair_vote_inv tokens d hinv st.1 coords hcc dir
      refine ⟨(r.1, st.2 ++ r.2.toList), by simp [hr], ?_⟩
      intro key hkey
      rcases List.mem_append.1 hkey with h | h
      · exact hst key h
      · exact hkeys key h)
    (([] : used_set), ([] : List constellation)) (fun key hkey => by cases hkey)
  refine ⟨st.2, ?_, h2⟩
  simp only []
  rw [h1]; rfl

theorem corpus_votes_inv (tokens : List token_data) (images : List image_data)
    (hinv : ∀ d ∈ images, image_inv tokens d) :
    ∃ votes, corpus_votes images = some votes ∧ ∀ key ∈ votes, indexes_shapes tokens key := by
  unfold corpus_votes
  refine foldlM_invariant _ (fun acc => ∀ key ∈ acc, indexes_shapes tokens key) images
    (fun acc d hd hacc => ?_) [] (fun key hkey => by cases hkey)
  obtain ⟨votes, hv, hkeys⟩ := image_votes_inv tokens d (hinv d hd)
  refine ⟨acc ++ votes, by simp [hv], ?_⟩
  intro key hkey
  rcases List.mem_append.1 hkey with h | h
  · exact hacc key h
  · exact hkeys key h

/-- Under the state invariant `apply_rule` succeeds for the rule and shape that
`combine_tokens` builds from a constellation whose classes index shapes. -/
theorem apply_rule_succeeds (s : tokenizer_state) (hs : state_inv s) (c : constellation)
    (N : token_data) (hcomb : combine_tokens c s.tokens = some N) :
    ∃ images', apply_rule { constellation := c, new_token_id := (s.tokens.length : Int) } N
      s.image_data = some images' := by
  obtain ⟨A, B, hA, hB⟩ := combine_tokens_some c s.tokens N hcomb
  have hNok : shape_ok N :=
    combine_tokens_shape_ok c s.tokens A B N hA hB (hs.shapes _ _ hA) (hs.shapes _ _ hB) hcomb
  rw [combine_tokens_eq c s.tokens A B hA hB (hs.shapes _ _ hA).aligned
    (hs.shapes _ _ hB).aligned] at hcomb
  simp only [Option.some.injEq] at hcomb
  have hNid : N.class_id = (s.tokens.length : Int) := by
    rw [← hcomb]; split <;> rfl
  have hNpos : N.positions =
      if keep_token_a_ancor c.ancor_offset then
        A.positions ++ B.positions.map (fun o => o + c.ancor_offset)
      else B.positions ++ A.positions.map (fun o => o - c.ancor_offset) := by
    rw [← hcomb]; split <;> rfl
  have hNcls : N.position_class =
      if keep_token_a_ancor c.ancor_offset then A.position_class ++ B.position_class
      else B.position_class ++ A.position_class := by
    rw [← hcomb]; split <;> rfl
  have hshapes' : ∀ i t, index (s.tokens ++ [N]) i = some t → shape_ok t := by
    intro i t hi
    rcases index_append_singleton _ _ _ _ hi with h1 | ⟨_, rfl⟩
    · exact hs.shapes _ _ h1
    · exact hNok
  have hN' : index (s.tokens ++ [N]) N.class_id = some N := by
    rw [hNid]; exact index_length_append _ _
  have hall : ∀ d ∈ s.image_data, ∃ d', apply_rule_image
      { constellation := c, new_token_id := (s.tokens.length : Int) } N d = some d' := by
    intro d hd
    obtain ⟨d', h1, _, _⟩ := apply_rule_image_inv (s.tokens ++ [N])
      { constellation := c, new_token_id := (s.tokens.length : Int) } A B N d
      (image_inv_append _ _ _ (hs.images d hd)) hshapes'
      (index_append_left _ _ _ _ hA) (index_append_left _ _ _ _ hB) hN' hNpos hNcls
    exact ⟨d', h1⟩
  unfold apply_rule
  generalize s.image_data = l at hall
  induction l with
  | nil => exact ⟨[], rfl⟩
  | cons d l ih =>
    obtain ⟨d', hd'⟩ := hall d (List.mem_cons_self _ _)
    obtain ⟨l', hl'⟩ := ih (fun x hx => hall x (List.mem_cons_of_mem _ hx))
    exact ⟨d' :: l', by rw [List.mapM_cons, hd', hl']; rfl⟩

/-- In a state satisfying the invariant the counter never fails, and an iteration of the
learning loop succeeds exactly when the counter has counted a constellation. -/
theorem tokenize_iteration_progress (order : map_iteration) (s : tokenizer_state)
    (hs : state_inv s) :
    ∃ m, count_constellations s.image_data = some m ∧
      (m ≠ [] → ∃ s', tokenize_iteration order s = some s') ∧
      (m = [] → tokenize_iteration order s = none) := by
  obtain ⟨votes, hv, hkeys⟩ := corpus_votes_inv s.tokens s.image_data hs.images
  have hm := count_constellations_of_votes s.image_data votes hv
  refine ⟨_, hm, ?_, ?_⟩
  · intro hne
    obtain ⟨votes', hv', hok, hcount⟩ := count_constellations_spec s.image_data _ hm
    rw [hv] at hv'
    cases hv'
    obtain ⟨_, _, _, _, _, ⟨e, he, hec⟩, _⟩ := winner_spec order _ hok hne
    have hwin := get_most_common_constellation_eq order s.image_data _ hm
    -- the winner received a vote
    have hpos : 1 ≤ count_map.count (votes.foldl count_map.increment []) e.1 := by
      rw [hok.count_of_mem e.1 e.2 he]; exact hok.positive e he
    rw [hcount e.1] at hpos
    have hmem : e.1 ∈ votes := by
      by_contra hno
      rw [List.count_eq_zero_of_not_mem hno] at hpos
      simp at hpos
    rw [hec] at hmem
    generalize (find_max (order.visit (votes.foldl count_map.increment []))).1 = c at hwin hmem
    obtain ⟨A, B, hA, hB⟩ := hkeys _ hmem
    have hcomb := combine_tokens_eq c s.tokens A B hA hB (hs.shapes _ _ hA).aligned
      (hs.shapes _ _ hB).aligned
    obtain ⟨images', himages⟩ := apply_rule_succeeds s hs c _ hcomb
    unfold tokenize_iteration
    simp only [hwin, hcomb, himages, Option.bind_eq_bind, Option.some_bind, Option.pure_def]
    exact ⟨_, rfl⟩
  · intro hnil
    have hwin := get_most_common_constellation_eq order s.image_data _ hm
    rw [hnil, (order.visit_perm []).eq_nil] at hwin
    have hcomb : combine_tokens (find_max []).1 s.tokens = none := by
      unfold combine_tokens
      have : index s.tokens (find_max []).1.source_class_id = none := by
        unfold index
        rw [if_neg]
        decide
      simp only [this, Option.bind_eq_bind, Option.none_bind]
    unfold tokenize_iteration
    simp only [hwin, hcomb, Option.bind_eq_bind, Option.some_bind, Option.none_bind]

/-! ## Anchors and first cells -/

/-- Under the image invariant the anchor of the instance covering `p` lies in the grid,
carries the id of `p`, and no cell of the instance precedes it in row-major order. -/
theorem image_inv.ancor_first {tokens : List token_data} {d : image_data}
    (hinv : image_inv tokens d) (hshapes : ∀ i t, index tokens i = some t → shape_ok t)
    (p : tg.ipos2) (hp : d.m_initial_token_class.contains p = true) :
    ∃ a, index d.token_ancor (d.current_token_id.val p) = some a ∧
      d.m_initial_token_class.contains a = true ∧
      d.current_token_id.val a = d.current_token_id.val p ∧
      ∀ q, d.m_initial_token_class.contains q = true →
        d.current_token_id.val q = d.current_token_id.val p → ¬ scan_lt q a := by
  obtain ⟨_, _, a, shape, ha, hs, hall, _⟩ := hinv.2 p hp
  have h0 := hall 0 ⟨0, 0⟩ (shape_ok_zero shape (hshapes _ _ hs))
  rw [add_zero_pos] at h0
  refine ⟨a, ha, h0.1, h0.2.1, fun q hq hid hlt => ?_⟩
  obtain ⟨_, _, a', shape', ha', hs', _, o, ho, hoq⟩ := hinv.2 q hq
  rw [hid, ha] at ha'
  cases ha'
  have hlex := (hshapes _ _ hs').lex o ho
  have hx : q.x = a.x + o.x := by rw [← hoq]; rfl
  have hy : q.y = a.y + o.y := by rw [← hoq]; rfl
  unfold scan_lt at hlt
  unfold lex_nonneg at hlex
  omega

/-- A cell before another one of the scan, in terms of the scan list. -/
theorem scan_split (w h : Int) (pre post : List tg.ipos2) (b q : tg.ipos2)
    (hl : scan w h = pre ++ b :: post) : q ∈ pre ↔ q ∈ scan w h ∧ scan_lt q b := by
  have hpw : (pre ++ b :: post).Pairwise scan_lt := hl ▸ scan_pairwise w h
  obtain ⟨_, h2, h3⟩ := List.pairwise_append.1 hpw
  constructor
  · intro hq
    exact ⟨by rw [hl]; exact List.mem_append_left _ hq, h3 q hq b (List.mem_cons_self _ _)⟩
  · rintro ⟨hq, hlt⟩
    rw [hl] at hq
    rcases List.mem_append.1 hq with hq | hq
    · exact hq
    · exfalso
      rcases List.mem_cons.1 hq with hq | hq
      · subst hq; exact scan_lt_irrefl _ hlt
      · have hlt' : scan_lt b q := (List.pairwise_cons.1 h2).1 q hq
        unfold scan_lt at hlt hlt'
        omega

/-- C11 (anchor is the first cell, I5).  After any number of completed learning iterations
on a corpus with all cells in `[0, token_max]`, in every image `write_token_sequences`
emits a sequence (its assertion `ancor.x == x && ancor.y == y` never fails), and for every
cell `p` the anchor `a` recorded for the id of `p` is a cell of the grid with that id which
is the first cell of the instance in row-major order; in particular a cell that is the
first of its instance is its own anchor. -/
theorem anchor_is_first_cell (order : map_iteration) (token_max tokens_to_create : Int)
    (image_size : tg.isize2)
    (files : List (String × Int × img.image Int)) (s : tokenizer_state)
    (hfiles : corpus_ok token_max files)
    (hrun : tokenize order token_max tokens_to_create image_size files = some s) :
    ∀ d ∈ s.image_data,
      (∃ seq, token_sequence d = some seq) ∧
      ∀ p, d.current_token_class.contains p = true →
        ∃ id a, d.current_token_id.get p = some id ∧ index d.token_ancor id = some a ∧
          d.current_token_class.contains a = true ∧ d.current_token_id.get a = some id ∧
          is_first_cell d a ∧ (is_first_cell d p → a = p) := by
  obtain ⟨hs, _⟩ := tokenize_inv order token_max tokens_to_create image_size files s hfiles hrun
  intro d hd
  have hinv := hs.images d hd
  have hg := hinv.1
  refine ⟨?_, fun p hp => ?_⟩
  · obtain ⟨_, seq, h, _⟩ := token_sequence_spec s.tokens d hinv hs.shapes
    exact ⟨seq, h⟩
  have hpc : d.m_initial_token_class.contains p = true := by
    rw [← hg.class_contains]; exact hp
  obtain ⟨a, ha, hac, haid, hfirst⟩ := hinv.ancor_first hs.shapes p hpc
  have hfa : is_first_cell d a := by
    intro q hq hlt heq
    have hqc : d.m_initial_token_class.contains q = true := by
      rw [← hg.class_contains]; exact (mem_scan_iff_contains _ q).1 hq
    exact hfirst q hqc (heq.trans haid) hlt
  refine ⟨d.current_token_id.val p, a, hg.get_id p hpc, ha, by rw [hg.class_contains]; exact hac,
    by rw [hg.get_id a hac, haid], hfa, fun hfp => ?_⟩
  have hp_scan := (mem_scan_iff_contains d.current_token_class p).2 hp
  have ha_scan := (mem_scan_iff_contains d.current_token_class a).2
    (by rw [hg.class_contains]; exact hac)
  have h1 : ¬ scan_lt a p := fun hlt => hfp a ha_scan hlt haid
  have h2 : ¬ scan_lt p a := fun hlt => hfa p hp_scan hlt haid.symm
  rw [tg.ipos2.ext_iff']
  unfold scan_lt at h1 h2
  omega

theorem anchor_is_first_cell_witness :
    corpus_ok 1 pair_files ∧
    (∃ s, tokenize insertion_order 1 1 ⟨2, 1⟩ pair_files = some s ∧
      ∀ d ∈ s.image_data,
        (∃ seq, token_sequence d = some seq) ∧
        ∀ p, d.current_token_class.contains p = true →
          ∃ id a, d.current_token_id.get p = some id ∧ index d.token_ancor id = some a ∧
            d.current_token_class.contains a = true ∧ d.current_token_id.get a = some id ∧
            is_first_cell d a ∧ (is_first_cell d p → a = p)) :=
  ⟨by decide,
    (tokenize insertion_order 1 1 ⟨2, 1⟩ pair_files).get (by decide),
    by simp,
    anchor_is_first_cell insertion_order 1 1 ⟨2, 1⟩ pair_files _ (by decide) (by simp)⟩

/-! ## Class numbering -/

theorem push_moved_class_id (move : tg.ipos2 → tg.ipos2) (token acc new_token : token_data)
    (h : push_moved move token acc = some new_token) : new_token.class_id = acc.class_id := by
  unfold push_moved at h
  refine foldlM_preserves _ (fun (t : token_data) => t.class_id = acc.class_id) _ ?_ acc
    new_token rfl h
  intro s i s' _ hs hstep
  simp only [Option.bind_eq_bind, Option.bind_eq_some, Option.pure_def, Option.some.injEq] at hstep
  obtain ⟨_, _, _, _, rfl⟩ := hstep
  exact hs

/-- The shape built by `combine_tokens` carries the size of the shape list as class id. -/
theorem combine_tokens_class_id (c : constellation) (tokens : List token_data)
    (new_token : token_data) (h : combine_tokens c tokens = some new_token) :
    new_token.class_id = (tokens.length : Int) := by
  unfold combine_tokens at h
  simp only [Option.bind_eq_bind, Option.bind_eq_some] at h
  obtain ⟨a, _, b, _, h⟩ := h
  split at h
  · exact push_moved_class_id _ _ _ _ h
  · exact push_moved_class_id _ _ _ _ h

theorem initial_tokens_length (token_max : Int) :
    (initial_tokens token_max).length = (token_max + 1).toNat := by
  simp [initial_tokens]

theorem initial_tokens_class_id (token_max : Int) (j : Nat) (t : token_data)
    (h : (initial_tokens token_max)[j]? = some t) : t.class_id = (j : Int) := by
  unfold initial_tokens at h
  rw [List.getElem?_map] at h
  have hj : j < (token_max + 1).toNat := by
    by_contra hn
    rw [List.getElem?_eq_none (by simpa using hn)] at h
    simp at h
  rw [List.getElem?_range hj] at h
  simp only [Option.map_some', Option.some.injEq] at h
  rw [← h]

/-- The rules and shapes added by `n` iterations of the learning loop: one of each per
iteration, the `i`-th numbered with the size of the shape list it was appended to. -/
theorem tokenize_loop_numbering (order : map_iteration) (n : Nat) (s s' : tokenizer_state)
    (h : tokenize_loop order n s = some s') :
    ∃ R T, s'.rules = s.rules ++ R ∧ s'.tokens = s.tokens ++ T ∧ R.length = n ∧ T.length = n ∧
      (∀ (i : Nat) (r : rule), R[i]? = some r → r.new_token_id = ((s.tokens.length + i : Nat) : Int)) ∧
      (∀ (i : Nat) (t : token_data), T[i]? = some t → t.class_id = ((s.tokens.length + i : Nat) : Int)) ∧
      (0 < n → s.tokens ≠ []) := by
  induction n generalizing s with
  | zero =>
    simp only [tokenize_loop, Option.some.injEq] at h
    subst h
    exact ⟨[], [], by simp, by simp, rfl, rfl, by simp, by simp, by simp⟩
  | succ n ih =>
    simp only [tokenize_loop, Option.bind_eq_bind, Option.bind_eq_some] at h
    obtain ⟨s1, h1, h2⟩ := h
    obtain ⟨c, N, _, hstep⟩ := tokenize_iteration_some order s s1 h1
    obtain ⟨R, T, hR, hT, hRn, hTn, hRi, hTi, _⟩ := ih s1 h2
    have hlen : s1.tokens.length = s.tokens.length + 1 := by
      rw [hstep.tokens_eq]; simp
    refine ⟨{ constellation := c, new_token_id := (s.tokens.length : Int) } :: R, N :: T,
      ?_, ?_, by simp [hRn], by simp [hTn], ?_, ?_, ?_⟩
    · rw [hR, hstep.rules_eq]; simp
    · rw [hT, hstep.tokens_eq]; simp
    · intro i r hr
      cases i with
      | zero =>
        simp only [List.getElem?_cons_zero, Option.some.injEq] at hr
        subst hr
        simp
      | succ i =>
        simp only [List.getElem?_cons_succ] at hr
        rw [hRi i r hr, hlen]
        congr 1
        omega
    · intro i t ht
      cases i with
      | zero =>
        simp only [List.getElem?_cons_zero, Option.some.injEq] at ht
        subst ht
        simpa using combine_tokens_class_id c s.tokens _ hstep.combined
      | succ i =>
        simp only [List.getElem?_cons_succ] at ht
        rw [hTi i t ht, hlen]
        congr 1
        omega
    · intro _ hnil
      obtain ⟨A, _, hA, _⟩ := combine_tokens_some c s.tokens N hstep.combined
      rw [hnil] at hA
      simp [index] at hA

/-- The numbering of a whole learning run, in terms of `token_max`. -/
theorem tokenize_numbering (order : map_iteration) (token_max tokens_to_create : Int)
    (image_size : tg.isize2)
    (files : List (String × Int × img.image Int)) (s : tokenizer_state)
    (hrun : tokenize order token_max tokens_to_create image_size files = some s) :
    ∃ T, s.tokens = initial_tokens token_max ++ T ∧
      s.rules.length = tokens_to_create.toNat ∧ T.length = s.rules.length ∧
      (∀ (i : Nat) (r : rule), s.rules[i]? = some r → r.new_token_id = token_max + 1 + i) ∧
      (∀ (i : Nat) (t : token_data), T[i]? = some t → t.class_id = token_max + 1 + i) ∧
      (s.tokens ≠ [] → 0 ≤ token_max) := by
  unfold tokenize at hrun
  simp only [Option.bind_eq_bind, Option.bind_eq_some] at hrun
  obtain ⟨images, _, hloop⟩ := hrun
  obtain ⟨R, T, hR, hT, hRn, hTn, hRi, hTi, hne⟩ := tokenize_loop_numbering order _ _ s hloop
  simp only [List.nil_append] at hR hT
  have hpos : s.tokens ≠ [] → 0 ≤ token_max := by
    intro hs
    have hinit : initial_tokens token_max ≠ [] := by
      intro hnil
      rcases Nat.eq_zero_or_pos tokens_to_create.toNat with h0 | h0
      · rw [h0] at hTn
        rw [hT, hnil, List.length_eq_zero.1 hTn] at hs
        exact hs rfl
      · exact hne h0 hnil
    have := List.length_pos.2 hinit
    rw [initial_tokens_length] at this
    omega
  have hbase : ∀ (i : Nat), i < T.length →
      (((initial_tokens token_max).length + i : Nat) : Int) = token_max + 1 + i := by
    intro i hi
    have h0 : 0 ≤ token_max := hpos (by
      rw [hT]
      intro hnil
      have := congrArg List.length hnil
      simp only [List.length_append, List.length_nil] at this
      omega)
    rw [initial_tokens_length]
    omega
  refine ⟨T, hT, by rw [hR, hRn], by rw [hR, hRn, hTn], ?_, ?_, hpos⟩
  · intro i r hr
    rw [hR] at hr
    have hi : i < R.length := (List.getElem?_eq_some.1 hr).1
    rw [hRi i r hr]
    exact hbase i (by omega)
  · intro i t ht
    have hi : i < T.length := (List.getElem?_eq_some.1 ht).1
    rw [hTi i t ht]
    exact hbase i hi

/-- C12 (class numbering).  In a learning run with base maximum `token_max`, the shape list
is the initial list followed by one appended shape per rule; the `i`-th emitted rule has
`new_token_id = token_max + 1 + i`, which is the size of the shape list just before the
`i`-th shape is appended and the `class_id` of that shape; `tokens[j].class_id = j` for
every `j`; and the `new_token_id`s of the rules are strictly increasing. -/
theorem class_numbering (order : map_iteration) (token_max tokens_to_create : Int)
    (image_size : tg.isize2)
    (files : List (String × Int × img.image Int)) (s : tokenizer_state)
    (hrun : tokenize order token_max tokens_to_create image_size files = some s) :
    (∃ T, s.tokens = initial_tokens token_max ++ T ∧ T.length = s.rules.length ∧
      ∀ (i : Nat) (r : rule), s.rules[i]? = some r →
        r.new_token_id = token_max + 1 + i ∧
        r.new_token_id = ((initial_tokens token_max ++ T.take i).length : Int) ∧
        ∃ t, T[i]? = some t ∧ t.class_id = r.new_token_id) ∧
    (∀ (j : Nat) (t : token_data), s.tokens[j]? = some t → t.class_id = (j : Int)) ∧
    s.rules.Pairwise (fun a b => a.new_token_id < b.new_token_id) := by
  obtain ⟨T, hT, hRn, hTn, hRi, hTi, hpos⟩ :=
    tokenize_numbering order token_max tokens_to_create image_size files s hrun
  refine ⟨⟨T, hT, hTn, fun i r hr => ?_⟩, fun j t ht => ?_, ?_⟩
  · have hi : i < T.length := by
      rw [hTn]; exact (List.getElem?_eq_some.1 hr).1
    have h0 : 0 ≤ token_max := hpos (by
      rw [hT]
      intro hnil
      have := congrArg List.length hnil
      simp only [List.length_append, List.length_nil] at this
      omega)
    refine ⟨hRi i r hr, ?_, T[i], List.getElem?_eq_getElem hi, ?_⟩
    · rw [hRi i r hr, List.length_append, initial_tokens_length, List.length_take]
      omega
    · rw [hRi i r hr]
      exact hTi i _ (List.getElem?_eq_getElem hi)
  · rw [hT] at ht
    by_cases hj : j < (initial_tokens token_max).length
    · rw [List.getElem?_append_left hj] at ht
      exact initial_tokens_class_id token_max j t ht
    · rw [List.getElem?_append_right (by omega)] at ht
      have hlt := (List.getElem?_eq_some.1 ht).1
      have h0 : 0 ≤ token_max := hpos (by
        rw [hT]
        intro hnil
        have := congrArg List.length hnil
        simp only [List.length_append, List.length_nil] at this
        omega)
      rw [hTi _ t ht]
      rw [initial_tokens_length] at hj ⊢
      omega
  · rw [List.pairwise_iff_getElem]
    intro i j hi hj hij
    rw [hRi i _ (List.getElem?_eq_getElem hi), hRi j _ (List.getElem?_eq_getElem hj)]
    omega

theorem class_numbering_witness :
    ∃ s, tokenize insertion_order 1 2 ⟨3, 1⟩ row_files = some s ∧
      (∃ T, s.tokens = initial_tokens 1 ++ T ∧ T.length = s.rules.length ∧
        ∀ (i : Nat) (r : rule), s.rules[i]? = some r →
          r.new_token_id = 1 + 1 + i ∧
          r.new_token_id = ((initial_tokens 1 ++ T.take i).length : Int) ∧
          ∃ t, T[i]? = some t ∧ t.class_id = r.new_token_id) ∧
      (∀ (j : Nat) (t : token_data), s.tokens[j]? = some t → t.class_id = (j : Int)) ∧
      s.rules.Pairwise (fun a b => a.new_token_id < b.new_token_id) :=
  ⟨(tokenize insertion_order 1 2 ⟨3, 1⟩ row_files).get (by decide),
    by simp,
    class_numbering insertion_order 1 2 ⟨3, 1⟩ row_files _ (by simp)⟩

/-- C13 as stated fails.  On the corpus of the single image `[[1, 1]]` with base maximum
`V_base = 1` and `R = 1` rule, the class id introduced by the rule is `2 = V_base + R`, which
is not below `V_base + R`; the class ids of the shape list are `0, 1, 2`, so the highest one
is `V_base + R`, not `V_base + R - 1`, and the last shape file is `token_0002.dat`. -/
theorem composite_class_range_counterexample :
    ∃ s, tokenize insertion_order 1 1 ⟨2, 1⟩ pair_files = some s ∧
      s.rules.length = 1 ∧
      (∃ r ∈ s.rules, ¬ spec_composite_range 1 1 r.new_token_id) ∧
      s.tokens.map (fun t => t.class_id) = [0, 1, 2] ∧
      (write_token_shapes s.tokens).map (fun written => written.map (fun file => file.1))
        = some ["token_0000.dat", "token_0001.dat", "token_0002.dat"] :=
  ⟨(tokenize insertion_order 1 1 ⟨2, 1⟩ pair_files).get (by decide), by simp, by decide,
    by decide, by decide, by decide⟩

/-! ## Shape files -/

theorem index_nat {α : Type} (v : List α) (i : Nat) : index v (i : Int) = v[i]? := by
  simp [index]

theorem zip_getElem? {α β : Type} (l1 : List α) (l2 : List β) (k : Nat) (h1 : k < l1.length)
    (h2 : k < l2.length) : (l1.zip l2)[k]? = some (l1[k], l2[k]) := by
  rw [List.getElem?_eq_getElem (by simp [h1, h2])]
  simp

theorem write_token_take (token : token_data)
    (h : token.positions.length = token.position_class.length) (acc : List Nat) (k : Nat)
    (hk : k ≤ token.positions.length) :
    (List.range k).foldlM
      (fun (raw_data : List Nat) (i : Nat) => do
        let p ← index token.positions (i : Int)
        let c ← index token.position_class (i : Int)
        pure (raw_data ++ babel.write_i32 p.x ++ babel.write_i32 p.y ++ babel.write_i32 c))
      acc
    = some (acc ++ ((token.positions.zip token.position_class).take k).flatMap spec_cell_bytes) := by
  induction k with
  | zero => simp
  | succ k ih =>
    have hk1 : k < token.positions.length := by omega
    have hk2 : k < token.position_class.length := by omega
    rw [List.range_succ, List.foldlM_append, ih (by omega)]
    simp only [Option.bind_eq_bind, Option.some_bind, List.foldlM_cons, List.foldlM_nil,
      index_nat, List.getElem?_eq_getElem hk1, List.getElem?_eq_getElem hk2, Option.pure_def,
      List.take_succ, zip_getElem? _ _ k hk1 hk2, Option.toList_some, List.flatMap_append,
      List.flatMap_cons, List.flatMap_nil, spec_cell_bytes, List.append_assoc, List.append_nil,
      Option.bind_some]

/-- On an index-aligned shape `write_token_shapes` writes the record of the specification. -/
theorem write_token_eq (token : token_data)
    (h : token.positions.length = token.position_class.length) :
    write_token token = some (spec_shape_bytes token) := by
  unfold write_token
  simp only []
  rw [write_token_take token h _ _ le_rfl]
  rw [List.take_of_length_le (by simp [h])]
  simp [spec_shape_bytes]

/-- On index-aligned shapes `write_token_shapes` writes one file per shape, in order, named
after the class id and holding the record of the specification. -/
theorem write_token_shapes_eq (tokens : List token_data)
    (h : ∀ t ∈ tokens, t.positions.length = t.position_class.length) :
    write_token_shapes tokens = some (tokens.map fun (t : token_data) =>
      ("token_" ++ format_04 t.class_id ++ ".dat", spec_shape_bytes t)) := by
  unfold write_token_shapes
  apply mapM_of_forall₂
  rw [List.forall₂_map_right_iff]
  refine List.forall₂_same.2 (fun t ht => ?_)
  rw [write_token_eq t (h t ht)]
  rfl

/-- In a learning run every shape carries its index in the shape list as class id, and the
shape list has `token_max + 1` shapes more than there are rules once it is non-empty. -/
theorem tokenize_class_ids (order : map_iteration) (token_max tokens_to_create : Int)
    (image_size : tg.isize2)
    (files : List (String × Int × img.image Int)) (s : tokenizer_state)
    (hrun : tokenize order token_max tokens_to_create image_size files = some s) :
    (∀ (j : Nat) (t : token_data), s.tokens[j]? = some t → t.class_id = (j : Int)) ∧
    (s.tokens ≠ [] → (s.tokens.length : Int) = token_max + 1 + s.rules.length) := by
  obtain ⟨T, hT, hRn, hTn, hRi, hTi, hpos⟩ :=
    tokenize_numbering order token_max tokens_to_create image_size files s hrun
  constructor
  · intro j t ht
    have hne : s.tokens ≠ [] := by
      intro hnil
      rw [hnil] at ht
      simp at ht
    have h0 := hpos hne
    rw [hT] at ht
    by_cases hj : j < (initial_tokens token_max).length
    · rw [List.getElem?_append_left hj] at ht
      exact initial_tokens_class_id token_max j t ht
    · rw [List.getElem?_append_right (by omega)] at ht
      rw [hTi _ t ht]
      rw [initial_tokens_length] at hj ⊢
      omega
  · intro hne
    have h0 := hpos hne
    rw [hT, List.length_append, initial_tokens_length, hTn]
    push_cast
    omega

theorem mem_index {α : Type} (v : List α) (a : α) (h : a ∈ v) :
    ∃ k : Nat, v[k]? = some a ∧ index v (k : Int) = some a := by
  obtain ⟨k, hk⟩ := List.mem_iff_getElem?.1 h
  exact ⟨k, hk, by rw [index_nat]; exact hk⟩

/-- C13, amended.  After a learning run on a corpus with all cells in `[0, token_max]` that
emitted `R` rules, every composite class id `c` introduced by a rule satisfies
`token_max < c ≤ token_max + R`; no shape has a class id above `token_max + R`, the last
shape of the list has exactly this class id, and `write_token_shapes` writes one file per
shape, the last of them named `token_<token_max + R>.dat`. -/
theorem composite_class_range (order : map_iteration) (token_max tokens_to_create : Int)
    (image_size : tg.isize2)
    (files : List (String × Int × img.image Int)) (s : tokenizer_state)
    (hfiles : corpus_ok token_max files)
    (hrun : tokenize order token_max tokens_to_create image_size files = some s) :
    (∀ r ∈ s.rules, token_max < r.new_token_id ∧ r.new_token_id ≤ token_max + s.rules.length) ∧
    (∀ t ∈ s.tokens, t.class_id ≤ token_max + s.rules.length) ∧
    (∀ t, s.tokens.getLast? = some t → t.class_id = token_max + s.rules.length) ∧
    ∃ written, write_token_shapes s.tokens = some written ∧
      written.length = s.tokens.length ∧
      ∀ file, written.getLast? = some file →
        file.1 = "token_" ++ format_04 (token_max + s.rules.length) ++ ".dat" := by
  obtain ⟨_, _, hRn, _, hRi, _, _⟩ :=
    tokenize_numbering order token_max tokens_to_create image_size files s hrun
  obtain ⟨hid, hlen⟩ := tokenize_class_ids order token_max tokens_to_create image_size files s hrun
  obtain ⟨hs, _⟩ := tokenize_inv order token_max tokens_to_create image_size files s hfiles hrun
  have hlast : ∀ t, s.tokens.getLast? = some t → t.class_id = token_max + s.rules.length := by
    intro t ht
    have hne : s.tokens ≠ [] := by
      intro hnil
      rw [hnil] at ht
      simp at ht
    rw [List.getLast?_eq_getElem?] at ht
    have := hlen hne
    rw [hid _ t ht]
    have hpos := List.length_pos.2 hne
    omega
  refine ⟨fun r hr => ?_, fun t ht => ?_, hlast, ?_⟩
  · obtain ⟨i, hi⟩ := List.mem_iff_getElem?.1 hr
    have hlt := (List.getElem?_eq_some.1 hi).1
    rw [hRi i r hi]
    omega
  · obtain ⟨k, hk, _⟩ := mem_index s.tokens t ht
    have hlt := (List.getElem?_eq_some.1 hk).1
    have := hlen (List.ne_nil_of_mem ht)
    rw [hid k t hk]
    omega
  · have hal : ∀ t ∈ s.tokens, t.positions.length = t.position_class.length := by
      intro t ht
      obtain ⟨k, _, hk⟩ := mem_index s.tokens t ht
      exact (hs.shapes _ t hk).aligned
    refine ⟨_, write_token_shapes_eq s.tokens hal, by simp, fun file hfile => ?_⟩
    rw [List.getLast?_map] at hfile
    cases hl : s.tokens.getLast? with
    | none => rw [hl] at hfile; simp at hfile
    | some t =>
      rw [hl] at hfile
      simp only [Option.map_some', Option.some.injEq] at hfile
      rw [← hfile, hlast t hl]

theorem composite_class_range_witness :
    corpus_ok 1 pair_files ∧
    ∃ s, tokenize insertion_order 1 1 ⟨2, 1⟩ pair_files = some s ∧
      (∀ r ∈ s.rules, (1 : Int) < r.new_token_id ∧ r.new_token_id ≤ 1 + s.rules.length) ∧
      (∀ t ∈ s.tokens, t.class_id ≤ 1 + s.rules.length) ∧
      (∀ t, s.tokens.getLast? = some t → t.class_id = 1 + s.rules.length) ∧
      ∃ written, write_token_shapes s.tokens = some written ∧
        written.length = s.tokens.length ∧
        ∀ file, written.getLast? = some file →
          file.1 = "token_" ++ format_04 (1 + s.rules.length) ++ ".dat" :=
  ⟨by decide,
    (tokenize insertion_order 1 1 ⟨2, 1⟩ pair_files).get (by decide),
    by simp,
    composite_class_range insertion_order 1 1 ⟨2, 1⟩ pair_files _ (by decide) (by simp)⟩

/-! ## Rule application on arbitrary images -/

theorem placed_inside_cons (d : image_data) (new_ancor o : tg.ipos2) (cells : List tg.ipos2)
    (r : tg.ipos2) :
    placed_inside d new_ancor (o :: cells) r ↔
      (d.m_initial_token_class.contains r = true ∧ r = new_ancor + tg.ivec2.of_pos o) ∨
        placed_inside d new_ancor cells r := by
  unfold placed_inside
  rw [placed_cons]
  tauto

/-- One step of the write loop of `apply_rule`, with clipping at the grid border. -/
theorem write_cell_clip (new_token : token_data) (new_ancor : tg.ipos2) (new_id : Int)
    (d : image_data) (hg : grids_ok d) (o : tg.ipos2) :
    ∃ d', write_cell new_token new_ancor new_id d o = some d' ∧ same_frame d d' ∧
      (∀ r, d'.current_token_class.val r =
        if d.m_initial_token_class.contains r = true ∧ r = new_ancor + tg.ivec2.of_pos o
        then new_token.class_id else d.current_token_class.val r) ∧
      (∀ r, d'.current_token_id.val r =
        if d.m_initial_token_class.contains r = true ∧ r = new_ancor + tg.ivec2.of_pos o
        then new_id else d.current_token_id.val r) := by
  by_cases hc : d.m_initial_token_class.contains (new_ancor + tg.ivec2.of_pos o) = true
  · obtain ⟨d', h1, h2, h3, h4⟩ := write_cell_spec new_token new_ancor new_id d hg o hc
    refine ⟨d', h1, h2, fun r => ?_, fun r => ?_⟩
    · rw [h3 r]
      by_cases hr : r = new_ancor + tg.ivec2.of_pos o
      · subst hr; simp [hc]
      · simp [hr]
    · rw [h4 r]
      by_cases hr : r = new_ancor + tg.ivec2.of_pos o
      · subst hr; simp [hc]
      · simp [hr]
  · have hn : ∀ r, ¬ (d.m_initial_token_class.contains r = true ∧
        r = new_ancor + tg.ivec2.of_pos o) := by
      rintro r ⟨h1, rfl⟩
      exact hc h1
    refine ⟨d, ?_, ⟨rfl, rfl, rfl, hg⟩, fun r => by rw [if_neg (hn r)],
      fun r => by rw [if_neg (hn r)]⟩
    simp only [Bool.not_eq_true] at hc
    simp [write_cell, image_data.initial_token_class, hc]

/-- The write loop of `apply_rule`: exactly the in-grid cells `new_ancor + o` receive the
new class and id, everything else is kept. -/
theorem write_cells_clip (new_token : token_data) (new_ancor : tg.ipos2) (new_id : Int)
    (cells : List tg.ipos2) (d : image_data) (hg : grids_ok d) :
    ∃ d', cells.foldlM (write_cell new_token new_ancor new_id) d = some d' ∧ same_frame d d' ∧
      (∀ r, d'.current_token_class.val r =
        if placed_inside d new_ancor cells r then new_token.class_id
        else d.current_token_class.val r) ∧
      (∀ r, d'.current_token_id.val r =
        if placed_inside d new_ancor cells r then new_id else d.current_token_id.val r) := by
  induction cells generalizing d with
  | nil =>
    exact ⟨d, rfl, ⟨rfl, rfl, rfl, hg⟩, by simp [placed_inside], by simp [placed_inside]⟩
  | cons o cells ih =>
    obtain ⟨d1, h1, hf1, hc1, hi1⟩ := write_cell_clip new_token new_ancor new_id d hg o
    obtain ⟨d2, h2, hf2, hc2, hi2⟩ := ih d1 hf1.ok
    have hpl : ∀ r, placed_inside d1 new_ancor cells r ↔ placed_inside d new_ancor cells r := by
      intro r
      unfold placed_inside
      rw [hf1.init_eq]
    refine ⟨d2, by simp [List.foldlM_cons, h1, h2], ?_, ?_, ?_⟩
    · exact ⟨hf2.init_eq.trans hf1.init_eq, hf2.ancor_eq.trans hf1.ancor_eq,
        hf2.next_eq.trans hf1.next_eq, hf2.ok⟩
    · intro r
      rw [hc2 r, hc1 r]
      simp only [hpl r]
      exact ite_ite_of_iff _ _ _ (placed_inside_cons d new_ancor o cells r) _ _
    · intro r
      rw [hi2 r, hi1 r]
      simp only [hpl r]
      exact ite_ite_of_iff _ _ _ (placed_inside_cons d new_ancor o cells r) _ _

theorem ids_ok.index_ancor {d : image_data} (hd : ids_ok d) (p : tg.ipos2)
    (hp : d.m_initial_token_class.contains p = true) :
    ∃ a, index d.token_ancor (d.current_token_id.val p) = some a :=
  index_of_lt d.token_ancor _ (hd.range p hp).1
    (by rw [hd.grids.ancor_len]; exact (hd.range p hp).2)

/-- Where the match condition fails, visiting the cell changes nothing. -/
theorem apply_rule_at_no_match (rule : rule) (new_token : token_data) (d : image_data)
    (p : tg.ipos2) (hd : ids_ok d) (hp : d.m_initial_token_class.contains p = true)
    (hn : ¬ rule_matches rule d p) : apply_rule_at rule new_token d p = some d := by
  have hg := hd.grids
  have hcp := hg.get_class p hp
  have hip := hg.get_id p hp
  obtain ⟨a, ha⟩ := hd.index_ancor p hp
  unfold apply_rule_at
  simp only [hcp, hip, ha, Option.bind_eq_bind, Option.some_bind]
  by_cases h1 : d.current_token_class.val p = rule.constellation.source_class_id
  swap
  · simp [h1]
  by_cases h2 : p = a
  swap
  · simp [h1, h2]
  subst h2
  by_cases h3 : d.m_initial_token_class.contains (p + rule.constellation.ancor_offset) = true
  swap
  · simp only [Bool.not_eq_true] at h3
    simp [h1, image_data.initial_token_class, h3]
  have hcq := hg.get_class _ h3
  have hiq := hg.get_id _ h3
  obtain ⟨b, hb⟩ := hd.index_ancor _ h3
  simp only [hcq, hiq, hb, Option.some_bind]
  by_cases h4 : d.current_token_class.val (p + rule.constellation.ancor_offset)
      = rule.constellation.target_class_id
  swap
  · simp [h1, image_data.initial_token_class, h3, h4]
  by_cases h5 : b = p + rule.constellation.ancor_offset
  swap
  · simp [h1, image_data.initial_token_class, h3, h4, h5]
  exfalso
  apply hn
  unfold rule_matches
  rw [hcp, hip, hcq, hiq]
  simp only [Option.some_bind, ha, hb, h1, h4, h5, image_data.initial_token_class, h3, and_self]

/-- Where the match condition holds, the merge is performed: one id is allocated, one
anchor is pushed, and the in-grid cells of the new shape are written. -/
theorem apply_rule_at_effect (rule : rule) (new_token : token_data) (d : image_data)
    (p : tg.ipos2) (hg : grids_ok d) (hm : rule_matches rule d p) :
    ∃ d', apply_rule_at rule new_token d p = some d' ∧
      d'.m_next_token_id = d.m_next_token_id + 1 ∧
      d'.token_ancor = d.token_ancor ++ [merged_ancor rule p] ∧
      d'.m_initial_token_class = d.m_initial_token_class ∧
      grids_ok d' ∧
      (∀ r, d'.current_token_class.val r =
        if placed_inside d (merged_ancor rule p) new_token.positions r
        then new_token.class_id else d.current_token_class.val r) ∧
      (∀ r, d'.current_token_id.val r =
        if placed_inside d (merged_ancor rule p) new_token.positions r
        then d.m_next_token_id else d.current_token_id.val r) := by
  obtain ⟨h1, h2, h3, h4, h5⟩ := hm
  rw [Option.bind_eq_some] at h2 h5
  obtain ⟨i, hi, hai⟩ := h2
  obtain ⟨j, hj, haj⟩ := h5
  have hg1 : grids_ok
      { d with m_next_token_id := d.m_next_token_id + 1
               token_ancor := d.token_ancor ++ [merged_ancor rule p] } :=
    ⟨hg.init_wf, hg.class_wf, hg.id_wf, hg.class_ext, hg.id_ext, by
      have := hg.ancor_len
      simp only [List.length_append, List.length_singleton, Nat.cast_add, Nat.cast_one]
      omega⟩
  obtain ⟨d', hd', hf, hc, hid⟩ := write_cells_clip new_token (merged_ancor rule p)
    d.m_next_token_id new_token.positions _ hg1
  refine ⟨d', ?_, hf.next_eq, hf.ancor_eq, hf.init_eq, hf.ok, hc, hid⟩
  unfold apply_rule_at
  simp only [image_data.initial_token_class] at h3
  simp only [h1, hi, hai, h3, h4, hj, haj, Option.bind_eq_bind, Option.some_bind,
    image_data.initial_token_class, ne_eq, not_true_eq_false, if_false, Bool.not_true,
    Bool.false_eq_true, image_data.next_token_id]
  exact hd'

/-- One cell step of `apply_rule` on an image with allocated ids: it succeeds, keeps the
ids allocated, keeps the initial grid and only appends to the anchor table. -/
theorem apply_rule_at_total (rule : rule) (new_token : token_data) (d : image_data)
    (p : tg.ipos2) (hd : ids_ok d) (hp : d.m_initial_token_class.contains p = true) :
    ∃ d', apply_rule_at rule new_token d p = some d' ∧ ids_ok d' ∧
      d'.m_initial_token_class = d.m_initial_token_class ∧
      (∃ added, d'.token_ancor = d.token_ancor ++ added) ∧
      (¬ rule_matches rule d p → d' = d) := by
  by_cases hm : rule_matches rule d p
  · obtain ⟨d', h1, h2, h3, h4, h5, _, h7⟩ := apply_rule_at_effect rule new_token d p hd.grids hm
    refine ⟨d', h1, ⟨h5, fun r hr => ?_⟩, h4, ⟨_, h3⟩, fun hn => absurd hm hn⟩
    rw [h4] at hr
    have hr0 := hd.range r hr
    have hlen := hd.grids.ancor_len
    rw [h7 r, h2]
    split <;> omega
  · exact ⟨d, apply_rule_at_no_match rule new_token d p hd hp hm, hd, rfl, ⟨[], by simp⟩,
      fun _ => rfl⟩

theorem ids_ok_of_scan (d : image_data) (hg : grids_ok d)
    (h : ∀ p ∈ scan d.m_initial_token_class.width d.m_initial_token_class.height,
      0 ≤ d.current_token_id.val p ∧ d.current_token_id.val p < d.m_next_token_id) :
    ids_ok d :=
  ⟨hg, fun p hp => h p ((mem_scan_iff_contains _ p).2 hp)⟩

/-- Every image of a learning run has its ids allocated. -/
theorem image_inv.allocated {tokens : List token_data} {d : image_data}
    (h : image_inv tokens d) : tp.ids_ok d :=
  ⟨h.1, fun p hp => ⟨(h.2 p hp).1, (h.2 p hp).2.1⟩⟩

/-- The cell loop of `apply_rule` over any list of cells of the grid: it succeeds, keeps the
ids allocated, keeps the initial grid and only appends to the anchor table. -/
theorem apply_rule_cells_total (rule : rule) (new_token : token_data) (d : image_data)
    (hd : ids_ok d) (cells : List tg.ipos2)
    (hcells : ∀ p ∈ cells, d.m_initial_token_class.contains p = true) :
    ∃ d', cells.foldlM (apply_rule_at rule new_token) d = some d' ∧ ids_ok d' ∧
      d'.m_initial_token_class = d.m_initial_token_class ∧
      ∃ added, d'.token_ancor = d.token_ancor ++ added := by
  refine foldlM_invariant (apply_rule_at rule new_token)
    (fun s => ids_ok s ∧ s.m_initial_token_class = d.m_initial_token_class ∧
      ∃ added, s.token_ancor = d.token_ancor ++ added) cells ?_ d ⟨hd, rfl, [], by simp⟩
  rintro s p hp ⟨hs, hinit, added, hadd⟩
  obtain ⟨s', h1, h2, h3, ⟨more, h4⟩, _⟩ := apply_rule_at_total rule new_token s p hs
    (by rw [hinit]; exact hcells p hp)
  exact ⟨s', h1, h2, h3.trans hinit, added ++ more, by rw [h4, hadd, List.append_assoc]⟩

/-- The cell loop of `apply_rule` over cells at none of which the rule matches. -/
theorem apply_rule_cells_idle (rule : rule) (new_token : token_data) (d : image_data)
    (hd : ids_ok d) (cells : List tg.ipos2)
    (hcells : ∀ p ∈ cells, d.m_initial_token_class.contains p = true)
    (hn : ∀ p ∈ cells, ¬ rule_matches rule d p) :
    cells.foldlM (apply_rule_at rule new_token) d = some d := by
  obtain ⟨d', h1, h2⟩ := foldlM_invariant (apply_rule_at rule new_token) (fun s => s = d) cells
    (fun s p hp hs => ⟨d, by
      rw [hs]; exact apply_rule_at_no_match rule new_token d p hd (hcells p hp) (hn p hp), rfl⟩)
    d rfl
  rw [h1, h2]

/-- C14 (match condition).  Let the row-major scan of `apply_rule` over an image with
allocated ids be split at a cell `p`.  The cells before `p` lead to a state `d1`, the state
at the moment `p` is visited; visiting `p` leads to `d2` and the remaining cells to the
result of the scan.  A merge is performed at `p` (one id allocated, one anchor pushed) if
`d1` satisfies the match condition at `p`: source class at `p`, `p` its own anchor,
`q = p + ancor_offset` inside the grid, target class at `q`, `q` its own anchor.  In every
other case visiting `p` changes nothing. -/
theorem match_condition (rule : rule) (new_token : token_data) (d : image_data)
    (hd : ids_ok d) (pre post : List tg.ipos2) (p : tg.ipos2)
    (hscan : scan d.initial_token_class.width d.initial_token_class.height = pre ++ p :: post) :
    ∃ d1 d2 d3, pre.foldlM (apply_rule_at rule new_token) d = some d1 ∧
      apply_rule_at rule new_token d1 p = some d2 ∧
      post.foldlM (apply_rule_at rule new_token) d2 = some d3 ∧
      apply_rule_image rule new_token d = some d3 ∧
      (rule_matches rule d1 p →
        d2.m_next_token_id = d1.m_next_token_id + 1 ∧
        d2.token_ancor.length = d1.token_ancor.length + 1) ∧
      (¬ rule_matches rule d1 p → d2 = d1) := by
  have hmem : ∀ q ∈ pre ++ p :: post, d.m_initial_token_class.contains q = true := by
    intro q hq
    rw [← hscan] at hq
    exact (mem_scan_iff_contains _ q).1 hq
  obtain ⟨d1, h1, hd1, hi1, _⟩ := apply_rule_cells_total rule new_token d hd pre
    (fun q hq => hmem q (List.mem_append_left _ hq))
  have hp : d1.m_initial_token_class.contains p = true := by
    rw [hi1]; exact hmem p (by simp)
  obtain ⟨d2, h2, hd2, hi2, _, hno⟩ := apply_rule_at_total rule new_token d1 p hd1 hp
  obtain ⟨d3, h3, _, _, _⟩ := apply_rule_cells_total rule new_token d2 hd2 post
    (fun q hq => by rw [hi2, hi1]; exact hmem q (by simp [hq]))
  refine ⟨d1, d2, d3, h1, h2, h3, ?_, fun hm => ?_, hno⟩
  · unfold apply_rule_image
    simp only []
    rw [hscan, List.foldlM_append, h1]
    simp only [Option.bind_eq_bind, Option.some_bind, List.foldlM_cons, h2, h3]
  · obtain ⟨d', g1, g2, g3, _⟩ := apply_rule_at_effect rule new_token d1 p hd1.grids hm
    rw [h2] at g1
    cases g1
    exact ⟨g2, by rw [g3]; simp⟩

theorem match_condition_witness :
    ids_ok merge_image ∧
    scan merge_image.initial_token_class.width merge_image.initial_token_class.height
      = [] ++ (⟨0, 0⟩ : tg.ipos2) :: [⟨1, 0⟩] ∧
    ∃ d1 d2 d3, ([] : List tg.ipos2).foldlM (apply_rule_at pair_rule long_shape) merge_image
        = some d1 ∧
      apply_rule_at pair_rule long_shape d1 ⟨0, 0⟩ = some d2 ∧
      [(⟨1, 0⟩ : tg.ipos2)].foldlM (apply_rule_at pair_rule long_shape) d2 = some d3 ∧
      apply_rule_image pair_rule long_shape merge_image = some d3 ∧
      (rule_matches pair_rule d1 ⟨0, 0⟩ →
        d2.m_next_token_id = d1.m_next_token_id + 1 ∧
        d2.token_ancor.length = d1.token_ancor.length + 1) ∧
      (¬ rule_matches pair_rule d1 ⟨0, 0⟩ → d2 = d1) :=
  ⟨ids_ok_of_scan merge_image (by decide) (by decide), by decide,
    match_condition pair_rule long_shape merge_image
      (ids_ok_of_scan merge_image (by decide) (by decide)) [] [⟨1, 0⟩] ⟨0, 0⟩ (by decide)⟩

/-- A `mapM` whose function succeeds on every element succeeds, elementwise. -/
theorem mapM_total {β γ : Type} (f : β → Option γ) (R : β → γ → Prop) (l : List β)
    (h : ∀ b ∈ l, ∃ c, f b = some c ∧ R b c) :
    ∃ r, l.mapM f = some r ∧ List.Forall₂ R l r := by
  induction l with
  | nil => exact ⟨[], rfl, List.Forall₂.nil⟩
  | cons b l ih =>
    obtain ⟨c, hc, hR⟩ := h b (List.mem_cons_self _ _)
    obtain ⟨r, hr, hF⟩ := ih (fun b hb => h b (List.mem_cons_of_mem _ hb))
    refine ⟨c :: r, ?_, List.Forall₂.cons hR hF⟩
    rw [List.mapM_cons, hc, hr]
    rfl

/-- Reading a grid of a consistent image: the value inside, nothing outside. -/
theorem get_of_val (g : img.image Int) (init : img.image Int) (hwf : g.well_formed)
    (hext : g._extents = init._extents) (r : tg.ipos2) :
    g.get r = if init.contains r = true then some (g.val r) else none := by
  have hc : g.contains r = init.contains r := img.image.contains_congr _ _ hext r
  by_cases h : init.contains r = true
  · rw [if_pos h, img.image.get_eq_val g hwf r (by rw [hc]; exact h)]
  · rw [if_neg h]
    exact img.image.get_eq_none g r (by rw [hc]; simpa using h)

/-- C15 (merge effect with clipping).  When the match condition holds at `p` in an image
with consistent grids, `apply_rule` takes exactly one new id `n`, the previous next id,
appends exactly one anchor entry, `p` if the source anchor is kept and `q = p + ancor_offset`
otherwise, so that `token_ancor[n]` is this new anchor and every earlier entry is unchanged;
it sets class and id to `(new_token.class_id, n)` at exactly the cells `new_anchor + o`, `o`
in `new_token.positions`, that lie inside the grid, omits the others without failing, and
leaves every other cell and the initial grid unchanged. -/
theorem merge_effect (rule : rule) (new_token : token_data) (d : image_data) (p : tg.ipos2)
    (hg : grids_ok d) (hm : rule_matches rule d p) :
    ∃ d', apply_rule_at rule new_token d p = some d' ∧
      d'.m_next_token_id = d.m_next_token_id + 1 ∧
      d'.token_ancor = d.token_ancor ++
        [if keep_token_a_ancor rule.constellation.ancor_offset then p
          else p + rule.constellation.ancor_offset] ∧
      index d'.token_ancor d.m_next_token_id = some (merged_ancor rule p) ∧
      (∀ i a, index d.token_ancor i = some a → index d'.token_ancor i = some a) ∧
      d'.m_initial_token_class = d.m_initial_token_class ∧
      (∀ r, d'.current_token_class.get r =
        if placed_inside d (merged_ancor rule p) new_token.positions r
        then some new_token.class_id else d.current_token_class.get r) ∧
      (∀ r, d'.current_token_id.get r =
        if placed_inside d (merged_ancor rule p) new_token.positions r
        then some d.m_next_token_id else d.current_token_id.get r) := by
  obtain ⟨d', h1, h2, h3, h4, h5, h6, h7⟩ := apply_rule_at_effect rule new_token d p hg hm
  refine ⟨d', h1, h2, h3, ?_, ?_, h4, fun r => ?_, fun r => ?_⟩
  · rw [h3, ← hg.ancor_len]
    exact index_length_append _ _
  · intro i a hi
    rw [h3]
    exact index_append_left _ _ i a hi
  · rw [get_of_val _ d'.m_initial_token_class h5.class_wf h5.class_ext r,
      get_of_val _ d.m_initial_token_class hg.class_wf hg.class_ext r, h4, h6 r]
    by_cases hr : d.m_initial_token_class.contains r = true
    · rw [if_pos hr]; split <;> rfl
    · have hpl : ¬ placed_inside d (merged_ancor rule p) new_token.positions r :=
        fun hpl => hr hpl.1
      simp only [if_neg hr, if_neg hpl]
  · rw [get_of_val _ d'.m_initial_token_class h5.id_wf h5.id_ext r,
      get_of_val _ d.m_initial_token_class hg.id_wf hg.id_ext r, h4, h7 r]
    by_cases hr : d.m_initial_token_class.contains r = true
    · rw [if_pos hr]; split <;> rfl
    · have hpl : ¬ placed_inside d (merged_ancor rule p) new_token.positions r :=
        fun hpl => hr hpl.1
      simp only [if_neg hr, if_neg hpl]

theorem merge_effect_witness :
    grids_ok merge_image ∧ rule_matches pair_rule merge_image ⟨0, 0⟩ ∧
    ∃ d', apply_rule_at pair_rule long_shape merge_image ⟨0, 0⟩ = some d' ∧
      d'.m_next_token_id = merge_image.m_next_token_id + 1 ∧
      d'.token_ancor = merge_image.token_ancor ++
        [if keep_token_a_ancor pair_rule.constellation.ancor_offset then (⟨0, 0⟩ : tg.ipos2)
          else (⟨0, 0⟩ : tg.ipos2) + pair_rule.constellation.ancor_offset] ∧
      index d'.token_ancor merge_image.m_next_token_id = some (merged_ancor pair_rule ⟨0, 0⟩) ∧
      (∀ i a, index merge_image.token_ancor i = some a → index d'.token_ancor i = some a) ∧
      d'.m_initial_token_class = merge_image.m_initial_token_class ∧
      (∀ r, d'.current_token_class.get r =
        if placed_inside merge_image (merged_ancor pair_rule ⟨0, 0⟩) long_shape.positions r
        then some long_shape.class_id else merge_image.current_token_class.get r) ∧
      (∀ r, d'.current_token_id.get r =
        if placed_inside merge_image (merged_ancor pair_rule ⟨0, 0⟩) long_shape.positions r
        then some merge_image.m_next_token_id else merge_image.current_token_id.get r) :=
  ⟨by decide, by decide,
    merge_effect pair_rule long_shape merge_image ⟨0, 0⟩ (by decide) (by decide)⟩

/-- C16 (no-op rule).  On images with allocated ids `apply_rule` succeeds; it never changes
the initial grid of an image and only appends to its anchor table; and an image in which no
cell satisfies the match condition of the rule is returned unchanged (class grid, id grid,
anchor table and next id). -/
theorem no_op_rule (rule : rule) (new_token : token_data) (images : List image_data)
    (himages : ∀ d ∈ images, ids_ok d) :
    ∃ images', apply_rule rule new_token images = some images' ∧
      List.Forall₂
        (fun d d' => d'.initial_token_class = d.initial_token_class ∧
          (∃ added, d'.token_ancor = d.token_ancor ++ added) ∧
          ((∀ p, d.initial_token_class.contains p = true → ¬ rule_matches rule d p) → d' = d))
        images images' := by
  unfold apply_rule
  refine mapM_total _ _ images (fun d hd => ?_)
  have hmem : ∀ p ∈ scan d.initial_token_class.width d.initial_token_class.height,
      d.m_initial_token_class.contains p = true :=
    fun p hp => (mem_scan_iff_contains d.m_initial_token_class p).1 hp
  obtain ⟨d', h1, _, h3, h4⟩ := apply_rule_cells_total rule new_token d (himages d hd) _ hmem
  refine ⟨d', h1, h3, h4, fun hn => ?_⟩
  have h := apply_rule_cells_idle rule new_token d (himages d hd) _ hmem
    (fun p hp => hn p (hmem p hp))
  rw [h] at h1
  exact (Option.some.inj h1).symm

theorem no_op_rule_witness :
    (∀ d ∈ [merge_image], ids_ok d) ∧
    ∃ images', apply_rule idle_rule long_shape [merge_image] = some images' ∧
      List.Forall₂
        (fun d d' => d'.initial_token_class = d.initial_token_class ∧
          (∃ added, d'.token_ancor = d.token_ancor ++ added) ∧
          ((∀ p, d.initial_token_class.contains p = true → ¬ rule_matches idle_rule d p) →
            d' = d))
        [merge_image] images' :=
  ⟨fun d hd => by
      rw [List.mem_singleton.1 hd]
      exact ids_ok_of_scan merge_image (by decide) (by decide),
    no_op_rule idle_rule long_shape [merge_image] (fun d hd => by
      rw [List.mem_singleton.1 hd]
      exact ids_ok_of_scan merge_image (by decide) (by decide))⟩

/-! ## Content of a token sequence -/

/-- A property of (processed cells, state) kept by every successful step holds at the end
of a successful fold. -/
theorem foldlM_prefix_preserves {σ β : Type} (f : σ → β → Option σ) (P : List β → σ → Prop)
    (l : List β)
    (step : ∀ pre b post s s', l = pre ++ b :: post → P pre s → f s b = some s' →
      P (pre ++ [b]) s')
    (s s' : σ) (hs : P [] s) (h : l.foldlM f s = some s') : P l s' := by
  suffices hgen : ∀ (post pre : List β) (s : σ), l = pre ++ post → P pre s →
      post.foldlM f s = some s' → P l s' from hgen l [] s rfl hs h
  intro post
  induction post with
  | nil =>
    intro pre s hl hP hf
    simp only [List.append_nil] at hl
    subst hl
    simp only [List.foldlM_nil, Option.pure_def, Option.some.injEq] at hf
    exact hf ▸ hP
  | cons b post ih =>
    intro pre s hl hP hf
    simp only [List.foldlM_cons, Option.bind_eq_bind, Option.bind_eq_some] at hf
    obtain ⟨s1, h1, h2⟩ := hf
    exact ih (pre ++ [b]) s1 (by simp [hl]) (step pre b post s s1 hl hP h1) h2

theorem val_of_read (g : img.image Int) (p : tg.ipos2) (v : Int)
    (h : g.read p.x p.y = some v) : g.val p = v := by
  simp [img.image.val, img.image.get, h]

/-- One step of the cell loop of `write_token_sequences`. -/
theorem write_token_at_content (d : image_data) (pre post : List tg.ipos2) (b : tg.ipos2)
    (hl : scan d.current_token_class.width d.current_token_class.height = pre ++ b :: post)
    (st st' : List Int × List (Int × Int × Int)) (hst : sequence_content d pre st)
    (h : write_token_at d st b = some st') : sequence_content d (pre ++ [b]) st' := by
  unfold write_token_at at h
  simp only [Option.bind_eq_bind, Option.bind_eq_some] at h
  obtain ⟨idv, hid, h⟩ := h
  have hidv := val_of_read _ b idv hid
  have hvis_iff : ∀ i, (i ∈ st.1 ∨ i = d.current_token_id.val b) ↔
      ∃ q ∈ pre ++ [b], d.current_token_id.val q = i := by
    intro i
    rw [hst.visited_iff i]
    constructor
    · rintro (⟨q, hq, hqi⟩ | hi)
      · exact ⟨q, List.mem_append_left _ hq, hqi⟩
      · exact ⟨b, by simp, hi.symm⟩
    · rintro ⟨q, hq, hqi⟩
      rcases List.mem_append.1 hq with hq | hq
      · exact Or.inl ⟨q, hq, hqi⟩
      · rw [List.mem_singleton.1 hq] at hqi
        exact Or.inr hqi.symm
  by_cases hvis : idv ∈ st.1
  · have hcont : st.1.contains idv = true := by simp [hvis]
    rw [if_pos hcont] at h
    simp only [Option.some.injEq] at h
    subst h
    obtain ⟨q, hq, hqi⟩ := (hst.visited_iff idv).1 hvis
    have hnf : ¬ is_first_cell d b := fun hf =>
      hf q ((scan_split _ _ pre post b q hl).1 hq).1 ((scan_split _ _ pre post b q hl).1 hq).2
        (by rw [hqi, hidv])
    have hfilter : (pre ++ [b]).filter (fun (p : tg.ipos2) => decide (is_first_cell d p))
        = pre.filter (fun (p : tg.ipos2) => decide (is_first_cell d p)) := by
      simp [List.filter_append, hnf]
    refine ⟨fun i => ?_, by rw [hfilter]; exact hst.visited_eq,
      by rw [hfilter]; exact hst.records_eq, by rw [hfilter]; exact hst.ancor_eq⟩
    rw [← hvis_iff i]
    constructor
    · exact Or.inl
    · rintro (hi | hi)
      · exact hi
      · rw [hi, hidv]; exact hvis
  · have hcont : ¬ (st.1.contains idv = true) := by simp [hvis]
    rw [if_neg hcont] at h
    simp only [Option.bind_eq_some] at h
    obtain ⟨c, hc, a, ha, h⟩ := h
    have hcv := val_of_read _ b c hc
    split at h
    swap
    · cases h
    rename_i hab
    have hab' : a = b := by rw [tg.ipos2.ext_iff']; exact hab
    subst hab'
    simp only [Option.some.injEq] at h
    subst h
    have hf : is_first_cell d a := by
      intro q hq hlt heq
      exact hvis ((hst.visited_iff idv).2
        ⟨q, (scan_split _ _ pre post a q hl).2 ⟨hq, hlt⟩, by rw [heq, hidv]⟩)
    have hfilter : (pre ++ [a]).filter (fun (p : tg.ipos2) => decide (is_first_cell d p))
        = pre.filter (fun (p : tg.ipos2) => decide (is_first_cell d p)) ++ [a] := by
      simp [List.filter_append, hf]
    refine ⟨fun i => ?_, ?_, ?_, ?_⟩
    · rw [← hvis_iff i, hidv]
      simp
    · rw [hfilter, List.map_append, ← hst.visited_eq]
      simp only [List.map_cons, List.map_nil, hidv]
    · rw [hfilter, List.map_append, ← hst.records_eq]
      simp only [List.map_cons, List.map_nil, hcv]
    · rw [hfilter]
      intro p hp
      rcases List.mem_append.1 hp with hp | hp
      · exact hst.ancor_eq p hp
      · rw [List.mem_singleton.1 hp, hidv]
        exact ha

/-- Whenever `write_token_sequences` emits a sequence for an image, it is the list of
records `(class, x, y)` of the first cells in row-major order, each of which is the anchor
recorded for its id, and the ids of the first cells are the ids occurring in the grid. -/
theorem token_sequence_closed (d : image_data) (seq : List (Int × Int × Int))
    (h : token_sequence d = some seq) :
    seq = (first_cells d).map (fun (p : tg.ipos2) => (d.current_token_class.val p, p.x, p.y)) ∧
    (∀ p ∈ first_cells d, index d.token_ancor (d.current_token_id.val p) = some p) ∧
    (∀ i, i ∈ (first_cells d).map (fun (p : tg.ipos2) => d.current_token_id.val p) ↔
      ∃ q ∈ scan d.current_token_class.width d.current_token_class.height,
        d.current_token_id.val q = i) := by
  unfold token_sequence at h
  simp only [Option.bind_eq_bind, Option.bind_eq_some, Option.pure_def, Option.some.injEq] at h
  obtain ⟨st, hfold, rfl⟩ := h
  have hc := foldlM_prefix_preserves (write_token_at d) (sequence_content d)
    (scan d.current_token_class.width d.current_token_class.height)
    (fun pre b post s s' hl hs hstep => write_token_at_content d pre post b hl s s' hs hstep)
    ([], []) st ⟨by simp, by simp, by simp, by simp⟩ hfold
  refine ⟨hc.records_eq, hc.ancor_eq, fun i => ?_⟩
  rw [← hc.visited_iff i, hc.visited_eq]
  rfl

theorem mem_first_cells (d : image_data) (p : tg.ipos2) :
    p ∈ first_cells d ↔
      p ∈ scan d.current_token_class.width d.current_token_class.height ∧ is_first_cell d p := by
  simp [first_cells]

/-- Two first cells with the same id are the same cell. -/
theorem first_cells_inj (d : image_data) (p q : tg.ipos2) (hp : p ∈ first_cells d)
    (hq : q ∈ first_cells d) (h : d.current_token_id.val p = d.current_token_id.val q) :
    p = q := by
  rw [mem_first_cells] at hp hq
  have h1 : ¬ scan_lt q p := fun hlt => hp.2 q hq.1 hlt h.symm
  have h2 : ¬ scan_lt p q := fun hlt => hq.2 p hp.1 hlt h
  rw [tg.ipos2.ext_iff']
  unfold scan_lt at h1 h2
  omega

/-- C20 (token sequence content).  Whenever `write_token_sequences` emits a sequence for an
image, the sequence is that of the specification: one record per distinct id of the id
grid (the ids of the records' cells are pairwise distinct and are exactly the ids occurring
in the grid), in the row-major order of the id's first cell, each record being the class at
that first cell followed by the coordinates of `token_ancor[id]`, which is the first cell
itself.  After a learning run on a corpus with all cells in `[0, token_max]` a sequence is
emitted for every image. -/
theorem token_sequence_content (order : map_iteration) (token_max tokens_to_create : Int)
    (image_size : tg.isize2)
    (files : List (String × Int × img.image Int)) (s : tokenizer_state)
    (hfiles : corpus_ok token_max files)
    (hrun : tokenize order token_max tokens_to_create image_size files = some s) :
    (∀ d ∈ s.image_data, ∃ seq, token_sequence d = some seq) ∧
    ∀ (d : image_data) (seq : List (Int × Int × Int)), token_sequence d = some seq →
      spec_token_sequence d = some seq ∧
      seq = (first_cells d).map (fun (p : tg.ipos2) => (d.current_token_class.val p, p.x, p.y)) ∧
      (∀ p ∈ first_cells d, index d.token_ancor (d.current_token_id.val p) = some p) ∧
      (first_cells d).Pairwise scan_lt ∧
      ((first_cells d).map (fun (p : tg.ipos2) => d.current_token_id.val p)).Nodup ∧
      (∀ i, i ∈ (first_cells d).map (fun (p : tg.ipos2) => d.current_token_id.val p) ↔
        ∃ q ∈ scan d.current_token_class.width d.current_token_class.height,
          d.current_token_id.val q = i) := by
  obtain ⟨hs, _⟩ := tokenize_inv order token_max tokens_to_create image_size files s hfiles hrun
  refine ⟨fun d hd => ?_, fun d seq h => ?_⟩
  · obtain ⟨_, seq, h, _⟩ := token_sequence_spec s.tokens d (hs.images d hd) hs.shapes
    exact ⟨seq, h⟩
  obtain ⟨h1, h2, h3⟩ := token_sequence_closed d seq h
  refine ⟨?_, h1, h2, ?_, ?_, h3⟩
  · unfold spec_token_sequence
    apply mapM_of_forall₂
    rw [h1, List.forall₂_map_right_iff]
    refine List.forall₂_same.2 (fun p hp => ?_)
    rw [h2 p hp]
    rfl
  · exact (scan_pairwise _ _).filter _
  · exact List.Nodup.map_on (fun p hp q hq hpq => first_cells_inj d p q hp hq hpq)
      ((scan_nodup _ _).filter _)

theorem token_sequence_content_witness :
    corpus_ok 1 row_files ∧
    ∃ s, tokenize insertion_order 1 2 ⟨3, 1⟩ row_files = some s ∧
      (∀ d ∈ s.image_data, ∃ seq, token_sequence d = some seq) ∧
      ∀ (d : image_data) (seq : List (Int × Int × Int)), token_sequence d = some seq →
        spec_token_sequence d = some seq ∧
        seq = (first_cells d).map
          (fun (p : tg.ipos2) => (d.current_token_class.val p, p.x, p.y)) ∧
        (∀ p ∈ first_cells d, index d.token_ancor (d.current_token_id.val p) = some p) ∧
        (first_cells d).Pairwise scan_lt ∧
        ((first_cells d).map (fun (p : tg.ipos2) => d.current_token_id.val p)).Nodup ∧
        (∀ i, i ∈ (first_cells d).map (fun (p : tg.ipos2) => d.current_token_id.val p) ↔
          ∃ q ∈ scan d.current_token_class.width d.current_token_class.height,
            d.current_token_id.val q = i) :=
  ⟨by decide,
    (tokenize insertion_order 1 2 ⟨3, 1⟩ row_files).get (by decide),
    by simp,
    token_sequence_content insertion_order 1 2 ⟨3, 1⟩ row_files _ (by decide) (by simp)⟩

/-! ## Loading the corpus -/

/-- C17 as stated fails.  With the configured `image_size = (12, 12)`, a grid file whose
header is `(2, 1)` is not rejected: `read_token_bin_data` decodes it to the `2 x 1` image
`[[1, 1]]`, and `tokenize` turns it into an image and processes it, learning the rule
`(1, 1, (1,0)) -> 2` from it. -/
theorem dimension_check_counterexample :
    read_token_bin_data pair_bytes = some ⟨[1, 1], ⟨2, 1⟩⟩ ∧
    ∃ s, tokenize_folder insertion_order 1 1 ⟨12, 12⟩ [("pair_0.dat", 0, pair_bytes)] = some s ∧
      s.image_data.map (fun d => d.initial_token_class._extents) = [⟨2, 1⟩] ∧
      s.rules = [{ constellation := ⟨1, 1, ⟨1, 0⟩⟩, new_token_id := 2 }] ∧
      s.image_data.map (fun d => d.current_token_class._data) = [[2, 2]] :=
  ⟨by decide,
    (tokenize_folder insertion_order 1 1 ⟨12, 12⟩ [("pair_0.dat", 0, pair_bytes)]).get
      (by decide),
    by simp, by decide, by decide, by decide⟩

/-- C17, amended.  Loading the corpus involves no dimension check: `read_folder` decodes
every file without consulting `image_size` (a file is dropped by no test on its header), and
the run of `tokenize`, failure included, is the same for every configured `image_size`. -/
theorem dimension_check_absent (order : map_iteration) (token_max tokens_to_create : Int)
    (image_size image_size' : tg.isize2) (entries : List (String × Int × List Nat)) :
    tokenize_folder order token_max tokens_to_create image_size entries
      = tokenize_folder order token_max tokens_to_create image_size' entries ∧
    (∀ files, load_folder entries = some files →
      files.length = entries.length ∧
      tokenize_folder order token_max tokens_to_create image_size entries
        = tokenize order token_max tokens_to_create image_size' files) := by
  refine ⟨rfl, fun files h => ⟨?_, ?_⟩⟩
  · exact ((mapM_some _ _ _ h).length_eq).symm
  · unfold tokenize_folder
    rw [h]
    rfl

/-! ## Rule files -/

theorem write_i32_length (v : Int) : (babel.write_i32 v).length = 4 := rfl

theorem write_i32_bytes (v : Int) : ∀ b ∈ babel.write_i32 v, b < 256 := by
  intro b hb
  simp only [babel.write_i32, List.mem_cons, List.mem_singleton, List.not_mem_nil, or_false] at hb
  omega

/-- The four bytes written for a 32-bit value decode to it. -/
theorem i32_of_write_i32 (v : Int) (h : is_i32 v) :
    babel.i32_of_bytes ((v % 4294967296).toNat % 256) ((v % 4294967296).toNat / 256 % 256)
      ((v % 4294967296).toNat / 65536 % 256) ((v % 4294967296).toNat / 16777216 % 256) = v := by
  unfold is_i32 at h
  unfold babel.i32_of_bytes
  simp only []
  split <;> omega

/-- Reading back a written 32-bit value consumes exactly its four bytes. -/
theorem read_i32_write_i32 (v : Int) (h : is_i32 v) (rest : List Nat) :
    babel.byte_reader.read_i32 ⟨babel.write_i32 v ++ rest⟩ = some (v, ⟨rest⟩) := by
  unfold babel.byte_reader.read_i32 babel.write_i32
  simp only [List.cons_append, List.nil_append]
  rw [i32_of_write_i32 v h]

theorem read_field_write_i32 (v : Int) (h : is_i32 v) (rest : List Nat) (old : Int) :
    read_field ⟨babel.write_i32 v ++ rest⟩ old = (v, ⟨rest⟩) := by
  unfold read_field
  rw [read_i32_write_i32 v h rest]

/-- The loop body of `read_rules` reads back a written rule and consumes its 20 bytes. -/
theorem read_rule_write_rule (r : rule) (h : rule_is_i32 r) (rest : List Nat) :
    read_rule ⟨write_rule r ++ rest⟩ = (r, ⟨rest⟩) := by
  obtain ⟨h1, h2, h3, h4, h5⟩ := h
  unfold read_rule write_rule
  simp only [List.append_assoc]
  rw [read_field_write_i32 _ h1]
  simp only []
  rw [read_field_write_i32 _ h2]
  simp only []
  rw [read_field_write_i32 _ h3]
  simp only []
  rw [read_field_write_i32 _ h4]
  simp only []
  rw [read_field_write_i32 _ h5]

theorem foldl_append_eq {β : Type} (f : β → List Nat) (l : List β) (init : List Nat) :
    l.foldl (fun (acc : List Nat) (b : β) => acc ++ f b) init = init ++ l.flatMap f := by
  induction l generalizing init with
  | nil => simp
  | cons b l ih => simp [List.foldl_cons, ih, List.flatMap_cons, List.append_assoc]

theorem write_rule_length (r : rule) : (write_rule r).length = 20 := rfl

theorem flatMap_length_const {β : Type} (f : β → List Nat) (n : Nat) (l : List β)
    (h : ∀ b, (f b).length = n) : (l.flatMap f).length = n * l.length := by
  induction l with
  | nil => simp
  | cons b l ih =>
    rw [List.flatMap_cons, List.length_append, ih, h b, List.length_cons]
    ring

/-- With one unit of fuel per rule, the loop of `read_rules` reads back all written
rules. -/
theorem read_rules_loop_write (rules : List rule) (h : ∀ r ∈ rules, rule_is_i32 r)
    (fuel : Nat) (hfuel : rules.length ≤ fuel) (acc : List rule) :
    read_rules_loop fuel ⟨rules.flatMap write_rule⟩ acc = some (acc ++ rules) := by
  induction rules generalizing fuel acc with
  | nil =>
    cases fuel <;> simp [read_rules_loop, babel.byte_reader.has_remaining_bytes]
  | cons r rules ih =>
    cases fuel with
    | zero => simp at hfuel
    | succ fuel =>
      have hrem : babel.byte_reader.has_remaining_bytes
          ⟨(r :: rules).flatMap write_rule⟩ = true := by
        have hlen : 0 < ((r :: rules).flatMap write_rule).length := by
          rw [List.flatMap_cons, List.length_append, write_rule_length]
          omega
        unfold babel.byte_reader.has_remaining_bytes
        cases hl : (r :: rules).flatMap write_rule with
        | nil => rw [hl] at hlen; simp at hlen
        | cons _ _ => rfl
      unfold read_rules_loop
      rw [if_pos hrem, List.flatMap_cons,
        read_rule_write_rule r (h r (List.mem_cons_self _ _))]
      simp only []
      rw [ih (fun r' hr' => h r' (List.mem_cons_of_mem _ hr')) fuel
        (by simp at hfuel; omega)]
      simp

/-- C18 (rule file round trip).  For every list of rules with 32-bit fields, `write_rules`
writes the file `rules.dat` whose bytes are, rule after rule in list order, the five
little-endian `int32` fields `source_class`, `target_class`, `offset_x`, `offset_y`,
`new_class`, 20 bytes per rule and nothing else; and `read_rules` applied to these bytes
returns the original list. -/
theorem rule_file_round_trip (rules : List rule) (output_folder : String)
    (h : ∀ r ∈ rules, rule_is_i32 r) :
    (write_rules rules output_folder).1 = output_folder ++ "rules.dat" ∧
    (write_rules rules output_folder).2 = rules.flatMap spec_rule_bytes ∧
    (write_rules rules output_folder).2.length = 20 * rules.length ∧
    (∀ b ∈ (write_rules rules output_folder).2, b < 256) ∧
    read_rules (some (write_rules rules output_folder).2) = some rules := by
  have hbytes : (write_rules rules output_folder).2 = rules.flatMap write_rule := by
    unfold write_rules
    simp only []
    rw [foldl_append_eq write_rule rules []]
    rfl
  have hlen : (rules.flatMap write_rule).length = 20 * rules.length :=
    flatMap_length_const write_rule 20 rules write_rule_length
  refine ⟨rfl, hbytes, by rw [hbytes, hlen], fun b hb => ?_, ?_⟩
  · rw [hbytes, List.mem_flatMap] at hb
    obtain ⟨r, _, hb⟩ := hb
    simp only [write_rule, List.mem_append] at hb
    rcases hb with (((hb | hb) | hb) | hb) | hb <;> exact write_i32_bytes _ b hb
  · rw [hbytes]
    unfold read_rules
    simp only []
    rw [read_rules_loop_write rules h _ (by rw [hlen]; omega) []]
    rfl

theorem rule_file_round_trip_witness :
    (∀ r ∈ example_rules, rule_is_i32 r) ∧
    (write_rules example_rules "out/").1 = "out/" ++ "rules.dat" ∧
    (write_rules example_rules "out/").2 = example_rules.flatMap spec_rule_bytes ∧
    (write_rules example_rules "out/").2.length = 20 * example_rules.length ∧
    (∀ b ∈ (write_rules example_rules "out/").2, b < 256) ∧
    read_rules (some (write_rules example_rules "out/").2) = some example_rules :=
  ⟨by decide, rule_file_round_trip example_rules "out/" (by decide)⟩

/-! ## Reading shape files -/

theorem read_positions_write (cells : List (tg.ipos2 × Int))
    (h : ∀ e ∈ cells, is_i32 e.1.x ∧ is_i32 e.1.y ∧ is_i32 e.2) (rest : List Nat)
    (token : token_data) :
    read_positions cells.length ⟨cells.flatMap spec_cell_bytes ++ rest⟩ token
      = some { token with
          positions := token.positions ++ cells.map (fun e => e.1)
          position_class := token.position_class ++ cells.map (fun e => e.2) } := by
  induction cells generalizing token with
  | nil => simp [read_positions]
  | cons e cells ih =>
    obtain ⟨h1, h2, h3⟩ := h e (List.mem_cons_self _ _)
    simp only [List.length_cons, read_positions, List.flatMap_cons, spec_cell_bytes,
      List.append_assoc]
    rw [read_field_write_i32 _ h1]
    simp only []
    rw [read_field_write_i32 _ h2]
    simp only []
    rw [read_i32_write_i32 _ h3]
    simp only [Option.bind_eq_bind, Option.some_bind]
    have := ih (fun e' he' => h e' (List.mem_cons_of_mem _ he'))
      { token with
        positions := token.positions ++ [⟨e.1.x, e.1.y⟩]
        position_class := token.position_class ++ [e.2] }
    simp only [spec_cell_bytes, List.append_assoc] at this
    rw [this]
    simp

/-- Reading a written shape file gives back the shape. -/
theorem read_token_write (t : token_data) (h : shape_storable t) :
    read_token (spec_shape_bytes t) = some (token_file.token t) := by
  obtain ⟨hal, hc, hn, hp, hcl⟩ := h
  have hcells : ∀ e ∈ t.positions.zip t.position_class,
      is_i32 e.1.x ∧ is_i32 e.1.y ∧ is_i32 e.2 := by
    intro e he
    have h1 := (List.of_mem_zip he).1
    have h2 := (List.of_mem_zip he).2
    exact ⟨(hp _ h1).1, (hp _ h1).2, hcl _ h2⟩
  have hlen : (t.positions.zip t.position_class).length = t.positions.length := by
    simp [hal]
  have hread := read_positions_write (t.positions.zip t.position_class) hcells []
    { class_id := t.class_id }
  rw [hlen, List.append_nil] at hread
  unfold read_token spec_shape_bytes
  simp only [List.append_assoc]
  rw [read_field_write_i32 _ hc]
  simp only []
  rw [read_i32_write_i32 _ hn]
  simp only [Int.toNat_ofNat]
  rw [hread]
  simp only [Option.map_some', List.nil_append, Option.some.injEq, token_file.token.injEq]
  have h1 : List.map (fun (e : tg.ipos2 × Int) => e.1) (t.positions.zip t.position_class)
      = t.positions := List.map_fst_zip _ _ (by omega)
  have h2 : List.map (fun (e : tg.ipos2 × Int) => e.2) (t.positions.zip t.position_class)
      = t.position_class := List.map_snd_zip _ _ (by omega)
  rw [h1, h2]

theorem last_period_suffix_dat (pre : List Char) :
    last_period_suffix (pre ++ ['.', 'd', 'a', 't']) = ['.', 'd', 'a', 't'] := by
  induction pre with
  | nil => rfl
  | cons c pre ih => rw [List.cons_append, last_period_suffix, ih]

/-- The name of a written shape file passes the two name tests of `read_tokens`. -/
theorem token_file_name_ok (c : Int) :
    path_extension ("token_" ++ format_04 c ++ ".dat") = ".dat" ∧
    "token_".data.isPrefixOf ("token_" ++ format_04 c ++ ".dat").data = true := by
  have hdata : ("token_" ++ format_04 c ++ ".dat").data
      = 't' :: 'o' :: 'k' :: 'e' :: 'n' :: '_' :: ((format_04 c).data ++ ['.', 'd', 'a', 't']) := by
    simp only [String.data_append]
    rfl
  have hsuffix : last_period_suffix ("token_" ++ format_04 c ++ ".dat").data
      = ['.', 'd', 'a', 't'] := by
    rw [hdata]
    exact last_period_suffix_dat ('t' :: 'o' :: 'k' :: 'e' :: 'n' :: '_' :: (format_04 c).data)
  constructor
  · have h1 : ¬ ("token_" ++ format_04 c ++ ".dat" = "." ∨
        "token_" ++ format_04 c ++ ".dat" = "..") := by
      rintro (h | h)
      · have := congrArg String.data h
        rw [hdata] at this
        cases this
      · have := congrArg String.data h
        rw [hdata] at this
        cases this
    have h2 : ¬ (last_period_suffix ("token_" ++ format_04 c ++ ".dat").data
        = ("token_" ++ format_04 c ++ ".dat").data) := by
      rw [hsuffix, hdata]
      intro h
      cases h
    unfold path_extension
    rw [if_neg h1, if_neg h2, hsuffix]
  · have ht : "token_".data = ['t', 'o', 'k', 'e', 'n', '_'] := rfl
    rw [hdata, ht]
    simp [List.isPrefixOf]

theorem class_ids_match_iff (tokens : List token_data) :
    class_ids_match tokens = true ↔
      ∀ (i : Nat) (t : token_data), tokens[i]? = some t → t.class_id = (i : Int) := by
  unfold class_ids_match
  rw [List.all_eq_true]
  constructor
  · intro h i t ht
    have hi := (List.getElem?_eq_some.1 ht).1
    have := h i (List.mem_range.2 hi)
    rw [ht] at this
    simpa using this
  · intro h i hi
    have hi' := List.mem_range.1 hi
    rw [List.getElem?_eq_getElem hi']
    simp [h i _ (List.getElem?_eq_getElem hi')]

/-- A directory whose entries all pass the name tests and hold complete shape records is
read entry by entry. -/
theorem read_token_files_ok (dir : List (String × List Nat)) (acc : List token_data)
    (h : ∀ e ∈ dir, path_extension e.1 = ".dat" ∧ "token_".data.isPrefixOf e.1.data = true ∧
      ∃ t, read_token e.2 = some (token_file.token t)) :
    read_token_files dir acc = some (some (acc ++ dir.filterMap decode_token)) := by
  induction dir generalizing acc with
  | nil => simp [read_token_files]
  | cons e dir ih =>
    obtain ⟨h1, h2, t, ht⟩ := h e (List.mem_cons_self _ _)
    have hd : decode_token e = some t := by simp [decode_token, ht]
    unfold read_token_files
    rw [if_neg (by simp [h1]), if_neg (by simp [h2]), ht]
    simp only []
    rw [ih _ (fun e' he' => h e' (List.mem_cons_of_mem _ he')), List.filterMap_cons_some hd]
    simp

/-- Sorting by class id a rearrangement of a list whose shapes carry their index as class
id returns that list. -/
theorem sort_class_ids (sorter : token_sort) (ts tokens : List token_data)
    (hperm : ts.Perm tokens)
    (hid : ∀ (i : Nat) (t : token_data), tokens[i]? = some t → t.class_id = (i : Int)) :
    sorter.sort ts = tokens := by
  have hp : (sorter.sort ts).Perm tokens := (sorter.sort_perm ts).trans hperm
  have hlt : tokens.Pairwise (fun a b => a.class_id < b.class_id) := by
    rw [List.pairwise_iff_getElem]
    intro i j hi hj hij
    rw [hid i _ (List.getElem?_eq_getElem hi), hid j _ (List.getElem?_eq_getElem hj)]
    omega
  have hne : (sorter.sort ts).Pairwise (fun a b => a.class_id ≠ b.class_id) := by
    have h1 : (tokens.map (fun t => t.class_id)).Nodup := by
      unfold List.Nodup
      rw [List.pairwise_map]
      exact hlt.imp (fun hab => ne_of_lt hab)
    have h2 : ((sorter.sort ts).map (fun t => t.class_id)).Nodup :=
      (hp.map _).nodup_iff.2 h1
    unfold List.Nodup at h2
    rw [List.pairwise_map] at h2
    exact h2
  have hlt' : (sorter.sort ts).Pairwise (fun a b => a.class_id < b.class_id) :=
    ((sorter.sort_sorted ts).and hne).imp (fun hab => by omega)
  haveI : IsAntisymm token_data (fun a b => a.class_id < b.class_id) :=
    ⟨fun a b h1 h2 => absurd h1 (not_lt_of_gt h2)⟩
  exact List.eq_of_perm_of_sorted hp hlt' hlt

theorem decode_spec_shape_file (t : token_data) (h : shape_storable t) :
    decode_token (spec_shape_file t) = some t := by
  simp [decode_token, spec_shape_file, read_token_write t h]

/-- C19 (shape file round trip).  For every shape list with `tokens[i].class_id = i` whose
shapes are index-aligned and hold 32-bit values, `write_token_shapes` writes one file per
shape, named `token_<class_id>.dat` and holding the record `class_id`, `num_cells`, then
`x`, `y`, `base_class` per cell; and `read_tokens`, whatever sort `cc::sort` is, applied to
these files listed in any directory order returns the original list. -/
theorem shape_file_round_trip (sorter : token_sort) (tokens : List token_data)
    (hid : class_ids_match tokens = true) (hok : ∀ t ∈ tokens, shape_storable t) :
    ∃ written, write_token_shapes tokens = some written ∧
      written = tokens.map spec_shape_file ∧
      ∀ listing, listing.Perm written → read_tokens sorter (some listing) = some tokens := by
  refine ⟨tokens.map spec_shape_file, write_token_shapes_eq tokens (fun t ht => (hok t ht).1),
    rfl, fun listing hperm => ?_⟩
  have hentries : ∀ e ∈ listing, path_extension e.1 = ".dat" ∧
      "token_".data.isPrefixOf e.1.data = true ∧
      ∃ t, read_token e.2 = some (token_file.token t) := by
    intro e he
    obtain ⟨t, ht, rfl⟩ := List.mem_map.1 (hperm.subset he)
    exact ⟨(token_file_name_ok t.class_id).1, (token_file_name_ok t.class_id).2, t,
      read_token_write t (hok t ht)⟩
  have hread := read_token_files_ok listing [] hentries
  rw [List.nil_append] at hread
  have hdec : (tokens.map spec_shape_file).filterMap decode_token = tokens := by
    rw [List.filterMap_map]
    have : ∀ t ∈ tokens, (decode_token ∘ spec_shape_file) t = some t :=
      fun t ht => decode_spec_shape_file t (hok t ht)
    rw [List.filterMap_congr this, List.filterMap_some]
  have hp : (listing.filterMap decode_token).Perm tokens := by
    have := hperm.filterMap decode_token
    rw [hdec] at this
    exact this
  have hsort := sort_class_ids sorter _ tokens hp ((class_ids_match_iff tokens).1 hid)
  unfold read_tokens
  simp only [hread, Option.bind_eq_bind, Option.some_bind, hsort, hid, if_true]

theorem shape_file_round_trip_witness :
    class_ids_match example_shapes = true ∧ (∀ t ∈ example_shapes, shape_storable t) ∧
    ∃ written, write_token_shapes example_shapes = some written ∧
      written = example_shapes.map spec_shape_file ∧
      ∀ listing, listing.Perm written →
        read_tokens insertion_sort (some listing) = some example_shapes :=
  ⟨by decide, by decide,
    shape_file_round_trip insertion_sort example_shapes (by decide) (by decide)⟩

/-! ## Positions in the scan order -/

theorem flatMap_range_length {β : Type} (f : Nat → List β) (W : Nat)
    (hf : ∀ y, (f y).length = W) (H : Nat) : ((List.range H).flatMap f).length = W * H := by
  induction H with
  | zero => simp
  | succ H ih =>
    rw [List.range_succ, List.flatMap_append, List.length_append, ih]
    simp [hf, Nat.mul_succ]

theorem flatMap_range_getElem {β : Type} (f : Nat → List β) (W : Nat)
    (hf : ∀ y, (f y).length = W) (H y x : Nat) (hy : y < H) (hx : x < W) :
    ((List.range H).flatMap f)[W * y + x]? = (f y)[x]? := by
  induction H with
  | zero => omega
  | succ H ih =>
    rw [List.range_succ, List.flatMap_append]
    have hlen := flatMap_range_length f W hf H
    by_cases hyH : y < H
    · have hlt : W * y + x < W * H := by
        have : W * (y + 1) ≤ W * H := Nat.mul_le_mul_left W hyH
        rw [Nat.mul_succ] at this
        omega
      rw [List.getElem?_append_left (by rw [hlen]; exact hlt)]
      exact ih hyH
    · have hyeq : y = H := by omega
      subst hyeq
      rw [List.getElem?_append_right (by rw [hlen]; omega), hlen]
      simp

/-- The scan visits the `w * h` cells of a grid. -/
theorem scan_length (w h : Int) : (scan w h).length = w.toNat * h.toNat := by
  unfold scan
  exact flatMap_range_length _ w.toNat (fun y => by simp) h.toNat

/-- The cell `(x, y)` is the cell number `x + w * y` of the scan. -/
theorem scan_getElem (w h x y : Int) (hx : 0 ≤ x) (hxw : x < w) (hy : 0 ≤ y) (hyh : y < h) :
    (scan w h)[(x + w * y).toNat]? = some ⟨x, y⟩ := by
  have hidx : (x + w * y).toNat = w.toNat * y.toNat + x.toNat := by
    have h1 : x + w * y = ((w.toNat * y.toNat + x.toNat : Nat) : Int) := by
      push_cast
      rw [Int.toNat_of_nonneg hx, Int.toNat_of_nonneg hy, Int.toNat_of_nonneg (by omega)]
      ring
    rw [h1, Int.toNat_ofNat]
  rw [hidx]
  unfold scan
  rw [flatMap_range_getElem _ w.toNat (fun y => by simp) h.toNat y.toNat x.toNat (by omega)
    (by omega)]
  rw [List.getElem?_map, List.getElem?_range (by omega)]
  simp [Int.toNat_of_nonneg hx, Int.toNat_of_nonneg hy]

/-- The number of cells scanned before a cell is its linear index. -/
theorem scan_split_length (w h : Int) (pre post : List tg.ipos2) (b : tg.ipos2)
    (hl : scan w h = pre ++ b :: post) : pre.length = (b.x + w * b.y).toNat := by
  have hb : b ∈ scan w h := by rw [hl]; simp
  rw [mem_scan] at hb
  have h1 := scan_getElem w h b.x b.y hb.1 hb.2.1 hb.2.2.1 hb.2.2.2
  have h2 : (scan w h)[pre.length]? = some b := by
    rw [hl, List.getElem?_append_right (le_refl _)]
    simp
  have hlt : pre.length < (scan w h).length := by rw [hl]; simp
  exact List.getElem?_inj hlt (scan_nodup w h) (h2.trans h1.symm)

/-- A freshly constructed image has its ids allocated. -/
theorem created.ids_allocated {token_class : img.image Int} {d : image_data}
    (h : created token_class d) (hwf : token_class.well_formed) : ids_ok d := by
  refine ⟨⟨by rw [h.init_eq]; exact hwf, by rw [h.class_eq]; exact hwf, h.id_wf,
    by rw [h.class_eq, h.init_eq], by rw [h.id_ext, h.init_eq], h.next_eq.symm⟩, fun p hp => ?_⟩
  rw [h.init_eq] at hp
  have hmem : p ∈ d.token_ancor := by
    rw [h.ancor_eq]; exact (mem_scan_iff_contains token_class p).2 hp
  obtain ⟨k, hk⟩ := List.mem_iff_getElem?.1 hmem
  have hlt := (List.getElem?_eq_some.1 hk).1
  rw [h.id_eq k p hk, h.next_eq]
  omega

/-- C24 (initial image state).  For every well-formed `W x H` input grid `g` the constructor
of `image_data` succeeds; the constructed image has `current_token_class` and
`initial_token_class` equal to `g`, `current_token_id(x, y) = x + W*y` and
`token_ancor[x + W*y] = (x, y)` for every cell, exactly `W*H` anchors, and next id
`max_token_id() = W*H`. -/
theorem initial_image_state (filename : String) (id : Int) (g : img.image Int)
    (hwf : g.well_formed) :
    ∃ d, image_data.create filename id g = some d ∧
      d.current_token_class = g ∧ d.initial_token_class = g ∧
      d.max_token_id = g.width * g.height ∧
      (d.token_ancor.length : Int) = g.width * g.height ∧
      ∀ x y, 0 ≤ x → x < g.width → 0 ≤ y → y < g.height →
        d.current_token_id.read x y = some (x + g.width * y) ∧
        index d.token_ancor (x + g.width * y) = some ⟨x, y⟩ := by
  obtain ⟨d, hd, hc, _, _⟩ := image_data.create_spec filename id g hwf
  have hlen : (d.token_ancor.length : Int) = g.width * g.height := by
    rw [hc.ancor_eq, scan_length]
    push_cast
    have h1 : (g.width.toNat : Int) = g.width := Int.toNat_of_nonneg hwf.1
    have h2 : (g.height.toNat : Int) = g.height := Int.toNat_of_nonneg hwf.2.1
    rw [h1, h2]
  refine ⟨d, hd, hc.class_eq, hc.init_eq, ?_, hlen, fun x y hx hxw hy hyh => ?_⟩
  · show d.m_next_token_id = _
    rw [hc.next_eq, hlen]
  have hk := scan_getElem g.width g.height x y hx hxw hy hyh
  rw [← hc.ancor_eq] at hk
  have hidx := img.image.linear_index_lt g.width g.height x y hx hxw hy hyh
  have hcont : d.current_token_id.contains ⟨x, y⟩ = true := by
    rw [img.image.contains_iff, hc.id_ext]
    exact ⟨hx, hxw, hy, hyh⟩
  constructor
  · have := img.image.read_eq_val d.current_token_id hc.id_wf ⟨x, y⟩ hcont
    rw [hc.id_eq _ _ hk, Int.toNat_of_nonneg hidx.1] at this
    exact this
  · rw [index_eq_some]
    exact ⟨hidx.1, hk⟩

theorem initial_image_state_witness :
    (⟨[1, 2, 2, 1], ⟨2, 2⟩⟩ : img.image Int).well_formed ∧
    ∃ d, image_data.create "tie_0.dat" 0 ⟨[1, 2, 2, 1], ⟨2, 2⟩⟩ = some d ∧
      d.current_token_class = ⟨[1, 2, 2, 1], ⟨2, 2⟩⟩ ∧
      d.initial_token_class = ⟨[1, 2, 2, 1], ⟨2, 2⟩⟩ ∧
      d.max_token_id
        = (⟨[1, 2, 2, 1], ⟨2, 2⟩⟩ : img.image Int).width
          * (⟨[1, 2, 2, 1], ⟨2, 2⟩⟩ : img.image Int).height ∧
      (d.token_ancor.length : Int)
        = (⟨[1, 2, 2, 1], ⟨2, 2⟩⟩ : img.image Int).width
          * (⟨[1, 2, 2, 1], ⟨2, 2⟩⟩ : img.image Int).height ∧
      ∀ x y, 0 ≤ x → x < (⟨[1, 2, 2, 1], ⟨2, 2⟩⟩ : img.image Int).width → 0 ≤ y →
        y < (⟨[1, 2, 2, 1], ⟨2, 2⟩⟩ : img.image Int).height →
        d.current_token_id.read x y
          = some (x + (⟨[1, 2, 2, 1], ⟨2, 2⟩⟩ : img.image Int).width * y) ∧
        index d.token_ancor (x + (⟨[1, 2, 2, 1], ⟨2, 2⟩⟩ : img.image Int).width * y)
          = some ⟨x, y⟩ :=
  ⟨by decide, initial_image_state "tie_0.dat" 0 ⟨[1, 2, 2, 1], ⟨2, 2⟩⟩ (by decide)⟩

/-! ## Decoding a grid file -/

theorem set_take_replicate (d : List Int) (k n : Nat) (hk : k < d.length) (hn : d.length = n) :
    (d.take k ++ List.replicate (n - k) (0 : Int)).set k d[k]
      = d.take (k + 1) ++ List.replicate (n - (k + 1)) 0 := by
  have hlen : (d.take k).length = k := by simp; omega
  rw [List.set_append_right _ _ (by omega), hlen, Nat.sub_self]
  have hrep : List.replicate (n - k) (0 : Int) = 0 :: List.replicate (n - (k + 1)) 0 := by
    have : n - k = (n - (k + 1)) + 1 := by omega
    rw [this, List.replicate_succ]
  rw [hrep, List.set_cons_zero, List.take_succ, List.getElem?_eq_getElem hk,
    List.append_assoc]
  rfl

/-- One step of the cell loop of `read_token_bin_data`. -/
theorem read_cell_step (w h : Int) (d : List Int) (hlen : d.length = w.toNat * h.toNat)
    (hd : ∀ v ∈ d, is_i32 v) (pre post : List tg.ipos2) (b : tg.ipos2)
    (hl : scan w h = pre ++ b :: post) (st : img.image Int × babel.byte_reader)
    (hst : st.1._extents = ⟨w, h⟩ ∧
      st.1._data = d.take pre.length ++ List.replicate (d.length - pre.length) 0 ∧
      st.2.remaining = (d.drop pre.length).flatMap babel.write_i32) :
    ∃ st', (do
        let (v, reader) ← st.2.read_i32
        let image ← st.1.write b.x b.y v
        pure (image, reader)) = some st' ∧
      st'.1._extents = ⟨w, h⟩ ∧
      st'.1._data = d.take (pre ++ [b]).length
        ++ List.replicate (d.length - (pre ++ [b]).length) 0 ∧
      st'.2.remaining = (d.drop (pre ++ [b]).length).flatMap babel.write_i32 := by
  obtain ⟨hext, hdata, hrem⟩ := hst
  have hb : b ∈ scan w h := by rw [hl]; simp
  rw [mem_scan] at hb
  have hk := scan_split_length w h pre post b hl
  have hlt : pre.length < d.length := by
    have := congrArg List.length hl
    rw [scan_length, ← hlen] at this
    simp at this
    omega
  have hdrop : d.drop pre.length = d[pre.length] :: d.drop (pre.length + 1) :=
    List.drop_eq_getElem_cons hlt
  have hread : st.2.read_i32 = some (d[pre.length], ⟨(d.drop (pre.length + 1)).flatMap
      babel.write_i32⟩) := by
    have := read_i32_write_i32 d[pre.length] (hd _ (List.getElem_mem hlt))
      ((d.drop (pre.length + 1)).flatMap babel.write_i32)
    rw [← this]
    congr 1
    cases hs : st.2 with
    | mk remaining =>
      rw [hs] at hrem
      simp only at hrem
      rw [hrem, hdrop, List.flatMap_cons]
  have hwrite : st.1.write b.x b.y d[pre.length]
      = some { st.1 with _data := st.1._data.set pre.length d[pre.length] } := by
    have hb' : 0 ≤ b.x ∧ b.x < st.1._extents.width ∧ 0 ≤ b.y ∧ b.y < st.1._extents.height := by
      rw [hext]; exact hb
    have hk' : (b.x + st.1._extents.width * b.y).toNat = pre.length := by
      rw [hext]; exact hk.symm
    have hdl : pre.length < st.1._data.length := by
      rw [hdata]
      simp
      omega
    unfold img.image.write
    rw [if_pos hb', hk', if_pos hdl]
  refine ⟨({ st.1 with _data := st.1._data.set pre.length d[pre.length] },
    ⟨(d.drop (pre.length + 1)).flatMap babel.write_i32⟩), ?_, hext, ?_, ?_⟩
  · simp only [hread, hwrite, Option.bind_eq_bind, Option.some_bind, Option.pure_def]
  · simp only [List.length_append, List.length_singleton]
    rw [hdata]
    exact set_take_replicate d pre.length d.length hlt rfl
  · simp only [List.length_append, List.length_singleton]

/-- C21 (grid decoding).  For every width `w >= 0`, height `h >= 0` and list `d` of `w*h`
32-bit values, `read_token_bin_data` applied to the little-endian bytes of `w`, `h`, `d`
returns the image of extents `(w, h)` whose data vector is `d`, so that
`image(x, y) = d[y*w + x]` for all `0 <= x < w`, `0 <= y < h`. -/
theorem grid_decoding (w h : Int) (d : List Int) (hw : 0 ≤ w) (hh : 0 ≤ h)
    (hwi : is_i32 w) (hhi : is_i32 h) (hlen : (d.length : Int) = w * h)
    (hd : ∀ v ∈ d, is_i32 v) :
    ∃ image, read_token_bin_data (spec_grid_bytes w h d) = some image ∧
      image = ⟨d, ⟨w, h⟩⟩ ∧ image.width = w ∧ image.height = h ∧
      ∀ x y, 0 ≤ x → x < w → 0 ≤ y → y < h →
        ∃ v, index d (y * w + x) = some v ∧ image.read x y = some v := by
  have hlen' : d.length = w.toNat * h.toNat := by
    have h1 : (d.length : Int) = ((w.toNat * h.toNat : Nat) : Int) := by
      push_cast
      rw [Int.toNat_of_nonneg hw, Int.toNat_of_nonneg hh]
      exact hlen
    exact_mod_cast h1
  have hcreate : img.image.create w h
      = some (⟨List.replicate (w.toNat * h.toNat) 0, ⟨w, h⟩⟩ : img.image Int) := by
    have hm := mul_nonneg hw hh
    have hwh : (w * h).toNat = w.toNat * h.toNat := by
      have : w * h = ((w.toNat * h.toNat : Nat) : Int) := by
        push_cast
        rw [Int.toNat_of_nonneg hw, Int.toNat_of_nonneg hh]
      rw [this, Int.toNat_ofNat]
    unfold img.image.create img.image.resize
    rw [if_neg (not_lt.2 hm)]
    simp only [List.take_nil, List.nil_append, List.length_nil, Nat.sub_zero, hwh]
    rfl
  obtain ⟨st, hfold, hext, hdata, _⟩ := foldlM_prefix_invariant
    (fun (st : img.image Int × babel.byte_reader) (p : tg.ipos2) => do
      let (v, reader) ← st.2.read_i32
      let image ← st.1.write p.x p.y v
      pure (image, reader))
    (fun pre st => st.1._extents = ⟨w, h⟩ ∧
      st.1._data = d.take pre.length ++ List.replicate (d.length - pre.length) 0 ∧
      st.2.remaining = (d.drop pre.length).flatMap babel.write_i32)
    (scan w h)
    (fun pre b post s hl hs => read_cell_step w h d hlen' hd pre post b hl s hs)
    ((⟨List.replicate (w.toNat * h.toNat) 0, ⟨w, h⟩⟩ : img.image Int),
      ⟨d.flatMap babel.write_i32⟩)
    ⟨rfl, by
      simp only [List.length_nil, Nat.sub_zero, List.take_zero, List.nil_append]
      rw [hlen'], by simp⟩
  have himg : st.1 = ⟨d, ⟨w, h⟩⟩ := by
    cases hs : st.1 with
    | mk data ext =>
      rw [hs] at hext hdata
      simp only at hext hdata
      rw [scan_length, ← hlen'] at hdata
      simp only [List.take_length, Nat.sub_self, List.replicate_zero, List.append_nil] at hdata
      rw [hext, hdata]
  refine ⟨st.1, ?_, himg, by rw [himg]; rfl, by rw [himg]; rfl, fun x y hx hxw hy hyh => ?_⟩
  · unfold read_token_bin_data spec_grid_bytes
    simp only [List.append_assoc, Option.bind_eq_bind]
    rw [read_i32_write_i32 w hwi]
    simp only [Option.some_bind]
    rw [read_i32_write_i32 h hhi]
    simp only [Option.some_bind, hcreate]
    have h2 : ((scan w h).foldlM
        (fun (st : img.image Int × babel.byte_reader) (p : tg.ipos2) => do
          let (v, reader) ← st.2.read_i32
          let image ← st.1.write p.x p.y v
          pure (image, reader))
        ((⟨List.replicate (w.toNat * h.toNat) 0, ⟨w, h⟩⟩ : img.image Int),
          ⟨d.flatMap babel.write_i32⟩)).bind (fun st => pure st.1)
        = some st.1 := by
      rw [hfold]; rfl
    exact h2
  · have hidx := img.image.linear_index_lt w h x y hx hxw hy hyh
    have hlt : (x + w * y).toNat < d.length := by
      have h1 := hidx.1
      have h2 := hidx.2
      omega
    refine ⟨d[(x + w * y).toNat], ?_, ?_⟩
    · rw [index_eq_some]
      have heq : y * w + x = x + w * y := by ring
      rw [heq]
      exact ⟨hidx.1, List.getElem?_eq_getElem hlt⟩
    · rw [himg]
      simp only [img.image.read, hx, hxw, hy, hyh, and_self, if_true]
      exact List.getElem?_eq_getElem hlt

theorem grid_decoding_witness :
    (0 : Int) ≤ 2 ∧ (0 : Int) ≤ 1 ∧ is_i32 2 ∧ is_i32 1 ∧
    (([7, -3] : List Int).length : Int) = 2 * 1 ∧ (∀ v ∈ ([7, -3] : List Int), is_i32 v) ∧
    ∃ image, read_token_bin_data (spec_grid_bytes 2 1 [7, -3]) = some image ∧
      image = ⟨[7, -3], ⟨2, 1⟩⟩ ∧ image.width = 2 ∧ image.height = 1 ∧
      ∀ x y, 0 ≤ x → x < 2 → 0 ≤ y → y < 1 →
        ∃ v, index ([7, -3] : List Int) (y * 2 + x) = some v ∧ image.read x y = some v :=
  ⟨by decide, by decide, by decide, by decide, by decide, by decide,
    grid_decoding 2 1 [7, -3] (by decide) (by decide) (by decide) (by decide) (by decide)
      (by decide)⟩

/-! ## The tie scenario -/

theorem tokenize_iteration_with (order : map_iteration) (s : tokenizer_state) :
    tokenize_iteration order s
      = (get_most_common_constellation order s.image_data).bind (fun c => iteration_with c s) :=
  rfl

theorem option_get_spec {α : Type} (o : Option α) (P : α → Prop) (h : o.isSome = true)
    (hP : P (o.get h)) : ∃ s, o = some s ∧ P s :=
  ⟨o.get h, by simp, hP⟩

/-- C26 as stated fails.  On the image with rows `[1,2]` and `[2,1]` the counter gives the
constellations `(1, 2, (1,0))` and `(2, 1, (1,0))` the count `1` each, not `2`. -/
theorem tie_counts_counterexample :
    ∃ m, count_constellations tie_images = some m ∧
      m.count ⟨1, 2, ⟨1, 0⟩⟩ = 1 ∧ m.count ⟨2, 1, ⟨1, 0⟩⟩ = 1 ∧
      m.count ⟨1, 2, ⟨1, 0⟩⟩ ≠ 2 ∧ m.count ⟨2, 1, ⟨1, 0⟩⟩ ≠ 2 :=
  ⟨(count_constellations tie_images).get (by decide), by simp, by decide, by decide, by decide,
    by decide⟩

/-- C26, amended.  For the corpus of the single image with rows `[1,2]` and `[2,1]` the
counter assigns count `1` to each of the four constellations `(1, 2, (0,1))`,
`(1, 2, (1,0))`, `(2, 1, (0,1))`, `(2, 1, (1,0))` and counts no other constellation. -/
theorem tie_counts :
    read_folder tie_files = some tie_images ∧
    ∃ m, count_constellations tie_images = some m ∧
      ∀ key, m.count key = if key ∈ tie_constellations then 1 else 0 := by
  refine ⟨by decide,
    [(⟨1, 2, ⟨0, 1⟩⟩, 1), (⟨1, 2, ⟨1, 0⟩⟩, 1), (⟨2, 1, ⟨0, 1⟩⟩, 1), (⟨2, 1, ⟨1, 0⟩⟩, 1)],
    by decide, fun key => ?_⟩
  simp only [count_map.count_cons, count_map.count_nil, tie_constellations, List.mem_cons,
    List.mem_singleton, List.not_mem_nil, or_false]
  by_cases h1 : (⟨1, 2, ⟨0, 1⟩⟩ : constellation) = key
  · simp [h1]
  by_cases h2 : (⟨1, 2, ⟨1, 0⟩⟩ : constellation) = key
  · simp [h2]
  by_cases h3 : (⟨2, 1, ⟨0, 1⟩⟩ : constellation) = key
  · simp [h3]
  by_cases h4 : (⟨2, 1, ⟨1, 0⟩⟩ : constellation) = key
  · simp [h4]
  simp [h1, h2, h3, h4, Ne.symm h1, Ne.symm h2, Ne.symm h3, Ne.symm h4]

/-- C27 as stated fails.  On the tie corpus with `token_max = 2` and one learning
iteration (counter map visited in insertion order) the new class is `3`, but the token
sequence of the image is `(3,0,0), (2,1,0), (1,1,1)`: it holds one record of class `3`, not
two. -/
theorem tie_result_counterexample :
    ∃ s, tokenize insertion_order 2 1 ⟨2, 2⟩ tie_files = some s ∧
      s.rules = [{ constellation := ⟨1, 2, ⟨0, 1⟩⟩, new_token_id := 3 }] ∧
      s.image_data.map token_sequence = [some [(3, 0, 0), (2, 1, 0), (1, 1, 1)]] ∧
      s.image_data.map (fun d => (token_sequence d).map (records_of_class 3)) = [some 1] :=
  ⟨(tokenize insertion_order 2 1 ⟨2, 2⟩ tie_files).get (by decide), by simp, by decide,
    by decide, by decide⟩

/-- C27, amended.  For the corpus of the single image with rows `[1,2]` and `[2,1]`,
`token_max = 2` and one learning iteration, whatever the visiting order of the counter map,
the run succeeds, the new class is `3`, and the token sequence of the image has three
records, exactly one of which is of class `3`. -/
theorem tie_result (order : map_iteration) :
    ∃ s, tokenize order 2 1 ⟨2, 2⟩ tie_files = some s ∧
      s.rules.map (fun r => r.new_token_id) = [3] ∧
      s.image_data.map (fun d => (token_sequence d).map (records_of_class 3)) = [some 1] ∧
      s.image_data.map (fun d => (token_sequence d).map List.length) = [some 3] := by
  have hread : read_folder tie_files = some tie_images := by decide
  have hcount : count_constellations tie_images
      = some [(⟨1, 2, ⟨0, 1⟩⟩, 1), (⟨1, 2, ⟨1, 0⟩⟩, 1), (⟨2, 1, ⟨0, 1⟩⟩, 1),
        (⟨2, 1, ⟨1, 0⟩⟩, 1)] := by decide
  obtain ⟨_, _, hok, _⟩ := count_constellations_spec tie_images _ hcount
  obtain ⟨_, _, _, _, _, ⟨e, he, hec⟩, _⟩ := winner_spec order _ hok (by simp)
  have hwin := get_most_common_constellation_eq order tie_images _ hcount
  rw [← hec] at hwin
  have hrun : tokenize order 2 1 ⟨2, 2⟩ tie_files
      = (iteration_with e.1
          { rules := [], tokens := initial_tokens 2, image_data := tie_images }).bind
        (fun s => some s) := by
    unfold tokenize
    simp only [hread, Option.bind_eq_bind, Option.some_bind]
    show tokenize_loop order 1 _ = _
    simp only [tokenize_loop, tokenize_iteration_with, hwin, Option.bind_eq_bind,
      Option.some_bind]
  rw [hrun]
  simp only [List.mem_cons, List.mem_singleton, List.not_mem_nil, or_false] at he
  rcases he with rfl | rfl | rfl | rfl
  · exact option_get_spec _ _ (by decide) ⟨by decide, by decide, by decide⟩
  · exact option_get_spec _ _ (by decide) ⟨by decide, by decide, by decide⟩
  · exact option_get_spec _ _ (by decide) ⟨by decide, by decide, by decide⟩
  · exact option_get_spec _ _ (by decide) ⟨by decide, by decide, by decide⟩

end tp

namespace img

/-- Every entry of the data vector of a well-formed image is the value of a cell. -/
theorem image.mem_data_val (i : image Int) (hwf : i.well_formed) (v : Int)
    (hv : v ∈ i._data) : ∃ p, i.contains p = true ∧ i.val p = v := by
  obtain ⟨k, hk⟩ := List.mem_iff_getElem?.1 hv
  have hklt := (List.getElem?_eq_some.1 hk).1
  obtain ⟨hw, hh, hlen⟩ := hwf
  have hkl : (k : Int) < i._extents.width * i._extents.height := by omega
  have hwpos : 0 < i._extents.width := by
    by_contra hn
    have : i._extents.width = 0 := by omega
    rw [this] at hkl
    simp at hkl
    omega
  have hx0 : 0 ≤ (k : Int) % i._extents.width := Int.emod_nonneg _ (by omega)
  have hx1 : (k : Int) % i._extents.width < i._extents.width := Int.emod_lt_of_pos _ hwpos
  have hy0 : 0 ≤ (k : Int) / i._extents.width := Int.ediv_nonneg (by omega) hw
  have hdecomp : (k : Int) % i._extents.width + i._extents.width * ((k : Int) / i._extents.width)
      = k := Int.emod_add_ediv _ _
  have hy1 : (k : Int) / i._extents.width < i._extents.height := by
    by_contra hge
    have : i._extents.width * i._extents.height
        ≤ i._extents.width * ((k : Int) / i._extents.width) :=
      mul_le_mul_of_nonneg_left (by omega) hw
    omega
  refine ⟨⟨(k : Int) % i._extents.width, (k : Int) / i._extents.width⟩, ?_, ?_⟩
  · rw [image.contains_iff]; exact ⟨hx0, hx1, hy0, hy1⟩
  · simp only [image.val, image.get, image.read, hx0, hx1, hy0, hy1, and_self, if_true, hdecomp,
      Int.toNat_ofNat, hk, Option.getD_some]

end img

namespace tp

/-! ## Truncated rule files -/

/-- C22, the code at the failing input.  The rule file of 24 bytes (not a multiple of 20)
is not rejected: `read_rules` returns two rules, the second of which holds the one field
that could be read and the default values of `constellation` in the fields that could not;
a file holding only two fields gives one such rule. -/
theorem truncated_rules_not_rejected :
    truncated_rule_bytes.length = 24 ∧ truncated_rule_bytes.length % 20 ≠ 0 ∧
    (∃ rules, read_rules (some truncated_rule_bytes) = some rules ∧ rules.length = 2 ∧
      rules.map (fun r => r.constellation) = [⟨1, 1, ⟨1, 0⟩⟩, ⟨5, -1, ⟨0, 0⟩⟩]) ∧
    (∃ rules, read_rules (some (babel.write_i32 1 ++ babel.write_i32 2)) = some rules ∧
      rules.map (fun r => r.constellation) = [⟨1, 2, ⟨0, 0⟩⟩]) :=
  ⟨by decide, by decide,
    option_get_spec _ _ (by decide) ⟨by decide, by decide⟩,
    option_get_spec _ _ (by decide) (by decide)⟩

/-! ## Id allocation -/

theorem read_folder_created (files : List (String × Int × img.image Int))
    (hfiles : ∀ f ∈ files, f.2.2.well_formed) :
    ∃ images, read_folder files = some images ∧
      List.Forall₂ (fun f d => created f.2.2 d) files images := by
  unfold read_folder
  refine mapM_total _ _ files (fun f hf => ?_)
  obtain ⟨d, hd, hc, _, _⟩ := image_data.create_spec f.1 f.2.1 f.2.2 (hfiles f hf)
  exact ⟨d, hd, hc⟩

/-- The function `apply_rule` keeps the ids of all images allocated. -/
theorem apply_rule_allocated (rule : rule) (new_token : token_data) (images : List image_data)
    (himages : ∀ d ∈ images, ids_ok d) :
    ∃ images', apply_rule rule new_token images = some images' ∧ ∀ d ∈ images', ids_ok d := by
  unfold apply_rule
  obtain ⟨images', h1, h2⟩ := mapM_total (apply_rule_image rule new_token)
    (fun _ d' => ids_ok d') images (fun d hd => by
      obtain ⟨d', h1, h2, _⟩ := apply_rule_cells_total rule new_token d (himages d hd)
        (scan d.initial_token_class.width d.initial_token_class.height)
        (fun p hp => (mem_scan_iff_contains d.m_initial_token_class p).1 hp)
      exact ⟨d', h1, h2⟩)
  refine ⟨images', h1, fun d' hd' => ?_⟩
  obtain ⟨_, _, h⟩ := forall₂_mem_right h2 d' hd'
  exact h

/-- C23 (id allocation, I4).  For every corpus of well-formed grids, the images are
constructed, and any sequence of `apply_rule` calls (with any rules and shapes) succeeds on
them; in the initial state (the empty sequence) and after the calls, in every image every
value stored in `current_token_id` lies in `[0, max_token_id())`, `token_ancor` has exactly
`max_token_id()` entries, and `next_token_id()` returns `max_token_id()` and increments it,
so that successive calls return strictly increasing values. -/
theorem id_allocation (files : List (String × Int × img.image Int))
    (hfiles : ∀ f ∈ files, f.2.2.well_formed) (steps : List (rule × token_data)) :
    ∃ images0, read_folder files = some images0 ∧
      ∃ images, steps.foldlM (fun (images : List image_data) (step : rule × token_data) =>
          apply_rule step.1 step.2 images) images0 = some images ∧
        ∀ d ∈ images,
          (∀ v ∈ d.current_token_id._data, 0 ≤ v ∧ v < d.max_token_id) ∧
          (∀ p, d.current_token_id.contains p = true →
            ∃ v, d.current_token_id.get p = some v ∧ 0 ≤ v ∧ v < d.max_token_id) ∧
          (d.token_ancor.length : Int) = d.max_token_id ∧
          d.next_token_id.1 = d.max_token_id ∧
          d.next_token_id.2.max_token_id = d.max_token_id + 1 ∧
          d.next_token_id.1 < d.next_token_id.2.next_token_id.1 := by
  obtain ⟨images0, h0, hc⟩ := read_folder_created files hfiles
  have hids0 : ∀ d ∈ images0, ids_ok d := by
    intro d hd
    obtain ⟨f, hf, hcr⟩ := forall₂_mem_right hc d hd
    exact hcr.ids_allocated (hfiles f hf)
  obtain ⟨images, h1, hids⟩ := foldlM_invariant
    (fun (images : List image_data) (step : rule × token_data) =>
      apply_rule step.1 step.2 images)
    (fun images => ∀ d ∈ images, ids_ok d) steps
    (fun images step _ h => apply_rule_allocated step.1 step.2 images h) images0 hids0
  refine ⟨images0, h0, images, h1, fun d hd => ?_⟩
  have hok := hids d hd
  have hg := hok.grids
  refine ⟨fun v hv => ?_, fun p hp => ?_, hg.ancor_len, rfl, rfl, ?_⟩
  · obtain ⟨p, hp, hval⟩ := img.image.mem_data_val d.current_token_id hg.id_wf v hv
    rw [hg.id_contains] at hp
    rw [← hval]
    exact hok.range p hp
  · rw [hg.id_contains] at hp
    exact ⟨_, hg.get_id p hp, hok.range p hp⟩
  · show d.m_next_token_id < d.m_next_token_id + 1
    omega

theorem id_allocation_witness :
    (∀ f ∈ pair_files, f.2.2.well_formed) ∧
    ∃ images0, read_folder pair_files = some images0 ∧
      ∃ images, [(pair_rule, long_shape)].foldlM
          (fun (images : List image_data) (step : rule × token_data) =>
            apply_rule step.1 step.2 images) images0 = some images ∧
        ∀ d ∈ images,
          (∀ v ∈ d.current_token_id._data, 0 ≤ v ∧ v < d.max_token_id) ∧
          (∀ p, d.current_token_id.contains p = true →
            ∃ v, d.current_token_id.get p = some v ∧ 0 ≤ v ∧ v < d.max_token_id) ∧
          (d.token_ancor.length : Int) = d.max_token_id ∧
          d.next_token_id.1 = d.max_token_id ∧
          d.next_token_id.2.max_token_id = d.max_token_id + 1 ∧
          d.next_token_id.1 < d.next_token_id.2.next_token_id.1 :=
  ⟨by decide, id_allocation pair_files (by decide) [(pair_rule, long_shape)]⟩

/-! ## The minimal merge scenario -/

theorem apply_rule_pair_image (c : Int) :
    apply_rule { constellation := ⟨c, c, ⟨1, 0⟩⟩, new_token_id := c + 1 }
      { positions := [⟨0, 0⟩, ⟨1, 0⟩], position_class := [c, c], class_id := c + 1 }
      [pair_image c] = some [merged_pair_image c] := by
  have hscan : scan 2 1 = [⟨0, 0⟩, ⟨1, 0⟩] := by decide
  have hadd : ∀ (p : tg.ipos2) (v : tg.ivec2), p + v = ⟨p.x + v.x, p.y + v.y⟩ := fun _ _ => rfl
  have h0 : apply_rule_at { constellation := ⟨c, c, ⟨1, 0⟩⟩, new_token_id := c + 1 }
      { positions := [⟨0, 0⟩, ⟨1, 0⟩], position_class := [c, c], class_id := c + 1 }
      (pair_image c) ⟨0, 0⟩ = some (merged_pair_image c) := by
    simp [pair_image, image_data.initial_token_class, apply_rule_at, img.image.get,
      img.image.read, index, img.image.contains, image_data.next_token_id, write_cell,
      img.image.put, img.image.write, keep_token_a_ancor, merged_pair_image, hadd,
      tg.ivec2.of_pos, img.image.width, img.image.height]
  have h1 : apply_rule_at { constellation := ⟨c, c, ⟨1, 0⟩⟩, new_token_id := c + 1 }
      { positions := [⟨0, 0⟩, ⟨1, 0⟩], position_class := [c, c], class_id := c + 1 }
      (merged_pair_image c) ⟨1, 0⟩ = some (merged_pair_image c) := by
    simp [merged_pair_image, apply_rule_at, img.image.get, img.image.read]
  have himage : apply_rule_image { constellation := ⟨c, c, ⟨1, 0⟩⟩, new_token_id := c + 1 }
      { positions := [⟨0, 0⟩, ⟨1, 0⟩], position_class := [c, c], class_id := c + 1 }
      (pair_image c) = some (merged_pair_image c) := by
    show (scan 2 1).foldlM _ _ = _
    rw [hscan]
    simp only [List.foldlM_cons, List.foldlM_nil, h0, h1, Option.bind_eq_bind,
      Option.some_bind, Option.pure_def]
  unfold apply_rule
  exact mapM_of_forall₂ _ _ _ (List.Forall₂.cons himage List.Forall₂.nil)

/-- C25 (minimal merge scenario).  For every base class `c >= 0`, every visiting order of
the counter map and every `image_size`, the learning run on the corpus of the one `2 x 1`
image `[[c, c]]` with `token_max = c` and one iteration succeeds; its rule list is
`[(c, c, (1,0), c+1)]`, shape `c+1` is `[((0,0), c), ((1,0), c)]`, and the token sequence
of the image is the single record `(c+1, 0, 0)`. -/
theorem minimal_merge (order : map_iteration) (c : Int) (hc : 0 ≤ c) (image_size : tg.isize2) :
    ∃ s, tokenize order c 1 image_size [("pair_0.dat", 0, ⟨[c, c], ⟨2, 1⟩⟩)] = some s ∧
      s.rules = [{ constellation := ⟨c, c, ⟨1, 0⟩⟩, new_token_id := c + 1 }] ∧
      index s.tokens (c + 1)
        = some { positions := [⟨0, 0⟩, ⟨1, 0⟩], position_class := [c, c], class_id := c + 1 } ∧
      s.image_data.map token_sequence = [some [(c + 1, 0, 0)]] := by
  have hread : read_folder [("pair_0.dat", 0, ⟨[c, c], ⟨2, 1⟩⟩)] = some [pair_image c] := rfl
  have hcount : count_constellations [pair_image c] = some [(⟨c, c, ⟨1, 0⟩⟩, 1)] := rfl
  have hvisit : order.visit [((⟨c, c, ⟨1, 0⟩⟩ : constellation), (1 : Int))]
      = [(⟨c, c, ⟨1, 0⟩⟩, 1)] := List.perm_singleton.1 (order.visit_perm _)
  have hwin : get_most_common_constellation order [pair_image c] = some ⟨c, c, ⟨1, 0⟩⟩ := by
    rw [get_most_common_constellation_eq order _ _ hcount, hvisit]
    rfl
  have hlen : ((initial_tokens c).length : Int) = c + 1 := by
    rw [initial_tokens_length, Int.toNat_of_nonneg (by omega)]
  have hidx := index_initial_tokens c c hc le_rfl
  have hcomb : combine_tokens ⟨c, c, ⟨1, 0⟩⟩ (initial_tokens c)
      = some { positions := [⟨0, 0⟩, ⟨1, 0⟩], position_class := [c, c], class_id := c + 1 } := by
    rw [combine_tokens_eq ⟨c, c, ⟨1, 0⟩⟩ (initial_tokens c) _ _ hidx hidx rfl rfl, hlen]
    rfl
  have hrun : tokenize order c 1 image_size [("pair_0.dat", 0, ⟨[c, c], ⟨2, 1⟩⟩)]
      = some { rules := [{ constellation := ⟨c, c, ⟨1, 0⟩⟩, new_token_id := c + 1 }]
               tokens := initial_tokens c ++
                 [{ positions := [⟨0, 0⟩, ⟨1, 0⟩], position_class := [c, c], class_id := c + 1 }]
               image_data := [merged_pair_image c] } := by
    unfold tokenize
    simp only [hread, Option.bind_eq_bind, Option.some_bind]
    show tokenize_loop order 1 _ = _
    simp only [tokenize_loop, tokenize_iteration_with, hwin, Option.bind_eq_bind,
      Option.some_bind, iteration_with, hcomb, hlen, apply_rule_pair_image, List.nil_append,
      Option.pure_def]
  refine ⟨_, hrun, rfl, ?_, rfl⟩
  have := index_length_append (initial_tokens c)
    ({ positions := [⟨0, 0⟩, ⟨1, 0⟩], position_class := [c, c], class_id := c + 1 } : token_data)
  rw [hlen] at this
  exact this

theorem minimal_merge_witness :
    (0 : Int) ≤ 7 ∧
    ∃ s, tokenize insertion_order 7 1 ⟨2, 1⟩ [("pair_0.dat", 0, ⟨[7, 7], ⟨2, 1⟩⟩)] = some s ∧
      s.rules = [{ constellation := ⟨7, 7, ⟨1, 0⟩⟩, new_token_id := 7 + 1 }] ∧
      index s.tokens (7 + 1)
        = some { positions := [⟨0, 0⟩, ⟨1, 0⟩], position_class := [7, 7], class_id := 7 + 1 } ∧
      s.image_data.map token_sequence = [some [(7 + 1, 0, 0)]] :=
  ⟨by decide, minimal_merge insertion_order 7 (by decide) ⟨2, 1⟩⟩

/-! ## First occurrences of a key -/

theorem first_by_mem {β κ : Type} [DecidableEq κ] (key : β → κ) (seen : List κ) (l : List β)
    (c : β) (hc : c ∈ first_by key seen l) :
    key c ∉ seen ∧ ∃ pre post, l = pre ++ c :: post ∧ ∀ b ∈ pre, key b ≠ key c := by
  induction l generalizing seen with
  | nil => simp [first_by] at hc
  | cons b l ih =>
    unfold first_by at hc
    by_cases hb : key b ∈ seen
    · rw [if_pos hb] at hc
      obtain ⟨h1, pre, post, h2, h3⟩ := ih seen hc
      refine ⟨h1, b :: pre, post, by rw [h2]; rfl, fun x hx => ?_⟩
      rcases List.mem_cons.1 hx with rfl | hx
      · intro heq; rw [heq] at hb; exact h1 hb
      · exact h3 x hx
    · rw [if_neg hb] at hc
      rcases List.mem_cons.1 hc with rfl | hc
      · exact ⟨hb, [], l, rfl, fun x hx => by cases hx⟩
      · obtain ⟨h1, pre, post, h2, h3⟩ := ih _ hc
        have h1' : key c ∉ seen ∧ key c ≠ key b := by
          simpa [List.mem_append, not_or] using h1
        refine ⟨h1'.1, b :: pre, post, by rw [h2]; rfl, fun x hx => ?_⟩
        rcases List.mem_cons.1 hx with rfl | hx
        · exact fun h => h1'.2 h.symm
        · exact h3 x hx

theorem first_by_nodup {β κ : Type} [DecidableEq κ] (key : β → κ) (seen : List κ)
    (l : List β) : ((first_by key seen l).map key).Nodup := by
  induction l generalizing seen with
  | nil => simp [first_by]
  | cons b l ih =>
    unfold first_by
    by_cases hb : key b ∈ seen
    · rw [if_pos hb]; exact ih seen
    · rw [if_neg hb, List.map_cons, List.nodup_cons]
      refine ⟨fun hmem => ?_, ih _⟩
      obtain ⟨c, hc, hkey⟩ := List.mem_map.1 hmem
      have := (first_by_mem key _ l c hc).1
      rw [hkey] at this
      simp at this

theorem first_by_cover {β κ : Type} [DecidableEq κ] (key : β → κ) (seen : List κ)
    (l : List β) (c : β) (hc : c ∈ l) (hk : key c ∉ seen) :
    ∃ b ∈ first_by key seen l, key b = key c := by
  induction l generalizing seen with
  | nil => cases hc
  | cons b l ih =>
    unfold first_by
    by_cases hb : key b ∈ seen
    · rw [if_pos hb]
      rcases List.mem_cons.1 hc with rfl | hc
      · exact absurd hb hk
      · exact ih seen hc hk
    · rw [if_neg hb]
      by_cases hbc : key b = key c
      · exact ⟨b, List.mem_cons_self _ _, hbc⟩
      · rcases List.mem_cons.1 hc with rfl | hc
        · exact absurd rfl hbc
        · obtain ⟨x, hx, hxk⟩ := ih (seen ++ [key b]) hc (by
            simp only [List.mem_append, List.mem_singleton, not_or]
            exact ⟨hk, fun h => hbc h.symm⟩)
          exact ⟨x, List.mem_cons_of_mem _ hx, hxk⟩

/-! ## Nested folds -/

theorem foldlM_flatMap {σ α β : Type} (f : σ → β → Option σ) (g : α → List β) (l : List α)
    (s : σ) :
    (l.flatMap g).foldlM f s = l.foldlM (fun s a => (g a).foldlM f s) s := by
  induction l generalizing s with
  | nil => rfl
  | cons a l ih =>
    rw [List.flatMap_cons, List.foldlM_append, List.foldlM_cons]
    cases h : (g a).foldlM f s with
    | none => rfl
    | some s1 => exact ih s1

/-! ## Contacts between token instances -/

theorem used_contains_iff (used : used_set) (a b : tg.ipos2) :
    (used.contains (a, b) || used.contains (b, a)) = true
      ↔ Sym2.mk (a, b) ∈ used.map Sym2.mk := by
  have hc : ∀ x, used.contains x = true ↔ x ∈ used := fun x => by simp
  simp only [Bool.or_eq_true, hc, List.mem_map, Sym2.mk_eq_mk_iff]
  constructor
  · rintro (h | h)
    · exact ⟨(a, b), h, Or.inl rfl⟩
    · exact ⟨(b, a), h, Or.inr rfl⟩
  · rintro ⟨x, hx, rfl | h⟩
    · exact Or.inl hx
    · right
      have : x = (b, a) := by rw [h]; rfl
      rw [← this]; exact hx

theorem ids_ok.index_anchor_of {d : image_data} (hd : ids_ok d) (p : tg.ipos2)
    (hp : d.m_initial_token_class.contains p = true) :
    index d.token_ancor (d.current_token_id.val p) = some (anchor_of d p) := by
  obtain ⟨a, ha⟩ := hd.index_ancor p hp
  unfold anchor_of
  rw [ha]; rfl

/-- Closed form of the body of the counter loop on an image with allocated ids: a vote is
cast exactly at a contact whose unordered anchor pair is not yet in `used`. -/
theorem pair_vote_closed (d : image_data) (hd : ids_ok d) (used : used_set) (p : tg.ipos2)
    (hp : d.m_initial_token_class.contains p = true) (dir : tg.ivec2) :
    pair_vote d used p dir = some
      (if is_contact d (p, dir) ∧ ancor_pair d (p, dir) ∉ used.map Sym2.mk then
        (used ++ [ancor_key d (p, dir)], some (vote_of d (p, dir)))
      else (used, none)) := by
  have hg := hd.grids
  unfold pair_vote
  simp only []
  by_cases hn : d.m_initial_token_class.contains (p + dir) = true
  swap
  · have hc : ¬ is_contact d (p, dir) := fun h => hn h.2.1
    simp only [Bool.not_eq_true] at hn
    simp [hg.id_contains, hn, hc]
  simp only [hg.id_contains, hn, hg.get_id p hp, hg.get_id _ hn, hg.get_class p hp,
    hg.get_class _ hn, Option.bind_eq_bind, Option.some_bind, Bool.not_true,
    Bool.false_eq_true, if_false]
  by_cases hsame : d.current_token_id.val p = d.current_token_id.val (p + dir)
  · have hc : ¬ is_contact d (p, dir) := fun h => h.2.2 hsame
    simp [hsame, hc]
  have hc : is_contact d (p, dir) := ⟨hp, hn, hsame⟩
  simp only [hsame, if_false, hd.index_anchor_of p hp, hd.index_anchor_of _ hn,
    Option.some_bind, hc, true_and]
  by_cases hu : ancor_pair d (p, dir) ∈ used.map Sym2.mk
  · have hu' := (used_contains_iff used _ _).2 hu
    rw [if_pos hu', if_neg (not_not.2 hu)]
  · have hu' : ¬ (used.contains (anchor_of d p, anchor_of d (p + dir))
        || used.contains (anchor_of d (p + dir), anchor_of d p)) = true :=
      fun h => hu ((used_contains_iff used _ _).1 h)
    rw [if_neg hu', if_pos hu]
    rfl

/-- Closed form of the counter loop over a list of (cell, direction) pairs. -/
theorem votes_fold_closed (d : image_data) (hd : ids_ok d) (l : List (tg.ipos2 × tg.ivec2))
    (hl : ∀ c ∈ l, d.m_initial_token_class.contains c.1 = true) (used : used_set)
    (votes : List constellation) :
    l.foldlM (fun (st : used_set × List constellation) (c : tg.ipos2 × tg.ivec2) => do
        let r ← pair_vote d st.1 c.1 c.2
        pure (r.1, st.2 ++ r.2.toList)) (used, votes)
      = some
        (used ++ (first_by (ancor_pair d) (used.map Sym2.mk)
            (l.filter fun c => decide (is_contact d c))).map (ancor_key d),
          votes ++ (first_by (ancor_pair d) (used.map Sym2.mk)
            (l.filter fun c => decide (is_contact d c))).map (vote_of d)) := by
  induction l generalizing used votes with
  | nil => simp [first_by]
  | cons c l ih =>
    have hc := hl c (List.mem_cons_self _ _)
    have hl' : ∀ c ∈ l, d.m_initial_token_class.contains c.1 = true :=
      fun x hx => hl x (List.mem_cons_of_mem _ hx)
    have hstep := pair_vote_closed d hd used c.1 hc c.2
    rw [Prod.mk.eta] at hstep
    simp only [Option.bind_eq_bind, Option.pure_def] at ih ⊢
    rw [List.foldlM_cons]
    simp only [hstep, Option.bind_eq_bind, Option.some_bind]
    by_cases hcond : is_contact d c ∧ ancor_pair d c ∉ used.map Sym2.mk
    · rw [if_pos hcond]
      simp only [Option.toList_some]
      rw [ih hl', List.filter_cons, if_pos (by simpa using hcond.1)]
      simp only [first_by, if_neg hcond.2, List.map_append, List.map_cons, List.map_nil,
        List.append_assoc, List.singleton_append]
      rfl
    · rw [if_neg hcond]
      simp only [Option.toList_none, List.append_nil]
      rw [ih hl', List.filter_cons]
      by_cases hct : is_contact d c
      · have hseen : ancor_pair d c ∈ used.map Sym2.mk := by
          by_contra h; exact hcond ⟨hct, h⟩
        rw [if_pos (by simpa using hct)]
        simp only [first_by, if_pos hseen]
      · rw [if_neg (by simpa using hct)]

/-- Closed form of the votes of an image with allocated ids: one vote per contact whose
unordered anchor pair did not occur at an earlier contact. -/
theorem image_votes_closed (d : image_data) (hd : ids_ok d) :
    image_votes d = some ((first_by (ancor_pair d) [] (contacts d)).map (vote_of d)) := by
  have hflat := foldlM_flatMap
    (fun (st : used_set × List constellation) (c : tg.ipos2 × tg.ivec2) => do
      let r ← pair_vote d st.1 c.1 c.2
      pure (r.1, st.2 ++ r.2.toList))
    (fun p => directions.map fun dir => (p, dir))
    (scan d.initial_token_class.width d.initial_token_class.height)
    (([] : used_set), ([] : List constellation))
  have hclosed := votes_fold_closed d hd (scan_pairs directions d) (fun c hc => by
    unfold scan_pairs at hc
    obtain ⟨p, hp, hcp⟩ := List.mem_flatMap.1 hc
    obtain ⟨dir, _, rfl⟩ := List.mem_map.1 hcp
    exact (mem_scan_iff_contains d.m_initial_token_class p).1 hp) [] []
  unfold scan_pairs at hclosed
  rw [hflat] at hclosed
  simp only [List.foldlM_map] at hclosed
  unfold image_votes
  simp only []
  rw [hclosed]
  simp [contacts, scan_pairs]

/-! ## Anchors of the instances of a learning run -/

theorem image_inv.anchors {tokens : List token_data} {d : image_data}
    (hinv : image_inv tokens d) (hshapes : ∀ i t, index tokens i = some t → shape_ok t) :
    anchors_ok d := by
  have key : ∀ p, d.m_initial_token_class.contains p = true →
      d.m_initial_token_class.contains (anchor_of d p) = true ∧
      d.current_token_id.val (anchor_of d p) = d.current_token_id.val p ∧
      d.current_token_class.val (anchor_of d p) = d.current_token_class.val p ∧
      ¬ scan_lt p (anchor_of d p) := by
    intro p hp
    obtain ⟨a, ha, hac, haid, hfirst⟩ := hinv.ancor_first hshapes p hp
    have hao : anchor_of d p = a := by unfold anchor_of; rw [ha]; rfl
    obtain ⟨_, _, a', shape, ha', hs, hall, _⟩ := hinv.2 p hp
    rw [ha] at ha'
    cases ha'
    have h0 := hall 0 ⟨0, 0⟩ (shape_ok_zero shape (hshapes _ _ hs))
    rw [add_zero_pos] at h0
    rw [hao]
    exact ⟨hac, haid, h0.2.2.1, hfirst p hp rfl⟩
  exact ⟨hinv.allocated, fun p hp => (key p hp).1, fun p hp => (key p hp).2.1,
    fun p hp => (key p hp).2.2.1, fun p hp => (key p hp).2.2.2⟩

/-- Cells of the same instance have the same anchor. -/
theorem anchor_of_congr (d : image_data) (p q : tg.ipos2)
    (h : d.current_token_id.val p = d.current_token_id.val q) : anchor_of d p = anchor_of d q := by
  unfold anchor_of; rw [h]

/-- An anchor is its own anchor. -/
theorem anchors_ok.own {d : image_data} (h : anchors_ok d) (p : tg.ipos2)
    (hp : d.m_initial_token_class.contains p = true) :
    anchor_of d (anchor_of d p) = anchor_of d p :=
  anchor_of_congr d _ _ (h.same_id p hp)

/-- Instances with the same anchor are the same instance. -/
theorem anchors_ok.inj {d : image_data} (h : anchors_ok d) (p q : tg.ipos2)
    (hp : d.m_initial_token_class.contains p = true)
    (hq : d.m_initial_token_class.contains q = true) (ha : anchor_of d p = anchor_of d q) :
    d.current_token_id.val p = d.current_token_id.val q := by
  rw [← h.same_id p hp, ← h.same_id q hq, ha]

/-- Contacts with the same unordered anchor pair have the same unordered id pair. -/
theorem anchors_ok.id_pair_eq {d : image_data} (h : anchors_ok d) (c c' : tg.ipos2 × tg.ivec2)
    (hc : is_contact d c) (hc' : is_contact d c') (hk : ancor_pair d c = ancor_pair d c') :
    id_pair d c = id_pair d c' := by
  unfold ancor_pair ancor_key at hk
  unfold id_pair
  rw [Sym2.eq_iff] at hk ⊢
  rcases hk with ⟨h1, h2⟩ | ⟨h1, h2⟩
  · exact Or.inl ⟨h.inj _ _ hc.1 hc'.1 h1, h.inj _ _ hc.2.1 hc'.2.1 h2⟩
  · exact Or.inr ⟨h.inj _ _ hc.1 hc'.2.1 h1, h.inj _ _ hc.2.1 hc'.1 h2⟩

/-- Contacts with the same unordered id pair have the same unordered anchor pair. -/
theorem ancor_pair_eq (d : image_data) (c c' : tg.ipos2 × tg.ivec2)
    (hk : id_pair d c = id_pair d c') : ancor_pair d c = ancor_pair d c' := by
  unfold id_pair at hk
  unfold ancor_pair ancor_key
  rw [Sym2.eq_iff] at hk ⊢
  rcases hk with ⟨h1, h2⟩ | ⟨h1, h2⟩
  · exact Or.inl ⟨anchor_of_congr d _ _ h1, anchor_of_congr d _ _ h2⟩
  · exact Or.inr ⟨anchor_of_congr d _ _ h1, anchor_of_congr d _ _ h2⟩

/-! ## The order of the contacts -/

theorem mem_contacts (d : image_data) (c : tg.ipos2 × tg.ivec2) :
    c ∈ contacts d ↔ c.2 ∈ directions ∧ is_contact d c := by
  unfold contacts scan_pairs
  simp only [List.mem_filter, List.mem_flatMap, List.mem_map, decide_eq_true_eq]
  constructor
  · rintro ⟨⟨p, _, dir, hdir, rfl⟩, hc⟩
    exact ⟨hdir, hc⟩
  · rintro ⟨hdir, hc⟩
    exact ⟨⟨c.1, (mem_scan_iff_contains d.m_initial_token_class c.1).2 hc.1, c.2, hdir, rfl⟩, hc⟩

/-- Contacts are met in the row-major order of their cells. -/
theorem contacts_pairwise (d : image_data) :
    (contacts d).Pairwise (fun c c' => ¬ scan_lt c'.1 c.1) := by
  unfold contacts scan_pairs
  refine List.Pairwise.filter _ ?_
  rw [List.pairwise_flatMap]
  constructor
  · intro p _
    rw [List.pairwise_map]
    exact List.pairwise_of_forall (fun _ _ => scan_lt_irrefl p)
  · refine (scan_pairwise _ _).imp ?_
    intro p q hpq x hx y hy
    obtain ⟨_, _, rfl⟩ := List.mem_map.1 hx
    obtain ⟨_, _, rfl⟩ := List.mem_map.1 hy
    intro hqp
    unfold scan_lt at hpq hqp
    simp only at hqp
    omega

/-- A contact that casts a vote is not preceded, in row-major order of the cells, by any
contact with the same unordered anchor pair. -/
theorem first_contact (d : image_data) (c c' : tg.ipos2 × tg.ivec2)
    (hc : c ∈ first_by (ancor_pair d) [] (contacts d)) (hc' : c' ∈ contacts d)
    (hk : ancor_pair d c' = ancor_pair d c) : ¬ scan_lt c'.1 c.1 := by
  obtain ⟨_, pre, post, hl, hpre⟩ := first_by_mem _ _ _ c hc
  have hpw := contacts_pairwise d
  rw [hl] at hc' hpw
  rcases List.mem_append.1 hc' with h | h
  · exact absurd hk (hpre c' h)
  · rcases List.mem_cons.1 h with rfl | h
    · exact scan_lt_irrefl _
    · exact (List.pairwise_cons.1 (List.pairwise_append.1 hpw).2.1).1 c' h

theorem first_by_subset {β κ : Type} [DecidableEq κ] (key : β → κ) (seen : List κ)
    (l : List β) (c : β) (hc : c ∈ first_by key seen l) : c ∈ l := by
  obtain ⟨_, pre, post, hl, _⟩ := first_by_mem key seen l c hc
  rw [hl]; simp

/-! ## Offsets that receive no vote -/

/-- No vote goes to an offset that is the opposite of a scan direction: the contact between
the two instances at the upper (or left) anchor is met first. -/
theorem vote_offset_ne (d : image_data) (h : anchors_ok d) (c : tg.ipos2 × tg.ivec2)
    (hc : c ∈ first_by (ancor_pair d) [] (contacts d)) (dir : tg.ivec2)
    (hdir : dir ∈ directions) :
    (vote_of d c).ancor_offset ≠ ⟨-dir.x, -dir.y⟩ := by
  intro hoff
  have hcc := (mem_contacts d c).1 (first_by_subset _ _ _ c hc)
  obtain ⟨hp, hq, hne⟩ := hcc.2
  have hba : anchor_of d (c.1 + c.2) + dir = anchor_of d c.1 := by
    have hx : (anchor_of d (c.1 + c.2)).x - (anchor_of d c.1).x = -dir.x :=
      congrArg tg.ivec2.x hoff
    have hy : (anchor_of d (c.1 + c.2)).y - (anchor_of d c.1).y = -dir.y :=
      congrArg tg.ivec2.y hoff
    rw [tg.ipos2.ext_iff']
    constructor
    · show (anchor_of d (c.1 + c.2)).x + dir.x = _
      omega
    · show (anchor_of d (c.1 + c.2)).y + dir.y = _
      omega
  have hct : is_contact d (anchor_of d (c.1 + c.2), dir) := by
    refine ⟨h.inside _ hq, ?_, ?_⟩
    · show d.m_initial_token_class.contains (anchor_of d (c.1 + c.2) + dir) = true
      rw [hba]; exact h.inside _ hp
    · show d.current_token_id.val (anchor_of d (c.1 + c.2))
        ≠ d.current_token_id.val (anchor_of d (c.1 + c.2) + dir)
      rw [hba, h.same_id _ hq, h.same_id _ hp]
      exact fun heq => hne heq.symm
  have hmem : (anchor_of d (c.1 + c.2), dir) ∈ contacts d := (mem_contacts d _).2 ⟨hdir, hct⟩
  have hkey : ancor_pair d (anchor_of d (c.1 + c.2), dir) = ancor_pair d c := by
    unfold ancor_pair ancor_key
    show Sym2.mk (anchor_of d (anchor_of d (c.1 + c.2)),
      anchor_of d (anchor_of d (c.1 + c.2) + dir)) = _
    rw [hba, h.own _ hq, h.own _ hp]
    exact Sym2.eq_swap
  have hnot := first_contact d c _ hc hmem hkey
  have hfirst := h.first _ hp
  have hdirs : dir = ⟨0, 1⟩ ∨ dir = ⟨1, 0⟩ := by
    simpa [directions] using hdir
  have hx : (anchor_of d (c.1 + c.2)).x + dir.x = (anchor_of d c.1).x := congrArg tg.ipos2.x hba
  have hy : (anchor_of d (c.1 + c.2)).y + dir.y = (anchor_of d c.1).y := congrArg tg.ipos2.y hba
  unfold scan_lt at hnot hfirst
  simp only at hnot
  rcases hdirs with rfl | rfl
  · simp only at hx hy; omega
  · simp only at hx hy; omega

/-! ## The winner never points upwards -/

/-- Every vote of a corpus is a vote of one of its images. -/
theorem corpus_votes_mem (images : List image_data) (votes : List constellation)
    (h : corpus_votes images = some votes) (k : constellation) (hk : k ∈ votes) :
    ∃ d ∈ images, ∃ v, image_votes d = some v ∧ k ∈ v := by
  unfold corpus_votes at h
  refine foldlM_preserves _
    (fun acc => ∀ k ∈ acc, ∃ d ∈ images, ∃ v, image_votes d = some v ∧ k ∈ v) images
    (fun acc d acc' hd hacc hstep => ?_) [] votes (fun k hk => by cases hk) h k hk
  simp only [Option.bind_eq_bind, Option.bind_eq_some, Option.pure_def, Option.some.injEq]
    at hstep
  obtain ⟨v, hv, rfl⟩ := hstep
  intro k hk
  rcases List.mem_append.1 hk with hk | hk
  · exact hacc k hk
  · exact ⟨d, hd, v, hv, hk⟩

/-- On images of a learning run the counter returns a constellation, and its offset is not
the opposite of a scan direction. -/
theorem winner_offset_ne (order : map_iteration) (s : tokenizer_state) (hs : state_inv s) :
    ∃ c, get_most_common_constellation order s.image_data = some c ∧
      ∀ dir ∈ directions, c.ancor_offset ≠ ⟨-dir.x, -dir.y⟩ := by
  obtain ⟨votes, hvotes, _⟩ := corpus_votes_inv s.tokens s.image_data hs.images
  have hcount := count_constellations_of_votes s.image_data votes hvotes
  obtain ⟨votes', hvotes', hok, hcounts⟩ := count_constellations_spec _ _ hcount
  rw [hvotes] at hvotes'
  cases hvotes'
  refine ⟨_, get_most_common_constellation_eq order _ _ hcount, fun dir hdir => ?_⟩
  by_cases hne : votes.foldl count_map.increment [] = []
  · rw [hne, (order.visit_perm []).eq_nil]
    have hdirs : dir = ⟨0, 1⟩ ∨ dir = ⟨1, 0⟩ := by simpa [directions] using hdir
    rcases hdirs with rfl | rfl <;> decide
  · obtain ⟨_, _, _, _, _, ⟨e, he, hec⟩, _⟩ := winner_spec order _ hok hne
    rw [← hec]
    have hpos : 1 ≤ (votes.count e.1 : Int) := by
      rw [← hcounts, hok.count_of_mem e.1 e.2 he]
      exact hok.positive e he
    have hmem : e.1 ∈ votes := by
      apply List.count_pos_iff.1
      omega
    obtain ⟨d, hd, v, hv, hkv⟩ := corpus_votes_mem _ _ hvotes e.1 hmem
    have hanch := (hs.images d hd).anchors hs.shapes
    rw [image_votes_closed d hanch.allocated] at hv
    cases hv
    obtain ⟨c, hc, hvc⟩ := List.mem_map.1 hkv
    rw [← hvc]
    exact vote_offset_ne d hanch c hc dir hdir

/-- C28 as stated fails on the column corpus.  For the one `1 x 2` image with rows `[1]`,
`[2]` the only contact is met at the upper cell: the counter returns `(1, 2, (0,1))`, not an
offset `(0,-1)`, the merged anchor is the source cell `(0,0)`; after that iteration the
counter returns the default constellation of offset `(0,0)`. -/
theorem upward_winner_counterexample :
    ∃ images, read_folder column_files = some images ∧
      count_constellations images = some [(⟨1, 2, ⟨0, 1⟩⟩, 1)] ∧
      get_most_common_constellation insertion_order images = some ⟨1, 2, ⟨0, 1⟩⟩ ∧
      keep_token_a_ancor ⟨0, 1⟩ = true ∧
      ∃ s, tokenize insertion_order 2 1 ⟨1, 2⟩ column_files = some s ∧
        s.image_data.map (fun d => d.token_ancor) = [[⟨0, 0⟩, ⟨0, 1⟩, ⟨0, 0⟩]] ∧
        get_most_common_constellation insertion_order s.image_data = some ⟨-1, -1, ⟨0, 0⟩⟩ :=
  option_get_spec _ _ (by decide) ⟨by decide, by decide, by decide,
    option_get_spec _ _ (by decide) ⟨by decide, by decide⟩⟩

/-- C28, amended.  In every state reached by a learning run on a corpus with all cells in
`[0, token_max]`, `get_most_common_constellation` returns a constellation whose
`ancor_offset` is neither `(0,-1)` nor `(-1,0)`: the contact of two instances whose anchors
are vertical or horizontal neighbours is met at the upper (left) anchor and votes for the
offset `(0,1)` (`(1,0)`).  A merge whose anchor is the target anchor needs another offset
with negative `y`: on the corpus `diagonal_files` the winner after one iteration is
`(3, 5, (1,-1))` and the merged shape is anchored at the target cell. -/
theorem no_upward_winner (order : map_iteration) (token_max tokens_to_create : Int)
    (image_size : tg.isize2) (files : List (String × Int × img.image Int))
    (s : tokenizer_state) (hfiles : corpus_ok token_max files)
    (hrun : tokenize order token_max tokens_to_create image_size files = some s) :
    (∃ c, get_most_common_constellation order s.image_data = some c ∧
      c.ancor_offset ≠ ⟨0, -1⟩ ∧ c.ancor_offset ≠ ⟨-1, 0⟩) ∧
    (∃ s1, tokenize insertion_order 4 1 ⟨2, 2⟩ diagonal_files = some s1 ∧
      get_most_common_constellation insertion_order s1.image_data = some ⟨3, 5, ⟨1, -1⟩⟩ ∧
      keep_token_a_ancor ⟨1, -1⟩ = false ∧
      ∃ s2, tokenize insertion_order 4 2 ⟨2, 2⟩ diagonal_files = some s2 ∧
        index s2.tokens 6
          = some { positions := [⟨0, 0⟩, ⟨0, 1⟩, ⟨-1, 1⟩], position_class := [1, 2, 3],
                   class_id := 6 }) := by
  obtain ⟨hs, _⟩ := tokenize_inv order token_max tokens_to_create image_size files s hfiles hrun
  obtain ⟨c, hc, hoff⟩ := winner_offset_ne order s hs
  refine ⟨⟨c, hc, hoff ⟨0, 1⟩ (by decide), hoff ⟨1, 0⟩ (by decide)⟩, ?_⟩
  exact option_get_spec _ _ (by decide) ⟨by decide, by decide,
    option_get_spec _ _ (by decide) (by decide)⟩

theorem no_upward_winner_witness :
    corpus_ok 4 diagonal_files ∧
    ∃ s, tokenize insertion_order 4 1 ⟨2, 2⟩ diagonal_files = some s ∧
      (∃ c, get_most_common_constellation insertion_order s.image_data = some c ∧
        c.ancor_offset ≠ ⟨0, -1⟩ ∧ c.ancor_offset ≠ ⟨-1, 0⟩) ∧
      (∃ s1, tokenize insertion_order 4 1 ⟨2, 2⟩ diagonal_files = some s1 ∧
        get_most_common_constellation insertion_order s1.image_data = some ⟨3, 5, ⟨1, -1⟩⟩ ∧
        keep_token_a_ancor ⟨1, -1⟩ = false ∧
        ∃ s2, tokenize insertion_order 4 2 ⟨2, 2⟩ diagonal_files = some s2 ∧
          index s2.tokens 6
            = some { positions := [⟨0, 0⟩, ⟨0, 1⟩, ⟨-1, 1⟩], position_class := [1, 2, 3],
                     class_id := 6 }) :=
  ⟨by decide, (tokenize insertion_order 4 1 ⟨2, 2⟩ diagonal_files).get (by decide), by simp,
    no_upward_winner insertion_order 4 1 ⟨2, 2⟩ diagonal_files _ (by decide) (by simp)⟩

/-! ## One vote per pair of touching instances -/

theorem mem_touching_pairs (d : image_data) (t : Sym2 Int) :
    t ∈ touching_pairs d ↔ ∃ p q, d.m_initial_token_class.contains p = true ∧
      d.m_initial_token_class.contains q = true ∧ adjacent p q ∧
      d.current_token_id.val p ≠ d.current_token_id.val q ∧
      Sym2.mk (d.current_token_id.val p, d.current_token_id.val q) = t := by
  unfold touching_pairs
  simp only [List.mem_toFinset, List.mem_map, List.mem_filter, List.mem_flatMap,
    decide_eq_true_eq]
  constructor
  · rintro ⟨pq, ⟨⟨p, hp, q, hq, rfl⟩, hadj, hne⟩, rfl⟩
    exact ⟨p, q, (mem_scan_iff_contains d.m_initial_token_class p).1 hp,
      (mem_scan_iff_contains d.m_initial_token_class q).1 hq, hadj, hne, rfl⟩
  · rintro ⟨p, q, hp, hq, hadj, hne, rfl⟩
    exact ⟨(p, q), ⟨⟨p, (mem_scan_iff_contains d.m_initial_token_class p).2 hp, q,
      (mem_scan_iff_contains d.m_initial_token_class q).2 hq, rfl⟩, hadj, hne⟩, rfl⟩

/-- Two adjacent cells of different instances form a contact, met at the one of the two
cells that comes first in row-major order. -/
theorem adjacent_contact (d : image_data) (p q : tg.ipos2)
    (hp : d.m_initial_token_class.contains p = true)
    (hq : d.m_initial_token_class.contains q = true) (hadj : adjacent p q)
    (hne : d.current_token_id.val p ≠ d.current_token_id.val q) :
    ∃ c ∈ contacts d,
      id_pair d c = Sym2.mk (d.current_token_id.val p, d.current_token_id.val q) ∧
      ¬ scan_lt p c.1 ∧ ¬ scan_lt q c.1 := by
  have hpair : ∀ (a b : tg.ipos2) (dir : tg.ivec2), dir ∈ directions → a + dir = b →
      d.m_initial_token_class.contains a = true → d.m_initial_token_class.contains b = true →
      d.current_token_id.val a ≠ d.current_token_id.val b →
      (a, dir) ∈ contacts d ∧
        id_pair d (a, dir) = Sym2.mk (d.current_token_id.val a, d.current_token_id.val b) := by
    intro a b dir hdir hab ha hb hne
    subst hab
    exact ⟨(mem_contacts d _).2 ⟨hdir, ha, hb, hne⟩, rfl⟩
  have hadd : ∀ (a : tg.ipos2) (v : tg.ivec2), a + v = ⟨a.x + v.x, a.y + v.y⟩ := fun _ _ => rfl
  unfold adjacent at hadj
  rcases hadj with ⟨hy, hx | hx⟩ | ⟨hx, hy | hy⟩
  · obtain ⟨h1, h2⟩ := hpair p q ⟨1, 0⟩ (by decide)
      (by rw [hadd, tg.ipos2.ext_iff']; simp only; omega) hp hq hne
    refine ⟨_, h1, h2, scan_lt_irrefl p, ?_⟩
    unfold scan_lt; simp only; omega
  · obtain ⟨h1, h2⟩ := hpair q p ⟨1, 0⟩ (by decide)
      (by rw [hadd, tg.ipos2.ext_iff']; simp only; omega) hq hp (Ne.symm hne)
    refine ⟨_, h1, h2.trans Sym2.eq_swap, ?_, scan_lt_irrefl q⟩
    unfold scan_lt; simp only; omega
  · obtain ⟨h1, h2⟩ := hpair p q ⟨0, 1⟩ (by decide)
      (by rw [hadd, tg.ipos2.ext_iff']; simp only; omega) hp hq hne
    refine ⟨_, h1, h2, scan_lt_irrefl p, ?_⟩
    unfold scan_lt; simp only; omega
  · obtain ⟨h1, h2⟩ := hpair q p ⟨0, 1⟩ (by decide)
      (by rw [hadd, tg.ipos2.ext_iff']; simp only; omega) hq hp (Ne.symm hne)
    refine ⟨_, h1, h2.trans Sym2.eq_swap, ?_, scan_lt_irrefl q⟩
    unfold scan_lt; simp only; omega

/-- The cells of a contact are adjacent. -/
theorem contact_adjacent (c : tg.ipos2 × tg.ivec2) (hdir : c.2 ∈ directions) :
    adjacent c.1 (c.1 + c.2) := by
  have hdirs : c.2 = ⟨0, 1⟩ ∨ c.2 = ⟨1, 0⟩ := by simpa [directions] using hdir
  have hx : (c.1 + c.2).x = c.1.x + c.2.x := rfl
  have hy : (c.1 + c.2).y = c.1.y + c.2.y := rfl
  unfold adjacent
  rcases hdirs with h | h
  · have h1 : c.2.x = 0 := by rw [h]
    have h2 : c.2.y = 1 := by rw [h]
    right; exact ⟨by omega, Or.inl (by omega)⟩
  · have h1 : c.2.x = 1 := by rw [h]
    have h2 : c.2.y = 0 := by rw [h]
    left; exact ⟨by omega, Or.inl (by omega)⟩

theorem scan_lt_trans_not (a b c : tg.ipos2) (h1 : ¬ scan_lt a b) (h2 : ¬ scan_lt b c) :
    ¬ scan_lt a c := by
  unfold scan_lt at h1 h2 ⊢
  omega

/-- The contacts that cast the votes of an image of a learning run, and what they are. -/
theorem voting_contacts (d : image_data) (h : anchors_ok d) :
    ∃ cs : List (tg.ipos2 × tg.ivec2),
      (∀ m0, ∃ m, count_image m0 d = some m ∧
        ∀ key, m.count key = m0.count key + ((cs.map (vote_of d)).count key : Int)) ∧
      cs.length = (touching_pairs d).card ∧
      (cs.map (id_pair d)).Nodup ∧
      (∀ t, t ∈ touching_pairs d ↔ ∃ c ∈ cs, id_pair d c = t) ∧
      (∀ c ∈ cs, c.2 ∈ directions ∧ is_contact d c ∧
        ∃ a b, index d.token_ancor (d.current_token_id.val c.1) = some a ∧
          index d.token_ancor (d.current_token_id.val (c.1 + c.2)) = some b ∧
          vote_of d c = ⟨d.current_token_class.val c.1, d.current_token_class.val (c.1 + c.2),
            b - a⟩) ∧
      (∀ c ∈ cs, ∀ p q, d.m_initial_token_class.contains p = true →
        d.m_initial_token_class.contains q = true → adjacent p q →
        Sym2.mk (d.current_token_id.val p, d.current_token_id.val q) = id_pair d c →
        ¬ scan_lt p c.1 ∧ ¬ scan_lt q c.1) := by
  have hcs : ∀ c ∈ first_by (ancor_pair d) [] (contacts d), c.2 ∈ directions ∧ is_contact d c :=
    fun c hc => (mem_contacts d c).1 (first_by_subset _ _ _ c hc)
  have hnodup : ((first_by (ancor_pair d) [] (contacts d)).map (id_pair d)).Nodup := by
    have hn := first_by_nodup (ancor_pair d) [] (contacts d)
    refine List.Nodup.map_on (fun x hx y hy hxy => ?_) (List.Nodup.of_map _ hn)
    exact List.inj_on_of_nodup_map hn hx hy (ancor_pair_eq d x y hxy)
  have hmem : ∀ t, t ∈ touching_pairs d
      ↔ ∃ c ∈ first_by (ancor_pair d) [] (contacts d), id_pair d c = t := by
    intro t
    rw [mem_touching_pairs]
    constructor
    · rintro ⟨p, q, hp, hq, hadj, hne, rfl⟩
      obtain ⟨c, hc, hid, _⟩ := adjacent_contact d p q hp hq hadj hne
      obtain ⟨b, hb, hkey⟩ := first_by_cover (ancor_pair d) [] (contacts d) c hc
        (List.not_mem_nil _)
      exact ⟨b, hb, (h.id_pair_eq b c (hcs b hb).2 ((mem_contacts d c).1 hc).2 hkey).trans hid⟩
    · rintro ⟨c, hc, rfl⟩
      obtain ⟨hdir, hp, hq, hne⟩ := hcs c hc
      exact ⟨c.1, c.1 + c.2, hp, hq, contact_adjacent c hdir, hne, rfl⟩
  refine ⟨first_by (ancor_pair d) [] (contacts d), fun m0 => ?_, ?_, hnodup, hmem,
    fun c hc => ?_, fun c hc p q hp hq hadj hid => ?_⟩
  · have hrel := count_image_rel m0 d
    rw [image_votes_closed d h.allocated] at hrel
    rcases (option_rel_iff _ _ _).1 hrel with ⟨_, h2⟩ | ⟨m, v, h1, h2, hr⟩
    · cases h2
    · cases h2
      exact ⟨m, h1, fun key => by rw [hr, foldl_increment_count]⟩
  · have hfin : ((first_by (ancor_pair d) [] (contacts d)).map (id_pair d)).toFinset
        = touching_pairs d := by
      ext t
      rw [List.mem_toFinset, List.mem_map, hmem]
    rw [← hfin, List.toFinset_card_of_nodup hnodup, List.length_map]
  · obtain ⟨hdir, hct⟩ := hcs c hc
    exact ⟨hdir, hct, anchor_of d c.1, anchor_of d (c.1 + c.2),
      h.allocated.index_anchor_of _ hct.1, h.allocated.index_anchor_of _ hct.2.1, rfl⟩
  · have hne : d.current_token_id.val p ≠ d.current_token_id.val q := by
      intro heq
      have hne' := (hcs c hc).2.2.2
      unfold id_pair at hid
      rw [Sym2.eq_iff] at hid
      rcases hid with ⟨h1, h2⟩ | ⟨h1, h2⟩
      · exact hne' (by rw [← h1, ← h2, heq])
      · exact hne' (by rw [← h1, ← h2, heq])
    obtain ⟨c', hc', hid', hp', hq'⟩ := adjacent_contact d p q hp hq hadj hne
    have hkey : ancor_pair d c' = ancor_pair d c := ancor_pair_eq d c' c (hid'.trans hid)
    have hfirst := first_contact d c c' hc hc' hkey
    exact ⟨scan_lt_trans_not _ _ _ hp' hfirst, scan_lt_trans_not _ _ _ hq' hfirst⟩

/-- C29 (one vote per touching pair).  In every state reached by a learning run on a corpus
with all cells in `[0, token_max]`, for every image there is a list `cs` of contacts (a cell
`c.1` and a scan direction `c.2` whose neighbour cell `c.1 + c.2` belongs to another
instance) such that: scanning the image adds to the counter map exactly one vote per element
of `cs`; the number of these votes is the number of unordered pairs of distinct instances
with a pair of adjacent cells; the unordered id pairs of the elements of `cs` are pairwise
distinct and are exactly these touching pairs; each element of `cs` votes for (class of its
cell, class of the neighbour, anchor of the neighbour's instance minus anchor of the cell's
instance); and its cell is the first-scanned among all cells at which its two instances are
adjacent. -/
theorem one_vote_per_touching_pair (order : map_iteration) (token_max tokens_to_create : Int)
    (image_size : tg.isize2) (files : List (String × Int × img.image Int))
    (s : tokenizer_state) (hfiles : corpus_ok token_max files)
    (hrun : tokenize order token_max tokens_to_create image_size files = some s) :
    ∀ d ∈ s.image_data, ∃ cs : List (tg.ipos2 × tg.ivec2),
      (∀ m0, ∃ m, count_image m0 d = some m ∧
        ∀ key, m.count key = m0.count key + ((cs.map (vote_of d)).count key : Int)) ∧
      cs.length = (touching_pairs d).card ∧
      (cs.map (id_pair d)).Nodup ∧
      (∀ t, t ∈ touching_pairs d ↔ ∃ c ∈ cs, id_pair d c = t) ∧
      (∀ c ∈ cs, c.2 ∈ directions ∧ is_contact d c ∧
        ∃ a b, index d.token_ancor (d.current_token_id.val c.1) = some a ∧
          index d.token_ancor (d.current_token_id.val (c.1 + c.2)) = some b ∧
          vote_of d c = ⟨d.current_token_class.val c.1, d.current_token_class.val (c.1 + c.2),
            b - a⟩) ∧
      (∀ c ∈ cs, ∀ p q, d.m_initial_token_class.contains p = true →
        d.m_initial_token_class.contains q = true → adjacent p q →
        Sym2.mk (d.current_token_id.val p, d.current_token_id.val q) = id_pair d c →
        ¬ scan_lt p c.1 ∧ ¬ scan_lt q c.1) := by
  obtain ⟨hs, _⟩ := tokenize_inv order token_max tokens_to_create image_size files s hfiles hrun
  intro d hd
  exact voting_contacts d ((hs.images d hd).anchors hs.shapes)

theorem one_vote_per_touching_pair_witness :
    corpus_ok 4 diagonal_files ∧
    ∃ s, tokenize insertion_order 4 1 ⟨2, 2⟩ diagonal_files = some s ∧
      ∀ d ∈ s.image_data, ∃ cs : List (tg.ipos2 × tg.ivec2),
        (∀ m0, ∃ m, count_image m0 d = some m ∧
          ∀ key, m.count key = m0.count key + ((cs.map (vote_of d)).count key : Int)) ∧
        cs.length = (touching_pairs d).card ∧
        (cs.map (id_pair d)).Nodup ∧
        (∀ t, t ∈ touching_pairs d ↔ ∃ c ∈ cs, id_pair d c = t) ∧
        (∀ c ∈ cs, c.2 ∈ directions ∧ is_contact d c ∧
          ∃ a b, index d.token_ancor (d.current_token_id.val c.1) = some a ∧
            index d.token_ancor (d.current_token_id.val (c.1 + c.2)) = some b ∧
            vote_of d c = ⟨d.current_token_class.val c.1,
              d.current_token_class.val (c.1 + c.2), b - a⟩) ∧
        (∀ c ∈ cs, ∀ p q, d.m_initial_token_class.contains p = true →
          d.m_initial_token_class.contains q = true → adjacent p q →
          Sym2.mk (d.current_token_id.val p, d.current_token_id.val q) = id_pair d c →
          ¬ scan_lt p c.1 ∧ ¬ scan_lt q c.1) :=
  ⟨by decide, (tokenize insertion_order 4 1 ⟨2, 2⟩ diagonal_files).get (by decide), by simp,
    one_vote_per_touching_pair insertion_order 4 1 ⟨2, 2⟩ diagonal_files _ (by decide)
      (by simp)⟩

/-! ## The scan rule of the specification -/

theorem count_pair_closed (d : image_data) (hd : ids_ok d) (st : used_set × count_map)
    (p : tg.ipos2) (hp : d.m_initial_token_class.contains p = true) (dir : tg.ivec2) :
    count_pair d st p dir = some (code_step d (p, dir) st) := by
  rw [count_pair_eq, pair_vote_closed d hd st.1 p hp dir]
  unfold code_step
  by_cases h : is_contact d (p, dir) ∧ ancor_pair d (p, dir) ∉ st.1.map Sym2.mk
  · rw [if_pos h, if_pos h]; rfl
  · rw [if_neg h, if_neg h]; rfl

theorem spec_count_pair_closed (d : image_data) (hd : ids_ok d)
    (st : List (Sym2 tg.ipos2) × count_map) (p : tg.ipos2)
    (hp : d.m_initial_token_class.contains p = true) (dir : tg.ivec2) :
    spec_count_pair d st p dir = some (spec_step d (p, dir) st) := by
  have hg := hd.grids
  unfold spec_count_pair spec_step
  simp only [image_data.initial_token_class]
  by_cases hn : d.m_initial_token_class.contains (p + dir) = true
  swap
  · have hc : ¬ is_contact d (p, dir) := fun h => hn h.2.1
    simp only [Bool.not_eq_true] at hn
    simp [hn, hc]
  simp only [hn, hg.get_id p hp, hg.get_id _ hn, hg.get_class p hp,
    hg.get_class _ hn, Option.bind_eq_bind, Option.some_bind, Bool.not_true,
    Bool.false_eq_true, if_false, hd.index_anchor_of p hp, hd.index_anchor_of _ hn]
  by_cases hsame : d.current_token_id.val p = d.current_token_id.val (p + dir)
  · have hc : ¬ is_contact d (p, dir) := fun h => h.2.2 hsame
    simp [hsame, hc]
  have hc : is_contact d (p, dir) := ⟨hp, hn, hsame⟩
  simp only [hsame, if_false, hc, true_and]
  by_cases hu : ancor_pair d (p, dir) ∈ st.1
  · have hu' : Sym2.mk (anchor_of d p, anchor_of d (p + dir)) ∈ st.1 := hu
    rw [if_pos hu', if_neg (not_not.2 hu)]
  · have hu' : Sym2.mk (anchor_of d p, anchor_of d (p + dir)) ∉ st.1 := hu
    rw [if_neg hu', if_pos hu]
    rfl

/-- Two contacts at the same cell with the same unordered anchor pair vote for the same
constellation. -/
theorem same_cell_vote (d : image_data) (h : anchors_ok d) (p : tg.ipos2) (d1 d2 : tg.ivec2)
    (h1 : is_contact d (p, d1)) (h2 : is_contact d (p, d2))
    (hk : ancor_pair d (p, d1) = ancor_pair d (p, d2)) : vote_of d (p, d1) = vote_of d (p, d2) := by
  have ha : anchor_of d (p + d1) = anchor_of d (p + d2) := by
    unfold ancor_pair ancor_key at hk
    rw [Sym2.eq_iff] at hk
    rcases hk with ⟨_, hb⟩ | ⟨hb1, hb2⟩
    · exact hb
    · exact hb2.trans hb1
  have hc : d.current_token_class.val (p + d1) = d.current_token_class.val (p + d2) := by
    rw [← h.same_class _ h1.2.1, ← h.same_class _ h2.2.1]
    show d.current_token_class.val (anchor_of d (p + d1)) = _
    rw [ha]
  unfold vote_of
  simp only
  rw [ha, hc]

theorem code_step_mem (d : image_data) (c : tg.ipos2 × tg.ivec2) (st : used_set × count_map)
    (k : Sym2 tg.ipos2) :
    k ∈ (code_step d c st).1.map Sym2.mk
      ↔ k ∈ st.1.map Sym2.mk ∨ (is_contact d c ∧ k = ancor_pair d c) := by
  unfold code_step
  by_cases h : is_contact d c ∧ ancor_pair d c ∉ st.1.map Sym2.mk
  · rw [if_pos h]
    simp only [List.map_append, List.map_cons, List.map_nil, List.mem_append,
      List.mem_singleton]
    constructor
    · rintro (hk | hk)
      · exact Or.inl hk
      · exact Or.inr ⟨h.1, hk⟩
    · rintro (hk | ⟨_, hk⟩)
      · exact Or.inl hk
      · exact Or.inr hk
  · rw [if_neg h]
    constructor
    · exact Or.inl
    · rintro (hk | ⟨hc, hk⟩)
      · exact hk
      · subst hk
        by_contra hn
        exact h ⟨hc, hn⟩

theorem spec_step_mem (d : image_data) (c : tg.ipos2 × tg.ivec2)
    (st : List (Sym2 tg.ipos2) × count_map) (k : Sym2 tg.ipos2) :
    k ∈ (spec_step d c st).1 ↔ k ∈ st.1 ∨ (is_contact d c ∧ k = ancor_pair d c) := by
  unfold spec_step
  by_cases h : is_contact d c ∧ ancor_pair d c ∉ st.1
  · rw [if_pos h]
    simp only [List.mem_append, List.mem_singleton]
    constructor
    · rintro (hk | hk)
      · exact Or.inl hk
      · exact Or.inr ⟨h.1, hk⟩
    · rintro (hk | ⟨_, hk⟩)
      · exact Or.inl hk
      · exact Or.inr hk
  · rw [if_neg h]
    constructor
    · exact Or.inl
    · rintro (hk | ⟨hc, hk⟩)
      · exact hk
      · subst hk
        by_contra hn
        exact h ⟨hc, hn⟩

theorem code_step_count (d : image_data) (c : tg.ipos2 × tg.ivec2) (st : used_set × count_map)
    (key : constellation) :
    (code_step d c st).2.count key = st.2.count key +
      if is_contact d c ∧ ancor_pair d c ∉ st.1.map Sym2.mk ∧ key = vote_of d c then 1
      else 0 := by
  unfold code_step
  by_cases h : is_contact d c ∧ ancor_pair d c ∉ st.1.map Sym2.mk
  · rw [if_pos h]
    simp only [count_map.count_increment, h.1, h.2, not_false_eq_true, true_and]
  · rw [if_neg h, if_neg (fun hh => h ⟨hh.1, hh.2.1⟩), add_zero]

theorem spec_step_count (d : image_data) (c : tg.ipos2 × tg.ivec2)
    (st : List (Sym2 tg.ipos2) × count_map) (key : constellation) :
    (spec_step d c st).2.count key = st.2.count key +
      if is_contact d c ∧ ancor_pair d c ∉ st.1 ∧ key = vote_of d c then 1 else 0 := by
  unfold spec_step
  by_cases h : is_contact d c ∧ ancor_pair d c ∉ st.1
  · rw [if_pos h]
    simp only [count_map.count_increment, h.1, h.2, not_false_eq_true, true_and]
  · rw [if_neg h, if_neg (fun hh => h ⟨hh.1, hh.2.1⟩), add_zero]

/-- Two conditional votes taken in either order give the same total. -/
theorem votes_swap (C1 C2 M1 M2 E X1 X2 : Prop) (hE : E → (M1 ↔ M2))
    (hv : C1 → C2 → E → (X1 ↔ X2)) (a b a' b' : Int)
    (ha : a = 1 ∧ (C1 ∧ ¬ M1 ∧ X1) ∨ a = 0 ∧ ¬ (C1 ∧ ¬ M1 ∧ X1))
    (hb : b = 1 ∧ (C2 ∧ ¬ (M2 ∨ C1 ∧ E) ∧ X2) ∨ b = 0 ∧ ¬ (C2 ∧ ¬ (M2 ∨ C1 ∧ E) ∧ X2))
    (ha' : a' = 1 ∧ (C2 ∧ ¬ M2 ∧ X2) ∨ a' = 0 ∧ ¬ (C2 ∧ ¬ M2 ∧ X2))
    (hb' : b' = 1 ∧ (C1 ∧ ¬ (M1 ∨ C2 ∧ E) ∧ X1) ∨ b' = 0 ∧ ¬ (C1 ∧ ¬ (M1 ∨ C2 ∧ E) ∧ X1)) :
    a + b = a' + b' := by
  by_cases hC1 : C1 <;> by_cases hC2 : C2 <;> by_cases hM1 : M1 <;> by_cases hM2 : M2 <;>
    by_cases hEE : E <;> by_cases hX1 : X1 <;> by_cases hX2 : X2 <;>
    simp_all

theorem ite_cases (P Q : Prop) [Decidable P] (hPQ : P ↔ Q) :
    (if P then (1 : Int) else 0) = 1 ∧ Q ∨ (if P then (1 : Int) else 0) = 0 ∧ ¬ Q := by
  by_cases h : P
  · exact Or.inl ⟨if_pos h, hPQ.1 h⟩
  · exact Or.inr ⟨if_neg h, fun hq => h (hPQ.2 hq)⟩

/-- The two directions at one cell, taken in either order, keep the two counter states in
agreement. -/
theorem cell_steps_agree (d : image_data) (h : anchors_ok d) (p : tg.ipos2) (d1 d2 : tg.ivec2)
    (st : used_set × count_map) (st' : List (Sym2 tg.ipos2) × count_map)
    (hst : same_counts st st') :
    same_counts (code_step d (p, d1) (code_step d (p, d2) st))
      (spec_step d (p, d2) (spec_step d (p, d1) st')) := by
  obtain ⟨hset, hcnt⟩ := hst
  refine ⟨fun k => ?_, fun key => ?_⟩
  · rw [code_step_mem, code_step_mem, spec_step_mem, spec_step_mem, hset]
    tauto
  · rw [code_step_count, code_step_count, spec_step_count, spec_step_count, hcnt, add_assoc,
      add_assoc]
    congr 1
    have e1 : ancor_pair d (p, d1) ∉ (code_step d (p, d2) st).1.map Sym2.mk
        ↔ ¬ (ancor_pair d (p, d1) ∈ st'.1
          ∨ is_contact d (p, d2) ∧ ancor_pair d (p, d2) = ancor_pair d (p, d1)) := by
      rw [code_step_mem, hset]
      constructor
      · rintro hn (hk | ⟨hc, hk⟩)
        · exact hn (Or.inl hk)
        · exact hn (Or.inr ⟨hc, hk.symm⟩)
      · rintro hn (hk | ⟨hc, hk⟩)
        · exact hn (Or.inl hk)
        · exact hn (Or.inr ⟨hc, hk.symm⟩)
    have e2 : ancor_pair d (p, d2) ∉ (spec_step d (p, d1) st').1
        ↔ ¬ (ancor_pair d (p, d2) ∈ st'.1
          ∨ is_contact d (p, d1) ∧ ancor_pair d (p, d2) = ancor_pair d (p, d1)) := by
      rw [spec_step_mem]
    have e3 : ancor_pair d (p, d2) ∉ st.1.map Sym2.mk ↔ ¬ ancor_pair d (p, d2) ∈ st'.1 := by
      rw [hset]
    refine votes_swap (is_contact d (p, d2)) (is_contact d (p, d1))
      (ancor_pair d (p, d2) ∈ st'.1) (ancor_pair d (p, d1) ∈ st'.1)
      (ancor_pair d (p, d2) = ancor_pair d (p, d1)) (key = vote_of d (p, d2))
      (key = vote_of d (p, d1)) (fun he => by rw [he]) (fun hc2 hc1 he => ?_) _ _ _ _
      (ite_cases _ _ (by rw [e3])) (ite_cases _ _ (by rw [e1]))
      (ite_cases _ _ Iff.rfl) (ite_cases _ _ (by rw [e2]))
    rw [same_cell_vote d h p d2 d1 hc2 hc1 he]

/-- Two folds whose steps succeed together and keep a relation succeed together and end in
related states. -/
theorem foldlM_pair_invariant {σ τ β : Type} (R : σ → τ → Prop) (f : σ → β → Option σ)
    (g : τ → β → Option τ) (l : List β)
    (step : ∀ s t b, b ∈ l → R s t → ∃ s' t', f s b = some s' ∧ g t b = some t' ∧ R s' t')
    (s : σ) (t : τ) (h : R s t) :
    ∃ s' t', l.foldlM f s = some s' ∧ l.foldlM g t = some t' ∧ R s' t' := by
  induction l generalizing s t with
  | nil => exact ⟨s, t, rfl, rfl, h⟩
  | cons b l ih =>
    obtain ⟨s1, t1, h1, h2, hr⟩ := step s t b (List.mem_cons_self _ _) h
    obtain ⟨s2, t2, h3, h4, hr'⟩ :=
      ih (fun s t b hb => step s t b (List.mem_cons_of_mem _ hb)) s1 t1 hr
    exact ⟨s2, t2, by simp [List.foldlM_cons, h1, h3], by simp [List.foldlM_cons, h2, h4], hr'⟩

/-- On an image of a learning run the counter of the code and the specified scan rule add
the same counts. -/
theorem count_image_agree (d : image_data) (h : anchors_ok d) (m0 m0' : count_map)
    (hm : ∀ key, m0.count key = m0'.count key) :
    ∃ m m', count_image m0 d = some m ∧ spec_count_image m0' d = some m' ∧
      ∀ key, m.count key = m'.count key := by
  obtain ⟨st, st', h1, h2, hr⟩ := foldlM_pair_invariant same_counts
    (fun st coords => directions.foldlM (fun st dir => count_pair d st coords dir) st)
    (fun st p => spec_directions.foldlM (fun st dir => spec_count_pair d st p dir) st)
    (scan d.initial_token_class.width d.initial_token_class.height)
    (fun st st' p hp hst => by
      have hpc : d.m_initial_token_class.contains p = true :=
        (mem_scan_iff_contains d.m_initial_token_class p).1 hp
      refine ⟨code_step d (p, ⟨1, 0⟩) (code_step d (p, ⟨0, 1⟩) st),
        spec_step d (p, ⟨0, 1⟩) (spec_step d (p, ⟨1, 0⟩) st'), ?_, ?_,
        cell_steps_agree d h p ⟨1, 0⟩ ⟨0, 1⟩ st st' hst⟩
      · simp only [directions, List.foldlM_cons, List.foldlM_nil,
          count_pair_closed d h.allocated _ p hpc, Option.bind_eq_bind, Option.some_bind,
          Option.pure_def]
      · simp only [spec_directions, List.foldlM_cons, List.foldlM_nil,
          spec_count_pair_closed d h.allocated _ p hpc, Option.bind_eq_bind, Option.some_bind,
          Option.pure_def])
    (([] : used_set), m0) (([] : List (Sym2 tg.ipos2)), m0')
    ⟨fun k => by simp, hm⟩
  refine ⟨st.2, st'.2, ?_, ?_, hr.2⟩
  · unfold count_image
    simp only []
    rw [h1]; rfl
  · unfold spec_count_image
    rw [h2]; rfl

/-- C30 as stated fails.  The claim speaks of every corpus state, but the agreement of the
two scan rules rests on the invariant of learning runs: on the image value
`split_class_image`, whose grids are consistent and in which the instance of id `1` carries
two classes, the counter of the code gives the constellation `(5, 6, (1,0))` the count `0`
and the scan rule of spec section 4.3 gives it the count `1`. -/
theorem scan_rule_equivalence_counterexample :
    grids_ok split_class_image ∧
    ∃ m m', count_constellations [split_class_image] = some m ∧
      spec_count_constellations [split_class_image] = some m' ∧
      m.count ⟨5, 6, ⟨1, 0⟩⟩ = 0 ∧ m'.count ⟨5, 6, ⟨1, 0⟩⟩ = 1 ∧
      ¬ ∀ key, m.count key = m'.count key :=
  ⟨by decide, (count_constellations [split_class_image]).get (by decide),
    (spec_count_constellations [split_class_image]).get (by decide), by simp, by simp,
    by decide, by decide, fun h => absurd (h ⟨5, 6, ⟨1, 0⟩⟩) (by decide)⟩

/-- C30, amended (scan-rule equivalence).  In every state reached by a learning run on a
corpus with all cells in `[0, token_max]`, the counter of `get_most_common_constellation`
(direction `(0,+1)` before `(+1,0)` at each cell, `used` tested in both orders) and the scan
rule of spec section 4.3 (direction `(+1,0)` before `(0,+1)`, unordered anchor-pair key)
both succeed and give every constellation the same count. -/
theorem scan_rule_equivalence (order : map_iteration) (token_max tokens_to_create : Int)
    (image_size : tg.isize2) (files : List (String × Int × img.image Int))
    (s : tokenizer_state) (hfiles : corpus_ok token_max files)
    (hrun : tokenize order token_max tokens_to_create image_size files = some s) :
    ∃ m m', count_constellations s.image_data = some m ∧
      spec_count_constellations s.image_data = some m' ∧
      ∀ key, m.count key = m'.count key := by
  obtain ⟨hs, _⟩ := tokenize_inv order token_max tokens_to_create image_size files s hfiles hrun
  unfold count_constellations spec_count_constellations
  exact foldlM_pair_invariant (fun (m m' : count_map) => ∀ key, m.count key = m'.count key)
    count_image spec_count_image s.image_data
    (fun m m' d hd hm => count_image_agree d ((hs.images d hd).anchors hs.shapes) m m' hm)
    [] [] (fun _ => rfl)

theorem scan_rule_equivalence_witness :
    corpus_ok 4 diagonal_files ∧
    ∃ s, tokenize insertion_order 4 1 ⟨2, 2⟩ diagonal_files = some s ∧
      ∃ m m', count_constellations s.image_data = some m ∧
        spec_count_constellations s.image_data = some m' ∧
        ∀ key, m.count key = m'.count key :=
  ⟨by decide, (tokenize insertion_order 4 1 ⟨2, 2⟩ diagonal_files).get (by decide), by simp,
    scan_rule_equivalence insertion_order 4 1 ⟨2, 2⟩ diagonal_files _ (by decide) (by simp)⟩

/-! ## Ids and anchors -/

/-- C31 (id/anchor equivalence).  In every state reached by a learning run on a corpus with
all cells in `[0, token_max]`, for every image and any two cells `p`, `q` of the grid, the
ids `i`, `j` of the two cells have anchors `a`, `b` in `token_ancor`, and `i = j` if and
only if `a = b`: distinct token instances of the grid never share an anchor. -/
theorem id_anchor_equivalence (order : map_iteration) (token_max tokens_to_create : Int)
    (image_size : tg.isize2) (files : List (String × Int × img.image Int))
    (s : tokenizer_state) (hfiles : corpus_ok token_max files)
    (hrun : tokenize order token_max tokens_to_create image_size files = some s) :
    ∀ d ∈ s.image_data, ∀ p q, d.current_token_id.contains p = true →
      d.current_token_id.contains q = true →
      ∃ i j a b, d.current_token_id.get p = some i ∧ d.current_token_id.get q = some j ∧
        index d.token_ancor i = some a ∧ index d.token_ancor j = some b ∧
        (i = j ↔ a = b) := by
  obtain ⟨hs, _⟩ := tokenize_inv order token_max tokens_to_create image_size files s hfiles hrun
  intro d hd p q hp hq
  have hanch := (hs.images d hd).anchors hs.shapes
  have hg := hanch.allocated.grids
  rw [hg.id_contains] at hp hq
  refine ⟨d.current_token_id.val p, d.current_token_id.val q, anchor_of d p, anchor_of d q,
    hg.get_id p hp, hg.get_id q hq, hanch.allocated.index_anchor_of p hp,
    hanch.allocated.index_anchor_of q hq, fun h => anchor_of_congr d p q h,
    fun h => hanch.inj p q hp hq h⟩

theorem id_anchor_equivalence_witness :
    corpus_ok 4 diagonal_files ∧
    ∃ s, tokenize insertion_order 4 2 ⟨2, 2⟩ diagonal_files = some s ∧
      ∀ d ∈ s.image_data, ∀ p q, d.current_token_id.contains p = true →
        d.current_token_id.contains q = true →
        ∃ i j a b, d.current_token_id.get p = some i ∧ d.current_token_id.get q = some j ∧
          index d.token_ancor i = some a ∧ index d.token_ancor j = some b ∧
          (i = j ↔ a = b) :=
  ⟨by decide, (tokenize insertion_order 4 2 ⟨2, 2⟩ diagonal_files).get (by decide), by simp,
    id_anchor_equivalence insertion_order 4 2 ⟨2, 2⟩ diagonal_files _ (by decide) (by simp)⟩

/-! ## Induction over a learning run -/

/-- A property of the state kept by every learning iteration is kept by the loop. -/
theorem tokenize_loop_induction (order : map_iteration) (Q : tokenizer_state → Prop)
    (step : ∀ s s', Q s → tokenize_iteration order s = some s' → Q s') (n : Nat)
    (s s' : tokenizer_state) (hs : Q s) (h : tokenize_loop order n s = some s') : Q s' := by
  induction n generalizing s with
  | zero =>
    simp only [tokenize_loop, Option.some.injEq] at h
    exact h ▸ hs
  | succ n ih =>
    simp only [tokenize_loop, Option.bind_eq_bind, Option.bind_eq_some] at h
    obtain ⟨s1, h1, h2⟩ := h
    exact ih s1 (step s s1 hs h1) h2

/-- A property that holds for the initial state of a learning run and is kept by every
learning iteration holds for the state the run reaches. -/
theorem tokenize_induction (order : map_iteration) (token_max tokens_to_create : Int)
    (image_size : tg.isize2) (files : List (String × Int × img.image Int))
    (Q : tokenizer_state → Prop)
    (init : ∀ images, read_folder files = some images →
      Q { rules := [], tokens := initial_tokens token_max, image_data := images })
    (step : ∀ s s', Q s → tokenize_iteration order s = some s' → Q s')
    (s : tokenizer_state)
    (hrun : tokenize order token_max tokens_to_create image_size files = some s) : Q s := by
  unfold tokenize at hrun
  simp only [Option.bind_eq_bind, Option.bind_eq_some] at hrun
  obtain ⟨images, h1, h2⟩ := hrun
  exact tokenize_loop_induction order Q step _ _ s (init images h1) h2

theorem combine_tokens_context (s : tokenizer_state) (c : constellation) (N : token_data)
    (hshapes : ∀ i t, index s.tokens i = some t → shape_ok t)
    (hcomb : combine_tokens c s.tokens = some N) :
    ∃ A B, iteration_context s c A B N := by
  obtain ⟨A, B, hA, hB⟩ := combine_tokens_some c s.tokens N hcomb
  have hNok : shape_ok N :=
    combine_tokens_shape_ok c s.tokens A B N hA hB (hshapes _ _ hA) (hshapes _ _ hB) hcomb
  rw [combine_tokens_eq c s.tokens A B hA hB (hshapes _ _ hA).aligned
    (hshapes _ _ hB).aligned] at hcomb
  simp only [Option.some.injEq] at hcomb
  refine ⟨A, B, hA, hB, hshapes _ _ hA, hshapes _ _ hB, hNok, ?_, ?_, ?_⟩
  · rw [← hcomb]; split <;> rfl
  · rw [← hcomb]; split <;> rfl
  · rw [← hcomb]; split <;> rfl

/-- Every learning iteration keeps the shapes well-formed, whatever the images hold. -/
theorem tokenize_iteration_shapes (order : map_iteration) (s s' : tokenizer_state)
    (hs : ∀ i t, index s.tokens i = some t → shape_ok t)
    (h : tokenize_iteration order s = some s') :
    ∀ i t, index s'.tokens i = some t → shape_ok t := by
  obtain ⟨c, N, _, hstep⟩ := tokenize_iteration_some order s s' h
  obtain ⟨A, B, hctx⟩ := combine_tokens_context s c N hs hstep.combined
  intro i t hi
  rw [hstep.tokens_eq] at hi
  rcases index_append_singleton _ _ _ _ hi with h1 | ⟨_, rfl⟩
  · exact hs _ _ h1
  · exact hctx.okN

/-! ## Shape well-formedness -/

/-- C33 (shape well-formedness).  After any number of learning iterations on any corpus,
every shape of the list is non-empty, has `positions` and `position_class` of equal length
and has `(0,0)` as its first position; every base class `0 <= c <= token_max` still has the
singleton shape `[((0,0), c)]`; and for every offset, `combine_tokens` applied to two
index-aligned shapes whose first position is `(0,0)` returns a shape whose first position is
`(0,0)`. -/
theorem shape_well_formedness (order : map_iteration) (token_max tokens_to_create : Int)
    (image_size : tg.isize2) (files : List (String × Int × img.image Int))
    (s : tokenizer_state)
    (hrun : tokenize order token_max tokens_to_create image_size files = some s) :
    (∀ t ∈ s.tokens, t.positions ≠ [] ∧ t.positions.length = t.position_class.length ∧
      t.positions.head? = some ⟨0, 0⟩) ∧
    (∀ c, 0 ≤ c → c ≤ token_max →
      index s.tokens c = some { positions := [⟨0, 0⟩], position_class := [c], class_id := c }) ∧
    (∀ (rule : constellation) (tokens : List token_data) (token_a token_b : token_data),
      index tokens rule.source_class_id = some token_a →
      index tokens rule.target_class_id = some token_b →
      token_a.positions.length = token_a.position_class.length →
      token_b.positions.length = token_b.position_class.length →
      token_a.positions.head? = some ⟨0, 0⟩ → token_b.positions.head? = some ⟨0, 0⟩ →
      ∃ t, combine_tokens rule tokens = some t ∧ t.positions.head? = some ⟨0, 0⟩) := by
  have hshapes : ∀ i t, index s.tokens i = some t → shape_ok t :=
    tokenize_induction order token_max tokens_to_create image_size files
      (fun s => ∀ i t, index s.tokens i = some t → shape_ok t)
      (fun _ _ => initial_tokens_shape_ok token_max)
      (fun s s' hs h => tokenize_iteration_shapes order s s' hs h) s hrun
  refine ⟨fun t ht => ?_, fun c h0 h1 => ?_, ?_⟩
  · obtain ⟨i, hi⟩ := mem_index s.tokens t ht
    have hok := hshapes i t hi.2
    refine ⟨fun hnil => ?_, hok.aligned, hok.head⟩
    have := hok.head
    rw [hnil] at this
    cases this
  · obtain ⟨T, hT, _⟩ := tokenize_numbering order token_max tokens_to_create image_size files s
      hrun
    rw [hT]
    exact index_append_left _ _ _ _ (index_initial_tokens token_max c h0 h1)
  · intro rule tokens token_a token_b ha hb hla hlb hha hhb
    refine ⟨_, combine_tokens_eq rule tokens token_a token_b ha hb hla hlb, ?_⟩
    split
    · cases hpa : token_a.positions with
      | nil => rw [hpa] at hha; cases hha
      | cons o rest => rw [hpa] at hha; simpa using hha
    · cases hpb : token_b.positions with
      | nil => rw [hpb] at hhb; cases hhb
      | cons o rest => rw [hpb] at hhb; simpa using hhb

theorem shape_well_formedness_witness :
    ∃ s, tokenize insertion_order 4 2 ⟨2, 2⟩ diagonal_files = some s ∧
      (∀ t ∈ s.tokens, t.positions ≠ [] ∧ t.positions.length = t.position_class.length ∧
        t.positions.head? = some ⟨0, 0⟩) ∧
      (∀ c, 0 ≤ c → c ≤ 4 →
        index s.tokens c
          = some { positions := [⟨0, 0⟩], position_class := [c], class_id := c }) ∧
      (∀ (rule : constellation) (tokens : List token_data) (token_a token_b : token_data),
        index tokens rule.source_class_id = some token_a →
        index tokens rule.target_class_id = some token_b →
        token_a.positions.length = token_a.position_class.length →
        token_b.positions.length = token_b.position_class.length →
        token_a.positions.head? = some ⟨0, 0⟩ → token_b.positions.head? = some ⟨0, 0⟩ →
        ∃ t, combine_tokens rule tokens = some t ∧ t.positions.head? = some ⟨0, 0⟩) :=
  ⟨(tokenize insertion_order 4 2 ⟨2, 2⟩ diagonal_files).get (by decide), by simp,
    shape_well_formedness insertion_order 4 2 ⟨2, 2⟩ diagonal_files _ (by simp)⟩

/-! ## Agreement of `combine_tokens` and `apply_rule` -/

/-- The cells of the shape returned by `combine_tokens`, in both branches of the anchor
choice. -/
theorem combine_tokens_cells (rule : constellation) (tokens : List token_data)
    (token_a token_b : token_data)
    (ha : index tokens rule.source_class_id = some token_a)
    (hb : index tokens rule.target_class_id = some token_b)
    (hla : token_a.positions.length = token_a.position_class.length)
    (hlb : token_b.positions.length = token_b.position_class.length) :
    ∃ t, combine_tokens rule tokens = some t ∧
      (keep_token_a_ancor rule.ancor_offset = true →
        t.positions.zip t.position_class
          = token_a.positions.zip token_a.position_class ++
            (token_b.positions.zip token_b.position_class).map
              (fun e => (e.1 + rule.ancor_offset, e.2))) ∧
      (keep_token_a_ancor rule.ancor_offset = false →
        t.positions.zip t.position_class
          = token_b.positions.zip token_b.position_class ++
            (token_a.positions.zip token_a.position_class).map
              (fun e => (e.1 - rule.ancor_offset, e.2))) := by
  refine ⟨_, combine_tokens_eq rule tokens token_a token_b ha hb hla hlb, ?_, ?_⟩
  · intro hk
    rw [if_pos hk]
    simp only
    rw [List.zip_append hla, List.zip_map_left]
    rfl
  · intro hk
    rw [if_neg (by simp [hk])]
    simp only
    rw [List.zip_append hlb, List.zip_map_left]
    rfl

/-- C35 (combine/apply agreement).  For every offset `D`, index-aligned shapes `S_s`, `S_t`
of the source and target class and every source anchor `p`, `combine_tokens` returns a shape
`N`; at a cell `p` where the rule matches, `apply_rule` pushes the anchor
`na = p` (source anchor kept) or `na = p + D` and writes the in-grid cells `na + o`,
`o` in `N.positions`; and the cells of `N` placed at `na` are, as a multiset and each with
its base class, the cells of `S_s` placed at `p` together with the cells of `S_t` placed at
`p + D`. -/
theorem combine_apply_agreement (rule : constellation) (tokens : List token_data)
    (token_a token_b : token_data) (p : tg.ipos2)
    (ha : index tokens rule.source_class_id = some token_a)
    (hb : index tokens rule.target_class_id = some token_b)
    (hla : token_a.positions.length = token_a.position_class.length)
    (hlb : token_b.positions.length = token_b.position_class.length) :
    ∃ N na, combine_tokens rule tokens = some N ∧
      na = (if keep_token_a_ancor rule.ancor_offset then p else p + rule.ancor_offset) ∧
      (∀ (d : image_data) (n : Int), grids_ok d →
        rule_matches { constellation := rule, new_token_id := n } d p →
        ∃ d', apply_rule_at { constellation := rule, new_token_id := n } N d p = some d' ∧
          d'.token_ancor = d.token_ancor ++ [na] ∧
          ∀ r, d'.current_token_class.val r =
            if placed_inside d na N.positions r then N.class_id
            else d.current_token_class.val r) ∧
      (placed_cells na N).Perm
        (placed_cells p token_a ++ placed_cells (p + rule.ancor_offset) token_b) := by
  obtain ⟨N, hN, hkeep, hmove⟩ := combine_tokens_cells rule tokens token_a token_b ha hb
    hla hlb
  refine ⟨N, _, hN, rfl, fun d n hg hm => ?_, ?_⟩
  · obtain ⟨d', h1, _, h3, _, _, h6, _⟩ := apply_rule_at_effect
      { constellation := rule, new_token_id := n } N d p hg hm
    exact ⟨d', h1, h3, h6⟩
  · unfold placed_cells
    by_cases hk : keep_token_a_ancor rule.ancor_offset = true
    · rw [if_pos hk, hkeep hk, List.map_append, List.map_map]
      refine List.Perm.of_eq ?_
      congr 1
      refine List.map_congr_left (fun e _ => ?_)
      simp only [Function.comp, Prod.mk.injEq, and_true]
      rw [tg.ipos2.ext_iff']
      simp only [tg.ipos2.add_x, tg.ipos2.add_y, tg.ivec2.of_pos_x, tg.ivec2.of_pos_y]
      omega
    · simp only [Bool.not_eq_true] at hk
      rw [if_neg (by simp [hk]), hmove hk, List.map_append, List.map_map]
      refine List.Perm.trans List.perm_append_comm (List.Perm.of_eq ?_)
      congr 1
      refine List.map_congr_left (fun e _ => ?_)
      simp only [Function.comp, Prod.mk.injEq, and_true]
      rw [tg.ipos2.ext_iff']
      simp only [tg.ipos2.add_x, tg.ipos2.add_y, tg.ipos2.sub_x, tg.ipos2.sub_y,
        tg.ivec2.of_pos_x, tg.ivec2.of_pos_y]
      omega

theorem combine_apply_agreement_witness :
    index (initial_tokens 2) (⟨1, 2, ⟨0, -1⟩⟩ : constellation).source_class_id
      = some ({ positions := [⟨0, 0⟩], position_class := [1], class_id := 1 } : token_data) ∧
    index (initial_tokens 2) (⟨1, 2, ⟨0, -1⟩⟩ : constellation).target_class_id
      = some ({ positions := [⟨0, 0⟩], position_class := [2], class_id := 2 } : token_data) ∧
    ∃ (N : token_data) (na : tg.ipos2),
      combine_tokens ⟨1, 2, ⟨0, -1⟩⟩ (initial_tokens 2) = some N ∧
      na = (if keep_token_a_ancor (⟨1, 2, ⟨0, -1⟩⟩ : constellation).ancor_offset then
        (⟨3, 5⟩ : tg.ipos2)
        else (⟨3, 5⟩ : tg.ipos2) + (⟨1, 2, ⟨0, -1⟩⟩ : constellation).ancor_offset) ∧
      (∀ (d : image_data) (n : Int), grids_ok d →
        rule_matches { constellation := ⟨1, 2, ⟨0, -1⟩⟩, new_token_id := n } d ⟨3, 5⟩ →
        ∃ d', apply_rule_at { constellation := ⟨1, 2, ⟨0, -1⟩⟩, new_token_id := n } N d ⟨3, 5⟩
            = some d' ∧
          d'.token_ancor = d.token_ancor ++ [na] ∧
          ∀ r, d'.current_token_class.val r =
            if placed_inside d na N.positions r then N.class_id
            else d.current_token_class.val r) ∧
      (placed_cells na N).Perm
        (placed_cells ⟨3, 5⟩ { positions := [⟨0, 0⟩], position_class := [1], class_id := 1 }
          ++ placed_cells ((⟨3, 5⟩ : tg.ipos2) + (⟨1, 2, ⟨0, -1⟩⟩ : constellation).ancor_offset)
            { positions := [⟨0, 0⟩], position_class := [2], class_id := 2 }) :=
  ⟨by decide, by decide,
    combine_apply_agreement ⟨1, 2, ⟨0, -1⟩⟩ (initial_tokens 2)
      { positions := [⟨0, 0⟩], position_class := [1], class_id := 1 }
      { positions := [⟨0, 0⟩], position_class := [2], class_id := 2 } ⟨3, 5⟩ (by decide)
      (by decide) (by decide) (by decide)⟩

/-! ## One pass of `apply_rule` over an image of a learning run -/

/-- The match condition in terms of the values of the grids. -/
theorem rule_matches_iff (rule : rule) (d : image_data) (hd : ids_ok d) (p : tg.ipos2) :
    rule_matches rule d p ↔
      d.m_initial_token_class.contains p = true ∧
      d.current_token_class.val p = rule.constellation.source_class_id ∧
      anchor_of d p = p ∧
      d.m_initial_token_class.contains (p + rule.constellation.ancor_offset) = true ∧
      d.current_token_class.val (p + rule.constellation.ancor_offset)
        = rule.constellation.target_class_id ∧
      anchor_of d (p + rule.constellation.ancor_offset)
        = p + rule.constellation.ancor_offset := by
  have hg := hd.grids
  unfold rule_matches
  constructor
  · rintro ⟨h1, h2, h3, h4, h5⟩
    have hp : d.m_initial_token_class.contains p = true := by
      by_contra hn
      simp only [Bool.not_eq_true] at hn
      rw [img.image.get_eq_none _ p (by rw [hg.class_contains]; exact hn)] at h1
      cases h1
    have hq : d.m_initial_token_class.contains (p + rule.constellation.ancor_offset) = true := h3
    rw [hg.get_class p hp] at h1
    rw [hg.get_id p hp, Option.some_bind, hd.index_anchor_of p hp] at h2
    rw [hg.get_class _ hq] at h4
    rw [hg.get_id _ hq, Option.some_bind, hd.index_anchor_of _ hq] at h5
    exact ⟨hp, Option.some.inj h1, Option.some.inj h2, hq, Option.some.inj h4,
      Option.some.inj h5⟩
  · rintro ⟨hp, h1, h2, hq, h4, h5⟩
    refine ⟨by rw [hg.get_class p hp, h1], ?_, hq, by rw [hg.get_class _ hq, h4], ?_⟩
    · rw [hg.get_id p hp, Option.some_bind, hd.index_anchor_of p hp, h2]
    · rw [hg.get_id _ hq, Option.some_bind, hd.index_anchor_of _ hq, h5]

/-- A match in an image of a learning run is a merge of two laid-out instances. -/
theorem pass_context.merge {tokens : List token_data} {rule : rule} {A B N : token_data}
    (ctx : pass_context tokens rule A B N) (d : image_data) (hinv : image_inv tokens d)
    (p : tg.ipos2) (hm : rule_matches rule d p) :
    merge_at tokens d rule.constellation A B N p (merged_ancor rule p) := by
  have hd := hinv.allocated
  obtain ⟨hp, h1, h2, hq, h4, h5⟩ := (rule_matches_iff rule d hd p).1 hm
  refine ⟨hinv, ctx.shapes, ctx.srcA, ctx.tgtB, ctx.newN, ctx.pos, ctx.cls, hp, h1, ?_, hq, h4, ?_,
    rfl⟩
  · have := hd.index_anchor_of p hp
    rw [h2] at this
    exact this
  · have := hd.index_anchor_of _ hq
    rw [h5] at this
    exact this

/-- The effect of a merge in an image of a learning run: exactly the cells of the two
merged instances receive the new class and the new id, and all cells written lie inside the
grid. -/
theorem pass_context.merge_step {tokens : List token_data} {rule : rule} {A B N : token_data}
    (ctx : pass_context tokens rule A B N) (d : image_data) (hinv : image_inv tokens d)
    (p : tg.ipos2) (hm : rule_matches rule d p) :
    ∃ d', apply_rule_at rule N d p = some d' ∧ image_inv tokens d' ∧
      d'.m_initial_token_class = d.m_initial_token_class ∧
      d'.m_next_token_id = d.m_next_token_id + 1 ∧
      d'.token_ancor = d.token_ancor ++ [merged_ancor rule p] ∧
      (∀ o ∈ N.positions,
        d.m_initial_token_class.contains (merged_ancor rule p + tg.ivec2.of_pos o) = true) ∧
      (∀ r, d.m_initial_token_class.contains r = true →
        (d.current_token_id.val r = d.current_token_id.val p ∨
          d.current_token_id.val r
            = d.current_token_id.val (p + rule.constellation.ancor_offset)) →
        d'.current_token_class.val r = N.class_id ∧
          d'.current_token_id.val r = d.m_next_token_id) ∧
      (∀ r, ¬ (d.current_token_id.val r = d.current_token_id.val p ∨
          d.current_token_id.val r
            = d.current_token_id.val (p + rule.constellation.ancor_offset)) →
        d'.current_token_class.val r = d.current_token_class.val r ∧
          d'.current_token_id.val r = d.current_token_id.val r) := by
  have m := ctx.merge d hinv p hm
  obtain ⟨d', h1, h2, h3, h4, _, h6, h7⟩ := apply_rule_at_effect rule N d p hinv.1 hm
  obtain ⟨d'', g1, g2, _⟩ := apply_rule_at_inv tokens rule A B N d p hinv ctx.shapes ctx.srcA
    ctx.tgtB ctx.newN ctx.pos ctx.cls m.hp
  rw [h1] at g1
  cases g1
  refine ⟨d', h1, g2, h4, h2, h3, fun o ho => ((m.placed_iff _).1 ⟨o, ho, rfl⟩).1,
    fun r hr hid => ?_, fun r hid => ?_⟩
  · have hpl : placed_inside d (merged_ancor rule p) N.positions r :=
      ⟨hr, (m.placed_iff r).2 ⟨hr, hid⟩⟩
    rw [h6 r, h7 r, if_pos hpl, if_pos hpl]
    exact ⟨rfl, rfl⟩
  · have hpl : ¬ placed_inside d (merged_ancor rule p) N.positions r :=
      fun hpl => hid ((m.placed_iff r).1 hpl.2).2
    rw [h6 r, h7 r, if_neg hpl, if_neg hpl]
    exact ⟨rfl, rfl⟩

theorem consumed_append (rule : rule) (d0 : image_data) (tr : List tg.ipos2) (p r : tg.ipos2) :
    consumed rule d0 (tr ++ [p]) r ↔ consumed rule d0 tr r ∨
      (d0.current_token_id.val r = d0.current_token_id.val p ∨
        d0.current_token_id.val r
          = d0.current_token_id.val (p + rule.constellation.ancor_offset)) := by
  unfold consumed
  constructor
  · rintro ⟨x, hx, h⟩
    rcases List.mem_append.1 hx with hx | hx
    · exact Or.inl ⟨x, hx, h⟩
    · rw [List.mem_singleton] at hx
      subst hx
      exact Or.inr h
  · rintro (⟨x, hx, h⟩ | h)
    · exact ⟨x, List.mem_append_left _ hx, h⟩
    · exact ⟨p, List.mem_append_right _ (List.mem_singleton_self p), h⟩

/-- A cell that no merge has consumed still has the anchor it had before the pass. -/
theorem pass_state.anchor_kept {tokens : List token_data} {rule : rule} {N : token_data}
    {d0 : image_data} {pre : List tg.ipos2} {st : image_data × List tg.ipos2}
    (h : pass_state tokens rule N d0 pre st) (hd0 : ids_ok d0) (r : tg.ipos2)
    (hr : d0.m_initial_token_class.contains r = true) (hn : ¬ consumed rule d0 st.2 r) :
    anchor_of st.1 r = anchor_of d0 r := by
  have hid := (h.kept r hr hn).2
  have h0 := hd0.index_anchor_of r hr
  unfold anchor_of
  rw [hid, h.ancor_eq, index_append_left _ _ _ _ h0, h0]

/-- During a pass the rule matches at a cell exactly if it matched there before the pass and
neither of the two instances has been merged. -/
theorem pass_state.matches_iff {tokens : List token_data} {rule : rule} {N : token_data}
    {d0 : image_data} {pre : List tg.ipos2} {st : image_data × List tg.ipos2}
    (h : pass_state tokens rule N d0 pre st) (hd0 : ids_ok d0)
    (hns : N.class_id ≠ rule.constellation.source_class_id)
    (hnt : N.class_id ≠ rule.constellation.target_class_id) (p : tg.ipos2) :
    rule_matches rule st.1 p ↔ rule_matches rule d0 p ∧ ¬ consumed rule d0 st.2 p ∧
      ¬ consumed rule d0 st.2 (p + rule.constellation.ancor_offset) := by
  rw [rule_matches_iff rule st.1 h.inv.allocated p, rule_matches_iff rule d0 hd0 p, h.init_eq]
  constructor
  · rintro ⟨hp, h1, h2, hq, h4, h5⟩
    have hcp : ¬ consumed rule d0 st.2 p := fun hc => hns ((h.merged p hp hc).1.symm.trans h1)
    have hcq : ¬ consumed rule d0 st.2 (p + rule.constellation.ancor_offset) :=
      fun hc => hnt ((h.merged _ hq hc).1.symm.trans h4)
    refine ⟨⟨hp, ?_, ?_, hq, ?_, ?_⟩, hcp, hcq⟩
    · rw [← (h.kept p hp hcp).1]; exact h1
    · rw [← h.anchor_kept hd0 p hp hcp]; exact h2
    · rw [← (h.kept _ hq hcq).1]; exact h4
    · rw [← h.anchor_kept hd0 _ hq hcq]; exact h5
  · rintro ⟨⟨hp, h1, h2, hq, h4, h5⟩, hcp, hcq⟩
    refine ⟨hp, ?_, ?_, hq, ?_, ?_⟩
    · rw [(h.kept p hp hcp).1]; exact h1
    · rw [h.anchor_kept hd0 p hp hcp]; exact h2
    · rw [(h.kept _ hq hcq).1]; exact h4
    · rw [h.anchor_kept hd0 _ hq hcq]; exact h5

/-- One cell of a pass of `apply_rule` over an image of a learning run. -/
theorem pass_step {tokens : List token_data} {rule : rule} {A B N : token_data}
    (ctx : pass_context tokens rule A B N) (d0 : image_data) (hd0 : ids_ok d0)
    (hns : N.class_id ≠ rule.constellation.source_class_id)
    (hnt : N.class_id ≠ rule.constellation.target_class_id)
    (pre post : List tg.ipos2) (p : tg.ipos2)
    (hscan : scan d0.initial_token_class.width d0.initial_token_class.height
      = pre ++ p :: post)
    (st : image_data × List tg.ipos2) (h : pass_state tokens rule N d0 pre st) :
    ∃ st', apply_rule_at_traced rule N st p = some st' ∧
      pass_state tokens rule N d0 (pre ++ [p]) st' := by
  have hp0 : d0.m_initial_token_class.contains p = true :=
    (mem_scan_iff_contains d0.m_initial_token_class p).1 (by
      show p ∈ scan d0.initial_token_class.width d0.initial_token_class.height
      rw [hscan]; simp)
  have hp : st.1.m_initial_token_class.contains p = true := by rw [h.init_eq]; exact hp0
  by_cases hm : rule_matches rule st.1 p
  · -- a merge
    obtain ⟨hm0, hcp, hcq⟩ := (h.matches_iff hd0 hns hnt p).1 hm
    have hq0 : d0.m_initial_token_class.contains (p + rule.constellation.ancor_offset) = true :=
      ((rule_matches_iff rule d0 hd0 p).1 hm0).2.2.2.1
    have hidp := (h.kept p hp0 hcp).2
    have hidq := (h.kept _ hq0 hcq).2
    obtain ⟨d', h1, h2, h3, h4, h5, _, h7, h8⟩ := ctx.merge_step st.1 h.inv p hm
    have hnew : ∀ r, d0.m_initial_token_class.contains r = true → ¬ consumed rule d0 st.2 r →
        ((st.1.current_token_id.val r = st.1.current_token_id.val p ∨
          st.1.current_token_id.val r
            = st.1.current_token_id.val (p + rule.constellation.ancor_offset)) ↔
        (d0.current_token_id.val r = d0.current_token_id.val p ∨
          d0.current_token_id.val r
            = d0.current_token_id.val (p + rule.constellation.ancor_offset))) := by
      intro r hr hcr
      rw [(h.kept r hr hcr).2, hidp, hidq]
    have hold : ∀ r, d0.m_initial_token_class.contains r = true → consumed rule d0 st.2 r →
        ¬ (st.1.current_token_id.val r = st.1.current_token_id.val p ∨
          st.1.current_token_id.val r
            = st.1.current_token_id.val (p + rule.constellation.ancor_offset)) := by
      intro r hr hcr
      have hge := (h.merged r hr hcr).2
      have hlp := (hd0.range p hp0).2
      have hlq := (hd0.range _ hq0).2
      rw [hidp, hidq]
      omega
    refine ⟨(d', st.2 ++ [p]), ?_, ?_⟩
    · unfold apply_rule_at_traced
      simp only [h1, Option.bind_eq_bind, Option.some_bind, Option.pure_def,
        image_data.max_token_id, h4]
      rw [if_neg (by omega)]
    · refine ⟨h2, h3.trans h.init_eq, ?_, ?_, ?_, ?_, ?_, ?_, ?_, ?_⟩
      · show d'.token_ancor = _
        rw [h5, h.ancor_eq, List.map_append, List.append_assoc]
        rfl
      · show d'.m_next_token_id = _
        rw [h4, h.next_eq, List.length_append, List.length_singleton]
        push_cast
        ring
      · exact List.Sublist.append h.sub (List.Sublist.refl _)
      · intro x hx
        rcases List.mem_append.1 hx with hx | hx
        · exact h.cand x hx
        · rw [List.mem_singleton] at hx
          subst hx
          exact hm0
      · intro r hr hc
        show d'.current_token_class.val r = _ ∧ _ ≤ d'.current_token_id.val r
        have hrs : st.1.m_initial_token_class.contains r = true := by rw [h.init_eq]; exact hr
        by_cases hcr : consumed rule d0 st.2 r
        · obtain ⟨e1, e2⟩ := h8 r (hold r hr hcr)
          rw [e1, e2]
          exact h.merged r hr hcr
        · have hnewr : d0.current_token_id.val r = d0.current_token_id.val p ∨
              d0.current_token_id.val r
                = d0.current_token_id.val (p + rule.constellation.ancor_offset) := by
            rcases (consumed_append rule d0 st.2 p r).1 hc with hc | hc
            · exact absurd hc hcr
            · exact hc
          obtain ⟨e1, e2⟩ := h7 r hrs ((hnew r hr hcr).2 hnewr)
          rw [e1, e2, h.next_eq]
          exact ⟨rfl, by omega⟩
      · intro r hr hc
        show d'.current_token_class.val r = _ ∧ d'.current_token_id.val r = _
        have hcr : ¬ consumed rule d0 st.2 r :=
          fun hcr => hc ((consumed_append rule d0 st.2 p r).2 (Or.inl hcr))
        have hnn : ¬ (d0.current_token_id.val r = d0.current_token_id.val p ∨
              d0.current_token_id.val r
                = d0.current_token_id.val (p + rule.constellation.ancor_offset)) :=
          fun hn => hc ((consumed_append rule d0 st.2 p r).2 (Or.inr hn))
        obtain ⟨e1, e2⟩ := h8 r (fun hn => hnn ((hnew r hr hcr).1 hn))
        rw [e1, e2]
        exact h.kept r hr hcr
      · show (st.2 ++ [p]).Pairwise (apart rule d0)
        rw [List.pairwise_append]
        refine ⟨h.disjoint, List.pairwise_singleton _ _, fun x hx y hy => ?_⟩
        rw [List.mem_singleton] at hy
        subst hy
        refine ⟨fun e => hcp ⟨x, hx, Or.inl e.symm⟩, fun e => hcq ⟨x, hx, Or.inl e.symm⟩,
          fun e => hcp ⟨x, hx, Or.inr e.symm⟩, fun e => hcq ⟨x, hx, Or.inr e.symm⟩⟩
      · intro x hx hmx
        show consumed rule d0 (st.2 ++ [p]) x ∨ consumed rule d0 (st.2 ++ [p]) _
        rcases List.mem_append.1 hx with hx | hx
        · rcases h.greedy x hx hmx with hc | hc
          · exact Or.inl ((consumed_append rule d0 st.2 p x).2 (Or.inl hc))
          · exact Or.inr ((consumed_append rule d0 st.2 p _).2 (Or.inl hc))
        · rw [List.mem_singleton] at hx
          subst hx
          exact Or.inl ((consumed_append rule d0 st.2 x x).2 (Or.inr (Or.inl rfl)))
  · -- no merge
    have h1 := apply_rule_at_no_match rule N st.1 p h.inv.allocated hp hm
    refine ⟨(st.1, st.2), ?_, ?_⟩
    · unfold apply_rule_at_traced
      simp only [h1, Option.bind_eq_bind, Option.some_bind, Option.pure_def, if_true]
    · refine ⟨h.inv, h.init_eq, h.ancor_eq, h.next_eq,
        h.sub.trans (List.sublist_append_left _ _), h.cand, h.merged, h.kept, h.disjoint, ?_⟩
      intro x hx hmx
      rcases List.mem_append.1 hx with hx | hx
      · exact h.greedy x hx hmx
      · rw [List.mem_singleton] at hx
        subst hx
        by_contra hcon
        rw [not_or] at hcon
        exact hm ((h.matches_iff hd0 hns hnt x).2 ⟨hmx, hcon.1, hcon.2⟩)

/-- Forgetting the record of the merges gives the cell loop of `apply_rule`. -/
theorem apply_rule_traced_fst (rule : rule) (N : token_data) (cells : List tg.ipos2)
    (st : image_data × List tg.ipos2) :
    (cells.foldlM (apply_rule_at_traced rule N) st).map Prod.fst
      = cells.foldlM (apply_rule_at rule N) st.1 := by
  induction cells generalizing st with
  | nil => rfl
  | cons p cells ih =>
    rw [List.foldlM_cons, List.foldlM_cons]
    unfold apply_rule_at_traced
    cases h : apply_rule_at rule N st.1 p with
    | none => rfl
    | some d' =>
      simp only [Option.bind_eq_bind, Option.some_bind, Option.pure_def]
      exact ih _

/-- The scan with the record of the merges returns the image that `apply_rule` returns. -/
theorem apply_rule_image_traced_fst (rule : rule) (N : token_data) (d : image_data) :
    (apply_rule_image_traced rule N d).map Prod.fst = apply_rule_image rule N d :=
  apply_rule_traced_fst rule N _ (d, [])

/-- A pass of `apply_rule` over an image of a learning run: it succeeds, and the cells at
which it merged satisfy `pass_state` for the whole scan. -/
theorem pass_spec {tokens : List token_data} {rule : rule} {A B N : token_data}
    (ctx : pass_context tokens rule A B N) (d0 : image_data) (hinv : image_inv tokens d0)
    (hns : N.class_id ≠ rule.constellation.source_class_id)
    (hnt : N.class_id ≠ rule.constellation.target_class_id) :
    ∃ d' tr, apply_rule_image_traced rule N d0 = some (d', tr) ∧
      apply_rule_image rule N d0 = some d' ∧
      pass_state tokens rule N d0
        (scan d0.initial_token_class.width d0.initial_token_class.height) (d', tr) := by
  obtain ⟨st, h1, h2⟩ := foldlM_prefix_invariant (apply_rule_at_traced rule N)
    (pass_state tokens rule N d0)
    (scan d0.initial_token_class.width d0.initial_token_class.height)
    (fun pre p post st hl hst => pass_step ctx d0 hinv.allocated hns hnt pre post p hl st hst)
    (d0, [])
    ⟨hinv, rfl, by simp, by simp, List.Sublist.refl _, (fun p hp => by cases hp),
      (fun r _ hc => Exists.elim hc (fun p hp => by cases hp.1)),
      (fun r _ _ => ⟨rfl, rfl⟩), List.Pairwise.nil, (fun p hp => by cases hp)⟩
  have h3 : apply_rule_image_traced rule N d0 = some st := h1
  refine ⟨st.1, st.2, h3, ?_, h2⟩
  rw [← apply_rule_image_traced_fst, h3]
  rfl

/-! ## Instances are translates of their shape -/

/-- The layout of the instance that covers a cell of an image of a learning run: the cell
is the anchor plus an offset of the shape of its class, and every offset of the shape gives
a cell of the grid with the same id. -/
theorem image_inv.layout {tokens : List token_data} {d : image_data}
    (hinv : image_inv tokens d) (p : tg.ipos2)
    (hp : d.m_initial_token_class.contains p = true) :
    ∃ S, index tokens (d.current_token_class.val p) = some S ∧
      (∃ o ∈ S.positions, anchor_of d p + tg.ivec2.of_pos o = p) ∧
      ∀ o ∈ S.positions,
        d.m_initial_token_class.contains (anchor_of d p + tg.ivec2.of_pos o) = true ∧
        d.current_token_id.val (anchor_of d p + tg.ivec2.of_pos o)
          = d.current_token_id.val p := by
  obtain ⟨_, _, a, S, ha, hS, hall, hex⟩ := hinv.2 p hp
  have hao : anchor_of d p = a := by unfold anchor_of; rw [ha]; rfl
  rw [hao]
  refine ⟨S, hS, hex, fun o ho => ?_⟩
  obtain ⟨k, hk⟩ := List.mem_iff_getElem?.1 ho
  exact ⟨(hall k o hk).1, (hall k o hk).2.1⟩

/-- A contact of one image of a learning run, moved to another image in which two anchors
carry the same two classes at the same offset: the moved cell and its neighbour are cells of
the two instances at these anchors. -/
theorem contact_translate {tokens : List token_data} {d1 d2 : image_data}
    (h1 : image_inv tokens d1) (h2 : image_inv tokens d2) (x : tg.ipos2) (dir : tg.ivec2)
    (hx : d1.m_initial_token_class.contains x = true)
    (hy : d1.m_initial_token_class.contains (x + dir) = true) (a b : tg.ipos2)
    (ha : d2.m_initial_token_class.contains a = true)
    (hb : d2.m_initial_token_class.contains b = true)
    (haa : anchor_of d2 a = a) (hbb : anchor_of d2 b = b)
    (hca : d2.current_token_class.val a = d1.current_token_class.val x)
    (hcb : d2.current_token_class.val b = d1.current_token_class.val (x + dir))
    (hoff : b - a = anchor_of d1 (x + dir) - anchor_of d1 x) (x' : tg.ipos2)
    (hx' : x' = ⟨a.x + x.x - (anchor_of d1 x).x, a.y + x.y - (anchor_of d1 x).y⟩) :
    d2.m_initial_token_class.contains x' = true ∧
    d2.current_token_id.val x' = d2.current_token_id.val a ∧
    d2.m_initial_token_class.contains (x' + dir) = true ∧
    d2.current_token_id.val (x' + dir) = d2.current_token_id.val b := by
  obtain ⟨S1, hS1, ⟨o1, ho1, e1⟩, _⟩ := h1.layout x hx
  obtain ⟨S2, hS2, ⟨o2, ho2, e2⟩, _⟩ := h1.layout (x + dir) hy
  obtain ⟨Sa, hSa, _, halla⟩ := h2.layout a ha
  obtain ⟨Sb, hSb, _, hallb⟩ := h2.layout b hb
  rw [hca, hS1] at hSa
  rw [hcb, hS2] at hSb
  cases hSa
  cases hSb
  rw [haa] at halla
  rw [hbb] at hallb
  have hox : (b - a : tg.ivec2).x = (anchor_of d1 (x + dir) - anchor_of d1 x : tg.ivec2).x := by
    rw [hoff]
  have hoy : (b - a : tg.ivec2).y = (anchor_of d1 (x + dir) - anchor_of d1 x : tg.ivec2).y := by
    rw [hoff]
  simp only [tg.ipos2.diff_x, tg.ipos2.diff_y] at hox hoy
  have e1x := congrArg tg.ipos2.x e1
  have e1y := congrArg tg.ipos2.y e1
  have e2x := congrArg tg.ipos2.x e2
  have e2y := congrArg tg.ipos2.y e2
  simp only [tg.ipos2.add_x, tg.ipos2.add_y, tg.ivec2.of_pos_x, tg.ivec2.of_pos_y] at e1x e1y
  simp only [tg.ipos2.add_x, tg.ipos2.add_y, tg.ivec2.of_pos_x, tg.ivec2.of_pos_y] at e2x e2y
  have hxa : x' = a + tg.ivec2.of_pos o1 := by
    rw [hx', tg.ipos2.ext_iff']
    simp only [tg.ipos2.add_x, tg.ipos2.add_y, tg.ivec2.of_pos_x, tg.ivec2.of_pos_y]
    omega
  have hxb : x' + dir = b + tg.ivec2.of_pos o2 := by
    rw [hx', tg.ipos2.ext_iff']
    simp only [tg.ipos2.add_x, tg.ipos2.add_y, tg.ivec2.of_pos_x, tg.ivec2.of_pos_y]
    omega
  rw [hxb, hxa]
  exact ⟨(halla o1 ho1).1, (halla o1 ho1).2, (hallb o2 ho2).1, (hallb o2 ho2).2⟩

/-! ## Votes and merge candidates -/

theorem ivec2_ext (u v : tg.ivec2) (hx : u.x = v.x) (hy : u.y = v.y) : u = v := by
  cases u; cases v; simp only at hx hy; rw [hx, hy]

theorem mem_voters (d : image_data) (c : tg.ipos2 × tg.ivec2) (hc : c ∈ voters d) :
    c.2 ∈ directions ∧ is_contact d c :=
  (mem_contacts d c).1 (first_by_subset _ _ _ c hc)

theorem mem_candidates (rule : rule) (d : image_data) (hd : ids_ok d) (p : tg.ipos2) :
    p ∈ candidates rule d ↔ rule_matches rule d p := by
  unfold candidates
  rw [List.mem_filter, decide_eq_true_eq]
  constructor
  · exact fun h => h.2
  · intro h
    exact ⟨(mem_scan_iff_contains d.m_initial_token_class p).2
      ((rule_matches_iff rule d hd p).1 h).1, h⟩

/-- A voting contact gives a merge candidate for its constellation: the anchor of the
instance of its cell. -/
theorem candidate_of_voter (d : image_data) (h : anchors_ok d) (c0 : tg.ipos2 × tg.ivec2)
    (hc0 : c0 ∈ voters d) (n : Int) :
    rule_matches { constellation := vote_of d c0, new_token_id := n } d (anchor_of d c0.1) := by
  obtain ⟨_, hp, hq, _⟩ := mem_voters d c0 hc0
  have hb : anchor_of d c0.1 + (vote_of d c0).ancor_offset = anchor_of d (c0.1 + c0.2) := by
    rw [tg.ipos2.ext_iff']
    simp only [vote_of, tg.ipos2.add_x, tg.ipos2.add_y, tg.ipos2.diff_x, tg.ipos2.diff_y]
    omega
  rw [rule_matches_iff _ d h.allocated]
  simp only []
  rw [hb]
  exact ⟨h.inside _ hp, h.same_class _ hp, h.own _ hp, h.inside _ hq, h.same_class _ hq,
    h.own _ hq⟩

/-- Where a constellation that received a vote somewhere in the corpus matches, the two
instances touch and their voting contact votes for this constellation from the source
instance. -/
theorem voter_of_candidate {tokens : List token_data} {d dref : image_data}
    (hinv : image_inv tokens d) (hinvr : image_inv tokens dref)
    (hshapes : ∀ i t, index tokens i = some t → shape_ok t)
    (cref : tg.ipos2 × tg.ivec2) (hcref : cref ∈ voters dref) (n : Int) (a : tg.ipos2)
    (hm : rule_matches { constellation := vote_of dref cref, new_token_id := n } d a) :
    ∃ c1 ∈ voters d, vote_of d c1 = vote_of dref cref ∧ anchor_of d c1.1 = a := by
  have hA := hinv.anchors hshapes
  have hR := hinvr.anchors hshapes
  obtain ⟨hdir, hxr, hyr, hner⟩ := mem_voters dref cref hcref
  obtain ⟨ha, hca, haa, hb, hcb, hbb⟩ := (rule_matches_iff _ d hA.allocated a).1 hm
  simp only [] at hca hb hcb hbb
  have hDx : (vote_of dref cref).ancor_offset.x
      = (anchor_of dref (cref.1 + cref.2)).x - (anchor_of dref cref.1).x := rfl
  have hDy : (vote_of dref cref).ancor_offset.y
      = (anchor_of dref (cref.1 + cref.2)).y - (anchor_of dref cref.1).y := rfl
  -- the two instances of `d` are different
  have hidab : d.current_token_id.val a
      ≠ d.current_token_id.val (a + (vote_of dref cref).ancor_offset) := by
    intro heq
    have h1 := anchor_of_congr d _ _ heq
    rw [haa, hbb] at h1
    have h1x := congrArg tg.ipos2.x h1
    have h1y := congrArg tg.ipos2.y h1
    simp only [tg.ipos2.add_x, tg.ipos2.add_y] at h1x h1y
    apply hner
    apply hR.inj _ _ hxr hyr
    rw [tg.ipos2.ext_iff']
    omega
  -- the reference contact moved to `d`
  obtain ⟨hx1, hx2, hx3, hx4⟩ := contact_translate hinvr hinv cref.1 cref.2 hxr hyr a
    (a + (vote_of dref cref).ancor_offset) ha hb haa hbb hca hcb
    (ivec2_ext _ _ (by simp only [tg.ipos2.diff_x, tg.ipos2.add_x]; omega)
      (by simp only [tg.ipos2.diff_y, tg.ipos2.add_y]; omega))
    ⟨a.x + cref.1.x - (anchor_of dref cref.1).x, a.y + cref.1.y - (anchor_of dref cref.1).y⟩ rfl
  have hmemx : ((⟨a.x + cref.1.x - (anchor_of dref cref.1).x,
      a.y + cref.1.y - (anchor_of dref cref.1).y⟩ : tg.ipos2), cref.2) ∈ contacts d :=
    (mem_contacts d _).2 ⟨hdir, hx1, hx3, by
      show d.current_token_id.val _ ≠ d.current_token_id.val _
      rw [hx2, hx4]; exact hidab⟩
  have hkeyx : ancor_pair d ((⟨a.x + cref.1.x - (anchor_of dref cref.1).x,
      a.y + cref.1.y - (anchor_of dref cref.1).y⟩ : tg.ipos2), cref.2)
      = Sym2.mk (a, a + (vote_of dref cref).ancor_offset) := by
    unfold ancor_pair ancor_key
    simp only []
    rw [anchor_of_congr d _ _ hx2, anchor_of_congr d _ _ hx4, haa, hbb]
  obtain ⟨c1, hc1, hk1⟩ := first_by_cover (ancor_pair d) [] (contacts d) _ hmemx
    (List.not_mem_nil _)
  obtain ⟨hdir1, hy1, hz1, hne1⟩ := mem_voters d c1 hc1
  have hk1' : Sym2.mk (anchor_of d c1.1, anchor_of d (c1.1 + c1.2))
      = Sym2.mk (a, a + (vote_of dref cref).ancor_offset) := hk1.trans hkeyx
  rw [Sym2.eq_iff] at hk1'
  rcases hk1' with ⟨e1, e2⟩ | ⟨e1, e2⟩
  · -- the voting contact starts in the source instance
    refine ⟨c1, hc1, ?_, e1⟩
    have hs : d.current_token_class.val c1.1 = d.current_token_class.val a := by
      rw [← hA.same_class _ hy1, e1]
    have ht : d.current_token_class.val (c1.1 + c1.2)
        = d.current_token_class.val (a + (vote_of dref cref).ancor_offset) := by
      rw [← hA.same_class _ hz1, e2]
    have ho : anchor_of d (c1.1 + c1.2) - anchor_of d c1.1
        = (vote_of dref cref).ancor_offset := by
      rw [e1, e2]
      exact ivec2_ext _ _ (by simp only [tg.ipos2.diff_x, tg.ipos2.add_x]; omega)
        (by simp only [tg.ipos2.diff_y, tg.ipos2.add_y]; omega)
    show ({ source_class_id := d.current_token_class.val c1.1
            target_class_id := d.current_token_class.val (c1.1 + c1.2)
            ancor_offset := anchor_of d (c1.1 + c1.2) - anchor_of d c1.1 } : constellation) = _
    rw [hs, ht, ho, hca, hcb]
  · -- the voting contact cannot start in the target instance
    exfalso
    have hcb1 : dref.current_token_class.val (anchor_of dref (cref.1 + cref.2))
        = d.current_token_class.val c1.1 := by
      rw [hR.same_class _ hyr, ← hA.same_class _ hy1, e1, hcb]
      rfl
    have hca1 : dref.current_token_class.val (anchor_of dref cref.1)
        = d.current_token_class.val (c1.1 + c1.2) := by
      rw [hR.same_class _ hxr, ← hA.same_class _ hz1, e2, hca]
      rfl
    obtain ⟨g1, g2, g3, g4⟩ := contact_translate hinv hinvr c1.1 c1.2 hy1 hz1
      (anchor_of dref (cref.1 + cref.2)) (anchor_of dref cref.1) (hR.inside _ hyr)
      (hR.inside _ hxr) (hR.own _ hyr) (hR.own _ hxr) hcb1 hca1
      (by
        rw [e1, e2]
        exact ivec2_ext _ _ (by simp only [tg.ipos2.diff_x, tg.ipos2.add_x]; omega)
          (by simp only [tg.ipos2.diff_y, tg.ipos2.add_y]; omega))
      ⟨(anchor_of dref (cref.1 + cref.2)).x + c1.1.x - (anchor_of d c1.1).x,
        (anchor_of dref (cref.1 + cref.2)).y + c1.1.y - (anchor_of d c1.1).y⟩ rfl
    have hmemy : ((⟨(anchor_of dref (cref.1 + cref.2)).x + c1.1.x - (anchor_of d c1.1).x,
        (anchor_of dref (cref.1 + cref.2)).y + c1.1.y - (anchor_of d c1.1).y⟩ : tg.ipos2),
        c1.2) ∈ contacts dref :=
      (mem_contacts dref _).2 ⟨hdir1, g1, g3, by
        show dref.current_token_id.val _ ≠ dref.current_token_id.val _
        rw [g2, g4, hR.same_id _ hyr, hR.same_id _ hxr]
        exact fun h => hner h.symm⟩
    have hkeyy : ancor_pair dref
        ((⟨(anchor_of dref (cref.1 + cref.2)).x + c1.1.x - (anchor_of d c1.1).x,
          (anchor_of dref (cref.1 + cref.2)).y + c1.1.y - (anchor_of d c1.1).y⟩ : tg.ipos2),
          c1.2) = ancor_pair dref cref := by
      unfold ancor_pair ancor_key
      simp only []
      rw [anchor_of_congr dref _ _ g2, anchor_of_congr dref _ _ g4, hR.own _ hyr, hR.own _ hxr]
      exact Sym2.eq_swap
    have hf1 := first_contact dref cref _ hcref hmemy hkeyy
    have hf2 := first_contact d c1 _ hc1 hmemx hk1.symm
    have hidc : d.current_token_id.val c1.1
        = d.current_token_id.val (a + (vote_of dref cref).ancor_offset) := by
      rw [← hA.same_id _ hy1, e1]
    have e1x := congrArg tg.ipos2.x e1
    have e1y := congrArg tg.ipos2.y e1
    simp only [tg.ipos2.add_x, tg.ipos2.add_y] at e1x e1y
    have heq : c1.1 = ⟨a.x + cref.1.x - (anchor_of dref cref.1).x,
        a.y + cref.1.y - (anchor_of dref cref.1).y⟩ := by
      rw [tg.ipos2.ext_iff']
      unfold scan_lt at hf1 hf2
      simp only at hf1 hf2 ⊢
      omega
    apply hidab
    rw [← hx2, ← heq, hidc]

/-- Voting contacts with the same vote and the same source anchor are equal. -/
theorem voters_inj (d : image_data) (c0 c1 : tg.ipos2 × tg.ivec2) (h0 : c0 ∈ voters d)
    (h1 : c1 ∈ voters d) (hv : vote_of d c0 = vote_of d c1)
    (ha : anchor_of d c0.1 = anchor_of d c1.1) : c0 = c1 := by
  have hn := first_by_nodup (ancor_pair d) [] (contacts d)
  apply List.inj_on_of_nodup_map hn h0 h1
  have hox : (vote_of d c0).ancor_offset.x = (vote_of d c1).ancor_offset.x := by rw [hv]
  have hoy : (vote_of d c0).ancor_offset.y = (vote_of d c1).ancor_offset.y := by rw [hv]
  simp only [vote_of, tg.ipos2.diff_x, tg.ipos2.diff_y] at hox hoy
  have hb : anchor_of d (c0.1 + c0.2) = anchor_of d (c1.1 + c1.2) := by
    have hax := congrArg tg.ipos2.x ha
    have hay := congrArg tg.ipos2.y ha
    rw [tg.ipos2.ext_iff']
    omega
  unfold ancor_pair ancor_key
  rw [ha, hb]

/-- In an image of a learning run the votes for a constellation that received a vote
somewhere in the corpus are as many as the cells at which its rule matches. -/
theorem candidates_count {tokens : List token_data} {d dref : image_data}
    (hinv : image_inv tokens d) (hinvr : image_inv tokens dref)
    (hshapes : ∀ i t, index tokens i = some t → shape_ok t)
    (cref : tg.ipos2 × tg.ivec2) (hcref : cref ∈ voters dref) (n : Int) :
    ((voters d).map (vote_of d)).count (vote_of dref cref)
      = (candidates { constellation := vote_of dref cref, new_token_id := n } d).length := by
  have hA := hinv.anchors hshapes
  have hnodup : (voters d).Nodup :=
    List.Nodup.of_map _ (first_by_nodup (ancor_pair d) [] (contacts d))
  rw [List.count_eq_countP, List.countP_map, List.countP_eq_length_filter,
    ← List.length_map ((voters d).filter _) (fun c0 => anchor_of d c0.1)]
  apply List.Perm.length_eq
  rw [List.perm_ext_iff_of_nodup]
  · intro a
    rw [mem_candidates _ d hA.allocated]
    simp only [List.mem_map, List.mem_filter, Function.comp, beq_iff_eq]
    constructor
    · rintro ⟨c0, ⟨hc0, hv⟩, rfl⟩
      have := candidate_of_voter d hA c0 hc0 n
      rw [hv] at this
      exact this
    · intro hm
      obtain ⟨c1, hc1, hv, ha⟩ := voter_of_candidate hinv hinvr hshapes cref hcref n a hm
      exact ⟨c1, ⟨hc1, hv⟩, ha⟩
  · refine List.Nodup.map_on (fun x hx y hy hxy => ?_) (hnodup.filter _)
    simp only [List.mem_filter, Function.comp, beq_iff_eq] at hx hy
    exact voters_inj d x y hx.1 hy.1 (hx.2.trans hy.2.symm) hxy
  · exact (scan_nodup _ _).filter _

/-- The votes of a corpus are the votes of its images, one image after the other. -/
theorem corpus_votes_flatMap (images : List image_data) (V : image_data → List constellation)
    (hV : ∀ d ∈ images, image_votes d = some (V d)) (acc : List constellation) :
    images.foldlM (fun acc image => do
      let votes ← image_votes image
      pure (acc ++ votes)) acc = some (acc ++ images.flatMap V) := by
  induction images generalizing acc with
  | nil => simp
  | cons d images ih =>
    have ih' := ih (fun x hx => hV x (List.mem_cons_of_mem _ hx)) (acc ++ V d)
    simp only [Option.bind_eq_bind, Option.pure_def] at ih' ⊢
    rw [List.foldlM_cons, hV d (List.mem_cons_self _ _)]
    simp only [Option.bind_eq_bind, Option.some_bind]
    rw [ih', List.flatMap_cons, List.append_assoc]

/-- In a state of a learning run the count of a constellation is the sum over the images of
the numbers of its votes. -/
theorem count_constellations_sum (s : tokenizer_state) (hs : state_inv s) :
    ∃ m, count_constellations s.image_data = some m ∧ count_map_ok m ∧
      ∀ key, m.count key
        = ((s.image_data.map fun d => ((voters d).map (vote_of d)).count key).sum : Nat) := by
  have hvotes : corpus_votes s.image_data
      = some (s.image_data.flatMap fun d => (voters d).map (vote_of d)) := by
    have := corpus_votes_flatMap s.image_data (fun d => (voters d).map (vote_of d))
      (fun d hd => image_votes_closed d (hs.images d hd).allocated) []
    simpa [corpus_votes] using this
  have hcount := count_constellations_of_votes _ _ hvotes
  obtain ⟨votes, hv, hok, hcounts⟩ := count_constellations_spec _ _ hcount
  rw [hvotes] at hv
  cases hv
  refine ⟨_, hcount, hok, fun key => ?_⟩
  rw [hcounts key, List.count_flatMap]
  rfl

/-! ## The passes of a learning run -/

/-- The pass of a learning iteration: the shapes extended by the new shape, the rule with the
new class, which differs from the source and the target class. -/
theorem iteration_pass (s : tokenizer_state) (hs : state_inv s) (c : constellation)
    (N : token_data) (hcomb : combine_tokens c s.tokens = some N) :
    ∃ A B, pass_context (s.tokens ++ [N])
        { constellation := c, new_token_id := (s.tokens.length : Int) } A B N ∧
      iteration_context s c A B N ∧
      N.class_id ≠ c.source_class_id ∧ N.class_id ≠ c.target_class_id ∧
      ∀ d ∈ s.image_data, image_inv (s.tokens ++ [N]) d := by
  obtain ⟨A, B, hctx⟩ := combine_tokens_context s c N hs.shapes hcomb
  have hshapes' : ∀ i t, index (s.tokens ++ [N]) i = some t → shape_ok t := by
    intro i t hi
    rcases index_append_singleton _ _ _ _ hi with h1 | ⟨_, rfl⟩
    · exact hs.shapes _ _ h1
    · exact hctx.okN
  have hN' : index (s.tokens ++ [N]) N.class_id = some N := by
    rw [hctx.class_id]; exact index_length_append _ _
  refine ⟨A, B, ⟨hshapes', index_append_left _ _ _ _ hctx.srcA,
    index_append_left _ _ _ _ hctx.tgtB, hN', hctx.pos, hctx.cls⟩, hctx, ?_, ?_,
    fun d hd => image_inv_append _ _ _ (hs.images d hd)⟩
  · have := (index_lt _ _ _ hctx.srcA).2
    rw [hctx.class_id]; omega
  · have := (index_lt _ _ _ hctx.tgtB).2
    rw [hctx.class_id]; omega

theorem apart_symm (rule : rule) (d0 : image_data) : Symmetric (apart rule d0) :=
  fun _ _ h => ⟨h.1.symm, h.2.2.1.symm, h.2.1.symm, h.2.2.2.symm⟩

/-- The cells written by a merge at a cell where the rule matches are the cells of the two
merged instances. -/
theorem pass_context.written_iff {tokens : List token_data} {rule : rule} {A B N : token_data}
    (ctx : pass_context tokens rule A B N) (d : image_data) (hinv : image_inv tokens d)
    (p : tg.ipos2) (hm : rule_matches rule d p) (r : tg.ipos2) :
    placed_inside d (merged_ancor rule p) N.positions r ↔
      d.m_initial_token_class.contains r = true ∧
        (d.current_token_id.val r = d.current_token_id.val p ∨
          d.current_token_id.val r
            = d.current_token_id.val (p + rule.constellation.ancor_offset)) := by
  have m := ctx.merge d hinv p hm
  unfold placed_inside
  rw [m.placed_iff r]
  tauto

/-- What a pass of `apply_rule` does to an image of a learning run, in terms of the cells at
which it merges. -/
theorem pass_facts {tokens : List token_data} {rule : rule} {A B N : token_data}
    (ctx : pass_context tokens rule A B N) (d : image_data) (hinv : image_inv tokens d)
    (hns : N.class_id ≠ rule.constellation.source_class_id)
    (hnt : N.class_id ≠ rule.constellation.target_class_id) :
    ∃ d' merges, apply_rule_image_traced rule N d = some (d', merges) ∧
      apply_rule_image rule N d = some d' ∧
      image_inv tokens d' ∧
      d'.max_token_id = d.max_token_id + (merges.length : Int) ∧
      merges.Sublist (candidates rule d) ∧
      (∀ p ∈ candidates rule d, consumed rule d merges p ∨
        consumed rule d merges (p + rule.constellation.ancor_offset)) ∧
      (∀ p1 ∈ merges, ∀ p2 ∈ merges, p1 ≠ p2 → apart rule d p1 p2) ∧
      (∀ p1 ∈ merges, ∀ p2 ∈ merges, ∀ r,
        placed_inside d (merged_ancor rule p1) N.positions r →
        placed_inside d (merged_ancor rule p2) N.positions r → p1 = p2) ∧
      (∀ r, d.m_initial_token_class.contains r = true →
        d'.current_token_class.val r =
          if ∃ p ∈ merges, placed_inside d (merged_ancor rule p) N.positions r
          then N.class_id else d.current_token_class.val r) := by
  obtain ⟨d', tr, h1, h2, hst⟩ := pass_spec ctx d hinv hns hnt
  have hd := hinv.allocated
  have hcons : ∀ r, d.m_initial_token_class.contains r = true →
      (consumed rule d tr r ↔ ∃ p ∈ tr, placed_inside d (merged_ancor rule p) N.positions r) := by
    intro r hr
    unfold consumed
    constructor
    · rintro ⟨p, hp, hid⟩
      exact ⟨p, hp, (ctx.written_iff d hinv p (hst.cand p hp) r).2 ⟨hr, hid⟩⟩
    · rintro ⟨p, hp, hpl⟩
      exact ⟨p, hp, ((ctx.written_iff d hinv p (hst.cand p hp) r).1 hpl).2⟩
  refine ⟨d', tr, h1, h2, hst.inv, hst.next_eq, ?_, fun p hp => ?_,
    fun p1 h1 p2 h2 hne => hst.disjoint.forall (apart_symm rule d) h1 h2 hne,
    fun p1 hp1 p2 hp2 r hr1 hr2 => ?_, fun r hr => ?_⟩
  · have hsub := List.Sublist.filter (fun p => decide (rule_matches rule d p)) hst.sub
    rw [List.filter_eq_self.2 (fun p hp => by simpa using hst.cand p hp)] at hsub
    exact hsub
  · have hm := (mem_candidates rule d hd p).1 hp
    exact hst.greedy p ((mem_scan_iff_contains d.m_initial_token_class p).2
      ((rule_matches_iff rule d hd p).1 hm).1) hm
  · by_contra hne
    have hap := hst.disjoint.forall (apart_symm rule d) hp1 hp2 hne
    obtain ⟨_, e1⟩ := (ctx.written_iff d hinv p1 (hst.cand p1 hp1) r).1 hr1
    obtain ⟨_, e2⟩ := (ctx.written_iff d hinv p2 (hst.cand p2 hp2) r).1 hr2
    obtain ⟨a1, a2, a3, a4⟩ := hap
    rcases e1 with e1 | e1 <;> rcases e2 with e2 | e2
    · exact a1 (e1.symm.trans e2)
    · exact a2 (e1.symm.trans e2)
    · exact a3 (e1.symm.trans e2)
    · exact a4 (e1.symm.trans e2)
  · by_cases hc : consumed rule d tr r
    · rw [if_pos ((hcons r hr).1 hc)]
      exact (hst.merged r hr hc).1
    · rw [if_neg (fun h => hc ((hcons r hr).2 h))]
      exact (hst.kept r hr hc).1

/-- C32 (no re-merge within a pass).  Let `s` be a state reached by a learning run on a
corpus with all cells in `[0, token_max]`, `c` a constellation that `combine_tokens` accepts
(in particular the winner) and `N` the new shape.  The new class differs from the source and
the target class, and in every image the pass of `apply_rule` for the rule `(c, new class)`
succeeds; with `merges` the cells at which it allocates an id, in scan order: the merges are
at pairwise different cells, each at a cell where the rule matches in the image before the
pass, any two of them join four different instances of the image before the pass
(`apart`), no cell is written by two of them, and after the pass exactly the written cells
carry the new class. -/
theorem no_remerge_within_pass (order : map_iteration) (token_max tokens_to_create : Int)
    (image_size : tg.isize2) (files : List (String × Int × img.image Int))
    (s : tokenizer_state) (hfiles : corpus_ok token_max files)
    (hrun : tokenize order token_max tokens_to_create image_size files = some s)
    (c : constellation) (N : token_data) (hN : combine_tokens c s.tokens = some N) :
    N.class_id ≠ c.source_class_id ∧ N.class_id ≠ c.target_class_id ∧
    ∀ d ∈ s.image_data, ∃ d' merges,
      apply_rule_image_traced { constellation := c, new_token_id := (s.tokens.length : Int) }
        N d = some (d', merges) ∧
      apply_rule_image { constellation := c, new_token_id := (s.tokens.length : Int) } N d
        = some d' ∧
      d'.max_token_id = d.max_token_id + (merges.length : Int) ∧
      merges.Nodup ∧
      (∀ p ∈ merges,
        rule_matches { constellation := c, new_token_id := (s.tokens.length : Int) } d p) ∧
      (∀ p1 ∈ merges, ∀ p2 ∈ merges, p1 ≠ p2 →
        apart { constellation := c, new_token_id := (s.tokens.length : Int) } d p1 p2) ∧
      (∀ p1 ∈ merges, ∀ p2 ∈ merges, ∀ r,
        placed_inside d
          (merged_ancor { constellation := c, new_token_id := (s.tokens.length : Int) } p1)
          N.positions r →
        placed_inside d
          (merged_ancor { constellation := c, new_token_id := (s.tokens.length : Int) } p2)
          N.positions r → p1 = p2) ∧
      (∀ r, d.m_initial_token_class.contains r = true →
        d'.current_token_class.val r =
          if ∃ p ∈ merges, placed_inside d
            (merged_ancor { constellation := c, new_token_id := (s.tokens.length : Int) } p)
            N.positions r
          then N.class_id else d.current_token_class.val r) := by
  obtain ⟨hs, _⟩ := tokenize_inv order token_max tokens_to_create image_size files s hfiles hrun
  obtain ⟨A, B, ctx, _, hns, hnt, himg⟩ := iteration_pass s hs c N hN
  refine ⟨hns, hnt, fun d hd => ?_⟩
  obtain ⟨d', merges, h1, h2, _, h4, h5, _, h7, h8, h9⟩ :=
    pass_facts ctx d (himg d hd) hns hnt
  have hnodup : merges.Nodup :=
    List.Nodup.sublist h5 ((scan_nodup _ _).filter _)
  exact ⟨d', merges, h1, h2, h4, hnodup,
    fun p hp => (mem_candidates _ d (himg d hd).allocated p).1 (h5.subset hp), h7, h8, h9⟩

theorem no_remerge_within_pass_witness :
    corpus_ok 1 quad_files ∧
    ∃ s N, tokenize insertion_order 1 0 ⟨4, 1⟩ quad_files = some s ∧
      combine_tokens ⟨1, 1, ⟨1, 0⟩⟩ s.tokens = some N ∧
      N.class_id ≠ (⟨1, 1, ⟨1, 0⟩⟩ : constellation).source_class_id ∧
      N.class_id ≠ (⟨1, 1, ⟨1, 0⟩⟩ : constellation).target_class_id ∧
      ∀ d ∈ s.image_data, ∃ d' merges,
        apply_rule_image_traced
          { constellation := ⟨1, 1, ⟨1, 0⟩⟩, new_token_id := (s.tokens.length : Int) }
          N d = some (d', merges) ∧
        apply_rule_image
          { constellation := ⟨1, 1, ⟨1, 0⟩⟩, new_token_id := (s.tokens.length : Int) } N d
          = some d' ∧
        d'.max_token_id = d.max_token_id + (merges.length : Int) ∧
        merges.Nodup ∧
        (∀ p ∈ merges,
          rule_matches
            { constellation := ⟨1, 1, ⟨1, 0⟩⟩, new_token_id := (s.tokens.length : Int) } d p) ∧
        (∀ p1 ∈ merges, ∀ p2 ∈ merges, p1 ≠ p2 →
          apart { constellation := ⟨1, 1, ⟨1, 0⟩⟩, new_token_id := (s.tokens.length : Int) }
            d p1 p2) ∧
        (∀ p1 ∈ merges, ∀ p2 ∈ merges, ∀ r,
          placed_inside d
            (merged_ancor
              { constellation := ⟨1, 1, ⟨1, 0⟩⟩, new_token_id := (s.tokens.length : Int) } p1)
            N.positions r →
          placed_inside d
            (merged_ancor
              { constellation := ⟨1, 1, ⟨1, 0⟩⟩, new_token_id := (s.tokens.length : Int) } p2)
            N.positions r → p1 = p2) ∧
        (∀ r, d.m_initial_token_class.contains r = true →
          d'.current_token_class.val r =
            if ∃ p ∈ merges, placed_inside d
              (merged_ancor
                { constellation := ⟨1, 1, ⟨1, 0⟩⟩, new_token_id := (s.tokens.length : Int) } p)
              N.positions r
            then N.class_id else d.current_token_class.val r) :=
  ⟨by decide, (tokenize insertion_order 1 0 ⟨4, 1⟩ quad_files).get (by decide),
    (combine_tokens ⟨1, 1, ⟨1, 0⟩⟩
      ((tokenize insertion_order 1 0 ⟨4, 1⟩ quad_files).get (by decide)).tokens).get (by decide),
    by simp, by simp,
    no_remerge_within_pass insertion_order 1 0 ⟨4, 1⟩ quad_files _ (by decide) (by simp) _ _
      (by simp)⟩

/-! ## The number of merges of a learning iteration -/

/-- The number of merges of a pass over one image against the number of cells at which the
rule matches before the pass. -/
theorem pass_count {tokens : List token_data} {rule : rule} {A B N : token_data}
    (ctx : pass_context tokens rule A B N) (d d' : image_data) (hinv : image_inv tokens d)
    (hns : N.class_id ≠ rule.constellation.source_class_id)
    (hnt : N.class_id ≠ rule.constellation.target_class_id)
    (happ : apply_rule_image rule N d = some d') :
    ∃ k : Nat, d'.max_token_id - d.max_token_id = (k : Int) ∧
      k ≤ (candidates rule d).length ∧
      (1 ≤ (candidates rule d).length → 1 ≤ k) ∧
      (rule.constellation.source_class_id ≠ rule.constellation.target_class_id →
        k = (candidates rule d).length) := by
  obtain ⟨d'', tr, _, h2, _, h4, h5, h6, _⟩ := pass_facts ctx d hinv hns hnt
  rw [happ] at h2
  cases h2
  have hA := hinv.anchors ctx.shapes
  have hd := hinv.allocated
  refine ⟨tr.length, by rw [h4]; ring, h5.length_le, fun hpos => ?_, fun hne => ?_⟩
  · cases hc : candidates rule d with
    | nil => rw [hc] at hpos; simp at hpos
    | cons p rest =>
      have hp : p ∈ candidates rule d := by rw [hc]; exact List.mem_cons_self _ _
      have hex : ∃ p' , p' ∈ tr := by
        rcases h6 p hp with ⟨p', hp', _⟩ | ⟨p', hp', _⟩ <;> exact ⟨p', hp'⟩
      obtain ⟨p', hp'⟩ := hex
      exact List.length_pos_of_mem hp'
  · refine le_antisymm h5.length_le ?_
    refine (List.Nodup.subperm ((scan_nodup _ _).filter _) (fun p hp => ?_)).length_le
    obtain ⟨hpi, hcp, hap, hqi, hcq, haq⟩ :=
      (rule_matches_iff rule d hd p).1 ((mem_candidates rule d hd p).1 hp)
    have key : ∀ p' ∈ tr,
        (d.current_token_id.val p = d.current_token_id.val p' ∨
          d.current_token_id.val p
            = d.current_token_id.val (p' + rule.constellation.ancor_offset) ∨
          d.current_token_id.val (p + rule.constellation.ancor_offset)
            = d.current_token_id.val p' ∨
          d.current_token_id.val (p + rule.constellation.ancor_offset)
            = d.current_token_id.val (p' + rule.constellation.ancor_offset)) → p = p' := by
      intro p' hp' hid
      obtain ⟨hpi', hcp', hap', hqi', hcq', haq'⟩ :=
        (rule_matches_iff rule d hd p').1 ((mem_candidates rule d hd p').1 (h5.subset hp'))
      rcases hid with e | e | e | e
      · have := anchor_of_congr d _ _ e
        rw [hap, hap'] at this
        exact this
      · exfalso
        apply hne
        rw [← hcp, ← hcq', ← hA.same_class _ hpi, ← hA.same_class _ hqi',
          anchor_of_congr d _ _ e]
      · exfalso
        apply hne
        rw [← hcp', ← hcq, ← hA.same_class _ hpi', ← hA.same_class _ hqi,
          anchor_of_congr d _ _ e]
      · have := anchor_of_congr d _ _ e
        rw [haq, haq'] at this
        have hx := congrArg tg.ipos2.x this
        have hy := congrArg tg.ipos2.y this
        simp only [tg.ipos2.add_x, tg.ipos2.add_y] at hx hy
        rw [tg.ipos2.ext_iff']
        omega
    rcases h6 p hp with ⟨p', hp', e | e⟩ | ⟨p', hp', e | e⟩
    · rw [key p' hp' (Or.inl e)]; exact hp'
    · rw [key p' hp' (Or.inr (Or.inl e))]; exact hp'
    · rw [key p' hp' (Or.inr (Or.inr (Or.inl e)))]; exact hp'
    · rw [key p' hp' (Or.inr (Or.inr (Or.inr e)))]; exact hp'

/-- Summing the per-image bounds over the corpus. -/
theorem merges_sum (E : Prop) (f : image_data → Nat) (before after : List image_data)
    (h : List.Forall₂ (fun d d' => ∃ k : Nat, d'.max_token_id - d.max_token_id = (k : Int) ∧
      k ≤ f d ∧ (1 ≤ f d → 1 ≤ k) ∧ (E → k = f d)) before after) :
    0 ≤ merges_performed before after ∧
    merges_performed before after ≤ ((before.map f).sum : Nat) ∧
    (1 ≤ (before.map f).sum → 1 ≤ merges_performed before after) ∧
    (E → merges_performed before after = ((before.map f).sum : Nat)) := by
  unfold merges_performed
  induction h with
  | nil => simp
  | @cons d d' l l' hd _ ih =>
    obtain ⟨k, hk, h1, h2, h3⟩ := hd
    obtain ⟨i0, i1, i2, i3⟩ := ih
    simp only [List.zipWith_cons_cons, List.sum_cons, List.map_cons, hk, Nat.cast_add]
    refine ⟨by omega, by omega, fun hpos => ?_, fun hE => ?_⟩
    · by_cases hf : 1 ≤ f d
      · have := h2 hf
        omega
      · have := i2 (by omega)
        omega
    · have := h3 hE
      have := i3 hE
      omega

theorem exists_pos_of_sum_pos (l : List Nat) (h : 1 ≤ l.sum) : ∃ x ∈ l, 1 ≤ x := by
  induction l with
  | nil => simp at h
  | cons x l ih =>
    by_cases hx : 1 ≤ x
    · exact ⟨x, List.mem_cons_self _ _, hx⟩
    · rw [List.sum_cons] at h
      obtain ⟨y, hy, h1⟩ := ih (by omega)
      exact ⟨y, List.mem_cons_of_mem _ hy, h1⟩

/-- A learning iteration in a state whose counter map is not empty: the winner, its count
and the number of merges of the pass over the corpus. -/
theorem iteration_merges (order : map_iteration) (s : tokenizer_state) (hs : state_inv s)
    (m : count_map) (hm : count_constellations s.image_data = some m) (hne : m ≠ []) :
    ∃ c s', get_most_common_constellation order s.image_data = some c ∧
      tokenize_iteration order s = some s' ∧
      (∀ k, m.count k ≤ m.count c) ∧
      1 ≤ merges_performed s.image_data s'.image_data ∧
      merges_performed s.image_data s'.image_data ≤ m.count c ∧
      (c.source_class_id ≠ c.target_class_id →
        merges_performed s.image_data s'.image_data = m.count c) := by
  obtain ⟨m', hm', hok, hsum⟩ := count_constellations_sum s hs
  rw [hm] at hm'
  cases hm'
  obtain ⟨_, _, _, _, _, ⟨e, he, hec⟩, hmax⟩ := winner_spec order m hok hne
  have hwin := get_most_common_constellation_eq order s.image_data m hm
  obtain ⟨m2, hm2, hsome, _⟩ := tokenize_iteration_progress order s hs
  rw [hm] at hm2
  cases hm2
  obtain ⟨s', hs'⟩ := hsome hne
  obtain ⟨c, N, hc, hstep⟩ := tokenize_iteration_some order s s' hs'
  have hcw : (find_max (order.visit m)).1 = c := by
    rw [hwin] at hc
    exact Option.some.inj hc
  rw [hcw] at hmax hec
  have hpos : 1 ≤ m.count c := by
    rw [← hec, hok.count_of_mem e.1 e.2 he]
    exact hok.positive e he
  have hsumc := hsum c
  have hpos' : 1 ≤ (s.image_data.map fun d => ((voters d).map (vote_of d)).count c).sum := by
    rw [hsumc] at hpos
    exact_mod_cast hpos
  obtain ⟨x, hx, hx1⟩ := exists_pos_of_sum_pos _ hpos'
  obtain ⟨dref, hdref, rfl⟩ := List.mem_map.1 hx
  obtain ⟨v, hv, hvc⟩ := List.mem_map.1 (List.count_pos_iff.1 (Nat.lt_of_lt_of_le Nat.zero_lt_one hx1))
  subst hvc
  obtain ⟨A, B, ctx, _, hns, hnt, himg⟩ := iteration_pass s hs _ N hstep.combined
  have hall := mapM_some _ _ _ hstep.applied
  have hall' : List.Forall₂
    (fun (d d' : image_data) => ∃ k : Nat, d'.max_token_id - d.max_token_id = (k : Int) ∧
      k ≤ (candidates
        { constellation := vote_of dref v, new_token_id := (s.tokens.length : Int) } d).length ∧
      (1 ≤ (candidates
        { constellation := vote_of dref v, new_token_id := (s.tokens.length : Int) } d).length → 1 ≤ k) ∧
      ((vote_of dref v).source_class_id ≠ (vote_of dref v).target_class_id →
        k = (candidates
        { constellation := vote_of dref v, new_token_id := (s.tokens.length : Int) } d).length))
    s.image_data s'.image_data :=
    forall₂_imp_mem hall (fun d d' hd _ happ => pass_count ctx d d' (himg d hd) hns hnt happ)
  obtain ⟨_, h1, h2, h3⟩ := merges_sum _ _ _ _ hall'
  have hcount : (s.image_data.map fun d => (candidates
        { constellation := vote_of dref v, new_token_id := (s.tokens.length : Int) } d).length)
      = s.image_data.map fun d => ((voters d).map (vote_of d)).count (vote_of dref v) :=
    List.map_congr_left fun d hd =>
      (candidates_count (hs.images d hd) (hs.images dref hdref) hs.shapes v hv _).symm
  rw [hcount, ← hsumc] at h1 h3
  rw [hcount] at h2
  exact ⟨_, s', hc, hs', hmax, h2 hpos', h1, h3⟩

/-- C36 (progress).  In a state reached by a learning run in which the counter has counted
a constellation, the iteration succeeds, and the number of merges that `apply_rule` performs
for the winner over the whole corpus is at least `1` and at most the winner's count. -/
theorem merge_progress (order : map_iteration) (token_max tokens_to_create : Int)
    (image_size : tg.isize2) (files : List (String × Int × img.image Int))
    (s : tokenizer_state) (hfiles : corpus_ok token_max files)
    (hrun : tokenize order token_max tokens_to_create image_size files = some s)
    (m : count_map) (hm : count_constellations s.image_data = some m) (hne : m ≠ []) :
    ∃ c s', get_most_common_constellation order s.image_data = some c ∧
      tokenize_iteration order s = some s' ∧
      1 ≤ merges_performed s.image_data s'.image_data ∧
      merges_performed s.image_data s'.image_data ≤ m.count c := by
  obtain ⟨hs, _⟩ := tokenize_inv order token_max tokens_to_create image_size files s hfiles hrun
  obtain ⟨c, s', h1, h2, _, h4, h5, _⟩ := iteration_merges order s hs m hm hne
  exact ⟨c, s', h1, h2, h4, h5⟩

theorem merge_progress_witness :
    corpus_ok 1 quad_files ∧
    ∃ s m, tokenize insertion_order 1 0 ⟨4, 1⟩ quad_files = some s ∧
      count_constellations s.image_data = some m ∧ m ≠ [] ∧
      ∃ c s', get_most_common_constellation insertion_order s.image_data = some c ∧
        tokenize_iteration insertion_order s = some s' ∧
        1 ≤ merges_performed s.image_data s'.image_data ∧
        merges_performed s.image_data s'.image_data ≤ m.count c :=
  ⟨by decide, (tokenize insertion_order 1 0 ⟨4, 1⟩ quad_files).get (by decide),
    (count_constellations
      ((tokenize insertion_order 1 0 ⟨4, 1⟩ quad_files).get (by decide)).image_data).get
      (by decide),
    by simp, by simp, by decide,
    merge_progress insertion_order 1 0 ⟨4, 1⟩ quad_files _ (by decide) (by simp) _ (by simp)
      (by decide)⟩

/-- C37 (count equals merges for distinct classes).  In a state reached by a learning run
whose winning constellation has different source and target classes, the iteration
succeeds, and the number of merges that `apply_rule` performs over the whole corpus equals
the count that the counter computed for the winner. -/
theorem count_equals_merges (order : map_iteration) (token_max tokens_to_create : Int)
    (image_size : tg.isize2) (files : List (String × Int × img.image Int))
    (s : tokenizer_state) (hfiles : corpus_ok token_max files)
    (hrun : tokenize order token_max tokens_to_create image_size files = some s)
    (c : constellation) (hc : get_most_common_constellation order s.image_data = some c)
    (hcls : c.source_class_id ≠ c.target_class_id) :
    ∃ m s', count_constellations s.image_data = some m ∧
      tokenize_iteration order s = some s' ∧
      merges_performed s.image_data s'.image_data = m.count c := by
  obtain ⟨hs, _⟩ := tokenize_inv order token_max tokens_to_create image_size files s hfiles hrun
  obtain ⟨m, hm, _, _⟩ := count_constellations_sum s hs
  have hwin := get_most_common_constellation_eq order s.image_data m hm
  have hne : m ≠ [] := by
    intro hnil
    rw [hnil, (order.visit_perm []).eq_nil, hc] at hwin
    have hcd : c = (find_max []).1 := Option.some.inj hwin
    apply hcls
    rw [hcd]
    rfl
  obtain ⟨c', s', h1, h2, _, _, _, h6⟩ := iteration_merges order s hs m hm hne
  rw [hc] at h1
  cases h1
  exact ⟨m, s', hm, h2, h6 hcls⟩

theorem count_equals_merges_witness :
    corpus_ok 2 column_files ∧
    tokenize insertion_order 2 0 ⟨1, 2⟩ column_files
      = some ((tokenize insertion_order 2 0 ⟨1, 2⟩ column_files).get (by decide)) ∧
    get_most_common_constellation insertion_order
      ((tokenize insertion_order 2 0 ⟨1, 2⟩ column_files).get (by decide)).image_data
      = some ⟨1, 2, ⟨0, 1⟩⟩ ∧
    (⟨1, 2, ⟨0, 1⟩⟩ : constellation).source_class_id
      ≠ (⟨1, 2, ⟨0, 1⟩⟩ : constellation).target_class_id ∧
    ∃ m s',
      count_constellations
        ((tokenize insertion_order 2 0 ⟨1, 2⟩ column_files).get (by decide)).image_data
        = some m ∧
      tokenize_iteration insertion_order
        ((tokenize insertion_order 2 0 ⟨1, 2⟩ column_files).get (by decide)) = some s' ∧
      merges_performed
        ((tokenize insertion_order 2 0 ⟨1, 2⟩ column_files).get (by decide)).image_data
        s'.image_data = m.count ⟨1, 2, ⟨0, 1⟩⟩ :=
  ⟨by decide, by simp, by decide, by decide,
    count_equals_merges insertion_order 2 0 ⟨1, 2⟩ column_files _ (by decide) (by simp)
      ⟨1, 2, ⟨0, 1⟩⟩ (by decide) (by decide)⟩

/-! ## The cells of learnt shapes -/

/-- In a state satisfying the invariant, the winner of a successful iteration is the vote of
a contact of some image. -/
theorem winner_is_vote (order : map_iteration) (s s' : tokenizer_state) (hs : state_inv s)
    (hit : tokenize_iteration order s = some s') :
    ∃ c N, get_most_common_constellation order s.image_data = some c ∧
      iteration_step s s' c N ∧
      ∃ dref ∈ s.image_data, ∃ cref ∈ voters dref, vote_of dref cref = c := by
  obtain ⟨m, hm, hok, hsum⟩ := count_constellations_sum s hs
  obtain ⟨m2, hm2, _, hnone⟩ := tokenize_iteration_progress order s hs
  rw [hm] at hm2
  cases hm2
  have hne : m ≠ [] := fun h => by
    rw [hnone h] at hit
    cases hit
  obtain ⟨_, _, _, _, _, ⟨e, he, hec⟩, _⟩ := winner_spec order m hok hne
  have hwin := get_most_common_constellation_eq order s.image_data m hm
  obtain ⟨c, N, hc, hstep⟩ := tokenize_iteration_some order s s' hit
  have hcw : (find_max (order.visit m)).1 = c := by
    rw [hwin] at hc
    exact Option.some.inj hc
  rw [hcw] at hec
  have hpos : 1 ≤ m.count c := by
    rw [← hec, hok.count_of_mem e.1 e.2 he]
    exact hok.positive e he
  have hpos' : 1 ≤ (s.image_data.map fun d => ((voters d).map (vote_of d)).count c).sum := by
    rw [hsum c] at hpos
    exact_mod_cast hpos
  obtain ⟨x, hx, hx1⟩ := exists_pos_of_sum_pos _ hpos'
  obtain ⟨dref, hdref, rfl⟩ := List.mem_map.1 hx
  obtain ⟨v, hv, hvc⟩ :=
    List.mem_map.1 (List.count_pos_iff.1 (Nat.lt_of_lt_of_le Nat.zero_lt_one hx1))
  exact ⟨c, N, hc, hstep, dref, hdref, v, hv, hvc⟩

/-- The shapes of the two instances of a contact, placed at the offset of the vote, share no
cell. -/
theorem vote_shapes_disjoint {tokens : List token_data} {d : image_data}
    (hinv : image_inv tokens d) (c0 : tg.ipos2 × tg.ivec2) (hc0 : is_contact d c0)
    (A B : token_data) (hA : index tokens (vote_of d c0).source_class_id = some A)
    (hB : index tokens (vote_of d c0).target_class_id = some B) :
    ∀ o ∈ A.positions, ∀ o' ∈ B.positions, o ≠ o' + (vote_of d c0).ancor_offset := by
  obtain ⟨hx, hy, hne⟩ := hc0
  obtain ⟨S1, hS1, _, hall1⟩ := hinv.layout c0.1 hx
  obtain ⟨S2, hS2, _, hall2⟩ := hinv.layout (c0.1 + c0.2) hy
  have e1 : S1 = A := by
    have : index tokens (d.current_token_class.val c0.1) = some A := hA
    rw [hS1] at this
    exact Option.some.inj this
  have e2 : S2 = B := by
    have : index tokens (d.current_token_class.val (c0.1 + c0.2)) = some B := hB
    rw [hS2] at this
    exact Option.some.inj this
  subst e1
  subst e2
  intro o ho o' ho' heq
  apply hne
  rw [← (hall1 o ho).2, ← (hall2 o' ho').2]
  congr 1
  have hx' := congrArg tg.ipos2.x heq
  have hy' := congrArg tg.ipos2.y heq
  have hDx : (vote_of d c0).ancor_offset.x
      = (anchor_of d (c0.1 + c0.2)).x - (anchor_of d c0.1).x := rfl
  have hDy : (vote_of d c0).ancor_offset.y
      = (anchor_of d (c0.1 + c0.2)).y - (anchor_of d c0.1).y := rfl
  simp only [tg.ipos2.add_x, tg.ipos2.add_y] at hx' hy'
  rw [tg.ipos2.ext_iff']
  simp only [tg.ipos2.add_x, tg.ipos2.add_y, tg.ivec2.of_pos_x, tg.ivec2.of_pos_y]
  omega

theorem shift_add_injective (D : tg.ivec2) :
    Function.Injective (fun (o : tg.ipos2) => o + D) := by
  intro a b h
  have hx := congrArg tg.ipos2.x h
  have hy := congrArg tg.ipos2.y h
  simp only [tg.ipos2.add_x, tg.ipos2.add_y] at hx hy
  rw [tg.ipos2.ext_iff']
  omega

theorem shift_sub_injective (D : tg.ivec2) :
    Function.Injective (fun (o : tg.ipos2) => o - D) := by
  intro a b h
  have hx := congrArg tg.ipos2.x h
  have hy := congrArg tg.ipos2.y h
  simp only [tg.ipos2.sub_x, tg.ipos2.sub_y] at hx hy
  rw [tg.ipos2.ext_iff']
  omega

/-- The positions of the shape learnt in an iteration are pairwise distinct when those of
the two combined shapes are, and there are as many as in the two shapes together. -/
theorem iteration_positions (order : map_iteration) (s s' : tokenizer_state) (hs : state_inv s)
    (hit : tokenize_iteration order s = some s') :
    ∃ c N A B, iteration_step s s' c N ∧ iteration_context s c A B N ∧
      N.positions.length = A.positions.length + B.positions.length ∧
      (A.positions.Nodup → B.positions.Nodup → N.positions.Nodup) := by
  obtain ⟨c, N, _, hstep, dref, hdref, cref, hcref, rfl⟩ := winner_is_vote order s s' hs hit
  obtain ⟨A, B, hctx⟩ := combine_tokens_context s _ N hs.shapes hstep.combined
  have hdis := vote_shapes_disjoint (hs.images dref hdref) cref (mem_voters dref cref hcref).2
    A B hctx.srcA hctx.tgtB
  refine ⟨_, N, A, B, hstep, hctx, ?_, fun hA hB => ?_⟩
  · rw [hctx.pos]
    split <;> simp [Nat.add_comm]
  · rw [hctx.pos]
    split
    · rw [List.nodup_append]
      refine ⟨hA, hB.map (shift_add_injective _), fun o ho ho' => ?_⟩
      obtain ⟨o', ho'', rfl⟩ := List.mem_map.1 ho'
      exact hdis _ ho o' ho'' rfl
    · rw [List.nodup_append]
      refine ⟨hB, hA.map (shift_sub_injective _), fun o' ho' ho => ?_⟩
      obtain ⟨o, ho'', heq⟩ := List.mem_map.1 ho
      refine hdis o ho'' o' ho' ?_
      have hx := congrArg tg.ipos2.x heq
      have hy := congrArg tg.ipos2.y heq
      simp only [tg.ipos2.sub_x, tg.ipos2.sub_y] at hx hy
      rw [tg.ipos2.ext_iff']
      simp only [tg.ipos2.add_x, tg.ipos2.add_y]
      omega

theorem distinct_cells_init (token_max : Int) (files : List (String × Int × img.image Int))
    (hfiles : corpus_ok token_max files) (images : List image_data)
    (h : read_folder files = some images) :
    distinct_cells token_max
      { rules := [], tokens := initial_tokens token_max, image_data := images } := by
  obtain ⟨images', h1, h2⟩ := read_folder_inv token_max files hfiles
  rw [h] at h1
  cases h1
  refine ⟨⟨initial_tokens_shape_ok token_max, fun d hd => ?_⟩, fun j N hj => ?_,
    fun j N hj => Or.inl hj⟩
  · obtain ⟨f, hf, hc⟩ := forall₂_mem_right h2 d hd
    exact hc.initial_inv (hfiles f hf).1 token_max (hfiles f hf).2
  · have hlt := index_lt _ _ _ hj
    simp only [initial_tokens, List.length_map, List.length_range] at hlt
    have hj' : index (initial_tokens token_max) j = some N := hj
    rw [index_initial_tokens token_max j hlt.1 (by omega)] at hj'
    cases hj'
    exact List.nodup_singleton _

theorem distinct_cells_step (order : map_iteration) (token_max : Int)
    (s s' : tokenizer_state) (hs : distinct_cells token_max s)
    (hit : tokenize_iteration order s = some s') : distinct_cells token_max s' := by
  obtain ⟨c, N, A, B, hstep, hctx, hlen, hnodup⟩ := iteration_positions order s s' hs.inv hit
  have hN : N.positions.Nodup :=
    hnodup (hs.nodup _ _ hctx.srcA) (hs.nodup _ _ hctx.tgtB)
  refine ⟨(hstep.keeps_state_inv hs.inv).1, fun j t hj => ?_, fun j t hj => ?_⟩
  · rw [hstep.tokens_eq] at hj
    rcases index_append_singleton _ _ _ _ hj with h1 | ⟨_, rfl⟩
    · exact hs.nodup _ _ h1
    · exact hN
  · rw [hstep.tokens_eq] at hj
    rw [hstep.tokens_eq, hstep.rules_eq]
    rcases index_append_singleton _ _ _ _ hj with h1 | ⟨hjl, rfl⟩
    · rcases hs.learnt _ _ h1 with h0 | ⟨r, hr, hrj, A', B', hA', hB', hl⟩
      · exact Or.inl h0
      · exact Or.inr ⟨r, List.mem_append_left _ hr, hrj, A', B',
          index_append_left _ _ _ _ hA', index_append_left _ _ _ _ hB', hl⟩
    · exact Or.inr ⟨_, List.mem_append_right _ (List.mem_singleton_self _), hjl.symm, A, B,
        index_append_left _ _ _ _ hctx.srcA, index_append_left _ _ _ _ hctx.tgtB, hlen⟩

/-- C39 (no duplicate cells in learnt shapes).  After a learning run on a corpus with all
cells in `[0, token_max]`, every shape of the list has pairwise distinct positions, and
every shape that is not an initial one is the new shape of an emitted rule and has exactly
as many positions as the shapes of the rule's source and target classes together. -/
theorem learnt_shapes_distinct_cells (order : map_iteration) (token_max tokens_to_create : Int)
    (image_size : tg.isize2) (files : List (String × Int × img.image Int))
    (s : tokenizer_state) (hfiles : corpus_ok token_max files)
    (hrun : tokenize order token_max tokens_to_create image_size files = some s) :
    ∀ j N, index s.tokens j = some N →
      N.positions.Nodup ∧
      (index (initial_tokens token_max) j = some N ∨
        ∃ r ∈ s.rules, r.new_token_id = j ∧ ∃ A B,
          index s.tokens r.constellation.source_class_id = some A ∧
          index s.tokens r.constellation.target_class_id = some B ∧
          N.positions.length = A.positions.length + B.positions.length) := by
  have h := tokenize_induction order token_max tokens_to_create image_size files
    (distinct_cells token_max) (distinct_cells_init token_max files hfiles)
    (distinct_cells_step order token_max) s hrun
  exact fun j N hj => ⟨h.nodup j N hj, h.learnt j N hj⟩

theorem learnt_shapes_distinct_cells_witness :
    corpus_ok 1 row_files ∧
    ∃ s, tokenize insertion_order 1 2 ⟨3, 1⟩ row_files = some s ∧
      ∀ j N, index s.tokens j = some N →
        N.positions.Nodup ∧
        (index (initial_tokens 1) j = some N ∨
          ∃ r ∈ s.rules, r.new_token_id = j ∧ ∃ A B,
            index s.tokens r.constellation.source_class_id = some A ∧
            index s.tokens r.constellation.target_class_id = some B ∧
            N.positions.length = A.positions.length + B.positions.length) :=
  ⟨by decide, (tokenize insertion_order 1 2 ⟨3, 1⟩ row_files).get (by decide), by simp,
    learnt_shapes_distinct_cells insertion_order 1 2 ⟨3, 1⟩ row_files _ (by decide) (by simp)⟩

/-! ## Exhaustion of the counter -/

/-- If no two cells of the grid that are neighbours to the right or below differ in id, all
cells of the grid have the id of the cell `(0,0)`. -/
theorem ids_connected (d : image_data)
    (h : ∀ c, c.2 ∈ directions → ¬ is_contact d c) (p : tg.ipos2)
    (hp : d.m_initial_token_class.contains p = true) :
    d.current_token_id.val p = d.current_token_id.val ⟨0, 0⟩ := by
  rw [img.image.contains_iff] at hp
  obtain ⟨hx0, hx1, hy0, hy1⟩ := hp
  have hrow : ∀ n : Nat, (n : Int) < d.m_initial_token_class._extents.width →
      ∀ y : Int, 0 ≤ y → y < d.m_initial_token_class._extents.height →
      d.current_token_id.val ⟨(n : Int), y⟩ = d.current_token_id.val ⟨0, y⟩ := by
    intro n
    induction n with
    | zero => intro _ y _ _; rfl
    | succ n ih =>
      intro hn y h0 h1
      have hprev := ih (by omega) y h0 h1
      have hc := h (⟨(n : Int), y⟩, ⟨1, 0⟩) (by simp [directions])
      unfold is_contact at hc
      simp only [img.image.contains_iff, tg.ipos2.add_x, tg.ipos2.add_y, not_and,
        not_not] at hc
      have := hc ⟨by omega, by omega, h0, h1⟩ ⟨by omega, by omega, by omega, by omega⟩
      rw [← hprev, this]
      congr 1
      rw [tg.ipos2.ext_iff']
      simp only [tg.ipos2.add_x, tg.ipos2.add_y]
      constructor <;> push_cast <;> omega
  have hcol : ∀ n : Nat, (n : Int) < d.m_initial_token_class._extents.height →
      d.current_token_id.val ⟨0, (n : Int)⟩ = d.current_token_id.val ⟨0, 0⟩ := by
    intro n
    induction n with
    | zero => intro _; rfl
    | succ n ih =>
      intro hn
      have hprev := ih (by omega)
      have hc := h (⟨0, (n : Int)⟩, ⟨0, 1⟩) (by simp [directions])
      unfold is_contact at hc
      simp only [img.image.contains_iff, tg.ipos2.add_x, tg.ipos2.add_y, not_and,
        not_not] at hc
      have := hc ⟨by omega, by omega, by omega, by omega⟩
        ⟨by omega, by omega, by omega, by omega⟩
      rw [← hprev, this]
      congr 1
  have h1 := hrow p.x.toNat (by omega) p.y hy0 hy1
  have h2 := hcol p.y.toNat (by omega)
  have ex : ((p.x.toNat : Nat) : Int) = p.x := by omega
  have ey : ((p.y.toNat : Nat) : Int) = p.y := by omega
  rw [ex] at h1
  rw [ey] at h2
  rw [← h2, ← h1]

/-- An image casts no vote exactly when all cells of its grid have the same id. -/
theorem voters_nil_iff (d : image_data) :
    voters d = [] ↔
      ∀ p q, d.m_initial_token_class.contains p = true →
        d.m_initial_token_class.contains q = true →
        d.current_token_id.val p = d.current_token_id.val q := by
  constructor
  · intro hnil p q hp hq
    have hno : ∀ c, c.2 ∈ directions → ¬ is_contact d c := by
      intro c hdir hc
      obtain ⟨b, hb, _⟩ := first_by_cover (ancor_pair d) [] (contacts d) c
        ((mem_contacts d c).2 ⟨hdir, hc⟩) (List.not_mem_nil _)
      have hb' : b ∈ voters d := hb
      rw [hnil] at hb'
      cases hb'
    rw [ids_connected d hno p hp, ids_connected d hno q hq]
  · intro hall
    cases hv : voters d with
    | nil => rfl
    | cons c rest =>
      exfalso
      have hc : c ∈ voters d := by rw [hv]; exact List.mem_cons_self _ _
      obtain ⟨_, hx, hy, hne⟩ := mem_voters d c hc
      exact hne (hall _ _ hx hy)

theorem count_map_nil_iff (m : count_map) (hok : count_map_ok m) :
    m = [] ↔ ∀ key, m.count key = 0 := by
  constructor
  · rintro rfl key
    rfl
  · intro h
    cases m with
    | nil => rfl
    | cons e rest =>
      exfalso
      have he : e ∈ e :: rest := List.mem_cons_self _ _
      have h1 := hok.count_of_mem e.1 e.2 he
      have h2 := hok.positive e he
      rw [h e.1] at h1
      omega

/-- The counter map of a state satisfying the invariant is empty exactly when no image casts
a vote. -/
theorem count_nil_iff (s : tokenizer_state) (hs : state_inv s) (m : count_map)
    (hm : count_constellations s.image_data = some m) :
    m = [] ↔ ∀ d ∈ s.image_data, voters d = [] := by
  obtain ⟨m', hm', hok, hsum⟩ := count_constellations_sum s hs
  rw [hm] at hm'
  cases hm'
  rw [count_map_nil_iff m hok]
  constructor
  · intro h d hd
    cases hv : voters d with
    | nil => rfl
    | cons c rest =>
      exfalso
      have h0 := h (vote_of d c)
      rw [hsum] at h0
      have hmem : ((voters d).map (vote_of d)).count (vote_of d c)
          ∈ s.image_data.map fun d' => ((voters d').map (vote_of d')).count (vote_of d c) :=
        List.mem_map.2 ⟨d, hd, rfl⟩
      have hle := List.single_le_sum (fun _ _ => Nat.zero_le _) _ hmem
      have hpos : 0 < ((voters d).map (vote_of d)).count (vote_of d c) :=
        List.count_pos_iff.2 (List.mem_map.2 ⟨c, by rw [hv]; exact List.mem_cons_self _ _, rfl⟩)
      have h0' : (s.image_data.map fun d' =>
          ((voters d').map (vote_of d')).count (vote_of d c)).sum = 0 := by exact_mod_cast h0
      omega
  · intro h key
    rw [hsum]
    have : (s.image_data.map fun d => ((voters d).map (vote_of d)).count key)
        = s.image_data.map fun _ => 0 :=
      List.map_congr_left fun d hd => by rw [h d hd]; rfl
    rw [this]
    simp

/-- C40 (exhaustion characterisation).  In every state reached by a learning run on a corpus
with all cells in `[0, token_max]` the counter succeeds, and its map is empty (so that the
default constellation with class ids `-1` is returned) if and only if in every image all
cells of the id grid hold the same id; otherwise the returned constellation is a key of the
map, its source and target class ids lie in `[0, tokens.size())`, and `combine_tokens`
finds both shapes and returns a shape. -/
theorem exhaustion_characterisation (order : map_iteration) (token_max tokens_to_create : Int)
    (image_size : tg.isize2) (files : List (String × Int × img.image Int))
    (s : tokenizer_state) (hfiles : corpus_ok token_max files)
    (hrun : tokenize order token_max tokens_to_create image_size files = some s) :
    ∃ m c, count_constellations s.image_data = some m ∧
      get_most_common_constellation order s.image_data = some c ∧
      (m = [] ↔ ∀ d ∈ s.image_data, ∀ p q, d.current_token_id.contains p = true →
        d.current_token_id.contains q = true →
        d.current_token_id.val p = d.current_token_id.val q) ∧
      (m = [] → c = {} ∧ c.source_class_id = -1 ∧ c.target_class_id = -1) ∧
      (m ≠ [] → (∃ e ∈ m, e.1 = c) ∧
        0 ≤ c.source_class_id ∧ c.source_class_id < (s.tokens.length : Int) ∧
        0 ≤ c.target_class_id ∧ c.target_class_id < (s.tokens.length : Int) ∧
        ∃ A B N, index s.tokens c.source_class_id = some A ∧
          index s.tokens c.target_class_id = some B ∧
          combine_tokens c s.tokens = some N) := by
  obtain ⟨hs, _⟩ := tokenize_inv order token_max tokens_to_create image_size files s hfiles hrun
  obtain ⟨m, hm, hok, _⟩ := count_constellations_sum s hs
  have hwin := get_most_common_constellation_eq order s.image_data m hm
  refine ⟨m, _, hm, hwin, ?_, ?_, ?_⟩
  · rw [count_nil_iff s hs m hm]
    constructor
    · intro h d hd p q hp hq
      have hg := (hs.images d hd).1
      rw [hg.id_contains] at hp hq
      exact (voters_nil_iff d).1 (h d hd) p q hp hq
    · intro h d hd
      have hg := (hs.images d hd).1
      refine (voters_nil_iff d).2 fun p q hp hq => h d hd p q ?_ ?_
      · rw [hg.id_contains]; exact hp
      · rw [hg.id_contains]; exact hq
  · intro hnil
    rw [hnil, (order.visit_perm []).eq_nil]
    exact ⟨rfl, rfl, rfl⟩
  · intro hne
    obtain ⟨_, _, _, _, _, hmem, _⟩ := winner_spec order m hok hne
    obtain ⟨m2, hm2, hsome, _⟩ := tokenize_iteration_progress order s hs
    rw [hm] at hm2
    cases hm2
    obtain ⟨s', hit⟩ := hsome hne
    obtain ⟨c, N, hc, hstep, _⟩ := winner_is_vote order s s' hs hit
    rw [hwin] at hc
    have hcw : (find_max (order.visit m)).1 = c := Option.some.inj hc
    rw [hcw] at hmem ⊢
    obtain ⟨A, B, hA, hB⟩ := combine_tokens_some c s.tokens N hstep.combined
    have h1 := index_lt _ _ _ hA
    have h2 := index_lt _ _ _ hB
    exact ⟨hmem, h1.1, h1.2, h2.1, h2.2, A, B, N, hA, hB, hstep.combined⟩

theorem exhaustion_characterisation_witness :
    corpus_ok 1 row_files ∧
    ∃ s, tokenize insertion_order 1 1 ⟨3, 1⟩ row_files = some s ∧
      ∃ m c, count_constellations s.image_data = some m ∧
        get_most_common_constellation insertion_order s.image_data = some c ∧
        (m = [] ↔ ∀ d ∈ s.image_data, ∀ p q, d.current_token_id.contains p = true →
          d.current_token_id.contains q = true →
          d.current_token_id.val p = d.current_token_id.val q) ∧
        (m = [] → c = {} ∧ c.source_class_id = -1 ∧ c.target_class_id = -1) ∧
        (m ≠ [] → (∃ e ∈ m, e.1 = c) ∧
          0 ≤ c.source_class_id ∧ c.source_class_id < (s.tokens.length : Int) ∧
          0 ≤ c.target_class_id ∧ c.target_class_id < (s.tokens.length : Int) ∧
          ∃ A B N, index s.tokens c.source_class_id = some A ∧
            index s.tokens c.target_class_id = some B ∧
            combine_tokens c s.tokens = some N) :=
  ⟨by decide, (tokenize insertion_order 1 1 ⟨3, 1⟩ row_files).get (by decide), by simp,
    exhaustion_characterisation insertion_order 1 1 ⟨3, 1⟩ row_files _ (by decide) (by simp)⟩

/-! ## The out-of-bounds branch of the write loop -/

theorem write_cell_strict_eq (new_token : token_data) (new_ancor : tg.ipos2) (new_id : Int)
    (d : image_data) (o : tg.ipos2)
    (ho : d.m_initial_token_class.contains (new_ancor + tg.ivec2.of_pos o) = true) :
    write_cell_strict new_token new_ancor new_id d o = write_cell new_token new_ancor new_id d o := by
  unfold write_cell_strict write_cell
  simp only [image_data.initial_token_class, ho, Bool.not_true, Bool.false_eq_true, if_false]

/-- Where all cells written lie inside the grid, the strict write loop is the write loop. -/
theorem write_cells_strict_eq (new_token : token_data) (new_ancor : tg.ipos2) (new_id : Int)
    (cells : List tg.ipos2) (d : image_data) (hg : grids_ok d)
    (hin : ∀ o ∈ cells, d.m_initial_token_class.contains (new_ancor + tg.ivec2.of_pos o) = true) :
    cells.foldlM (write_cell_strict new_token new_ancor new_id) d
      = cells.foldlM (write_cell new_token new_ancor new_id) d := by
  induction cells generalizing d with
  | nil => rfl
  | cons o cells ih =>
    have ho := hin o (List.mem_cons_self _ _)
    obtain ⟨d1, h1, hf, _⟩ := write_cell_spec new_token new_ancor new_id d hg o ho
    rw [List.foldlM_cons, List.foldlM_cons, write_cell_strict_eq _ _ _ _ _ ho, h1]
    simp only [Option.bind_eq_bind, Option.some_bind]
    exact ih d1 hf.ok fun o' ho' => by
      rw [hf.init_eq]
      exact hin o' (List.mem_cons_of_mem _ ho')

/-- Where the match condition fails, the strict cell step changes nothing. -/
theorem apply_rule_at_strict_no_match (rule : rule) (new_token : token_data) (d : image_data)
    (p : tg.ipos2) (hd : ids_ok d) (hp : d.m_initial_token_class.contains p = true)
    (hn : ¬ rule_matches rule d p) : apply_rule_at_strict rule new_token d p = some d := by
  have hg := hd.grids
  have hcp := hg.get_class p hp
  have hip := hg.get_id p hp
  obtain ⟨a, ha⟩ := hd.index_ancor p hp
  unfold apply_rule_at_strict
  simp only [hcp, hip, ha, Option.bind_eq_bind, Option.some_bind]
  by_cases h1 : d.current_token_class.val p = rule.constellation.source_class_id
  swap
  · simp [h1]
  by_cases h2 : p = a
  swap
  · simp [h1, h2]
  subst h2
  by_cases h3 : d.m_initial_token_class.contains (p + rule.constellation.ancor_offset) = true
  swap
  · simp only [Bool.not_eq_true] at h3
    simp [h1, image_data.initial_token_class, h3]
  have hcq := hg.get_class _ h3
  have hiq := hg.get_id _ h3
  obtain ⟨b, hb⟩ := hd.index_ancor _ h3
  simp only [hcq, hiq, hb, Option.some_bind]
  by_cases h4 : d.current_token_class.val (p + rule.constellation.ancor_offset)
      = rule.constellation.target_class_id
  swap
  · simp [h1, image_data.initial_token_class, h3, h4]
  by_cases h5 : b = p + rule.constellation.ancor_offset
  swap
  · simp [h1, image_data.initial_token_class, h3, h4, h5]
  exfalso
  apply hn
  unfold rule_matches
  rw [hcp, hip, hcq, hiq]
  simp only [Option.some_bind, ha, hb, h1, h4, h5, image_data.initial_token_class, h3, and_self]

/-- The strict cell step is the cell step wherever a match writes inside the grid only. -/
theorem apply_rule_at_strict_eq (rule : rule) (new_token : token_data) (d : image_data)
    (p : tg.ipos2) (hd : ids_ok d) (hp : d.m_initial_token_class.contains p = true)
    (hin : rule_matches rule d p → ∀ o ∈ new_token.positions,
      d.m_initial_token_class.contains (merged_ancor rule p + tg.ivec2.of_pos o) = true) :
    apply_rule_at_strict rule new_token d p = apply_rule_at rule new_token d p := by
  by_cases hm : rule_matches rule d p
  · have hg := hd.grids
    have hin' := hin hm
    obtain ⟨h1, h2, h3, h4, h5⟩ := hm
    rw [Option.bind_eq_some] at h2 h5
    obtain ⟨i, hi, hai⟩ := h2
    obtain ⟨j, hj, haj⟩ := h5
    have hg1 : grids_ok
        { d with m_next_token_id := d.m_next_token_id + 1
                 token_ancor := d.token_ancor ++ [merged_ancor rule p] } :=
      ⟨hg.init_wf, hg.class_wf, hg.id_wf, hg.class_ext, hg.id_ext, by
        have := hg.ancor_len
        simp only [List.length_append, List.length_singleton, Nat.cast_add, Nat.cast_one]
        omega⟩
    have key := write_cells_strict_eq new_token (merged_ancor rule p) d.m_next_token_id
      new_token.positions _ hg1 hin'
    unfold apply_rule_at_strict apply_rule_at
    simp only [image_data.initial_token_class] at h3
    simp only [h1, hi, hai, h3, h4, hj, haj, Option.bind_eq_bind, Option.some_bind,
      image_data.initial_token_class, ne_eq, not_true_eq_false, if_false, Bool.not_true,
      Bool.false_eq_true, image_data.next_token_id]
    exact key
  · rw [apply_rule_at_strict_no_match rule new_token d p hd hp hm,
      apply_rule_at_no_match rule new_token d p hd hp hm]

/-- Two folds agree when their steps agree on every state that satisfies an invariant kept
by the steps. -/
theorem foldlM_congr_inv {σ β : Type} (f g : σ → β → Option σ) (P : σ → Prop) (l : List β)
    (step : ∀ s b, b ∈ l → P s → f s b = g s b ∧ ∀ s', g s b = some s' → P s')
    (s : σ) (hs : P s) : l.foldlM f s = l.foldlM g s := by
  induction l generalizing s with
  | nil => rfl
  | cons b l ih =>
    obtain ⟨h1, h2⟩ := step s b (List.mem_cons_self _ _) hs
    rw [List.foldlM_cons, List.foldlM_cons, h1]
    cases hg : g s b with
    | none => rfl
    | some s' =>
      simp only [Option.bind_eq_bind, Option.some_bind]
      exact ih (fun s b hb hP => step s b (List.mem_cons_of_mem _ hb) hP) s' (h2 s' hg)

theorem mapM_congr_mem {β γ : Type} (f g : β → Option γ) (l : List β)
    (h : ∀ b ∈ l, f b = g b) : l.mapM f = l.mapM g := by
  induction l with
  | nil => rfl
  | cons b l ih =>
    rw [List.mapM_cons, List.mapM_cons, h b (List.mem_cons_self _ _),
      ih fun x hx => h x (List.mem_cons_of_mem _ hx)]

/-- In an image of a learning run, the strict pass is the pass: no merge writes outside the
grid. -/
theorem apply_rule_image_strict_eq {tokens : List token_data} {rule : rule}
    {A B N : token_data} (ctx : pass_context tokens rule A B N) (d : image_data)
    (hinv : image_inv tokens d) :
    apply_rule_image_strict rule N d = apply_rule_image rule N d := by
  unfold apply_rule_image_strict apply_rule_image
  refine foldlM_congr_inv _ _
    (fun s => image_inv tokens s ∧ s.m_initial_token_class = d.m_initial_token_class)
    _ ?_ d ⟨hinv, rfl⟩
  intro s c hc ⟨hs, hsi⟩
  have hcs : s.m_initial_token_class.contains c = true := by
    rw [hsi]
    exact (mem_scan_iff_contains d.m_initial_token_class c).1 hc
  refine ⟨apply_rule_at_strict_eq rule N s c hs.allocated hcs fun hm => ?_, fun s' hs' => ?_⟩
  · obtain ⟨_, _, _, _, _, _, h, _⟩ := ctx.merge_step s hs c hm
    exact h
  · obtain ⟨s'', h1, h2, h3⟩ := apply_rule_at_inv tokens rule A B N s c hs ctx.shapes ctx.srcA
      ctx.tgtB ctx.newN ctx.pos ctx.cls hcs
    rw [hs'] at h1
    cases h1
    exact ⟨h2, h3.trans hsi⟩

/-- Over images of a learning run, strict `apply_rule` is `apply_rule`, and it succeeds
keeping the image invariant. -/
theorem apply_rule_strict_eq {tokens : List token_data} {rule : rule}
    {A B N : token_data} (ctx : pass_context tokens rule A B N) (images : List image_data)
    (hinv : ∀ d ∈ images, image_inv tokens d) :
    ∃ out, apply_rule_strict rule N images = some out ∧ apply_rule rule N images = some out ∧
      ∀ d ∈ out, image_inv tokens d := by
  have heq : apply_rule_strict rule N images = apply_rule rule N images :=
    mapM_congr_mem _ _ _ fun d hd => apply_rule_image_strict_eq ctx d (hinv d hd)
  rw [heq]
  obtain ⟨out, hout, hrel⟩ := mapM_total (apply_rule_image rule N)
    (fun _ d' => image_inv tokens d') images fun d hd => by
      obtain ⟨d', h1, h2, _⟩ := apply_rule_image_inv tokens rule A B N d (hinv d hd) ctx.shapes
        ctx.srcA ctx.tgtB ctx.newN ctx.pos ctx.cls
      exact ⟨d', h1, h2⟩
  refine ⟨out, hout, hout, fun d' hd' => ?_⟩
  obtain ⟨_, _, h⟩ := forall₂_mem_right hrel d' hd'
  exact h

theorem image_inv_extend (tokens T : List token_data) (d : image_data)
    (h : image_inv tokens d) : image_inv (tokens ++ T) d := by
  refine ⟨h.1, fun p hp => ?_⟩
  obtain ⟨h0, h1, a, shape, ha, hs, hall, hex⟩ := h.2 p hp
  exact ⟨h0, h1, a, shape, ha, index_append_left _ _ _ _ hs, hall, hex⟩

theorem pass_context.append {tokens : List token_data} {rule : rule} {A B N : token_data}
    (ctx : pass_context tokens rule A B N) (N' : token_data) (hN' : shape_ok N') :
    pass_context (tokens ++ [N']) rule A B N := by
  refine ⟨fun i t hi => ?_, index_append_left _ _ _ _ ctx.srcA,
    index_append_left _ _ _ _ ctx.tgtB, index_append_left _ _ _ _ ctx.newN, ctx.pos, ctx.cls⟩
  rcases index_append_singleton _ _ _ _ hi with h1 | ⟨_, rfl⟩
  · exact ctx.shapes _ _ h1
  · exact hN'

/-- In a state satisfying the invariant, the strict iteration is the iteration. -/
theorem tokenize_iteration_strict_eq (order : map_iteration) (s : tokenizer_state)
    (hs : state_inv s) : tokenize_iteration_strict order s = tokenize_iteration order s := by
  unfold tokenize_iteration_strict tokenize_iteration
  simp only [Option.bind_eq_bind]
  cases hc : get_most_common_constellation order s.image_data with
  | none => simp only [Option.none_bind]
  | some c =>
    simp only [Option.some_bind]
    cases hN : combine_tokens c s.tokens with
    | none => simp only [Option.none_bind]
    | some N =>
      obtain ⟨A, B, ctx, _, _, _, himg⟩ := iteration_pass s hs c N hN
      obtain ⟨out, h1, h2, _⟩ := apply_rule_strict_eq ctx s.image_data himg
      simp only [Option.some_bind, h1, h2]

theorem tokenize_loop_strict_eq (order : map_iteration) (n : Nat) (s : tokenizer_state)
    (hs : state_inv s) : tokenize_loop_strict order n s = tokenize_loop order n s := by
  induction n generalizing s with
  | zero => rfl
  | succ n ih =>
    simp only [tokenize_loop_strict, tokenize_loop, tokenize_iteration_strict_eq order s hs,
      Option.bind_eq_bind]
    cases hit : tokenize_iteration order s with
    | none => simp only [Option.none_bind]
    | some s1 =>
      obtain ⟨c, N, _, hstep⟩ := tokenize_iteration_some order s s1 hit
      simp only [Option.some_bind]
      exact ih s1 (hstep.keeps_state_inv hs).1

theorem read_folder_initial_inv (token_max : Int) (files : List (String × Int × img.image Int))
    (hfiles : corpus_ok token_max files) :
    ∃ images, read_folder files = some images ∧
      ∀ d ∈ images, image_inv (initial_tokens token_max) d := by
  obtain ⟨images, h1, h2⟩ := read_folder_inv token_max files hfiles
  refine ⟨images, h1, fun d hd => ?_⟩
  obtain ⟨f, hf, hc⟩ := forall₂_mem_right h2 d hd
  exact hc.initial_inv (hfiles f hf).1 token_max (hfiles f hf).2

/-- On an accepted corpus, the strict learning run is the learning run. -/
theorem tokenize_strict_eq (order : map_iteration) (token_max tokens_to_create : Int)
    (image_size : tg.isize2) (files : List (String × Int × img.image Int))
    (hfiles : corpus_ok token_max files) :
    tokenize_strict order token_max tokens_to_create image_size files
      = tokenize order token_max tokens_to_create image_size files := by
  obtain ⟨images, h1, h2⟩ := read_folder_initial_inv token_max files hfiles
  unfold tokenize_strict tokenize
  simp only [h1, Option.bind_eq_bind, Option.some_bind]
  exact tokenize_loop_strict_eq order _ _ ⟨initial_tokens_shape_ok token_max, h2⟩

theorem learnt_ok_step (order : map_iteration) (token_max : Int) (s s' : tokenizer_state)
    (hs : learnt_ok token_max s) (hit : tokenize_iteration order s = some s') :
    learnt_ok token_max s' := by
  obtain ⟨c, N, _, hstep⟩ := tokenize_iteration_some order s s' hit
  obtain ⟨A, B, ctx, hctx, _, _, _⟩ := iteration_pass s hs.inv c N hstep.combined
  obtain ⟨T, hT⟩ := hs.base
  refine ⟨(hstep.keeps_state_inv hs.inv).1, ⟨T ++ [N], ?_⟩, ?_⟩
  · rw [hstep.tokens_eq, hT, List.append_assoc]
  · rw [hstep.tokens_eq, hstep.rules_eq]
    intro r hr
    rcases List.mem_append.1 hr with h | h
    · obtain ⟨A', B', N', hN', ctx'⟩ := hs.rules r h
      exact ⟨A', B', N', index_append_left _ _ _ _ hN', ctx'.append N hctx.okN⟩
    · rw [List.mem_singleton] at h
      subst h
      exact ⟨A, B, N, index_length_append _ _, ctx⟩

/-- Replaying rules that are passes over the shape list on images that satisfy the image
invariant: the strict replay succeeds and is the replay. -/
theorem apply_rules_strict_eq (tokens : List token_data) (rules : List rule)
    (images : List image_data) (hr : rules_ok tokens rules)
    (hinv : ∀ d ∈ images, image_inv tokens d) :
    ∃ out, apply_rules_strict rules tokens images = some out ∧
      apply_rules rules tokens images = some out := by
  induction rules generalizing images with
  | nil => exact ⟨images, rfl, rfl⟩
  | cons r rules ih =>
    obtain ⟨A, B, N, hN, ctx⟩ := hr r (List.mem_cons_self _ _)
    obtain ⟨out1, h1, h2, h3⟩ := apply_rule_strict_eq ctx images hinv
    obtain ⟨out, g1, g2⟩ := ih out1 (fun x hx => hr x (List.mem_cons_of_mem _ hx)) h3
    refine ⟨out, ?_, ?_⟩
    · unfold apply_rules_strict at g1 ⊢
      simp only [List.foldlM_cons, hN, h1, Option.bind_eq_bind, Option.some_bind]
      exact g1
    · unfold apply_rules at g2 ⊢
      simp only [List.foldlM_cons, hN, h2, Option.bind_eq_bind, Option.some_bind]
      exact g2

/-- C34 (clipping is unreachable for learnt rules).  A learning run on a corpus with all
cells in `[0, token_max]` is also a run of the learning loop in which the out-of-bounds
branch of the write loop of `apply_rule` is a failure, and so is `apply_rules` with the
learnt rules and shapes on any corpus with all cells in `[0, token_max]`, which succeeds:
every position `new_ancor + o` of the write loop lies inside the grid. -/
theorem clipping_unreachable (order : map_iteration) (token_max tokens_to_create : Int)
    (image_size : tg.isize2) (files : List (String × Int × img.image Int))
    (s : tokenizer_state) (hfiles : corpus_ok token_max files)
    (hrun : tokenize order token_max tokens_to_create image_size files = some s) :
    tokenize_strict order token_max tokens_to_create image_size files = some s ∧
    ∀ files', corpus_ok token_max files' →
      ∃ images out, read_folder files' = some images ∧
        apply_rules_strict s.rules s.tokens images = some out ∧
        apply_rules s.rules s.tokens images = some out := by
  refine ⟨by rw [tokenize_strict_eq order token_max tokens_to_create image_size files hfiles,
    hrun], fun files' hfiles' => ?_⟩
  have h := tokenize_induction order token_max tokens_to_create image_size files
    (learnt_ok token_max)
    (fun images himages => by
      obtain ⟨images', h1, h2⟩ := read_folder_initial_inv token_max files hfiles
      rw [himages] at h1
      cases h1
      exact ⟨⟨initial_tokens_shape_ok token_max, h2⟩, ⟨[], by simp⟩,
        fun r hr => by cases hr⟩)
    (learnt_ok_step order token_max) s hrun
  obtain ⟨images, h1, h2⟩ := read_folder_initial_inv token_max files' hfiles'
  obtain ⟨T, hT⟩ := h.base
  obtain ⟨out, g1, g2⟩ := apply_rules_strict_eq s.tokens s.rules images h.rules
    (fun d hd => by rw [hT]; exact image_inv_extend _ _ _ (h2 d hd))
  exact ⟨images, out, h1, g1, g2⟩

theorem clipping_unreachable_witness :
    corpus_ok 4 diagonal_files ∧
    ∃ s, tokenize insertion_order 4 2 ⟨2, 2⟩ diagonal_files = some s ∧
      tokenize_strict insertion_order 4 2 ⟨2, 2⟩ diagonal_files = some s ∧
      ∀ files', corpus_ok 4 files' →
        ∃ images out, read_folder files' = some images ∧
          apply_rules_strict s.rules s.tokens images = some out ∧
          apply_rules s.rules s.tokens images = some out :=
  ⟨by decide, (tokenize insertion_order 4 2 ⟨2, 2⟩ diagonal_files).get (by decide), by simp,
    clipping_unreachable insertion_order 4 2 ⟨2, 2⟩ diagonal_files _ (by decide) (by simp)⟩

/-! ## Token conservation -/

theorem distinct_ids_card (d : image_data) :
    distinct_ids d = (((scan d.m_initial_token_class.width d.m_initial_token_class.height).map
      d.current_token_id.val).toFinset).card := by
  rw [List.card_toFinset]
  rfl

/-- A merge in an image of a learning run at an offset other than zero replaces two distinct
ids of the grid by one new id. -/
theorem merge_ids {tokens : List token_data} {rule : rule} {A B N : token_data}
    (ctx : pass_context tokens rule A B N) (d : image_data) (hinv : image_inv tokens d)
    (p : tg.ipos2) (hm : rule_matches rule d p)
    (hoff : rule.constellation.ancor_offset ≠ ⟨0, 0⟩) :
    ∃ d', apply_rule_at rule N d p = some d' ∧ image_inv tokens d' ∧
      d'.m_initial_token_class = d.m_initial_token_class ∧
      d'.m_next_token_id = d.m_next_token_id + 1 ∧
      distinct_ids d' + 1 = distinct_ids d := by
  obtain ⟨d', h1, h2, h3, h4, _, _, h7, h8⟩ := ctx.merge_step d hinv p hm
  refine ⟨d', h1, h2, h3, h4, ?_⟩
  have hA := hinv.anchors ctx.shapes
  have hd := hinv.allocated
  obtain ⟨hpi, _, hap, hqi, _, haq⟩ := (rule_matches_iff rule d hd p).1 hm
  have hij : d.current_token_id.val p
      ≠ d.current_token_id.val (p + rule.constellation.ancor_offset) := by
    intro e
    have := anchor_of_congr d _ _ e
    rw [hap, haq] at this
    apply hoff
    have hx := congrArg tg.ipos2.x this
    have hy := congrArg tg.ipos2.y this
    simp only [tg.ipos2.add_x, tg.ipos2.add_y] at hx hy
    exact ivec2_ext _ _ (by simp only; omega) (by simp only; omega)
  rw [distinct_ids_card, distinct_ids_card, h3]
  have hscan : ∀ r, r ∈ scan d.m_initial_token_class.width d.m_initial_token_class.height ↔
      d.m_initial_token_class.contains r = true := mem_scan_iff_contains _
  have hset : ((scan d.m_initial_token_class.width d.m_initial_token_class.height).map
      d'.current_token_id.val).toFinset
      = insert d.m_next_token_id
        (((((scan d.m_initial_token_class.width d.m_initial_token_class.height).map
          d.current_token_id.val).toFinset).erase (d.current_token_id.val p)).erase
          (d.current_token_id.val (p + rule.constellation.ancor_offset))) := by
    ext x
    simp only [List.mem_toFinset, List.mem_map, Finset.mem_insert, Finset.mem_erase]
    constructor
    · rintro ⟨r, hr, rfl⟩
      by_cases hid : d.current_token_id.val r = d.current_token_id.val p ∨
          d.current_token_id.val r
            = d.current_token_id.val (p + rule.constellation.ancor_offset)
      · exact Or.inl (h7 r ((hscan r).1 hr) hid).2
      · rw [(h8 r hid).2]
        exact Or.inr ⟨fun e => hid (Or.inr e), fun e => hid (Or.inl e), r, hr, rfl⟩
    · rintro (rfl | ⟨hxj, hxi, r, hr, rfl⟩)
      · exact ⟨p, (hscan p).2 hpi, (h7 p hpi (Or.inl rfl)).2⟩
      · exact ⟨r, hr, (h8 r (fun hid => hid.elim hxi hxj)).2⟩
  rw [hset]
  have hi : d.current_token_id.val p ∈
      ((scan d.m_initial_token_class.width d.m_initial_token_class.height).map
        d.current_token_id.val).toFinset := by
    rw [List.mem_toFinset]
    exact List.mem_map.2 ⟨p, (hscan p).2 hpi, rfl⟩
  have hj : d.current_token_id.val (p + rule.constellation.ancor_offset) ∈
      (((scan d.m_initial_token_class.width d.m_initial_token_class.height).map
        d.current_token_id.val).toFinset).erase (d.current_token_id.val p) := by
    rw [Finset.mem_erase, List.mem_toFinset]
    exact ⟨hij.symm, List.mem_map.2 ⟨_, (hscan _).2 hqi, rfl⟩⟩
  have hn : d.m_next_token_id ∉
      ((((scan d.m_initial_token_class.width d.m_initial_token_class.height).map
        d.current_token_id.val).toFinset).erase (d.current_token_id.val p)).erase
        (d.current_token_id.val (p + rule.constellation.ancor_offset)) := by
    intro hmem
    simp only [Finset.mem_erase, List.mem_toFinset, List.mem_map] at hmem
    obtain ⟨_, _, r, hr, hrn⟩ := hmem
    have := (hd.range r ((hscan r).1 hr)).2
    omega
  rw [Finset.card_insert_of_not_mem hn]
  have e1 := Finset.card_erase_add_one hj
  have e2 := Finset.card_erase_add_one hi
  omega

/-- One cell step of a pass at an offset other than zero: a merge allocates one id and
lowers the number of distinct ids by one; without a match nothing changes. -/
theorem conserve_step {tokens : List token_data} {rule : rule} {A B N : token_data}
    (ctx : pass_context tokens rule A B N) (d : image_data) (hinv : image_inv tokens d)
    (p : tg.ipos2) (hp : d.m_initial_token_class.contains p = true)
    (hoff : rule.constellation.ancor_offset ≠ ⟨0, 0⟩) :
    ∃ d', apply_rule_at rule N d p = some d' ∧ image_inv tokens d' ∧
      d'.m_initial_token_class = d.m_initial_token_class ∧
      (rule_matches rule d p →
        d'.m_next_token_id = d.m_next_token_id + 1 ∧ distinct_ids d' + 1 = distinct_ids d) ∧
      (¬ rule_matches rule d p → d' = d) := by
  by_cases hm : rule_matches rule d p
  · obtain ⟨d', h1, h2, h3, h4, h5⟩ := merge_ids ctx d hinv p hm hoff
    exact ⟨d', h1, h2, h3, fun _ => ⟨h4, h5⟩, fun hn => absurd hm hn⟩
  · exact ⟨d, apply_rule_at_no_match rule N d p hinv.allocated hp hm, hinv, rfl,
      fun h => absurd h hm, fun _ => rfl⟩

/-- The cell steps of a pass over cells of the grid keep the sum of the number of distinct
ids and the id counter. -/
theorem conserve_cells {tokens : List token_data} {rule : rule} {A B N : token_data}
    (ctx : pass_context tokens rule A B N) (d : image_data) (hinv : image_inv tokens d)
    (hoff : rule.constellation.ancor_offset ≠ ⟨0, 0⟩) (pre : List tg.ipos2)
    (hpre : ∀ b ∈ pre, d.m_initial_token_class.contains b = true) :
    ∃ d1, pre.foldlM (apply_rule_at rule N) d = some d1 ∧ image_inv tokens d1 ∧
      d1.m_initial_token_class = d.m_initial_token_class ∧
      (distinct_ids d1 : Int) + d1.m_next_token_id
        = (distinct_ids d : Int) + d.m_next_token_id := by
  obtain ⟨d1, h1, h2, h3, h4⟩ := foldlM_invariant (apply_rule_at rule N)
    (fun s => image_inv tokens s ∧ s.m_initial_token_class = d.m_initial_token_class ∧
      (distinct_ids s : Int) + s.m_next_token_id = (distinct_ids d : Int) + d.m_next_token_id)
    pre (fun s b hb ⟨hs, hsi, hsum⟩ => by
      have hbs : s.m_initial_token_class.contains b = true := by rw [hsi]; exact hpre b hb
      obtain ⟨s', g1, g2, g3, g4, g5⟩ := conserve_step ctx s hs b hbs hoff
      refine ⟨s', g1, g2, g3.trans hsi, ?_⟩
      by_cases hm : rule_matches rule s b
      · obtain ⟨e1, e2⟩ := g4 hm
        rw [e1, ← hsum]
        omega
      · rw [g5 hm]
        exact hsum) d ⟨hinv, rfl, rfl⟩
  exact ⟨d1, h1, h2, h3, h4⟩

/-- A freshly constructed image holds one id per cell. -/
theorem created.is_conserved {token_class : img.image Int} {d : image_data}
    (h : created token_class d) (hwf : token_class.well_formed) : tp.conserved d := by
  have hnodup : ((scan d.initial_token_class.width d.initial_token_class.height).map
      d.current_token_id.val).Nodup := by
    have hinit : d.initial_token_class = token_class := h.init_eq
    rw [hinit]
    refine List.Nodup.map_on (fun x hx y hy hxy => ?_) (scan_nodup _ _)
    rw [← h.ancor_eq] at hx hy
    obtain ⟨k, hk⟩ := List.mem_iff_getElem?.1 hx
    obtain ⟨k', hk'⟩ := List.mem_iff_getElem?.1 hy
    rw [h.id_eq k x hk, h.id_eq k' y hk'] at hxy
    have : k = k' := by exact_mod_cast hxy
    subst this
    rw [hk] at hk'
    exact Option.some.inj hk'
  unfold tp.conserved distinct_ids grid_ids merges_on image_data.max_token_id
  rw [hnodup.dedup, List.length_map, h.next_eq, h.ancor_eq]
  have hinit : d.initial_token_class = token_class := h.init_eq
  rw [hinit, scan_length]
  obtain ⟨h0, h1, _⟩ := hwf
  have e0 : ((token_class.width.toNat : Nat) : Int) = token_class.width :=
    Int.toNat_of_nonneg h0
  have e1 : ((token_class.height.toNat : Nat) : Int) = token_class.height :=
    Int.toNat_of_nonneg h1
  push_cast
  rw [e0, e1]
  ring

/-- A pass at an offset other than zero keeps the conservation law. -/
theorem conserved_pass {tokens : List token_data} {rule : rule} {A B N : token_data}
    (ctx : pass_context tokens rule A B N) (d d' : image_data) (hinv : image_inv tokens d)
    (hoff : rule.constellation.ancor_offset ≠ ⟨0, 0⟩)
    (happ : apply_rule_image rule N d = some d') (hc : conserved d) : conserved d' := by
  obtain ⟨d1, h1, _, h3, h4⟩ := conserve_cells ctx d hinv hoff
    (scan d.initial_token_class.width d.initial_token_class.height)
    (fun b hb => (mem_scan_iff_contains _ b).1 hb)
  unfold apply_rule_image at happ
  rw [h1] at happ
  cases happ
  unfold conserved merges_on image_data.max_token_id image_data.initial_token_class at hc ⊢
  rw [h3]
  omega

/-- The offset of a vote is not zero. -/
theorem vote_offset_ne_zero {tokens : List token_data} {d : image_data}
    (hinv : image_inv tokens d) (hshapes : ∀ i t, index tokens i = some t → shape_ok t)
    (c0 : tg.ipos2 × tg.ivec2) (hc0 : is_contact d c0) :
    (vote_of d c0).ancor_offset ≠ ⟨0, 0⟩ := by
  have hA := hinv.anchors hshapes
  obtain ⟨hx, hy, hne⟩ := hc0
  intro h0
  apply hne
  apply hA.inj _ _ hx hy
  have hDx : (vote_of d c0).ancor_offset.x
      = (anchor_of d (c0.1 + c0.2)).x - (anchor_of d c0.1).x := rfl
  have hDy : (vote_of d c0).ancor_offset.y
      = (anchor_of d (c0.1 + c0.2)).y - (anchor_of d c0.1).y := rfl
  rw [h0] at hDx hDy
  simp only at hDx hDy
  rw [tg.ipos2.ext_iff']
  omega

theorem scan_current_eq (d : image_data) (hg : grids_ok d) :
    scan d.current_token_class.width d.current_token_class.height
      = scan d.initial_token_class.width d.initial_token_class.height := by
  unfold img.image.width img.image.height image_data.initial_token_class
  rw [hg.class_ext]

/-- The token sequence of an image has one record per distinct id of the id grid. -/
theorem sequence_length (d : image_data) (hg : grids_ok d) (seq : List (Int × Int × Int))
    (h : token_sequence d = some seq) : seq.length = distinct_ids d := by
  obtain ⟨h1, _, h3⟩ := token_sequence_closed d seq h
  have hnodup : ((first_cells d).map (fun (p : tg.ipos2) => d.current_token_id.val p)).Nodup :=
    List.Nodup.map_on (fun p hp q hq hpq => first_cells_inj d p q hp hq hpq)
      ((scan_nodup _ _).filter _)
  have hperm : ((first_cells d).map (fun (p : tg.ipos2) => d.current_token_id.val p)).Perm
      (grid_ids d) := by
    unfold grid_ids
    rw [List.perm_ext_iff_of_nodup hnodup (List.nodup_dedup _)]
    intro i
    rw [h3 i, scan_current_eq d hg, List.mem_dedup, List.mem_map]
  have := hperm.length_eq
  rw [List.length_map] at this
  rw [h1, List.length_map, this]
  rfl

/-- A list splits into the classes of a key, one per element of a list of representatives
with pairwise distinct keys that cover the keys of the list. -/
theorem length_eq_sum_countP {α κ : Type} [DecidableEq κ] (key : α → κ) (l F : List α)
    (hF : (F.map key).Nodup) (hmem : ∀ k, k ∈ F.map key ↔ k ∈ l.map key) :
    l.length = (F.map fun f => l.countP (fun r => decide (key r = key f))).sum := by
  have hsum := List.sum_map_count_dedup_eq_length (l.map key)
  have hperm : (F.map key).Perm (l.map key).dedup := by
    rw [List.perm_ext_iff_of_nodup hF (List.nodup_dedup _)]
    intro k
    rw [hmem k, List.mem_dedup]
  have h2 := (hperm.map fun k => (l.map key).count k).sum_eq
  rw [hsum, List.length_map, List.map_map] at h2
  rw [← h2]
  congr 1
  apply List.map_congr_left
  intro f _
  show List.count (key f) (l.map key) = _
  rw [List.count_eq_countP, List.countP_map]
  apply List.countP_congr
  intro r _
  simp only [Function.comp, beq_iff_eq, decide_eq_true_eq]

/-- The cells of the grid that carry the id of a cell `f` are as many as the positions of
the shape of the class of `f`, when these are pairwise distinct. -/
theorem instance_cell_count {tokens : List token_data} {d : image_data}
    (hinv : image_inv tokens d) (hshapes : ∀ i t, index tokens i = some t → shape_ok t)
    (f : tg.ipos2) (hf : d.m_initial_token_class.contains f = true) (S : token_data)
    (hS : index tokens (d.current_token_class.val f) = some S) (hnodup : S.positions.Nodup) :
    (scan d.initial_token_class.width d.initial_token_class.height).countP
      (fun r => decide (d.current_token_id.val r = d.current_token_id.val f))
      = S.positions.length := by
  have hA := hinv.anchors hshapes
  obtain ⟨S', hS', _, hall⟩ := hinv.layout f hf
  rw [hS] at hS'
  cases hS'
  rw [List.countP_eq_length_filter,
    ← List.length_map S.positions (fun o => anchor_of d f + tg.ivec2.of_pos o)]
  apply List.Perm.length_eq
  have hinj : Function.Injective (fun (o : tg.ipos2) => anchor_of d f + tg.ivec2.of_pos o) := by
    intro a b hab
    have hx := congrArg tg.ipos2.x hab
    have hy := congrArg tg.ipos2.y hab
    simp only [tg.ipos2.add_x, tg.ipos2.add_y, tg.ivec2.of_pos_x, tg.ivec2.of_pos_y] at hx hy
    rw [tg.ipos2.ext_iff']
    omega
  rw [List.perm_ext_iff_of_nodup ((scan_nodup _ _).filter _) (hnodup.map hinj)]
  intro r
  rw [List.mem_filter, decide_eq_true_eq, List.mem_map]
  constructor
  · rintro ⟨hr, hid⟩
    have hrc : d.m_initial_token_class.contains r = true := (mem_scan_iff_contains _ r).1 hr
    obtain ⟨Sr, hSr, ⟨o, ho, e⟩, _⟩ := hinv.layout r hrc
    have hcls : d.current_token_class.val r = d.current_token_class.val f := by
      rw [← hA.same_class r hrc, ← hA.same_class f hf, anchor_of_congr d r f hid]
    rw [hcls, hS] at hSr
    cases hSr
    rw [anchor_of_congr d r f hid] at e
    exact ⟨o, ho, e⟩
  · rintro ⟨o, ho, rfl⟩
    exact ⟨(mem_scan_iff_contains _ _).2 (hall o ho).1, (hall o ho).2⟩

/-- The shapes of the classes of the records of a token sequence have as many positions
together as the grid has cells, when no shape repeats a position. -/
theorem sequence_sizes {tokens : List token_data} {d : image_data}
    (hinv : image_inv tokens d) (hshapes : ∀ i t, index tokens i = some t → shape_ok t)
    (hnodup : ∀ j N, index tokens j = some N → N.positions.Nodup)
    (seq : List (Int × Int × Int)) (h : token_sequence d = some seq) :
    ∃ sizes, shape_sizes tokens seq = some sizes ∧
      ((sizes.sum : Nat) : Int)
        = d.initial_token_class.width * d.initial_token_class.height := by
  obtain ⟨h1, _, h3⟩ := token_sequence_closed d seq h
  have hg := hinv.1
  have hfc : ∀ f ∈ first_cells d, d.m_initial_token_class.contains f = true := fun f hf => by
    have := ((mem_first_cells d f).1 hf).1
    rw [scan_current_eq d hg] at this
    exact (mem_scan_iff_contains _ f).1 this
  have hsize : ∀ f ∈ first_cells d,
      (index tokens (d.current_token_class.val f)).map (fun t => t.positions.length)
        = some ((scan d.initial_token_class.width d.initial_token_class.height).countP
          (fun r => decide (d.current_token_id.val r = d.current_token_id.val f))) := by
    intro f hf
    obtain ⟨S, hS, _⟩ := hinv.layout f (hfc f hf)
    rw [hS, Option.map_some', instance_cell_count hinv hshapes f (hfc f hf) S hS (hnodup _ _ hS)]
  refine ⟨(first_cells d).map fun f =>
    (scan d.initial_token_class.width d.initial_token_class.height).countP
      (fun r => decide (d.current_token_id.val r = d.current_token_id.val f)), ?_, ?_⟩
  · unfold shape_sizes
    apply mapM_of_forall₂
    rw [h1, List.forall₂_map_left_iff, List.forall₂_map_right_iff]
    exact List.forall₂_same.2 fun f hf => hsize f hf
  · have hFn : ((first_cells d).map (fun (p : tg.ipos2) => d.current_token_id.val p)).Nodup :=
      List.Nodup.map_on (fun p hp q hq hpq => first_cells_inj d p q hp hq hpq)
        ((scan_nodup _ _).filter _)
    have hlen := length_eq_sum_countP (fun (p : tg.ipos2) => d.current_token_id.val p)
      (scan d.initial_token_class.width d.initial_token_class.height) (first_cells d) hFn
      (fun k => by
        rw [h3 k, scan_current_eq d hg, List.mem_map])
    rw [← hlen, scan_length]
    obtain ⟨h0, h1', _⟩ := hg.init_wf
    have e0 : ((d.initial_token_class.width.toNat : Nat) : Int)
        = d.initial_token_class.width := Int.toNat_of_nonneg h0
    have e1 : ((d.initial_token_class.height.toNat : Nat) : Int)
        = d.initial_token_class.height := Int.toNat_of_nonneg h1'
    push_cast
    rw [e0, e1]

theorem conservation_init (token_max : Int) (files : List (String × Int × img.image Int))
    (hfiles : corpus_ok token_max files) (images : List image_data)
    (h : read_folder files = some images) :
    conservation token_max
      { rules := [], tokens := initial_tokens token_max, image_data := images } := by
  refine ⟨distinct_cells_init token_max files hfiles images h, fun d hd => ?_⟩
  obtain ⟨images', h1, h2⟩ := read_folder_inv token_max files hfiles
  rw [h] at h1
  cases h1
  obtain ⟨f, hf, hc⟩ := forall₂_mem_right h2 d hd
  exact hc.is_conserved (hfiles f hf).1

theorem conservation_step (order : map_iteration) (token_max : Int)
    (s s' : tokenizer_state) (hs : conservation token_max s)
    (hit : tokenize_iteration order s = some s') : conservation token_max s' := by
  refine ⟨distinct_cells_step order token_max s s' hs.cells hit, fun d' hd' => ?_⟩
  have hinv := hs.cells.inv
  obtain ⟨c, N, _, hstep, dref, hdref, cref, hcref, rfl⟩ := winner_is_vote order s s' hinv hit
  obtain ⟨A, B, ctx, _, _, _, himg⟩ := iteration_pass s hinv _ N hstep.combined
  obtain ⟨d, hd, happ⟩ := forall₂_mem_right (mapM_some _ _ _ hstep.applied) d' hd'
  exact conserved_pass ctx d d' (himg d hd)
    (vote_offset_ne_zero (hinv.images dref hdref) hinv.shapes cref
      (mem_voters dref cref hcref).2) happ (hs.images d hd)

/-- The winner of the counter that `combine_tokens` accepts has an offset other than zero. -/
theorem winner_offset_ne_zero (order : map_iteration) (s : tokenizer_state)
    (hs : state_inv s) (c : constellation) (N : token_data)
    (hc : get_most_common_constellation order s.image_data = some c)
    (hN : combine_tokens c s.tokens = some N) : c.ancor_offset ≠ ⟨0, 0⟩ := by
  obtain ⟨m, hm, hsome, hnone⟩ := tokenize_iteration_progress order s hs
  have hne : m ≠ [] := by
    intro hnil
    have hwin := get_most_common_constellation_eq order s.image_data m hm
    rw [hnil, (order.visit_perm []).eq_nil, hc] at hwin
    have hcd : c = (find_max []).1 := Option.some.inj hwin
    obtain ⟨A, _, hA, _⟩ := combine_tokens_some c s.tokens N hN
    have := (index_lt _ _ _ hA).1
    rw [hcd] at this
    exact absurd this (by decide)
  obtain ⟨s', hit⟩ := hsome hne
  obtain ⟨c', N', hc', _, dref, hdref, cref, hcref, hvote⟩ := winner_is_vote order s s' hs hit
  rw [hc] at hc'
  cases hc'
  rw [← hvote]
  exact vote_offset_ne_zero (hs.images dref hdref) hs.shapes cref (mem_voters dref cref hcref).2

/-- C38 (token conservation).  After a learning run on a corpus with all cells in
`[0, token_max]`, in every `W x H` image the number of distinct ids of the id grid and the
number of records of the token sequence are both `W * H` minus the number of merges
performed on the image, and the shape sizes of the classes of the records sum to `W * H`;
and at every cell visited by the pass of the next iteration, a merge (the match condition
holds) allocates one id and lowers the number of distinct ids of the id grid by exactly one,
while without a match the image is unchanged. -/
theorem token_conservation (order : map_iteration) (token_max tokens_to_create : Int)
    (image_size : tg.isize2) (files : List (String × Int × img.image Int))
    (s : tokenizer_state) (hfiles : corpus_ok token_max files)
    (hrun : tokenize order token_max tokens_to_create image_size files = some s) :
    (∀ d ∈ s.image_data,
      (distinct_ids d : Int)
        = d.initial_token_class.width * d.initial_token_class.height - merges_on d ∧
      ∃ seq sizes, token_sequence d = some seq ∧
        (seq.length : Int)
          = d.initial_token_class.width * d.initial_token_class.height - merges_on d ∧
        shape_sizes s.tokens seq = some sizes ∧
        ((sizes.sum : Nat) : Int)
          = d.initial_token_class.width * d.initial_token_class.height) ∧
    (∀ c N, get_most_common_constellation order s.image_data = some c →
      combine_tokens c s.tokens = some N →
      ∀ d ∈ s.image_data, ∀ pre p post,
        scan d.initial_token_class.width d.initial_token_class.height = pre ++ p :: post →
        ∃ d1 d2,
          pre.foldlM
            (apply_rule_at { constellation := c, new_token_id := (s.tokens.length : Int) } N) d
            = some d1 ∧
          apply_rule_at { constellation := c, new_token_id := (s.tokens.length : Int) } N d1 p
            = some d2 ∧
          (rule_matches { constellation := c, new_token_id := (s.tokens.length : Int) } d1 p →
            d2.max_token_id = d1.max_token_id + 1 ∧
            distinct_ids d2 + 1 = distinct_ids d1) ∧
          (¬ rule_matches { constellation := c, new_token_id := (s.tokens.length : Int) } d1 p →
            d2 = d1)) := by
  have h := tokenize_induction order token_max tokens_to_create image_size files
    (conservation token_max) (conservation_init token_max files hfiles)
    (conservation_step order token_max) s hrun
  have hs := h.cells.inv
  refine ⟨fun d hd => ?_, fun c N hc hN d hd pre p post hscan => ?_⟩
  · have hcons := h.images d hd
    unfold conserved at hcons
    obtain ⟨_, seq, hseq, _⟩ := token_sequence_spec s.tokens d (hs.images d hd) hs.shapes
    obtain ⟨sizes, hsizes, hsum⟩ :=
      sequence_sizes (hs.images d hd) hs.shapes h.cells.nodup seq hseq
    have hlen := sequence_length d (hs.images d hd).1 seq hseq
    refine ⟨by omega, seq, sizes, hseq, ?_, hsizes, hsum⟩
    rw [hlen]
    omega
  · have hoff := winner_offset_ne_zero order s hs c N hc hN
    obtain ⟨A, B, ctx, _, _, _, himg⟩ := iteration_pass s hs c N hN
    have hmem : ∀ b, b ∈ pre ++ p :: post → d.m_initial_token_class.contains b = true :=
      fun b hb => (mem_scan_iff_contains _ b).1 (hscan ▸ hb)
    obtain ⟨d1, h1, h2, h3, _⟩ := conserve_cells ctx d (himg d hd) hoff pre
      (fun b hb => hmem b (List.mem_append_left _ hb))
    have hp : d1.m_initial_token_class.contains p = true := by
      rw [h3]
      exact hmem p (List.mem_append_right _ (List.mem_cons_self _ _))
    obtain ⟨d2, g1, _, _, g4, g5⟩ := conserve_step ctx d1 h2 p hp hoff
    exact ⟨d1, d2, h1, g1, g4, g5⟩

theorem token_conservation_witness :
    corpus_ok 4 diagonal_files ∧
    ∃ s, tokenize insertion_order 4 1 ⟨2, 2⟩ diagonal_files = some s ∧
      (∀ d ∈ s.image_data,
        (distinct_ids d : Int)
          = d.initial_token_class.width * d.initial_token_class.height - merges_on d ∧
        ∃ seq sizes, token_sequence d = some seq ∧
          (seq.length : Int)
            = d.initial_token_class.width * d.initial_token_class.height - merges_on d ∧
          shape_sizes s.tokens seq = some sizes ∧
          ((sizes.sum : Nat) : Int)
            = d.initial_token_class.width * d.initial_token_class.height) ∧
      (∀ c N, get_most_common_constellation insertion_order s.image_data = some c →
        combine_tokens c s.tokens = some N →
        ∀ d ∈ s.image_data, ∀ pre p post,
          scan d.initial_token_class.width d.initial_token_class.height = pre ++ p :: post →
          ∃ d1 d2,
            pre.foldlM
              (apply_rule_at
                { constellation := c, new_token_id := (s.tokens.length : Int) } N) d
              = some d1 ∧
            apply_rule_at
              { constellation := c, new_token_id := (s.tokens.length : Int) } N d1 p
              = some d2 ∧
            (rule_matches
                { constellation := c, new_token_id := (s.tokens.length : Int) } d1 p →
              d2.max_token_id = d1.max_token_id + 1 ∧
              distinct_ids d2 + 1 = distinct_ids d1) ∧
            (¬ rule_matches
                { constellation := c, new_token_id := (s.tokens.length : Int) } d1 p →
              d2 = d1)) :=
  ⟨by decide, (tokenize insertion_order 4 1 ⟨2, 2⟩ diagonal_files).get (by decide), by simp,
    token_conservation insertion_order 4 1 ⟨2, 2⟩ diagonal_files _ (by decide) (by simp)⟩

end tp
